import Mathlib

/-!
# CNO exercises: the in-memory PE loader, LSB steganography, covert DNS channel

The first part embeds `self-loaders/SelfLoader`; the embeddings of
`LSB-Steganography` and `covert-communications` follow in namespaces of their own.

# SelfLoader: in-memory PE loader (`self-loaders/SelfLoader`)

Shallow embedding of `PEUtils.c` / `PELoader.c` for a 64-bit build (`_WIN64`).

Memory model
* A pointer is a natural number below `2^64`; `NULL` is `0`.
* `Mem` gives the byte stored at every address.  The file image (`const void*`,
  read only) and the loaded image (fresh `VirtualAlloc` region) are separate
  objects and are kept in two separate `Mem` values.
* `ADDR(base, rva)` is `uintptr_t` addition and wraps modulo `2^64`.
  Struct field access and array indexing are plain offset additions.
* Structure layouts and constants of `winnt.h` (Windows SDK, not part of the
  repository) are spelled out as byte offsets next to each definition.
* `fprintf` / `DBGPRINT` output is not modelled, with one exception: the `fprintf`
  of "Part 7d" in `processImportDescriptor` is passed a pointer that is not the
  address of a string of the image, and its read is part of `thunkLoop`.
-/

namespace SelfLoader

/-! ## Bytes, memory, little-endian access -/

abbrev Byte := Fin 256

abbrev Mem := Nat → Byte

/-- Little-endian 16-bit load. -/
def read16 (m : Mem) (a : Nat) : Nat :=
  (m a).val + 256 * (m (a + 1)).val

/-- Little-endian 32-bit load. -/
def read32 (m : Mem) (a : Nat) : Nat :=
  (m a).val + 256 * ((m (a + 1)).val + 256 * ((m (a + 2)).val + 256 * (m (a + 3)).val))

/-- Little-endian load of `n` bytes. -/
def readLE (m : Mem) (a : Nat) : Nat → Nat
  | 0 => 0
  | n + 1 => (m a).val + 256 * readLE m (a + 1) n

/-- Little-endian 64-bit load (`uintptr_t` on a 64-bit build). -/
def read64 (m : Mem) (a : Nat) : Nat := readLE m a 8

/-- The `i`-th byte of the little-endian representation of `v`. -/
def byteOf (v i : Nat) : Byte :=
  ⟨(v / 256 ^ i) % 256, Nat.mod_lt _ (by decide)⟩

/-- Little-endian 64-bit store: writes the 8 bytes `a .. a+7`. -/
def write64 (m : Mem) (a v : Nat) : Mem :=
  fun x => if a ≤ x ∧ x < a + 8 then byteOf v (x - a) else m x

/-- C `memcpy(dst + d, src + s, n)` between two distinct objects. -/
def memcpy (dst : Mem) (d : Nat) (src : Mem) (s n : Nat) : Mem :=
  fun x => if d ≤ x ∧ x < d + n then src (s + (x - d)) else dst x

/-- The all-zero region returned by `VirtualAlloc`. -/
def zeroMem : Mem := fun _ => 0

/-- Sparse memory given by an association list; every other byte is zero. -/
def memOfList (l : List (Nat × Nat)) : Mem :=
  fun a => match l.lookup a with
    | some b => ⟨b % 256, Nat.mod_lt _ (by decide)⟩
    | none => 0

/-- Byte list `bs` laid out from address `a` on. -/
def bytesAt (a : Nat) (bs : List Nat) : List (Nat × Nat) :=
  (List.range bs.length).zip bs |>.map (fun p => (a + p.1, p.2))

/-! ## Pointer arithmetic and constants -/

/-- The macro `ADDR(imageBase, rva)` of `PEUtils.h`:
`(void*)((uintptr_t)(imageBase) + (uintptr_t)(rva))`. -/
def ADDR (imageBase rva : Nat) : Nat := (imageBase + rva) % 2 ^ 64

/-- Conversion of a signed 32-bit `LONG` (given by its bit pattern) to
`uintptr_t`: sign extension to 64 bits. -/
def longToUintptr (x : Nat) : Nat :=
  if x < 2 ^ 31 then x else x + (2 ^ 64 - 2 ^ 32)

/-- The `IMAGE_DOS_SIGNATURE` constant: "MZ". -/
def IMAGE_DOS_SIGNATURE : Nat := 0x5A4D
/-- The `IMAGE_NT_SIGNATURE` constant: "PE\0\0". -/
def IMAGE_NT_SIGNATURE : Nat := 0x00004550
def IMAGE_FILE_MACHINE_AMD64 : Nat := 0x8664
def IMAGE_NT_OPTIONAL_HDR64_MAGIC : Nat := 0x20B
def IMAGE_DIRECTORY_ENTRY_BASERELOC : Nat := 5
def IMAGE_REL_BASED_ABSOLUTE : Nat := 0
def IMAGE_REL_BASED_DIR64 : Nat := 10

/-- Byte offset of `e_lfanew` in `IMAGE_DOS_HEADER` (`e_magic` is at 0). -/
def OFF_e_lfanew : Nat := 60
/-- Byte offset of `FileHeader.Machine` in `IMAGE_NT_HEADERS64` (`Signature` is at 0). -/
def OFF_Machine : Nat := 4
/-- Byte offset of `FileHeader.NumberOfSections`. -/
def OFF_NumberOfSections : Nat := 6
/-- Byte offset of `FileHeader.SizeOfOptionalHeader`. -/
def OFF_SizeOfOptionalHeader : Nat := 20
/-- Byte offset of `OptionalHeader` (and of its first field `Magic`). -/
def OFF_OptionalHeader : Nat := 24
/-- Byte offset of `OptionalHeader.ImageBase` (8 bytes). -/
def OFF_ImageBase : Nat := 48
/-- Byte offset of `OptionalHeader.SizeOfImage`. -/
def OFF_SizeOfImage : Nat := 80
/-- Byte offset of `OptionalHeader.SizeOfHeaders`. -/
def OFF_SizeOfHeaders : Nat := 84
/-- Byte offset of `OptionalHeader.DataDirectory[0]`; each entry is
`VirtualAddress` (4 bytes) followed by `Size` (4 bytes). -/
def OFF_DataDirectory : Nat := 136
/-- Value of `sizeof(IMAGE_NT_HEADERS64)`. -/
def SIZEOF_NT_HEADERS64 : Nat := 264
/-- Value of `sizeof(IMAGE_SECTION_HEADER)`; fields: `Misc.VirtualSize` at 8,
`VirtualAddress` at 12, `SizeOfRawData` at 16, `PointerToRawData` at 20. -/
def SIZEOF_SECTION_HEADER : Nat := 40
/-- Value of `sizeof(IMAGE_BASE_RELOCATION)`; fields: `VirtualAddress` at 0,
`SizeOfBlock` at 4. -/
def SIZEOF_BASE_RELOCATION : Nat := 8

/-! ## Memory access events -/

/-- One memory access made by the loader code. -/
inductive Event where
  /-- Read of `size` bytes of a DOS / NT header field at `addr`. -/
  | peRead (addr size : Nat)
  /-- Read of `relocEntry->VirtualAddress` of the relocation block at `block`. -/
  | readBlockVA (block : Nat)
  /-- Read of `relocEntry->SizeOfBlock` of the relocation block at `block`. -/
  | readBlockSize (block : Nat)
  /-- Read of the 16-bit fix-up entry `fixups[idx]` at `addr`. -/
  | entryRead (addr : Nat)
  /-- Read-modify-write `*entryAddr += locationDelta` of the 8 bytes at `addr`. -/
  | patch (addr : Nat)
  deriving DecidableEq, Repr

/-- First address touched by an access. -/
def Event.addr : Event → Nat
  | .peRead a _ => a
  | .readBlockVA b => b
  | .readBlockSize b => b + 4
  | .entryRead a => a
  | .patch a => a

/-- Number of bytes touched by an access. -/
def Event.size : Event → Nat
  | .peRead _ s => s
  | .readBlockVA _ => 4
  | .readBlockSize _ => 4
  | .entryRead _ => 2
  | .patch _ => 8

/-! ## PEUtils.c -/

/-- Source function `isValidDosImage`:
`(image != NULL) && (IMAGE_DOS_SIGNATURE == image->e_magic)`;
the second component lists the reads performed. -/
def isValidDosImage (m : Mem) (image : Nat) : Bool × List Event :=
  if image = 0 then (false, [])
  else (decide (IMAGE_DOS_SIGNATURE = read16 m image), [Event.peRead image 2])

/-- Source function `isValidNtImage64`, with the reads performed. -/
def isValidNtImage64 (m : Mem) (image : Nat) : Bool × List Event :=
  if image = 0 then (false, [])
  else if read32 m image ≠ IMAGE_NT_SIGNATURE then
    (false, [Event.peRead image 4])
  else if read16 m (image + OFF_Machine) ≠ IMAGE_FILE_MACHINE_AMD64 then
    (false, [Event.peRead image 4, Event.peRead (image + OFF_Machine) 2])
  else if read16 m (image + OFF_OptionalHeader) ≠ IMAGE_NT_OPTIONAL_HDR64_MAGIC then
    (false, [Event.peRead image 4, Event.peRead (image + OFF_Machine) 2,
             Event.peRead (image + OFF_OptionalHeader) 2])
  else
    (true, [Event.peRead image 4, Event.peRead (image + OFF_Machine) 2,
            Event.peRead (image + OFF_OptionalHeader) 2])

/-- The field `dosHdr->e_lfanew` (a `LONG`) converted to `uintptr_t`. -/
def e_lfanew (m : Mem) (image : Nat) : Nat :=
  longToUintptr (read32 m (image + OFF_e_lfanew))

/-- Source function `getPEHeader` together with the reads it performs:
`none` is the `NULL` result, `some p` the validated header pointer. -/
def getPEHeaderTr (m : Mem) (image : Nat) : Option Nat × List Event :=
  let dos := isValidDosImage m image
  if dos.1 = false then (none, dos.2)
  else
    let peHdr := ADDR image (e_lfanew m image)
    let nt := isValidNtImage64 m peHdr
    let tr := dos.2 ++ [Event.peRead (image + OFF_e_lfanew) 4] ++ nt.2
    if nt.1 = false then (none, tr) else (some peHdr, tr)

/-- Source function `getPEHeader`: the returned pointer only. -/
def getPEHeader (m : Mem) (image : Nat) : Option Nat :=
  (getPEHeaderTr m image).1

/-! ## PELoader.c: buildMemoryImage -/

/-- The `winnt.h` macro `IMAGE_FIRST_SECTION(ntheader)`:
`(ULONG_PTR)(ntheader) + FIELD_OFFSET(IMAGE_NT_HEADERS, OptionalHeader)
 + ntheader->FileHeader.SizeOfOptionalHeader`. -/
def IMAGE_FIRST_SECTION (m : Mem) (peHdr : Nat) : Nat :=
  (peHdr + OFF_OptionalHeader + read16 m (peHdr + OFF_SizeOfOptionalHeader)) % 2 ^ 64

/-- Field `Misc.VirtualSize` of the section header at `sh`. -/
def secVirtualSize (file : Mem) (sh : Nat) : Nat := read32 file (sh + 8)
/-- Field `VirtualAddress` of the section header at `sh`. -/
def secVirtualAddress (file : Mem) (sh : Nat) : Nat := read32 file (sh + 12)
/-- Field `SizeOfRawData` of the section header at `sh`. -/
def secSizeOfRawData (file : Mem) (sh : Nat) : Nat := read32 file (sh + 16)
/-- Field `PointerToRawData` of the section header at `sh`. -/
def secPointerToRawData (file : Mem) (sh : Nat) : Nat := read32 file (sh + 20)

/-- Body of the section loop of `buildMemoryImage` ("Part 5b") for the section
header located at `sh` in the file image. -/
def mapSection (file : Mem) (fileImage imageBase : Nat) (img : Mem) (sh : Nat) : Mem :=
  if secSizeOfRawData file sh = 0 then
    img
  else if secVirtualSize file sh > secSizeOfRawData file sh then
    memcpy img (ADDR imageBase (secVirtualAddress file sh))
      file (ADDR fileImage (secPointerToRawData file sh)) (secSizeOfRawData file sh)
  else
    memcpy img (ADDR imageBase (secVirtualAddress file sh))
      file (ADDR fileImage (secPointerToRawData file sh)) (secVirtualSize file sh)

/-- The loop `for (idx = 0; idx < NumberOfSections; idx++, SectionHeader++)`:
`remaining` iterations are left and `sh` is the current `SectionHeader`. -/
def sectionLoop (file : Mem) (fileImage imageBase : Nat) : Nat → Nat → Mem → Mem
  | 0, _, img => img
  | remaining + 1, sh, img =>
    sectionLoop file fileImage imageBase remaining (sh + SIZEOF_SECTION_HEADER)
      (mapSection file fileImage imageBase img sh)

/-- Source function `buildMemoryImage(fileImage, imageBase)`: `file` is the memory
holding the file image, `img` the memory holding the allocated region.  Returns the
success flag and the region after the call. -/
def buildMemoryImage (file : Mem) (fileImage : Nat) (img : Mem) (imageBase : Nat) :
    Bool × Mem :=
  match getPEHeader file fileImage with
  | none => (false, img)
  | some peHdr =>
    let img1 := memcpy img imageBase file fileImage (read32 file (peHdr + OFF_SizeOfHeaders))
    (true, sectionLoop file fileImage imageBase
      (read16 file (peHdr + OFF_NumberOfSections)) (IMAGE_FIRST_SECTION file peHdr) img1)

/-! ## PELoader.c: performRelocations -/

/-- The macro `IMAGE_REL_BASED_TYPE(reloc)`: `((uint16_t)(reloc) >> 12)`. -/
def IMAGE_REL_BASED_TYPE (reloc : Nat) : Nat := (reloc % 2 ^ 16) >>> 12

/-- The macro `IMAGE_REL_BASED_OFFSET(reloc)`: `((uint16_t)(reloc) & 0x0FFF)`. -/
def IMAGE_REL_BASED_OFFSET (reloc : Nat) : Nat := (reloc % 2 ^ 16) &&& 0x0FFF

/-- The macro `IMAGE_REL_BASED_COUNT(relocs)` applied to the value of
`relocs->SizeOfBlock`:
`(unsigned)((SizeOfBlock - sizeof(IMAGE_BASE_RELOCATION)) / sizeof(uint16_t))`;
the subtraction is done in `size_t` (64 bits), the cast truncates to 32 bits. -/
def IMAGE_REL_BASED_COUNT (sizeOfBlock : Nat) : Nat :=
  (((sizeOfBlock + 2 ^ 64 - SIZEOF_BASE_RELOCATION) % 2 ^ 64) / 2) % 2 ^ 32

/-- The macro `IMAGE_REL_BASED_ENTRIES(relocs)`:
`(uint16_t*)ADDR(relocs, sizeof(IMAGE_BASE_RELOCATION))`. -/
def IMAGE_REL_BASED_ENTRIES (relocs : Nat) : Nat := ADDR relocs SIZEOF_BASE_RELOCATION

/-- The loaded image memory together with the accesses made so far. -/
structure Machine where
  mem : Mem
  trace : List Event

/-- Record one access. -/
def Machine.log (s : Machine) (e : Event) : Machine :=
  { s with trace := s.trace ++ [e] }

/-- The `switch (IMAGE_REL_BASED_TYPE(entry))` of `performRelocations`. -/
def applyFixup (regionBase locationDelta : Nat) (s : Machine) (entry : Nat) : Machine :=
  if IMAGE_REL_BASED_TYPE entry = IMAGE_REL_BASED_DIR64 then
    -- uintptr_t* entryAddr = ADDR(regionBase, IMAGE_REL_BASED_OFFSET(entry));
    -- *entryAddr += locationDelta;
    let entryAddr := ADDR regionBase (IMAGE_REL_BASED_OFFSET entry)
    { mem := write64 s.mem entryAddr ((read64 s.mem entryAddr + locationDelta) % 2 ^ 64)
      trace := s.trace ++ [Event.patch entryAddr] }
  else if IMAGE_REL_BASED_TYPE entry = IMAGE_REL_BASED_ABSOLUTE then
    s
  else
    -- default: fprintf(stderr, ...); break;
    s

/-- The loop `for (idx = 0; idx < fixupCount; idx++)`: `remaining` is
`fixupCount - idx`, and `fixups[idx]` is re-read from memory at each iteration. -/
def fixupLoop (regionBase locationDelta fixups : Nat) : Nat → Nat → Machine → Machine
  | 0, _, s => s
  | remaining + 1, idx, s =>
    let entry := read16 s.mem (fixups + 2 * idx)
    fixupLoop regionBase locationDelta fixups remaining (idx + 1)
      (applyFixup regionBase locationDelta (s.log (Event.entryRead (fixups + 2 * idx))) entry)

/-- Body of the `while` loop of `performRelocations` for the block at `relocEntry`
("Part 6c" to "Part 6d"): the state after all fix-ups of that block. -/
def processBlock (imageBase locationDelta relocEntry : Nat) (s : Machine) : Machine :=
  let regionBase := ADDR imageBase (read32 s.mem relocEntry)
  let fixupCount := IMAGE_REL_BASED_COUNT (read32 s.mem (relocEntry + 4))
  let fixups := IMAGE_REL_BASED_ENTRIES relocEntry
  fixupLoop regionBase locationDelta fixups fixupCount 0
    ((s.log (Event.readBlockVA relocEntry)).log (Event.readBlockSize relocEntry))

/-- The `while` loop of `performRelocations`.  `fuel` bounds the number of
iterations; `none` means the bound was reached before the loop ended. -/
def relocLoop (imageBase locationDelta endRelocations : Nat) :
    Nat → Nat → Machine → Option Machine
  | 0, _, _ => none
  | fuel + 1, relocEntry, s =>
    if ¬ (ADDR relocEntry SIZEOF_BASE_RELOCATION < endRelocations) then
      some s
    else if read32 s.mem (relocEntry + 4) = 0 then
      some (s.log (Event.readBlockSize relocEntry))
    else if ¬ (ADDR relocEntry (read32 s.mem (relocEntry + 4)) ≤ endRelocations) then
      some ((s.log (Event.readBlockSize relocEntry)).log (Event.readBlockSize relocEntry))
    else
      let s1 := (s.log (Event.readBlockSize relocEntry)).log (Event.readBlockSize relocEntry)
      let s2 := processBlock imageBase locationDelta relocEntry s1
      -- relocEntry = (uint8_t*)relocEntry + relocEntry->SizeOfBlock;
      let next := (relocEntry + read32 s2.mem (relocEntry + 4)) % 2 ^ 64
      relocLoop imageBase locationDelta endRelocations fuel next
        (s2.log (Event.readBlockSize relocEntry))

/-- Result of `performRelocations`: the returned flag, the image memory after the
call, and the accesses made. -/
structure RelocResult where
  ok : Bool
  mem : Mem
  trace : List Event

/-- The value `(intptr_t)imageBase - (intptr_t)ImageBase`, as a 64-bit
two-complement bit pattern. -/
def locationDeltaOf (imageBase preferred : Nat) : Nat :=
  (imageBase + 2 ^ 64 - preferred % 2 ^ 64) % 2 ^ 64

/-- Address of `OptionalHeader.DataDirectory[idx].VirtualAddress`. -/
def dirEntryAddr (peHdr idx : Nat) : Nat := peHdr + OFF_DataDirectory + 8 * idx

/-- Source function `performRelocations(imageBase)` on the memory `m`.
`none` only when the block loop needs more than `fuel` iterations. -/
def performRelocations (fuel : Nat) (m : Mem) (imageBase : Nat) : Option RelocResult :=
  let pe := getPEHeaderTr m imageBase
  match pe.1 with
  | none => some { ok := false, mem := m, trace := pe.2 }
  | some peHdr =>
    let locationDelta := locationDeltaOf imageBase (read64 m (peHdr + OFF_ImageBase))
    let t0 := pe.2 ++ [Event.peRead (peHdr + OFF_ImageBase) 8]
    if locationDelta = 0 then
      some { ok := true, mem := m, trace := t0 }
    else
      let relocationsVirtualAddress :=
        read32 m (dirEntryAddr peHdr IMAGE_DIRECTORY_ENTRY_BASERELOC)
      let relocationsSize :=
        read32 m (dirEntryAddr peHdr IMAGE_DIRECTORY_ENTRY_BASERELOC + 4)
      let t1 := t0 ++ [Event.peRead (dirEntryAddr peHdr IMAGE_DIRECTORY_ENTRY_BASERELOC) 4,
                       Event.peRead (dirEntryAddr peHdr IMAGE_DIRECTORY_ENTRY_BASERELOC + 4) 4]
      if relocationsSize = 0 then
        some { ok := true, mem := m, trace := t1 }
      else
        let relocEntry := ADDR imageBase relocationsVirtualAddress
        -- the sum is computed in `unsigned` (32 bits) before the conversion
        let endRelocations :=
          ADDR imageBase ((relocationsVirtualAddress + relocationsSize) % 2 ^ 32)
        match relocLoop imageBase locationDelta endRelocations fuel relocEntry
            { mem := m, trace := t1 } with
        | none => none
        | some s => some { ok := true, mem := s.mem, trace := s.trace }

/-! ## The operating system seen by the loader -/

/-- Stages of `InMemoryLoader`, in source order. -/
inductive Stage where
  | validate | allocate | build | relocate | link | tls
  deriving DecidableEq, Repr

/-- Observable actions of the loader: calls to the operating system, writes to the
Import Address Table, calls into loaded code, and the return of each loader stage. -/
inductive OsEvent where
  /-- Call `VirtualAlloc(lpAddress, dwSize, ...)` and its result. -/
  | virtualAlloc (lpAddress dwSize result : Nat)
  /-- Call `VirtualFree(lpAddress, 0, MEM_RELEASE)`. -/
  | virtualFree (lpAddress : Nat)
  /-- Call `LoadLibraryA(moduleName)` and its result. -/
  | loadLibrary (moduleName result : Nat)
  /-- Call `FreeLibrary(hModule)`. -/
  | freeLibrary (hModule : Nat)
  /-- Call `GetProcAddress(hModule, (char*)ordinal)` of "Part 7c" and its result. -/
  | procByOrdinal (hModule ordinal result : Nat)
  /-- Call `GetProcAddress(hModule, symbolName)` of "Part 7d" and its result. -/
  | procByName (hModule symbolName result : Nat)
  /-- The store `*IAT = symbolAddress`. -/
  | iatWrite (addr value : Nat)
  /-- The call `(*callbackList)(imageBase, reason, NULL)` of the function pointer
  `fn` read from the slot `slot` of the callback array. -/
  | tlsCallback (slot fn imageBase reason : Nat)
  /-- Call `MapFullFile(path, GENERIC_READ, &imageSize)` and the returned pointer. -/
  | mapFullFile (path : String) (result : Nat)
  /-- Call `UnmapViewOfFile(fileImage)`. -/
  | unmapViewOfFile (fileImage : Nat)
  /-- Entry into `InMemoryLoader(fileImage, imageSize)`. -/
  | inMemoryLoader (fileImage imageSize : Nat)
  /-- Call of the module entry point `dllMain(hModule, fdwReason, NULL)` and its result. -/
  | dllMain (entry hModule reason : Nat) (result : Bool)
  /-- A stage of `InMemoryLoader` returned with the given success flag. -/
  | stageDone (stage : Stage) (ok : Bool)
  deriving DecidableEq, Repr

/-- The Win32 functions and the external code the loader calls.  Each takes the
actions performed so far, so that an answer may depend on earlier calls. -/
structure Win32 where
  /-- Result of `VirtualAlloc(lpAddress, dwSize, MEM_RESERVE | MEM_COMMIT, ...)`. -/
  VirtualAlloc : List OsEvent → Nat → Nat → Nat
  /-- Result of `LoadLibraryA(moduleName)`, the name being read from the image. -/
  LoadLibraryA : List OsEvent → Mem → Nat → Nat
  /-- Result of `GetProcAddress(hModule, lpProcName)`. -/
  GetProcAddress : List OsEvent → Mem → Nat → Nat → Nat
  /-- Image memory after the code at `fn` ran as `fn(imageBase, reason, NULL)`. -/
  runCallback : List OsEvent → Mem → Nat → Nat → Nat → Mem
  /-- Result flag of `dllMain(hModule, reason, NULL)` run at `entry`, and the image
  memory after the call. -/
  runDllMain : List OsEvent → Mem → Nat → Nat → Nat → Bool × Mem
  /-- Result of `MapFullFile(path, GENERIC_READ, &size)`: the view pointer (0 on
  failure), the size, and the memory holding the mapped file. -/
  MapFullFile : List OsEvent → String → Nat × Nat × Mem
  /-- Whether the process can read a NUL-terminated string at the given address, as
  `fprintf` does for a `%s` argument; `false` stands for an access violation. -/
  readableString : Nat → Bool

/-- The loaded image memory and the actions performed so far. -/
structure LoadState where
  mem : Mem
  os : List OsEvent

/-- Record one action. -/
def LoadState.log (s : LoadState) (e : OsEvent) : LoadState :=
  { s with os := s.os ++ [e] }

def IMAGE_DIRECTORY_ENTRY_IMPORT : Nat := 1
def IMAGE_DIRECTORY_ENTRY_TLS : Nat := 9
def DLL_PROCESS_ATTACH : Nat := 1
def DLL_PROCESS_DETACH : Nat := 0
/-- The `winnt.h` constant `IMAGE_ORDINAL_FLAG64`. -/
def IMAGE_ORDINAL_FLAG64 : Nat := 0x8000000000000000

/-- The `winnt.h` macro `IMAGE_SNAP_BY_ORDINAL64(Ordinal)`:
`((Ordinal & IMAGE_ORDINAL_FLAG64) != 0)`. -/
def IMAGE_SNAP_BY_ORDINAL (ordinal : Nat) : Bool :=
  decide (ordinal &&& IMAGE_ORDINAL_FLAG64 ≠ 0)

/-- The `winnt.h` macro `IMAGE_ORDINAL64(Ordinal)`: `(Ordinal & 0xffff)`. -/
def IMAGE_ORDINAL (ordinal : Nat) : Nat := ordinal &&& 0xffff

/-- Byte offset of `Name` in `IMAGE_IMPORT_DESCRIPTOR` (`OriginalFirstThunk` is at 0). -/
def OFF_ImportName : Nat := 12
/-- Byte offset of `FirstThunk` in `IMAGE_IMPORT_DESCRIPTOR`. -/
def OFF_FirstThunk : Nat := 16
/-- Value of `sizeof(IMAGE_IMPORT_DESCRIPTOR)`. -/
def SIZEOF_IMPORT_DESCRIPTOR : Nat := 20
/-- Byte offset of `Name` in `IMAGE_IMPORT_BY_NAME` (`Hint`, a `WORD`, is at 0). -/
def OFF_ImportByName_Name : Nat := 2
/-- Byte offset of `AddressOfCallBacks` in `IMAGE_TLS_DIRECTORY64`. -/
def OFF_AddressOfCallBacks : Nat := 24
/-- Byte offset of `OptionalHeader.AddressOfEntryPoint` in `IMAGE_NT_HEADERS64`. -/
def OFF_AddressOfEntryPoint : Nat := 40

/-! ## PELoader.c: processImportDescriptor and linkImports -/

/-- The loop `while (*ILT)` of `processImportDescriptor`.  `fuel` bounds the number
of iterations; `none` means that the call does not return: the bound was reached
before the loop ended, or the `fprintf` of "Part 7d" faulted.  That `fprintf` runs
when a lookup by name fails, and prints with `%s` the argument `(char *) *ILT`: it
reads a string at the address whose value is the lookup table entry itself. -/
def thunkLoop (w : Win32) (imageBase hModule : Nat) :
    Nat → Nat → Nat → LoadState → Option (Bool × LoadState)
  | 0, _, _, _ => none
  | fuel + 1, ILT, IAT, s =>
    if read64 s.mem ILT = 0 then
      some (true, s)
    else if IMAGE_SNAP_BY_ORDINAL (read64 s.mem ILT) = true then
      -- symbolAddress = (uintptr_t) GetProcAddress(hModule, (char*) IMAGE_ORDINAL(*ILT));
      let symbolAddress :=
        w.GetProcAddress s.os s.mem hModule (IMAGE_ORDINAL (read64 s.mem ILT)) % 2 ^ 64
      let s1 := s.log (OsEvent.procByOrdinal hModule (IMAGE_ORDINAL (read64 s.mem ILT))
        symbolAddress)
      if symbolAddress = 0 then
        some (false, s1)
      else
        thunkLoop w imageBase hModule fuel (ILT + 8) (IAT + 8)
          { mem := write64 s1.mem IAT symbolAddress
            os := s1.os ++ [OsEvent.iatWrite IAT symbolAddress] }
    else
      -- symbolName = ((PIMAGE_IMPORT_BY_NAME) ADDR(imageBase, (*ILT)))->Name;
      let symbolName := ADDR imageBase (read64 s.mem ILT) + OFF_ImportByName_Name
      let symbolAddress := w.GetProcAddress s.os s.mem hModule symbolName % 2 ^ 64
      let s1 := s.log (OsEvent.procByName hModule symbolName symbolAddress)
      if symbolAddress = 0 then
        -- fprintf(stderr, "... \"%s\" ...", (char *) *ILT, GetLastError()); return false;
        if w.readableString (read64 s.mem ILT) = true then some (false, s1) else none
      else
        thunkLoop w imageBase hModule fuel (ILT + 8) (IAT + 8)
          { mem := write64 s1.mem IAT symbolAddress
            os := s1.os ++ [OsEvent.iatWrite IAT symbolAddress] }

/-- The `ILT` pointer of `processImportDescriptor` after "Part 7b". -/
def iltOf (m : Mem) (imageBase importDesc : Nat) : Nat :=
  if read32 m importDesc = 0 then ADDR imageBase (read32 m (importDesc + OFF_FirstThunk))
  else ADDR imageBase (read32 m importDesc)

/-- The `IAT` pointer of `processImportDescriptor`. -/
def iatOf (m : Mem) (imageBase importDesc : Nat) : Nat :=
  ADDR imageBase (read32 m (importDesc + OFF_FirstThunk))

/-- Source function `processImportDescriptor(imageBase, hModule, importDesc)`;
`none` as for `thunkLoop`. -/
def processImportDescriptor (w : Win32) (fuel imageBase hModule importDesc : Nat)
    (s : LoadState) : Option (Bool × LoadState) :=
  thunkLoop w imageBase hModule fuel (iltOf s.mem imageBase importDesc)
    (iatOf s.mem imageBase importDesc) s

/-- The loop `while (importDesc->Name)` of `linkImports`.  `fuel` bounds the number
of iterations of this loop, `inner` those of each descriptor's thunk loop; `none`
means that the call does not return (a bound was reached, or `processImportDescriptor`
faulted). -/
def descLoop (w : Win32) (inner imageBase : Nat) :
    Nat → Nat → LoadState → Option (Bool × LoadState)
  | 0, _, _ => none
  | fuel + 1, importDesc, s =>
    if read32 s.mem (importDesc + OFF_ImportName) = 0 then
      some (true, s)
    else
      let moduleName := ADDR imageBase (read32 s.mem (importDesc + OFF_ImportName))
      let hModule := w.LoadLibraryA s.os s.mem moduleName % 2 ^ 64
      let s1 := s.log (OsEvent.loadLibrary moduleName hModule)
      if hModule = 0 then
        some (false, s1)
      else
        match processImportDescriptor w inner imageBase hModule importDesc s1 with
        | none => none
        | some (false, s2) => some (false, s2.log (OsEvent.freeLibrary hModule))
        | some (true, s2) =>
          descLoop w inner imageBase fuel (importDesc + SIZEOF_IMPORT_DESCRIPTOR) s2

/-- Source function `linkImports(imageBase)`.  `none` only when a loop needs more
than `fuel` iterations or `processImportDescriptor` faults. -/
def linkImports (w : Win32) (fuel imageBase : Nat) (s : LoadState) :
    Option (Bool × LoadState) :=
  match getPEHeader s.mem imageBase with
  | none => some (false, s)
  | some peHdr =>
    let importsVirtualAddress := read32 s.mem (dirEntryAddr peHdr IMAGE_DIRECTORY_ENTRY_IMPORT)
    let importsSize := read32 s.mem (dirEntryAddr peHdr IMAGE_DIRECTORY_ENTRY_IMPORT + 4)
    if importsSize = 0 then
      some (true, s)
    else
      descLoop w fuel imageBase fuel (ADDR imageBase importsVirtualAddress) s

/-! ## PELoader.c: callTLSCallbacks -/

/-- The loop `while (callbackList) { (*callbackList)(imageBase, DLL_PROCESS_ATTACH,
NULL); callbackList++; }`.  The first component is `none` when the bound `fuel` was
reached before the loop ended; the state reached is returned in every case. -/
def tlsLoop (w : Win32) (imageBase : Nat) : Nat → Nat → LoadState → Option Bool × LoadState
  | 0, _, s => (none, s)
  | fuel + 1, callbackList, s =>
    if callbackList = 0 then
      (some true, s)
    else
      let fn := read64 s.mem callbackList
      tlsLoop w imageBase fuel (callbackList + 8)
        { mem := w.runCallback s.os s.mem fn imageBase DLL_PROCESS_ATTACH
          os := s.os ++ [OsEvent.tlsCallback callbackList fn imageBase DLL_PROCESS_ATTACH] }

/-- Source function `callTLSCallbacks(imageBase)`. -/
def callTLSCallbacks (w : Win32) (fuel imageBase : Nat) (s : LoadState) :
    Option Bool × LoadState :=
  match getPEHeader s.mem imageBase with
  | none => (some false, s)
  | some peHdr =>
    let tlsVirtualAddress := read32 s.mem (dirEntryAddr peHdr IMAGE_DIRECTORY_ENTRY_TLS)
    let tlsSize := read32 s.mem (dirEntryAddr peHdr IMAGE_DIRECTORY_ENTRY_TLS + 4)
    if tlsSize = 0 then
      (some true, s)
    else
      let tlsDirectory := ADDR imageBase tlsVirtualAddress
      if read64 s.mem (tlsDirectory + OFF_AddressOfCallBacks) = 0 then
        (some true, s)
      else
        tlsLoop w imageBase fuel (read64 s.mem (tlsDirectory + OFF_AddressOfCallBacks)) s

/-! ## PELoader.c: InMemoryLoader and LoadDllFromFile -/

/-- What a loader entry point returns: the module handle (0 for `NULL`), the memory
of the allocated region, and the actions performed. -/
structure LoadResult where
  handle : Nat
  mem : Mem
  os : List OsEvent

/-- The `cleanup:` part of `InMemoryLoader`:
`if (!successful && loadedModule) { VirtualFree(loadedModule, 0, MEM_RELEASE);
loadedModule = NULL; } return (HMODULE)loadedModule;`. -/
def cleanup (successful : Bool) (loadedModule : Nat) (s : LoadState) : LoadResult :=
  if successful = false ∧ loadedModule ≠ 0 then
    { handle := 0, mem := s.mem, os := s.os ++ [OsEvent.virtualFree loadedModule] }
  else
    { handle := loadedModule, mem := s.mem, os := s.os }

/-- "Part 3" of `InMemoryLoader`: `VirtualAlloc` at the preferred `ImageBase`, and at
an arbitrary address when that fails.  Returns `loadedModule` and the actions. -/
def allocateImage (w : Win32) (file : Mem) (peHdr : Nat) (os : List OsEvent) :
    Nat × List OsEvent :=
  let imageBase := read64 file (peHdr + OFF_ImageBase)
  let sizeOfImage := read32 file (peHdr + OFF_SizeOfImage)
  let first := w.VirtualAlloc os imageBase sizeOfImage % 2 ^ 64
  let os1 := os ++ [OsEvent.virtualAlloc imageBase sizeOfImage first]
  if first = 0 then
    let second := w.VirtualAlloc os1 0 sizeOfImage % 2 ^ 64
    (second, os1 ++ [OsEvent.virtualAlloc 0 sizeOfImage second])
  else
    (first, os1)

/-- The stages of `InMemoryLoader` after a successful `buildMemoryImage`:
`performRelocations`, `linkImports`, `callTLSCallbacks`, then `cleanup`. -/
def finishLoad (w : Win32) (fuel loadedModule : Nat) (img : Mem) (os : List OsEvent) :
    Option LoadResult :=
  match performRelocations fuel img loadedModule with
  | none => none
  | some r =>
    if r.ok = false then
      some (cleanup false loadedModule
        { mem := r.mem, os := os ++ [OsEvent.stageDone Stage.relocate false] })
    else
      match linkImports w fuel loadedModule
          { mem := r.mem, os := os ++ [OsEvent.stageDone Stage.relocate true] } with
      | none => none
      | some (false, s) =>
        some (cleanup false loadedModule (s.log (OsEvent.stageDone Stage.link false)))
      | some (true, s) =>
        match callTLSCallbacks w fuel loadedModule (s.log (OsEvent.stageDone Stage.link true)) with
        | (none, _) => none
        | (some false, s') =>
          some (cleanup false loadedModule (s'.log (OsEvent.stageDone Stage.tls false)))
        | (some true, s') =>
          some (cleanup true loadedModule (s'.log (OsEvent.stageDone Stage.tls true)))

/-- Source function `InMemoryLoader(fileImage, imageSize)`: `file` is the memory
holding the file image, `os` the actions performed before the call.  The allocated
region starts zero-filled.  `none` only when a later stage does not return: one of
its loops needs more than `fuel` iterations, or `processImportDescriptor` faults. -/
def InMemoryLoader (w : Win32) (fuel : Nat) (file : Mem) (fileImage imageSize : Nat)
    (os : List OsEvent) : Option LoadResult :=
  let os1 := os ++ [OsEvent.inMemoryLoader fileImage imageSize]
  match getPEHeader file fileImage with
  | none =>
    some { handle := 0, mem := zeroMem, os := os1 ++ [OsEvent.stageDone Stage.validate false] }
  | some peHdr =>
    let a := allocateImage w file peHdr (os1 ++ [OsEvent.stageDone Stage.validate true])
    if a.1 = 0 then
      some (cleanup false a.1
        { mem := zeroMem, os := a.2 ++ [OsEvent.stageDone Stage.allocate false] })
    else
      let built := buildMemoryImage file fileImage zeroMem a.1
      if built.1 = false then
        some (cleanup false a.1
          { mem := built.2, os := a.2 ++ [OsEvent.stageDone Stage.allocate true,
              OsEvent.stageDone Stage.build false] })
      else
        finishLoad w fuel a.1 built.2
          (a.2 ++ [OsEvent.stageDone Stage.allocate true, OsEvent.stageDone Stage.build true])

/-- Source function `LoadDllFromFile(dllPath)`; `MapFullFile` is the file-mapping
collaborator. -/
def LoadDllFromFile (w : Win32) (fuel : Nat) (dllPath : String) (os : List OsEvent) :
    Option LoadResult :=
  let mapped := w.MapFullFile os dllPath
  let fileImage := mapped.1 % 2 ^ 64
  let os1 := os ++ [OsEvent.mapFullFile dllPath fileImage]
  if fileImage = 0 then
    some { handle := 0, mem := zeroMem, os := os1 }
  else
    match InMemoryLoader w fuel mapped.2.2 fileImage mapped.2.1 os1 with
    | none => none
    | some r =>
      if fileImage ≠ 0 then
        some { r with os := r.os ++ [OsEvent.unmapViewOfFile fileImage] }
      else
        some r

/-! ## PEUtils.c and main.c: the demonstration harness -/

/-- Source function `getModuleEntryPoint(hModule)`: 0 stands for `NULL`. -/
def getModuleEntryPoint (m : Mem) (hModule : Nat) : Nat :=
  match getPEHeader m hModule with
  | none => 0
  | some peHdr => ADDR hModule (read32 m (peHdr + OFF_AddressOfEntryPoint))

/-- Source function `callDllMain(hModule, fdwReason)`. -/
def callDllMain (w : Win32) (hModule fdwReason : Nat) (s : LoadState) : Bool × LoadState :=
  let dllMain := getModuleEntryPoint s.mem hModule
  if dllMain = 0 then
    (false, s)
  else
    let r := w.runDllMain s.os s.mem dllMain hModule fdwReason
    (r.1, { mem := r.2, os := s.os ++ [OsEvent.dllMain dllMain hModule fdwReason r.1] })

/-- The constant `TEST_PAYLOAD` of `main.c`. -/
def TEST_PAYLOAD : String := "DllPayload.dll"

/-- The `ReturnCode` value `SUCCESS`. -/
def SUCCESS : Nat := 0
/-- The `ReturnCode` value `FAIL`. -/
def FAIL : Nat := 1

/-- Source function `main(argc, argv)` of `main.c`: returns the exit code and the
actions performed; `argc` and `argv` are cast to `void` and not used. -/
def main (w : Win32) (fuel : Nat) (_argc : Nat) (_argv : List String) :
    Option (Nat × List OsEvent) :=
  match LoadDllFromFile w fuel TEST_PAYLOAD [] with
  | none => none
  | some r =>
    if r.handle = 0 then
      some (FAIL, r.os)
    else
      let a := callDllMain w r.handle DLL_PROCESS_ATTACH { mem := r.mem, os := r.os }
      if a.1 = false then
        some (FAIL, a.2.os ++ [OsEvent.virtualFree r.handle])
      else
        let d := callDllMain w r.handle DLL_PROCESS_DETACH a.2
        some (SUCCESS, d.2.os ++ [OsEvent.virtualFree r.handle])

/-! ## PEUtils.c: FindNameIndexForOrdinal -/

/-- Conversion of an `unsigned` value to `int` (32 bits, two's complement): the
value of `return idx;` in a function returning `int`. -/
def unsignedToInt (x : Nat) : Int :=
  if x % 2 ^ 32 < 2 ^ 31 then ((x % 2 ^ 32 : Nat) : Int)
  else ((x % 2 ^ 32 : Nat) : Int) - 2 ^ 32

/-- The loop `for (unsigned idx = 0; idx < numberOfNames; idx++)` of
`FindNameIndexForOrdinal`: `remaining` is `numberOfNames - idx`; the element
`addressOfNameOrdinals[idx]` is the `uint16_t` at byte offset `2 * idx`. -/
def nameIndexLoop (m : Mem) (ordinal addressOfNameOrdinals : Nat) : Nat → Nat → Int
  | 0, _ => -1
  | remaining + 1, idx =>
    if read16 m (addressOfNameOrdinals + 2 * idx) = ordinal then unsignedToInt idx
    else nameIndexLoop m ordinal addressOfNameOrdinals remaining (idx + 1)

/-- Source function `FindNameIndexForOrdinal(ordinal, addressOfNameOrdinals,
numberOfNames)`; both counts are `unsigned` (32 bits), the result is an `int`. -/
def FindNameIndexForOrdinal (m : Mem) (ordinal addressOfNameOrdinals numberOfNames : Nat) :
    Int :=
  nameIndexLoop m (ordinal % 2 ^ 32) addressOfNameOrdinals (numberOfNames % 2 ^ 32) 0

/-! ## Section table vocabulary used by the statements -/

/-- Address of the `k`-th entry of the section table starting at `first`. -/
def sectionAt (first k : Nat) : Nat := first + SIZEOF_SECTION_HEADER * k

/-- Number of bytes `buildMemoryImage` copies for the section header at `sh`:
nothing when `SizeOfRawData` is 0, else the smaller of `SizeOfRawData` and
`VirtualSize`. -/
def copyLen (file : Mem) (sh : Nat) : Nat :=
  if secSizeOfRawData file sh = 0 then 0
  else min (secSizeOfRawData file sh) (secVirtualSize file sh)

/-- Destination address of the section at `sh` in the loaded image. -/
def sectionDest (file : Mem) (imageBase sh : Nat) : Nat :=
  ADDR imageBase (secVirtualAddress file sh)

/-- Source address of the section at `sh` in the file image. -/
def sectionSrc (file : Mem) (fileImage sh : Nat) : Nat :=
  ADDR fileImage (secPointerToRawData file sh)

/-- Address `a` lies in the range copied for the section at `sh`. -/
def inCopied (file : Mem) (imageBase sh a : Nat) : Prop :=
  sectionDest file imageBase sh ≤ a ∧ a < sectionDest file imageBase sh + copyLen file sh

instance (file : Mem) (imageBase sh a : Nat) : Decidable (inCopied file imageBase sh a) := by
  unfold inCopied; infer_instance

/-! ## Relocation table vocabulary used by the statements -/

/-- The fix-up writes recorded in a trace: the patched addresses, in order. -/
def patches (tr : List Event) : List Nat :=
  tr.filterMap (fun e => match e with
    | Event.patch a => some a
    | _ => none)

/-- The relocation blocks whose body was entered, in order: the loop body reads
`relocEntry->VirtualAddress` exactly once per iteration. -/
def visits (tr : List Event) : List Nat :=
  tr.filterMap (fun e => match e with
    | Event.readBlockVA b => some b
    | _ => none)

/-- The addresses of the 16-bit fix-up entries read, in order. -/
def entryReads (tr : List Event) : List Nat :=
  tr.filterMap (fun e => match e with
    | Event.entryRead a => some a
    | _ => none)

/-- Field `VirtualAddress` of the relocation block at `b`. -/
def blockVA (m : Mem) (b : Nat) : Nat := read32 m b

/-- Field `SizeOfBlock` of the relocation block at `b`. -/
def blockSize (m : Mem) (b : Nat) : Nat := read32 m (b + 4)

/-- Fix-up targets designated by the `DIR64` entries `fixups[idx .. idx + n)` stored
in `m`, in entry order. -/
def targetsFrom (m : Mem) (regionBase fixups : Nat) : Nat → Nat → List Nat
  | 0, _ => []
  | n + 1, idx =>
    (if IMAGE_REL_BASED_TYPE (read16 m (fixups + 2 * idx)) = IMAGE_REL_BASED_DIR64
     then [ADDR regionBase (IMAGE_REL_BASED_OFFSET (read16 m (fixups + 2 * idx)))]
     else []) ++ targetsFrom m regionBase fixups n (idx + 1)

/-- Fix-up targets of all `DIR64` entries of the relocation block stored at `b`. -/
def blockTargets (m : Mem) (imageBase b : Nat) : List Nat :=
  targetsFrom m (ADDR imageBase (blockVA m b)) (b + SIZEOF_BASE_RELOCATION)
    (IMAGE_REL_BASED_COUNT (blockSize m b)) 0

/-- Addresses of `k` blocks laid end to end from `b` on, each one starting where the
`SizeOfBlock` of the previous one ends. -/
def blockChain (m : Mem) : Nat → Nat → List Nat
  | 0, _ => []
  | k + 1, b => b :: blockChain m k (b + blockSize m b)

/-- Address just after `k` blocks laid end to end from `b` on. -/
def chainEnd (m : Mem) : Nat → Nat → Nat
  | 0, b => b
  | k + 1, b => chainEnd m k (b + blockSize m b)

/-- One fix-up: add `delta` to the 64-bit value stored at `t`. -/
def patchAt (delta : Nat) (m : Mem) (t : Nat) : Mem :=
  write64 m t ((read64 m t + delta) % 2 ^ 64)

/-- The fix-ups at the addresses `ts`, applied in order. -/
def patchAll (delta : Nat) (m : Mem) (ts : List Nat) : Mem :=
  ts.foldl (patchAt delta) m

/-- The header part of the trace of `performRelocations` when the relocation
directory is consulted. -/
def headerTrace (m : Mem) (imageBase peHdr : Nat) : List Event :=
  (getPEHeaderTr m imageBase).2 ++ [Event.peRead (peHdr + OFF_ImageBase) 8] ++
    [Event.peRead (dirEntryAddr peHdr IMAGE_DIRECTORY_ENTRY_BASERELOC) 4,
     Event.peRead (dirEntryAddr peHdr IMAGE_DIRECTORY_ENTRY_BASERELOC + 4) 4]

/-- Field `DataDirectory[IMAGE_DIRECTORY_ENTRY_BASERELOC].VirtualAddress`. -/
def relocDirVA (m : Mem) (peHdr : Nat) : Nat :=
  read32 m (dirEntryAddr peHdr IMAGE_DIRECTORY_ENTRY_BASERELOC)

/-- Field `DataDirectory[IMAGE_DIRECTORY_ENTRY_BASERELOC].Size`. -/
def relocDirSize (m : Mem) (peHdr : Nat) : Nat :=
  read32 m (dirEntryAddr peHdr IMAGE_DIRECTORY_ENTRY_BASERELOC + 4)

/-- The initial `relocEntry` pointer of `performRelocations`. -/
def relocStart (m : Mem) (imageBase peHdr : Nat) : Nat :=
  ADDR imageBase (relocDirVA m peHdr)

/-- The `endRelocations` pointer of `performRelocations`; the sum of the two
`unsigned` values wraps at 32 bits. -/
def relocEnd (m : Mem) (imageBase peHdr : Nat) : Nat :=
  ADDR imageBase ((relocDirVA m peHdr + relocDirSize m peHdr) % 2 ^ 32)

/-- The value `locationDelta` computed by `performRelocations`. -/
def deltaOf (m : Mem) (imageBase peHdr : Nat) : Nat :=
  locationDeltaOf imageBase (read64 m (peHdr + OFF_ImageBase))

/-- The relocation blocks whose header fields were read, one item per read. -/
def headerReads (tr : List Event) : List Nat :=
  tr.filterMap (fun e => match e with
    | Event.readBlockVA b => some b
    | Event.readBlockSize b => some b
    | _ => none)

/-- Memories `m` and `m'` hold the same bytes on `[lo, hi)`. -/
def agreeOn (m m' : Mem) (lo hi : Nat) : Prop :=
  ∀ x, lo ≤ x → x < hi → m x = m' x

/-! ## Import table vocabulary used by the statements -/

/-- A request to the symbol resolver. -/
inductive Lookup where
  /-- Lookup of `ordinal` in module `hModule`. -/
  | byOrdinal (hModule ordinal : Nat)
  /-- Lookup in module `hModule` of the name stored at address `symbolName`. -/
  | byName (hModule symbolName : Nat)
  deriving DecidableEq, Repr

/-- The resolver request that belongs to lookup table entry `e`: by ordinal
`e & 0xFFFF` when the top bit of `e` is set, else by the name stored at image offset
`e + 2`. -/
def lookupFor (imageBase hModule e : Nat) : Lookup :=
  if IMAGE_SNAP_BY_ORDINAL e = true then Lookup.byOrdinal hModule (IMAGE_ORDINAL e)
  else Lookup.byName hModule (ADDR imageBase e + OFF_ImportByName_Name)

/-- The resolver calls recorded in a list of actions, each with its result. -/
def lookups (tr : List OsEvent) : List (Lookup × Nat) :=
  tr.filterMap (fun ev => match ev with
    | OsEvent.procByOrdinal h o r => some (Lookup.byOrdinal h o, r)
    | OsEvent.procByName h p r => some (Lookup.byName h p, r)
    | _ => none)

/-- The Import Address Table stores recorded in a list of actions. -/
def iatWrites (tr : List OsEvent) : List (Nat × Nat) :=
  tr.filterMap (fun ev => match ev with
    | OsEvent.iatWrite a v => some (a, v)
    | _ => none)

/-- The library loads recorded in a list of actions, each with its result. -/
def libraryLoads (tr : List OsEvent) : List (Nat × Nat) :=
  tr.filterMap (fun ev => match ev with
    | OsEvent.loadLibrary p r => some (p, r)
    | _ => none)

/-- The `n` pointer-sized entries stored in `m` from address `table` on. -/
def tableEntries (m : Mem) : Nat → Nat → List Nat
  | _, 0 => []
  | table, n + 1 => read64 m table :: tableEntries m (table + 8) n

/-- The addresses of `n` consecutive pointer-sized slots from `table` on. -/
def slots : Nat → Nat → List Nat
  | _, 0 => []
  | table, n + 1 => table :: slots (table + 8) n

/-- Specification §4.4, inner walk, written over the list of lookup entries: for each
entry in order, resolve it by ordinal or by name; on failure stop with failure; else
write the resolved address into the Import Address Table slot of the same index. -/
def resolveEntries (w : Win32) (imageBase hModule : Nat) :
    Nat → List Nat → LoadState → Bool × LoadState
  | _, [], s => (true, s)
  | IAT, e :: es, s =>
    let arg := if IMAGE_SNAP_BY_ORDINAL e = true then IMAGE_ORDINAL e
      else ADDR imageBase e + OFF_ImportByName_Name
    let r := w.GetProcAddress s.os s.mem hModule arg % 2 ^ 64
    let call := if IMAGE_SNAP_BY_ORDINAL e = true then OsEvent.procByOrdinal hModule arg r
      else OsEvent.procByName hModule arg r
    if r = 0 then (false, s.log call)
    else resolveEntries w imageBase hModule (IAT + 8) es
      { mem := write64 s.mem IAT r, os := s.os ++ [call] ++ [OsEvent.iatWrite IAT r] }

/-- A library load or a symbol lookup that returned null. -/
def callFailed : OsEvent → Bool
  | OsEvent.loadLibrary _ r => r == 0
  | OsEvent.procByOrdinal _ _ r => r == 0
  | OsEvent.procByName _ _ r => r == 0
  | _ => false

/-- A call to the symbol resolver (library load or symbol lookup) or a store into
the Import Address Table. -/
def isResolverAction : OsEvent → Bool
  | OsEvent.loadLibrary _ _ => true
  | OsEvent.procByOrdinal _ _ _ => true
  | OsEvent.procByName _ _ _ => true
  | OsEvent.iatWrite _ _ => true
  | _ => false

/-- No library load and no symbol lookup in `evs` failed. -/
def NoFailure (evs : List OsEvent) : Prop :=
  ∀ e ∈ evs, callFailed e = false

/-- The actions `evs` contain exactly one failed call; no call before it failed, and
after it there is neither a resolver call nor a store into the address table. -/
def StopsAtFailure (evs : List OsEvent) : Prop :=
  ∃ pre e post, evs = pre ++ e :: post ∧ NoFailure pre ∧ callFailed e = true ∧
    ∀ x ∈ post, isResolverAction x = false

/-- An import descriptor array of `d` descriptors at `desc`, followed by a null
descriptor, that the import walk can process: each descriptor has a lookup table of
fewer than `inner` non-zero entries followed by a zero entry, its address table is
the lookup table or does not overlap it, and whatever is stored into its address
table slots leaves the following descriptors in this same shape. -/
def WellFormedImports (inner imageBase : Nat) : Nat → Nat → Mem → Prop
  | 0, desc, m => read32 m (desc + OFF_ImportName) = 0
  | d + 1, desc, m =>
    read32 m (desc + OFF_ImportName) ≠ 0 ∧
    ∃ n, n < inner ∧
      (∀ e ∈ tableEntries m (iltOf m imageBase desc) n, e ≠ 0) ∧
      read64 m (iltOf m imageBase desc + 8 * n) = 0 ∧
      (iatOf m imageBase desc = iltOf m imageBase desc ∨
        iatOf m imageBase desc + 8 * n ≤ iltOf m imageBase desc ∨
        iltOf m imageBase desc + 8 * (n + 1) ≤ iatOf m imageBase desc) ∧
      ∀ m' : Mem,
        (∀ x, ¬ (iatOf m imageBase desc ≤ x ∧ x < iatOf m imageBase desc + 8 * n) →
          m' x = m x) →
        WellFormedImports inner imageBase d (desc + SIZEOF_IMPORT_DESCRIPTOR) m'

/-- Address of the first import descriptor, as `linkImports` computes it. -/
def importsStart (m : Mem) (imageBase peHdr : Nat) : Nat :=
  ADDR imageBase (read32 m (dirEntryAddr peHdr IMAGE_DIRECTORY_ENTRY_IMPORT))

/-- Field `DataDirectory[IMAGE_DIRECTORY_ENTRY_IMPORT].Size`. -/
def importsSize (m : Mem) (peHdr : Nat) : Nat :=
  read32 m (dirEntryAddr peHdr IMAGE_DIRECTORY_ENTRY_IMPORT + 4)

/-! ## Loader vocabulary used by the statements -/

/-- The stage returns recorded in a list of actions, in order. -/
def stagesOf (evs : List OsEvent) : List (Stage × Bool) :=
  evs.filterMap (fun ev => match ev with
    | OsEvent.stageDone st ok => some (st, ok)
    | _ => none)

/-- The `VirtualAlloc` calls recorded in a list of actions: requested address,
size, result. -/
def allocCalls (evs : List OsEvent) : List (Nat × Nat × Nat) :=
  evs.filterMap (fun ev => match ev with
    | OsEvent.virtualAlloc a sz r => some (a, sz, r)
    | _ => none)

/-- The addresses released with `VirtualFree` in a list of actions. -/
def frees (evs : List OsEvent) : List Nat :=
  evs.filterMap (fun ev => match ev with
    | OsEvent.virtualFree a => some a
    | _ => none)

/-- The `InMemoryLoader` entries recorded in a list of actions. -/
def loaderCalls (evs : List OsEvent) : List (Nat × Nat) :=
  evs.filterMap (fun ev => match ev with
    | OsEvent.inMemoryLoader p n => some (p, n)
    | _ => none)

/-- The file views released with `UnmapViewOfFile` in a list of actions. -/
def unmaps (evs : List OsEvent) : List Nat :=
  evs.filterMap (fun ev => match ev with
    | OsEvent.unmapViewOfFile p => some p
    | _ => none)

/-- An action made inside the import or TLS stage: a resolver call, a library
release, a store into an address table, or a TLS callback. -/
def isStageInternal : OsEvent → Bool
  | OsEvent.loadLibrary _ _ => true
  | OsEvent.freeLibrary _ => true
  | OsEvent.procByOrdinal _ _ _ => true
  | OsEvent.procByName _ _ _ => true
  | OsEvent.iatWrite _ _ => true
  | OsEvent.tlsCallback _ _ _ _ => true
  | _ => false

/-- All actions of `evs` are internal to the import or TLS stage. -/
def Internal (evs : List OsEvent) : Prop := ∀ e ∈ evs, isStageInternal e = true

/-- The six stages of `InMemoryLoader` in the order of the specification. -/
def stageOrder : List Stage :=
  [Stage.validate, Stage.allocate, Stage.build, Stage.relocate, Stage.link, Stage.tls]

/-- Stage record of a load in which the first `k` stages succeeded and the next one
failed. -/
def failedAfter (k : Nat) : List (Stage × Bool) :=
  (stageOrder.take k).map (fun st => (st, true)) ++
    ((stageOrder.drop k).take 1).map (fun st => (st, false))

/-- Stage record of a load in which the six stages succeeded. -/
def allStagesOk : List (Stage × Bool) :=
  stageOrder.map (fun st => (st, true))

/-- The stage of `InMemoryLoader` that an action belongs to, as an index into
`stageOrder`: the entry into the loader counts with validation (0), `VirtualAlloc`
with allocation (1), library and symbol calls and address table stores with import
linking (4), callbacks with the TLS stage (5); the return of a stage counts with that
stage.  The release by `VirtualFree` in `cleanup` comes after every stage (6); actions
made outside `InMemoryLoader` get 7. -/
def phaseOf : OsEvent → Nat
  | OsEvent.inMemoryLoader _ _ => 0
  | OsEvent.stageDone Stage.validate _ => 0
  | OsEvent.virtualAlloc _ _ _ => 1
  | OsEvent.stageDone Stage.allocate _ => 1
  | OsEvent.stageDone Stage.build _ => 2
  | OsEvent.stageDone Stage.relocate _ => 3
  | OsEvent.loadLibrary _ _ => 4
  | OsEvent.freeLibrary _ => 4
  | OsEvent.procByOrdinal _ _ _ => 4
  | OsEvent.procByName _ _ _ => 4
  | OsEvent.iatWrite _ _ => 4
  | OsEvent.stageDone Stage.link _ => 4
  | OsEvent.tlsCallback _ _ _ _ => 5
  | OsEvent.stageDone Stage.tls _ => 5
  | OsEvent.virtualFree _ => 6
  | OsEvent.mapFullFile _ _ => 7
  | OsEvent.unmapViewOfFile _ => 7
  | OsEvent.dllMain _ _ _ _ => 7

/-- The actions `evs` come in the order of the stages they belong to. -/
def InStageOrder (evs : List OsEvent) : Prop :=
  List.Pairwise (fun a b => a ≤ b) (evs.map phaseOf)

/-- The actions `evs` are in stage order and belong to the stages `lo .. hi`. -/
def Between (lo hi : Nat) (evs : List OsEvent) : Prop :=
  InStageOrder evs ∧ ∀ e ∈ evs, lo ≤ phaseOf e ∧ phaseOf e ≤ hi

/-! ## Example images -/

/-- DOS header of a buffer at `image`: "MZ" and `e_lfanew = lfanew`. -/
def dosHeaderBytes (image lfanew : Nat) : List (Nat × Nat) :=
  bytesAt image [0x4D, 0x5A] ++
  bytesAt (image + 60) [lfanew % 256, lfanew / 256 % 256, lfanew / 65536 % 256, lfanew / 16777216 % 256]

/-- The checked fields of a 64-bit NT header at `hdr`: "PE\0\0", AMD64, magic 0x20B. -/
def ntHeaderBytes (hdr : Nat) : List (Nat × Nat) :=
  bytesAt hdr [0x50, 0x45, 0, 0, 0x64, 0x86] ++ bytesAt (hdr + 24) [0x0B, 0x02]

/-- A 64-byte buffer at 0x10000 holding only a DOS header whose `e_lfanew` is 64,
followed by zero bytes outside the buffer. -/
def truncatedImage : Mem := memOfList (dosHeaderBytes 0x10000 64)

/-- The same 64-byte buffer, where the memory after the buffer happens to hold
the fields of a 64-bit NT header. -/
def truncatedImageThenHeader : Mem :=
  memOfList (dosHeaderBytes 0x10000 64 ++ ntHeaderBytes 0x10040)

/-- Little-endian bytes of a 32-bit value. -/
def le32 (v : Nat) : List Nat :=
  [v % 256, v / 256 % 256, v / 65536 % 256, v / 16777216 % 256]

/-- A section header at `sh` with the given `VirtualSize`, `VirtualAddress`,
`SizeOfRawData` and `PointerToRawData`. -/
def sectionHeaderBytes (sh vsize va raw ptr : Nat) : List (Nat × Nat) :=
  bytesAt (sh + 8) (le32 vsize ++ le32 va ++ le32 raw ++ le32 ptr)

/-- A file image mapped at 0x10000: DOS header, NT header at offset 0x40 with two
sections, `SizeOfOptionalHeader = 240`, `SizeOfHeaders = 0x200`; section 0 has
4 raw bytes `AA BB CC DD` at file offset 0x200 for a virtual size of 3 at RVA 0x1000,
section 1 is uninitialised data (`SizeOfRawData = 0`) of virtual size 16 at RVA 0x2000. -/
def twoSectionFile : Mem :=
  memOfList (dosHeaderBytes 0x10000 0x40 ++ ntHeaderBytes 0x10040 ++
    bytesAt (0x10040 + 6) [2, 0] ++ bytesAt (0x10040 + 20) [240, 0] ++
    bytesAt (0x10040 + 84) (le32 0x200) ++
    sectionHeaderBytes 0x10148 3 0x1000 4 0x200 ++
    sectionHeaderBytes 0x10170 16 0x2000 0 0 ++
    bytesAt 0x10200 [0xAA, 0xBB, 0xCC, 0xDD])

/-- Little-endian bytes of a 64-bit value. -/
def le64 (v : Nat) : List Nat :=
  le32 (v % 2 ^ 32) ++ le32 (v / 2 ^ 32)

/-- A loaded image at 0x20000: DOS header, NT header at offset 0x40 with the given
preferred `ImageBase` and base-relocation directory `(dirVA, dirSize)`, followed by
the bytes `extra`. -/
def loadedImage (preferred dirVA dirSize : Nat) (extra : List (Nat × Nat)) : Mem :=
  memOfList (dosHeaderBytes 0x20000 0x40 ++ ntHeaderBytes 0x20040 ++
    bytesAt (0x20040 + 48) (le64 preferred) ++
    bytesAt (0x20040 + 80) (le32 0x4000) ++
    bytesAt (0x20040 + 176) (le32 dirVA ++ le32 dirSize) ++ extra)

/-- A relocation block at `b`: `VirtualAddress`, `SizeOfBlock`, then the entries. -/
def relocBlockBytes (b va size : Nat) (entries : List Nat) : List (Nat × Nat) :=
  bytesAt b (le32 va ++ le32 size) ++
  bytesAt (b + 8) (entries.flatMap (fun e => [e % 256, e / 256 % 256]))

/-- Image preferring 0x10000, loaded at 0x20000 (delta 0x10000), whose relocation
directory (RVA 0x1000, 10 bytes) is one block for region 0x2000 with the single
`DIR64` entry 0xA010; the 64-bit value at 0x22010 is 0x11234. -/
def oneFixupImage : Mem :=
  loadedImage 0x10000 0x1000 10
    (relocBlockBytes 0x21000 0x2000 10 [0xA010] ++ bytesAt 0x22010 (le64 0x11234))

/-- Image preferring 0x10000, loaded at 0x20000, whose relocation directory
(RVA 0x1000, 16 bytes) starts with a block header declaring `SizeOfBlock = 0`. -/
def zeroBlockImage : Mem :=
  loadedImage 0x10000 0x1000 16 (relocBlockBytes 0x21000 0x2000 0 [0xA010])

/-- Image preferring 0x10000, loaded at 0x20000, whose relocation directory
(RVA 0x1000, 12 bytes) holds a block declaring `SizeOfBlock = 32`, more than the
directory. -/
def overlongBlockImage : Mem :=
  loadedImage 0x10000 0x1000 12
    (relocBlockBytes 0x21000 0x2000 32 [0xA010] ++ bytesAt 0x22010 (le64 0x11234))

/-- Image loaded at its preferred base 0x20000, with the same directory as
`oneFixupImage`. -/
def preferredBaseImage : Mem :=
  loadedImage 0x20000 0x1000 10
    (relocBlockBytes 0x21000 0x2000 10 [0xA010] ++ bytesAt 0x22010 (le64 0x11234))

/-- Image preferring 0x10000, loaded at 0x20000, with an empty relocation
directory (`Size = 0`). -/
def noRelocImage : Mem :=
  loadedImage 0x10000 0 0 (bytesAt 0x22010 (le64 0x11234))

/-- Image preferring 0x10000, loaded at 0x20000, whose relocation directory
(RVA 0x1000, 20 bytes) is two blocks of size 10 laid end to end: the first, for
region 0x2000, has the `DIR64` entry 0xA010, the second, for region 0x3000, has the
`DIR64` entry 0xA020. -/
def twoBlockImage : Mem :=
  loadedImage 0x10000 0x1000 20
    (relocBlockBytes 0x21000 0x2000 10 [0xA010] ++ relocBlockBytes 0x2100A 0x3000 10 [0xA020] ++
     bytesAt 0x22010 (le64 0x11234) ++ bytesAt 0x23020 (le64 0x15678))

/-- The same directory layout as `twoBlockImage`, where the first block is for region
0x1000 (the directory itself) and its `DIR64` entry 0xA00E designates the
`SizeOfBlock` field of the second block. -/
def selfPatchingImage : Mem :=
  loadedImage 0x10000 0x1000 20
    (relocBlockBytes 0x21000 0x1000 10 [0xA00E] ++ relocBlockBytes 0x2100A 0x3000 10 [0xA020] ++
     bytesAt 0x23020 (le64 0x15678))

/-- Image preferring 0x10000, loaded at 0x20000, whose relocation directory
(RVA 0x1000, 12 bytes) is one block for region 0x2000 with an `ABSOLUTE` padding
entry 0x0000 and an entry 0x3010 of type 3 (`HIGHLOW`, not the native type of a
64-bit build); the 64-bit value at 0x22010 is 0x11234. -/
def paddingOnlyImage : Mem :=
  loadedImage 0x10000 0x1000 12
    (relocBlockBytes 0x21000 0x2000 12 [0x0000, 0x3010] ++ bytesAt 0x22010 (le64 0x11234))

/-- An operating system in which every request fails (returns 0) and external code
leaves the image untouched. -/
def failingOs : Win32 where
  VirtualAlloc := fun _ _ _ => 0
  LoadLibraryA := fun _ _ _ => 0
  GetProcAddress := fun _ _ _ _ => 0
  runCallback := fun _ m _ _ _ => m
  runDllMain := fun _ m _ _ _ => (true, m)
  MapFullFile := fun _ _ => (0, 0, zeroMem)
  readableString := fun _ => false

/-- A loaded image at 0x20000 with valid headers whose data directory entry `idx` is
`(dirVA, dirSize)`, followed by the bytes `extra`. -/
def imageWithDir (idx dirVA dirSize : Nat) (extra : List (Nat × Nat)) : Mem :=
  memOfList (dosHeaderBytes 0x20000 0x40 ++ ntHeaderBytes 0x20040 ++
    bytesAt (0x20040 + 48) (le64 0x20000) ++
    bytesAt (0x20040 + 80) (le32 0x4000) ++
    bytesAt (0x20040 + 136 + 8 * idx) (le32 dirVA ++ le32 dirSize) ++ extra)

/-- Image at 0x20000 whose TLS directory (RVA 0x1800, 40 bytes) has
`AddressOfCallBacks = 0x21900`, where the callback array holds the single callback
0x21A00 followed by a null entry. -/
def tlsImage : Mem :=
  imageWithDir 9 0x1800 40
    (bytesAt (0x21800 + 24) (le64 0x21900) ++ bytesAt 0x21900 (le64 0x21A00 ++ le64 0))

/-- Image at 0x20000 whose TLS directory entry has `Size = 0`. -/
def noTlsImage : Mem :=
  imageWithDir 9 0x1800 0 (bytesAt (0x21800 + 24) (le64 0x21900))

/-- Image at 0x20000 whose TLS directory (40 bytes) has `AddressOfCallBacks = 0`. -/
def emptyTlsImage : Mem :=
  imageWithDir 9 0x1800 40 (bytesAt 0x21900 (le64 0x21A00 ++ le64 0))

/-- An operating system that loads every library at 0x50000 and resolves ordinal
`n` (an argument below 0x10000) to `0x7FF0 + n`, but no name; no string is readable
at an address that the loader prints from. -/
def ordinalOnlyOs : Win32 where
  VirtualAlloc := fun _ _ _ => 0
  LoadLibraryA := fun _ _ _ => 0x50000
  GetProcAddress := fun _ _ _ arg => if arg < 0x10000 then 0x7FF0 + arg else 0
  runCallback := fun _ m _ _ _ => m
  runDllMain := fun _ m _ _ _ => (true, m)
  MapFullFile := fun _ _ => (0, 0, zeroMem)
  readableString := fun _ => false

/-- The operating system `ordinalOnlyOs` in a process whose low addresses are mapped:
a string can be read at every address. -/
def lowMappedOs : Win32 where
  VirtualAlloc := ordinalOnlyOs.VirtualAlloc
  LoadLibraryA := ordinalOnlyOs.LoadLibraryA
  GetProcAddress := ordinalOnlyOs.GetProcAddress
  runCallback := ordinalOnlyOs.runCallback
  runDllMain := ordinalOnlyOs.runDllMain
  MapFullFile := ordinalOnlyOs.MapFullFile
  readableString := fun _ => true

/-- An operating system that loads every library at 0x50000, in 64 KiB of readable
memory, and resolves ordinal `n` (an argument below 0x10000) to the address
`0x57FF0 + n` inside the library, but no name. -/
def libraryOs : Win32 where
  VirtualAlloc := fun _ _ _ => 0
  LoadLibraryA := fun _ _ _ => 0x50000
  GetProcAddress := fun _ _ _ arg => if arg < 0x10000 then 0x57FF0 + arg else 0
  runCallback := fun _ m _ _ _ => m
  runDllMain := fun _ m _ _ _ => (true, m)
  MapFullFile := fun _ _ => (0, 0, zeroMem)
  readableString := fun a => decide (0x50000 ≤ a ∧ a < 0x60000)

/-- An operating system that grants every allocation at the requested address (at
0x20000 when none is requested), loads every library at 0x50000, resolves ordinal `n`
to `0x7FF0 + n` and every name at address `p` to `0x60000 + p`. -/
def resolvingOs : Win32 where
  VirtualAlloc := fun _ a _ => if a = 0 then 0x20000 else a
  LoadLibraryA := fun _ _ _ => 0x50000
  GetProcAddress := fun _ _ _ arg => if arg < 0x10000 then 0x7FF0 + arg else 0x60000 + arg
  runCallback := fun _ m _ _ _ => m
  runDllMain := fun _ m _ _ _ => (true, m)
  MapFullFile := fun _ _ => (0, 0, zeroMem)
  readableString := fun _ => false

/-- An import descriptor at `d` with the given `OriginalFirstThunk`, `Name` and
`FirstThunk`. -/
def importDescBytes (d oft name ft : Nat) : List (Nat × Nat) :=
  bytesAt d (le32 oft) ++ bytesAt (d + 12) (le32 name ++ le32 ft)

/-- Image at 0x20000 with one import descriptor at RVA 0x1000 (module name at RVA
0x1080) followed by a null descriptor; its lookup table at RVA 0x1100 holds the
by-ordinal entry for ordinal 5, the by-name entry 0x1200 and a zero entry; its Import
Address Table is at RVA 0x1300. -/
def importImage : Mem :=
  imageWithDir 1 0x1000 40
    (importDescBytes 0x21000 0x1100 0x1080 0x1300 ++
     bytesAt 0x21080 [0x6B, 0x2E, 0x64, 0x6C, 0x6C, 0] ++
     bytesAt 0x21100 (le64 0x8000000000000005 ++ le64 0x1200 ++ le64 0) ++
     bytesAt 0x21200 [0, 0, 0x66, 0] ++
     bytesAt 0x21300 (le64 0x8000000000000005 ++ le64 0x1200 ++ le64 0))

/-- Image at 0x20000 with one import descriptor whose lookup table at RVA 0x1100
holds the by-ordinal entry for ordinal 5 followed by a zero entry, and whose Import
Address Table is at RVA 0x1108: slot 0 of the address table is the zero entry of the
lookup table. -/
def overlappingThunksImage : Mem :=
  imageWithDir 1 0x1000 40
    (importDescBytes 0x21000 0x1100 0x1080 0x1108 ++
     bytesAt 0x21080 [0x6B, 0x2E, 0x64, 0x6C, 0x6C, 0] ++
     bytesAt 0x21100 (le64 0x8000000000000005 ++ le64 0))

/-- A file image mapped at 0x10000 for the end-to-end scenario: preferred base
0x20000, `SizeOfImage` 0x4000, `SizeOfHeaders` 0x400, two sections (code: 8 raw
bytes `AA BB CC DD EE FF 11 22` at file offset 0x400 for RVA 0x1000; data:
`SizeOfRawData = 0`, virtual size 16 at RVA 0x2000), empty relocation and TLS
directories, and inside the header area one import descriptor at RVA 0x200 (library
name at 0x230, lookup table at 0x240 holding the by-name entry 0x280 and a zero
entry) whose Import Address Table is at RVA `ft`. -/
def scenarioFile (ft : Nat) : Mem :=
  memOfList (dosHeaderBytes 0x10000 0x40 ++ ntHeaderBytes 0x10040 ++
    bytesAt (0x10040 + 6) [2, 0] ++ bytesAt (0x10040 + 20) [240, 0] ++
    bytesAt (0x10040 + 48) (le64 0x20000) ++
    bytesAt (0x10040 + 80) (le32 0x4000 ++ le32 0x400) ++
    bytesAt (0x10040 + 136 + 8) (le32 0x200 ++ le32 40) ++
    sectionHeaderBytes 0x10148 8 0x1000 8 0x400 ++
    sectionHeaderBytes 0x10170 16 0x2000 0 0 ++
    importDescBytes 0x10200 0x240 0x230 ft ++
    bytesAt 0x10230 [0x6B, 0x2E, 0x64, 0x6C, 0x6C, 0] ++
    bytesAt 0x10240 (le64 0x280 ++ le64 0) ++
    bytesAt 0x10260 (le64 0x280 ++ le64 0) ++
    bytesAt 0x10280 [0, 0, 0x66, 0] ++
    bytesAt 0x10400 [0xAA, 0xBB, 0xCC, 0xDD, 0xEE, 0xFF, 0x11, 0x22])

/-- The operating system `resolvingOs` whose file-mapping collaborator maps
"DllPayload.dll" at 0x10000 as the scenario file with its address table in the header
area, and no other file. -/
def demoOs : Win32 where
  VirtualAlloc := resolvingOs.VirtualAlloc
  LoadLibraryA := resolvingOs.LoadLibraryA
  GetProcAddress := resolvingOs.GetProcAddress
  runCallback := resolvingOs.runCallback
  runDllMain := resolvingOs.runDllMain
  MapFullFile := fun _ path =>
    if path = "DllPayload.dll" then (0x10000, 0x408, scenarioFile 0x260) else (0, 0, zeroMem)
  readableString := resolvingOs.readableString

/-- The operating system `resolvingOs` in which the request at the preferred address
fails and the request at an arbitrary address is granted at 0x30000. -/
def relocatingOs : Win32 where
  VirtualAlloc := fun _ a _ => if a = 0 then 0x30000 else 0
  LoadLibraryA := resolvingOs.LoadLibraryA
  GetProcAddress := resolvingOs.GetProcAddress
  runCallback := resolvingOs.runCallback
  runDllMain := resolvingOs.runDllMain
  MapFullFile := resolvingOs.MapFullFile
  readableString := resolvingOs.readableString

/-- A table of `2^31 + 1` name ordinals at 0x10000: entry `2^31` is 5, every other
entry is 0. -/
def hugeOrdinalTable : Mem :=
  fun a => if a = 0x10000 + 2 * 2 ^ 31 then 5 else 0

/-- A table of four name ordinals at 0x10000: 7, 3, 9, 3. -/
def smallOrdinalTable : Mem :=
  memOfList (bytesAt 0x10000 [7, 0, 3, 0, 9, 0, 3, 0])

/-- Image preferring 0x2000A, loaded at 0x20000 (delta `-10`), whose relocation
directory (RVA 0x1000, 20 bytes) is two blocks of size 10; the first block is for
region 0x1000 and its `DIR64` entry 0xA004 designates its own `SizeOfBlock` field,
which the fix-up turns from 10 into 0. -/
def sizeZeroingImage : Mem :=
  loadedImage 0x2000A 0x1000 20
    (relocBlockBytes 0x21000 0x1000 10 [0xA004] ++ relocBlockBytes 0x2100A 0x3000 10 [0xA020] ++
     bytesAt 0x23020 (le64 0x15678))

/-- Image preferring 0x10000, loaded at 0x20000, whose relocation directory
(RVA 0x1000, 16 bytes) starts with a block declaring `SizeOfBlock = 4`, less than the
8 bytes of its own header. -/
def shortBlockImage : Mem :=
  loadedImage 0x10000 0x1000 16 (relocBlockBytes 0x21000 0x2000 4 [0x0000, 0x0000])

/-- A file image mapped at 0x10000 with no section: preferred base 0x10000,
`SizeOfImage` 0x4000, `SizeOfHeaders` 0x400 (the NT headers end at offset 0x148), and
a relocation directory (RVA 0x200, 10 bytes) inside the header area made of one block
for region 0 whose `DIR64` entry 0xA040 designates offset 0x40 of the image, the
`Signature` field of the NT headers. -/
def headerFixupFile : Mem :=
  memOfList (dosHeaderBytes 0x10000 0x40 ++ ntHeaderBytes 0x10040 ++
    bytesAt (0x10040 + 20) [240, 0] ++
    bytesAt (0x10040 + 48) (le64 0x10000) ++
    bytesAt (0x10040 + 80) (le32 0x4000 ++ le32 0x400) ++
    bytesAt (0x10040 + 176) (le32 0x200 ++ le32 10) ++
    relocBlockBytes 0x10200 0 10 [0xA040])

/-- A file image mapped at 0x10000 with valid headers at offset 0x40, no section,
and `SizeOfHeaders = 0x40`: the header copy stops where the NT headers begin. -/
def shortHeadersFile : Mem :=
  memOfList (dosHeaderBytes 0x10000 0x40 ++ ntHeaderBytes 0x10040 ++
    bytesAt (0x10040 + 20) [240, 0] ++
    bytesAt (0x10040 + 48) (le64 0x10000) ++
    bytesAt (0x10040 + 80) (le32 0x4000 ++ le32 0x40))

end SelfLoader

/-!
# LSB steganography (`LSB-Steganography`)

Shallow embedding of `LSB.cpp` and `bmp_lsb.cpp` for the x64 data model: `int`,
`unsigned` and `uint32_t` have 32 bits, `size_t` has 64 bits.  The carrier is a range
of a `Mem`; the payload given to the encoder lives in a memory of its own, and the
buffer returned by the decoder is a fresh zero-filled object indexed from 0 (the
`calloc` call is taken to succeed).
-/

namespace Stego
open SelfLoader

/-- One-byte store `m[a] = b`. -/
def writeByte (m : Mem) (a : Nat) (b : Byte) : Mem :=
  fun x => if x = a then b else m x

/-- The data members of an `LSB` object: the `data` pointer and `size`. -/
structure LSB where
  data : Nat
  size : Nat

/-- The member constant `SIZE_BITS`. -/
def SIZE_BITS : Nat := 32

/-- The value `(byte & 0xFE) | bit` stored into a `uint8_t`. -/
def setLSB (byte : Byte) (bit : Bool) : Byte :=
  ⟨((byte.val &&& 0xFE) ||| bit.toNat) % 256, Nat.mod_lt _ (by decide)⟩

/-- Source function `LSB::readLSB(byte)`: `return byte & 0x01;` as a `bool`. -/
def readLSB (byte : Byte) : Bool := decide (byte.val &&& 0x01 ≠ 0)

/-- The loop `for (uint8_t idx = 0; idx < SIZE_BITS; idx++)` of `encodeSize`:
`remaining` is `SIZE_BITS - idx`. -/
def encodeSizeLoop (l : LSB) (payloadSize : Nat) : Nat → Nat → Nat → Mem → Mem
  | 0, _, _, m => m
  | remaining + 1, idx, bitMask, m =>
    encodeSizeLoop l payloadSize remaining (idx + 1) (bitMask >>> 1)
      (writeByte m (l.data + idx)
        (setLSB (m (l.data + idx)) (decide (payloadSize &&& bitMask ≠ 0))))

/-- Source function `LSB::encodeSize(payloadSize)` on the memory `m`: the returned
flag and the memory after the call. -/
def LSB.encodeSize (l : LSB) (m : Mem) (payloadSize : Nat) : Bool × Mem :=
  if l.size < SIZE_BITS then (false, m)
  else (true, encodeSizeLoop l (payloadSize % 2 ^ 32) SIZE_BITS 0 0x80000000 m)

/-- Conversion of an `int`, given by its 32-bit pattern, to `size_t`: sign extension
to 64 bits. -/
def intToSizeT (x : Nat) : Nat :=
  if x % 2 ^ 32 < 2 ^ 31 then x % 2 ^ 32 else x % 2 ^ 32 + (2 ^ 64 - 2 ^ 32)

/-- The loop of `decodeSize`:
`payloadSize += readLSB(data[idx]) << ((SIZE_BITS - 1) - idx);` where the shift is
computed in `int` and the sum in `size_t`. -/
def decodeSizeLoop (l : LSB) (m : Mem) : Nat → Nat → Nat → Nat
  | 0, _, payloadSize => payloadSize
  | remaining + 1, idx, payloadSize =>
    decodeSizeLoop l m remaining (idx + 1)
      ((payloadSize +
        intToSizeT ((readLSB (m (l.data + idx))).toNat <<< ((SIZE_BITS - 1) - idx))) % 2 ^ 64)

/-- Source function `LSB::decodeSize()`: the `size_t` value returned. -/
def LSB.decodeSize (l : LSB) (m : Mem) : Nat :=
  if l.size < SIZE_BITS then 0 else decodeSizeLoop l m SIZE_BITS 0 0

/-- The `while` loop of `encodeData`; `idx` and `payloadSize * 8` are `uint32_t`,
`size - SIZE_BITS` is a `size_t`, `idx + SIZE_BITS` is computed in `unsigned`.
`none` means that the bound `fuel` was reached before the loop ended. -/
def encodeDataLoop (l : LSB) (pm : Mem) (payload payloadSize : Nat) :
    Nat → Nat → Nat → Mem → Option Mem
  | 0, _, _, _ => none
  | fuel + 1, idx, bitMask, m =>
    if idx < (payloadSize * 8) % 2 ^ 32 ∧ idx < (l.size + 2 ^ 64 - SIZE_BITS) % 2 ^ 64 then
      encodeDataLoop l pm payload payloadSize fuel ((idx + 1) % 2 ^ 32)
        (if bitMask >>> 1 = 0 then 0x80 else bitMask >>> 1)
        (writeByte m (l.data + (idx + SIZE_BITS) % 2 ^ 32)
          (setLSB (m (l.data + (idx + SIZE_BITS) % 2 ^ 32))
            (decide (bitMask &&& (pm (payload + idx / 8)).val ≠ 0))))
    else some m

/-- Source function `LSB::encodeData(payload, payloadSize)`: `pm` is the memory
holding the payload. -/
def LSB.encodeData (l : LSB) (m : Mem) (pm : Mem) (payload payloadSize fuel : Nat) :
    Option (Bool × Mem) :=
  if (payloadSize * 8) % 2 ^ 32 > (l.size + 2 ^ 64 - SIZE_BITS) % 2 ^ 64 then some (false, m)
  else (encodeDataLoop l pm payload payloadSize fuel 0 0x80 m).map (fun m' => (true, m'))

/-- The `while` loop of `decodeData`; every quantity is a `size_t`, the buffer
elements are `uint8_t`. -/
def decodeDataLoop (l : LSB) (m : Mem) (payloadSize : Nat) : Nat → Nat → Mem → Option Mem
  | 0, _, _ => none
  | fuel + 1, idx, payloadBuffer =>
    if idx < (payloadSize * 8) % 2 ^ 64 ∧ idx < (l.size + 2 ^ 64 - SIZE_BITS) % 2 ^ 64 then
      decodeDataLoop l m payloadSize fuel ((idx + 1) % 2 ^ 64)
        (writeByte payloadBuffer (idx / 8)
          ⟨((payloadBuffer (idx / 8)).val +
              (readLSB (m (l.data + (idx + SIZE_BITS) % 2 ^ 64))).toNat <<< (7 - idx % 8)) % 256,
            Nat.mod_lt _ (by decide)⟩)
    else some payloadBuffer

/-- Source function `LSB::decodeData(payloadSize)`: `some none` is the `nullptr`
result, `some (some buffer)` the allocated buffer. -/
def LSB.decodeData (l : LSB) (m : Mem) (payloadSize fuel : Nat) : Option (Option Mem) :=
  if (payloadSize * 8) % 2 ^ 64 > (l.size + 2 ^ 64 - SIZE_BITS) % 2 ^ 64 then some none
  else (decodeDataLoop l m payloadSize fuel 0 zeroMem).map some

/-- The constant `BMP_TYPE` ("BM"). -/
def BMP_TYPE : Nat := 0x4D42
/-- Offset of `ImageSize` in the packed `BMPHEADER`. -/
def OFF_ImageSize : Nat := 34
/-- Offset of `PixelData` in the packed `BMPHEADER` (its size, 54 bytes). -/
def OFF_PixelData : Nat := 54

/-- The object `lsbData(header->PixelData, header->ImageSize)`. -/
def lsbOf (m : Mem) (image : Nat) : LSB :=
  { data := image + OFF_PixelData, size := read32 m (image + OFF_ImageSize) }

/-- Source function `BMPWriteLSB(image, payload, payloadSize)`. -/
def BMPWriteLSB (m : Mem) (image : Nat) (pm : Mem) (payload payloadSize fuel : Nat) :
    Option (Bool × Mem) :=
  if ¬ (read16 m image = BMP_TYPE) then some (false, m)
  else
    let r := (lsbOf m image).encodeSize m payloadSize
    if r.1 = false then some (false, r.2)
    else (lsbOf m image).encodeData r.2 pm payload payloadSize fuel

/-- What `BMPReadLSB` hands back: the returned flag and the two out-parameters. -/
structure ReadResult where
  ok : Bool
  payload : Option Mem
  payloadSize : Nat

/-- Source function `BMPReadLSB(image, payload, payloadSize)`; `payloadSize` is an
`unsigned`, so the `size_t` returned by `decodeSize` is truncated to 32 bits. -/
def BMPReadLSB (m : Mem) (image fuel : Nat) : Option ReadResult :=
  if ¬ (read16 m image = BMP_TYPE) then
    some { ok := false, payload := none, payloadSize := 0 }
  else
    let payloadSize := (lsbOf m image).decodeSize m % 2 ^ 32
    if payloadSize = 0 then
      some { ok := false, payload := none, payloadSize := payloadSize }
    else
      match (lsbOf m image).decodeData m payloadSize fuel with
      | none => none
      | some none => some { ok := false, payload := none, payloadSize := payloadSize }
      | some (some buffer) => some { ok := true, payload := some buffer, payloadSize := payloadSize }

/-! ## Example carriers -/

/-- A BMP image at 0x1000: "BM", `ImageSize = 48`, and 48 pixel bytes
`0x10, 0x11, ..., 0x3F` from offset 54 on. -/
def bmpImage : Mem :=
  memOfList (bytesAt 0x1000 [0x42, 0x4D] ++ bytesAt (0x1000 + 34) (le32 48) ++
    bytesAt (0x1000 + 54) ((List.range 48).map (fun i => 0x10 + i)))

/-- A payload memory holding the two bytes `A5 3C` at 0x5000. -/
def payloadMem : Mem := memOfList (bytesAt 0x5000 [0xA5, 0x3C])

/-- A carrier of 32 bytes at address 0 in a zero memory. -/
def smallCarrier : LSB := { data := 0, size := 32 }

end Stego

/-!
# Covert DNS channel (`covert-communications`)

Shallow embedding of `base32.c` and of the two name functions of `dns.c`, for a
build where `unsigned` and `int` have 32 bits and `uint8_t` has 8.

* Every array argument of `base32.c` (`data`, `encoded`, `result`) is an object of
  its own, a `Mem` indexed from 0.
* `unsigned` values are natural numbers below `2^32`.  The shifts of `buffer` wrap
  modulo `2^32`; the counters `count`, `next` and `bitsLeft` are only incremented
  under a guard that keeps them below `2^32`, and only decremented under a guard
  (or right after an adjustment) that keeps the difference non-negative.
* The `while` and `for` loops take a bound on their number of iterations and return
  `none` when it is used up.
-/

namespace CovertComms
open SelfLoader

/-! ## base32.c -/

/-- Store of one array element, `array[i] = b`. -/
def store (m : Mem) (i : Nat) (b : Byte) : Mem := fun x => if x = i then b else m x

/-- The string literal `"abcdefghijklmnopqrstuvwxyz234567"` of `base32_encode`. -/
def alphabet : List Byte :=
  [0x61, 0x62, 0x63, 0x64, 0x65, 0x66, 0x67, 0x68, 0x69, 0x6A, 0x6B, 0x6C, 0x6D,
   0x6E, 0x6F, 0x70, 0x71, 0x72, 0x73, 0x74, 0x75, 0x76, 0x77, 0x78, 0x79, 0x7A,
   0x32, 0x33, 0x34, 0x35, 0x36, 0x37]

/-- The loop of `base32_encode`:
`while (count < bufSize && (bitsLeft > 0 || next < length))`.  In the body
`if (bitsLeft < 5)` either takes the next input byte into `buffer` or pads with
`5 - bitsLeft` zero bits; then the top five pending bits select the character
stored to `result[count++]`.  Returns `count` and `result` on loop exit. -/
def encodeLoop (data : Mem) (length bufSize : Nat) :
    Nat → Nat → Nat → Nat → Nat → Mem → Option (Nat × Mem)
  | 0, _, _, _, _, _ => none
  | fuel + 1, count, buffer, next, bitsLeft, result =>
    if count < bufSize ∧ (bitsLeft > 0 ∨ next < length) then
      let st : Nat × Nat × Nat :=
        if bitsLeft < 5 then
          if next < length then
            (((buffer <<< 8) % 2 ^ 32) ||| ((data next).val &&& 0xFF), next + 1, bitsLeft + 8)
          else
            ((buffer <<< (5 - bitsLeft)) % 2 ^ 32, next, bitsLeft + (5 - bitsLeft))
        else (buffer, next, bitsLeft)
      let index := 0x1F &&& (st.1 >>> (st.2.2 - 5))
      encodeLoop data length bufSize fuel (count + 1) st.1 st.2.1 (st.2.2 - 5)
        (store result count (alphabet.getD index 0))
    else some (count, result)

/-- Embedding of `base32_encode(data, length, result, bufSize)`: the `int` returned
and the `result` array afterwards.  `length > (1 << 28)` returns `-1`; `length == 0`
stores the terminator and returns `0`; otherwise the loop runs from
`buffer = data[0]`, `next = 1`, `bitsLeft = 8`, the terminator is stored
`if (count < bufSize)`, and `count` is returned. -/
def base32_encode (data : Mem) (length : Nat) (result : Mem) (bufSize fuel : Nat) :
    Option (Int × Mem) :=
  if length > 1 <<< 28 then some (-1, result)
  else if length = 0 then some (0, store result 0 0)
  else
    (encodeLoop data length bufSize fuel 0 (data 0).val 1 8 result).map fun r =>
      (unsignedToInt r.1, if r.1 < bufSize then store r.2 r.1 0 else r.2)

/-- The character tests of the body of `base32_decode` on a character that is not
skipped: `'0'`, `'1'`, `'8'` are read as `'O'`, `'L'`, `'B'`; a letter yields
`(ch & 0x1F) - 1`, a digit `'2'..'7'` yields `ch - ('2' - 26)`; any other character
makes the function return `-1` (`none` here). -/
def digitOf (c : Nat) : Option Nat :=
  let ch := if c = 0x30 then 0x4F else if c = 0x31 then 0x4C else if c = 0x38 then 0x42 else c
  if (0x41 ≤ ch ∧ ch ≤ 0x5A) ∨ (0x61 ≤ ch ∧ ch ≤ 0x7A) then some ((ch &&& 0x1F) - 1)
  else if 0x32 ≤ ch ∧ ch ≤ 0x37 then some (ch - (0x32 - 26))
  else none

/-- The loop of `base32_decode`:
`for (ptr = encoded; count < bufSize && *ptr; ++ptr)`.  Blank, tab, CR, LF and `'-'`
are skipped; any other character contributes five bits to `buffer`, and a byte is
stored to `result[count++]` once eight bits are pending.  The result is
`(false, _, _)` for the early `return -1`, and `(true, count, result)` on loop
exit. -/
def decodeLoop (encoded : Mem) (bufSize : Nat) :
    Nat → Nat → Nat → Nat → Nat → Mem → Option (Bool × Nat × Mem)
  | 0, _, _, _, _, _ => none
  | fuel + 1, ptr, buffer, bitsLeft, count, result =>
    if count < bufSize ∧ (encoded ptr).val ≠ 0 then
      let ch := (encoded ptr).val
      if ch = 0x20 ∨ ch = 0x09 ∨ ch = 0x0D ∨ ch = 0x0A ∨ ch = 0x2D then
        decodeLoop encoded bufSize fuel (ptr + 1) buffer bitsLeft count result
      else
        match digitOf ch with
        | none => some (false, count, result)
        | some d =>
          let buffer1 := ((buffer <<< 5) % 2 ^ 32) ||| d
          let bitsLeft1 := bitsLeft + 5
          if bitsLeft1 ≥ 8 then
            decodeLoop encoded bufSize fuel (ptr + 1) buffer1 (bitsLeft1 - 8) (count + 1)
              (store result count ⟨(buffer1 >>> (bitsLeft1 - 8)) % 256, Nat.mod_lt _ (by decide)⟩)
          else
            decodeLoop encoded bufSize fuel (ptr + 1) buffer1 bitsLeft1 count result
    else some (true, count, result)

/-- Embedding of `base32_decode(encoded, result, bufSize)`: the `int` returned and
the `result` array afterwards. -/
def base32_decode (encoded : Mem) (result : Mem) (bufSize fuel : Nat) : Option (Int × Mem) :=
  (decodeLoop encoded bufSize fuel 0 0 0 0 result).map fun r =>
    if r.1 then
      (unsignedToInt r.2.1, if r.2.1 < bufSize then store r.2.2 r.2.1 0 else r.2.2)
    else (-1, r.2.2)

/-! ## Vocabulary and examples for base32 -/

/-- The `k`-th group of five bits of the bit string of `data[0 .. n)`, most
significant bit first, the string being continued with zero bits. -/
def digitAt (data : Mem) (n k : Nat) : Nat :=
  (((data (5 * k / 8)).val * 256 + (if 5 * k / 8 + 1 < n then (data (5 * k / 8 + 1)).val else 0))
    >>> (11 - 5 * k % 8)) % 32

/-- The three bytes "foo". -/
def fooData : Mem := memOfList (bytesAt 0 [0x66, 0x6F, 0x6F])

/-! ## dns.c

The strings and buffers of `dns.c` are addressed by pointers: `host` and `qname` are
addresses into the memory they are read from, `dns` and `name` addresses into the
memory that is written, and `NULL` is `0`.  `strchr`, `strlen` and `memmove` are the
functions of the C library. -/

/-- Macro `DNS_QNAME_OFFSET_INC` of `dns.h`. -/
def DNS_QNAME_OFFSET_INC : Nat := 0xC000

/-- Macro `MAX_QNAME_SEGMENT_LEN` of `dns.h`: `((DNS_QNAME_OFFSET_INC >> 8) - 1)`. -/
def MAX_QNAME_SEGMENT_LEN : Nat := (DNS_QNAME_OFFSET_INC >>> 8) - 1

/-- C library `strchr(s, c)`: the address of the first byte equal to `c` in the string
at `s`, or `none` for `NULL` when the terminator comes first. -/
def strchr (m : Mem) (c : Nat) : Nat → Nat → Option (Option Nat)
  | 0, _ => none
  | fuel + 1, s =>
    if (m s).val = c then some (some s)
    else if (m s).val = 0 then some none
    else strchr m c fuel (s + 1)

/-- C library `strlen(s)`. -/
def strlen (m : Mem) : Nat → Nat → Option Nat
  | 0, _ => none
  | fuel + 1, s =>
    if (m s).val = 0 then some 0 else (strlen m fuel (s + 1)).map fun n => n + 1

/-- C library `memmove(dst, src, n)` inside one object: the `n` bytes are copied as
if through a temporary buffer. -/
def memmove (m : Mem) (dst src n : Nat) : Mem :=
  fun x => if dst ≤ x ∧ x < dst + n then m (src + (x - dst)) else m x

/-- The loop `while (host < end) { *dns++ = *host++; }` of `ChangetoDnsNameFormat`;
the first argument is `end - host`. -/
def copySegment (hm : Mem) : Nat → Nat → Nat → Mem → Mem
  | 0, _, _, dm => dm
  | remaining + 1, host, dns, dm =>
    copySegment hm remaining (host + 1) (dns + 1) (store dm dns (hm host))

/-- The `do { ... } while (*host);` loop of `ChangetoDnsNameFormat`.  `end` is the
result of `strchr(host, '.')`, or `host + strlen(host)` when that is `NULL`;
`seglen` is `(unsigned)(end - host)`.  A `seglen` above `MAX_QNAME_SEGMENT_LEN` returns
false; otherwise the length byte and the segment are stored, a dot at `*host` is
skipped, and the loop goes on while `*host` is not zero.  After the loop the
terminator is stored and true is returned.  `sfuel` bounds the scans of `strchr` and
`strlen`. -/
def formatLoop (hm : Mem) (sfuel : Nat) : Nat → Nat → Nat → Mem → Option (Bool × Mem)
  | 0, _, _, _ => none
  | fuel + 1, host, dns, dm =>
    (strchr hm 0x2E sfuel host).bind fun found =>
    (match found with
      | some e => some e
      | none => (strlen hm sfuel host).map fun n => host + n).bind fun endp =>
    let seglen := (endp - host) % 2 ^ 32
    if seglen > MAX_QNAME_SEGMENT_LEN then some (false, dm)
    else
      let dm1 := store dm dns ⟨seglen % 256, Nat.mod_lt _ (by decide)⟩
      let dm2 := copySegment hm (endp - host) host (dns + 1) dm1
      let dns1 := dns + 1 + (endp - host)
      let host1 := if (hm endp).val = 0x2E then endp + 1 else endp
      if (hm host1).val ≠ 0 then formatLoop hm sfuel fuel host1 dns1 dm2
      else some (true, store dm2 dns1 0)

/-- Embedding of `ChangetoDnsNameFormat(host, dns)`: the `bool` returned and the
memory that `dns` points into afterwards. -/
def ChangetoDnsNameFormat (hm : Mem) (host : Nat) (dm : Mem) (dns fuel : Nat) :
    Option (Bool × Mem) :=
  if host = 0 ∨ (hm host).val = 0 then some (false, dm)
  else formatLoop hm fuel fuel host dns dm

/-- The first loop of `ReadName`, `while (*qname)`: it ends on
`nameLen + 1 >= nameSize`; a byte up to `MAX_QNAME_SEGMENT_LEN` is stored to
`name[nameLen++]`; a larger byte starts a 16-bit big-endian packet offset, and
`qname` continues at `dns_pkt + offset`.  Returns `nameLen` and the memory of
`name`. -/
def gatherLoop (pm : Mem) (dns_pkt name nameSize : Nat) :
    Nat → Nat → Nat → Mem → Option (Nat × Mem)
  | 0, _, _, _ => none
  | fuel + 1, qname, nameLen, nm =>
    if (pm qname).val ≠ 0 then
      if nameLen + 1 ≥ nameSize then some (nameLen, nm)
      else if (pm qname).val ≤ MAX_QNAME_SEGMENT_LEN then
        gatherLoop pm dns_pkt name nameSize fuel (qname + 1) (nameLen + 1)
          (store nm (name + nameLen) (pm qname))
      else
        let offset :=
          ((((pm qname).val <<< 8) + (pm (qname + 1)).val) + 2 ^ 32 - DNS_QNAME_OFFSET_INC) % 2 ^ 32
        gatherLoop pm dns_pkt name nameSize fuel (dns_pkt + offset) nameLen nm
    else some (nameLen, nm)

/-- The second loop of `ReadName`, `while (segLen < nameLen)`: the length byte at
`name[segLen]` is replaced by a dot and `segLen` moves past the segment. -/
def dotLoop (name nameLen : Nat) : Nat → Nat → Mem → Option Mem
  | 0, _, _ => none
  | fuel + 1, segLen, nm =>
    if segLen < nameLen then
      dotLoop name nameLen fuel ((segLen + 1 + (nm (name + segLen)).val) % 2 ^ 32)
        (store nm (name + segLen) 0x2E)
    else some nm

/-- Embedding of `ReadName(qname, dns_pkt, name, nameSize)`: the memory that `name`
points into afterwards.  `pm` is the memory of the packet. -/
def ReadName (pm : Mem) (qname dns_pkt : Nat) (nm : Mem) (name nameSize fuel : Nat) :
    Option Mem :=
  (gatherLoop pm dns_pkt name nameSize fuel qname 0 (store nm name 0)).bind fun r =>
    let nm2 := store r.2 (name + r.1) 0
    if r.1 = 0 then some nm2
    else
      dotLoop name (r.1 - 1) fuel (nm2 name).val (memmove nm2 name (name + 1) r.1)

/-! ## Vocabulary and examples for dns.c -/

/-- The bytes `bs` are stored from address `p` on. -/
def holds (m : Mem) : Nat → List Byte → Prop
  | _, [] => True
  | p, b :: bs => m p = b ∧ holds m (p + 1) bs

/-- Every label after the first, each preceded by a dot. -/
def dotTail : List (List Byte) → List Byte
  | [] => []
  | l :: ls => 0x2E :: (l ++ dotTail ls)

/-- The host string of a list of labels: the labels separated by dots. -/
def dotted : List (List Byte) → List Byte
  | [] => []
  | l :: ls => l ++ dotTail ls

/-- The DNS name format of a list of labels: each label preceded by its length. -/
def qnameOf : List (List Byte) → List Byte
  | [] => []
  | l :: ls => ⟨l.length % 256, Nat.mod_lt _ (by decide)⟩ :: (l ++ qnameOf ls)

/-- A byte of a label: not the terminator and not a dot. -/
def labelByte (b : Byte) : Prop := b.val ≠ 0 ∧ b.val ≠ 0x2E

/-- A label as in a host name: not empty, ASCII characters other than the dot. -/
def asciiLabel (l : List Byte) : Prop :=
  l ≠ [] ∧ ∀ b, b ∈ l → labelByte b ∧ b.val ≤ 127

/-- The labels of "www.google.com". -/
def wwwGoogleCom : List (List Byte) :=
  [[0x77, 0x77, 0x77], [0x67, 0x6F, 0x6F, 0x67, 0x6C, 0x65], [0x63, 0x6F, 0x6D]]

/-- The string "www.google.com" at address `0x100`. -/
def hostMem : Mem :=
  memOfList (bytesAt 0x100 ((dotted wwwGoogleCom).map fun b => b.val))

/-- A host string of one label of `2^32` letters `a`, at address `0x10000`. -/
def hugeLabelHost : Mem :=
  fun x => if 0x10000 ≤ x ∧ x < 0x10000 + 2 ^ 32 then 0x61 else 0

end CovertComms

/-! # Theorems -/

namespace SelfLoader

/-! ## Building the memory image (`buildMemoryImage`) -/

theorem mapSection_apply (file : Mem) (fileImage imageBase : Nat) (img : Mem) (sh a : Nat) :
    mapSection file fileImage imageBase img sh a =
      if inCopied file imageBase sh a
      then file (sectionSrc file fileImage sh + (a - sectionDest file imageBase sh))
      else img a := by
  unfold mapSection inCopied copyLen sectionSrc sectionDest memcpy
  by_cases h0 : secSizeOfRawData file sh = 0
  · simp only [h0, if_true, Nat.add_zero]
    rw [if_neg (by omega)]
  · by_cases h1 : secVirtualSize file sh > secSizeOfRawData file sh
    · have : min (secSizeOfRawData file sh) (secVirtualSize file sh) = secSizeOfRawData file sh :=
        Nat.min_eq_left (Nat.le_of_lt h1)
      simp [h0, h1, this]
    · have : min (secSizeOfRawData file sh) (secVirtualSize file sh) = secVirtualSize file sh :=
        Nat.min_eq_right (Nat.le_of_not_lt h1)
      simp [h0, h1, this]

theorem sectionAt_succ (first k : Nat) :
    sectionAt (first + SIZEOF_SECTION_HEADER) k = sectionAt first (k + 1) := by
  unfold sectionAt; ring

/-- Frame of the section loop: an address in no copied range keeps its byte. -/
theorem sectionLoop_frame (file : Mem) (fileImage imageBase : Nat) (a : Nat) :
    ∀ (n first : Nat) (img : Mem),
      (∀ k, k < n → ¬ inCopied file imageBase (sectionAt first k) a) →
      sectionLoop file fileImage imageBase n first img a = img a := by
  intro n
  induction n with
  | zero => intro first img _; rfl
  | succ n ih =>
    intro first img h
    unfold sectionLoop
    rw [ih]
    · rw [mapSection_apply]
      have h0 := h 0 (Nat.succ_pos n)
      simp only [sectionAt, Nat.mul_zero, Nat.add_zero] at h0
      simp [h0]
    · intro k hk
      rw [sectionAt_succ]
      exact h (k + 1) (Nat.succ_lt_succ hk)

/-- An address copied for section `k` and for no later section holds the file byte
of section `k` after the loop. -/
theorem sectionLoop_copied (file : Mem) (fileImage imageBase : Nat) (a : Nat) :
    ∀ (n first : Nat) (img : Mem) (k : Nat), k < n →
      inCopied file imageBase (sectionAt first k) a →
      (∀ j, k < j → j < n → ¬ inCopied file imageBase (sectionAt first j) a) →
      sectionLoop file fileImage imageBase n first img a =
        file (sectionSrc file fileImage (sectionAt first k) +
          (a - sectionDest file imageBase (sectionAt first k))) := by
  intro n
  induction n with
  | zero => intro first img k hk; omega
  | succ n ih =>
    intro first img k hk hin hlater
    unfold sectionLoop
    cases k with
    | zero =>
      rw [sectionLoop_frame]
      · rw [mapSection_apply]
        simp only [sectionAt, Nat.mul_zero, Nat.add_zero] at hin ⊢
        simp [hin]
      · intro j hj
        rw [sectionAt_succ]
        exact hlater (j + 1) (Nat.succ_pos j) (Nat.succ_lt_succ hj)
    | succ k =>
      rw [ih (first + SIZEOF_SECTION_HEADER) _ k (Nat.lt_of_succ_lt_succ hk)]
      · rw [sectionAt_succ]
      · rw [sectionAt_succ]; exact hin
      · intro j hkj hjn
        rw [sectionAt_succ]
        exact hlater (j + 1) (Nat.succ_lt_succ hkj) (Nat.succ_lt_succ hjn)

theorem buildMemoryImage_of_header (file : Mem) (fileImage : Nat) (img : Mem) (imageBase peHdr : Nat)
    (h : getPEHeader file fileImage = some peHdr) :
    buildMemoryImage file fileImage img imageBase =
      (true, sectionLoop file fileImage imageBase
        (read16 file (peHdr + OFF_NumberOfSections)) (IMAGE_FIRST_SECTION file peHdr)
        (memcpy img imageBase file fileImage (read32 file (peHdr + OFF_SizeOfHeaders)))) := by
  unfold buildMemoryImage
  rw [h]

/-- C3. For a file image accepted by `getPEHeader`, and a section `k` of the section
table whose `SizeOfRawData` is non-zero and whose copied range is met by the copied
range of no other section: `buildMemoryImage` succeeds and, for every
`i < min(SizeOfRawData, VirtualSize)`, the byte of the in-memory image at
`VirtualAddress + i` is the byte of the file image at `PointerToRawData + i`. -/
theorem buildMemoryImage_section_copied (file : Mem) (fileImage : Nat) (img : Mem)
    (imageBase peHdr k i : Nat)
    (hpe : getPEHeader file fileImage = some peHdr)
    (hk : k < read16 file (peHdr + OFF_NumberOfSections))
    (hraw : secSizeOfRawData file (sectionAt (IMAGE_FIRST_SECTION file peHdr) k) ≠ 0)
    (hdisj : ∀ j, j < read16 file (peHdr + OFF_NumberOfSections) → j ≠ k → ∀ a,
      inCopied file imageBase (sectionAt (IMAGE_FIRST_SECTION file peHdr) k) a →
      ¬ inCopied file imageBase (sectionAt (IMAGE_FIRST_SECTION file peHdr) j) a)
    (hi : i < min (secSizeOfRawData file (sectionAt (IMAGE_FIRST_SECTION file peHdr) k))
                  (secVirtualSize file (sectionAt (IMAGE_FIRST_SECTION file peHdr) k))) :
    (buildMemoryImage file fileImage img imageBase).1 = true ∧
    (buildMemoryImage file fileImage img imageBase).2
        (ADDR imageBase (secVirtualAddress file (sectionAt (IMAGE_FIRST_SECTION file peHdr) k)) + i)
      = file (ADDR fileImage
          (secPointerToRawData file (sectionAt (IMAGE_FIRST_SECTION file peHdr) k)) + i) := by
  rw [buildMemoryImage_of_header file fileImage img imageBase peHdr hpe]
  refine ⟨rfl, ?_⟩
  have hin : inCopied file imageBase (sectionAt (IMAGE_FIRST_SECTION file peHdr) k)
      (ADDR imageBase (secVirtualAddress file (sectionAt (IMAGE_FIRST_SECTION file peHdr) k)) + i) := by
    unfold inCopied sectionDest copyLen
    rw [if_neg hraw]
    omega
  show sectionLoop _ _ _ _ _ _ _ = _
  rw [sectionLoop_copied file fileImage imageBase _ _ _ _ k hk hin]
  · unfold sectionSrc sectionDest
    rw [Nat.add_sub_cancel_left]
  · intro j hkj hjn
    exact hdisj j hjn (by omega) _ hin

/-! ## Image validation (`getPEHeader`) -/

theorem isValidDosImage_fst (m : Mem) (image : Nat) (h : image ≠ 0) :
    (isValidDosImage m image).1 = decide (read16 m image = IMAGE_DOS_SIGNATURE) := by
  simp [isValidDosImage, h, eq_comm]

theorem isValidNtImage64_fst (m : Mem) (p : Nat) (h : p ≠ 0) :
    (isValidNtImage64 m p).1 =
      decide (read32 m p = IMAGE_NT_SIGNATURE ∧
        read16 m (p + OFF_Machine) = IMAGE_FILE_MACHINE_AMD64 ∧
        read16 m (p + OFF_OptionalHeader) = IMAGE_NT_OPTIONAL_HDR64_MAGIC) := by
  unfold isValidNtImage64
  by_cases h1 : read32 m p = IMAGE_NT_SIGNATURE <;>
  by_cases h2 : read16 m (p + OFF_Machine) = IMAGE_FILE_MACHINE_AMD64 <;>
  by_cases h3 : read16 m (p + OFF_OptionalHeader) = IMAGE_NT_OPTIONAL_HDR64_MAGIC <;>
  simp [h, h1, h2, h3]

/-- Every read of `isValidNtImage64` lies in the first 26 bytes of the structure. -/
theorem isValidNtImage64_reads (m : Mem) (p : Nat) :
    ∀ e ∈ (isValidNtImage64 m p).2, p ≤ e.addr ∧ e.addr + e.size ≤ p + 26 := by
  intro e he
  unfold isValidNtImage64 at he
  simp only [OFF_Machine, OFF_OptionalHeader] at he
  split_ifs at he <;> simp at he
  all_goals
    rcases he with rfl | rfl | rfl <;> simp [Event.addr, Event.size]

/-- Every read of `getPEHeader` lies in the DOS header `[image, image + 64)` or in
the first 26 bytes of the structure at `ADDR(image, e_lfanew)`. -/
theorem getPEHeaderTr_reads (m : Mem) (image : Nat) :
    ∀ e ∈ (getPEHeaderTr m image).2,
      (image ≤ e.addr ∧ e.addr + e.size ≤ image + 64) ∨
      (ADDR image (e_lfanew m image) ≤ e.addr ∧
        e.addr + e.size ≤ ADDR image (e_lfanew m image) + 26) := by
  intro e he
  have hd : ∀ e ∈ (isValidDosImage m image).2, image ≤ e.addr ∧ e.addr + e.size ≤ image + 64 := by
    intro e he
    unfold isValidDosImage at he
    split_ifs at he <;> simp at he
    subst he
    simp [Event.addr, Event.size]
  unfold getPEHeaderTr at he
  simp only [OFF_e_lfanew] at he
  split_ifs at he
  · exact Or.inl (hd e he)
  · simp only [List.mem_append, List.mem_singleton] at he
    rcases he with (he | rfl) | he
    · exact Or.inl (hd e he)
    · left; simp [Event.addr, Event.size]
    · exact Or.inr (isValidNtImage64_reads m _ e he)
  · simp only [List.mem_append, List.mem_singleton] at he
    rcases he with (he | rfl) | he
    · exact Or.inl (hd e he)
    · left; simp [Event.addr, Event.size]
    · exact Or.inr (isValidNtImage64_reads m _ e he)

/-- The four field checks of `getPEHeader`, as a proposition. -/
theorem getPEHeader_eq (m : Mem) (image : Nat) (himg : image ≠ 0)
    (hhdr : ADDR image (e_lfanew m image) ≠ 0) :
    getPEHeader m image =
      if read16 m image = IMAGE_DOS_SIGNATURE ∧
          read32 m (ADDR image (e_lfanew m image)) = IMAGE_NT_SIGNATURE ∧
          read16 m (ADDR image (e_lfanew m image) + OFF_Machine) = IMAGE_FILE_MACHINE_AMD64 ∧
          read16 m (ADDR image (e_lfanew m image) + OFF_OptionalHeader)
            = IMAGE_NT_OPTIONAL_HDR64_MAGIC
      then some (ADDR image (e_lfanew m image)) else none := by
  unfold getPEHeader getPEHeaderTr
  simp only [isValidDosImage_fst m image himg, isValidNtImage64_fst m _ hhdr]
  by_cases h0 : read16 m image = IMAGE_DOS_SIGNATURE
  · by_cases h1 : read32 m (ADDR image (e_lfanew m image)) = IMAGE_NT_SIGNATURE ∧
        read16 m (ADDR image (e_lfanew m image) + OFF_Machine) = IMAGE_FILE_MACHINE_AMD64 ∧
        read16 m (ADDR image (e_lfanew m image) + OFF_OptionalHeader)
          = IMAGE_NT_OPTIONAL_HDR64_MAGIC
    · simp [h0, h1]
    · simp [h0, h1]
  · simp [h0]

/-- C1. On a 64-bit build, for an image buffer at a non-null address whose header
address `ADDR(image, e_lfanew)` is non-null, `getPEHeader` returns the pointer to the
structure at offset `e_lfanew` exactly when the 2-byte magic at offset 0 is 0x5A4D,
the 4-byte signature at `e_lfanew` is 0x00004550, the machine field is 0x8664 and the
optional-header magic is 0x20B; in every other case it returns null. -/
theorem getPEHeader_spec (m : Mem) (image : Nat) (himg : image ≠ 0)
    (hhdr : ADDR image (e_lfanew m image) ≠ 0) :
    (getPEHeader m image ≠ none ↔
      (read16 m image = 0x5A4D ∧
       read32 m (ADDR image (e_lfanew m image)) = 0x00004550 ∧
       read16 m (ADDR image (e_lfanew m image) + 4) = 0x8664 ∧
       read16 m (ADDR image (e_lfanew m image) + 24) = 0x20B)) ∧
    (getPEHeader m image ≠ none →
      getPEHeader m image = some (ADDR image (e_lfanew m image))) := by
  rw [getPEHeader_eq m image himg hhdr]
  simp only [IMAGE_DOS_SIGNATURE, IMAGE_NT_SIGNATURE, IMAGE_FILE_MACHINE_AMD64,
    IMAGE_NT_OPTIONAL_HDR64_MAGIC, OFF_Machine, OFF_OptionalHeader]
  split_ifs with h
  · simp [h]
  · simp [h]

/-- Witness of C1 on a concrete buffer at 0x10000 with its NT header at offset 64. -/
theorem getPEHeader_spec_witness :
    getPEHeader truncatedImageThenHeader 0x10000 = some 0x10040 ∧
    (getPEHeader truncatedImageThenHeader 0x10000 ≠ none ↔
      (read16 truncatedImageThenHeader 0x10000 = 0x5A4D ∧
       read32 truncatedImageThenHeader
         (ADDR 0x10000 (e_lfanew truncatedImageThenHeader 0x10000)) = 0x00004550 ∧
       read16 truncatedImageThenHeader
         (ADDR 0x10000 (e_lfanew truncatedImageThenHeader 0x10000) + 4) = 0x8664 ∧
       read16 truncatedImageThenHeader
         (ADDR 0x10000 (e_lfanew truncatedImageThenHeader 0x10000) + 24) = 0x20B)) :=
  ⟨by decide,
   (getPEHeader_spec truncatedImageThenHeader 0x10000 (by decide) (by decide)).1⟩

/-- C2, counterexample. A 64-byte buffer at 0x10000 with `e_lfanew = 64`, so that
`e_lfanew + sizeof(IMAGE_NT_HEADERS64) > 64`: with zero bytes after the buffer,
`getPEHeader` reads the 4 bytes at offset 64, outside the buffer; and when the bytes
after the buffer hold header fields, validation does not fail at all. -/
theorem getPEHeader_reads_past_buffer :
    e_lfanew truncatedImage 0x10000 + SIZEOF_NT_HEADERS64 > 64 ∧
    Event.peRead (0x10000 + 64) 4 ∈ (getPEHeaderTr truncatedImage 0x10000).2 ∧
    e_lfanew truncatedImageThenHeader 0x10000 + SIZEOF_NT_HEADERS64 > 64 ∧
    getPEHeader truncatedImageThenHeader 0x10000 = some (0x10000 + 64) := by
  decide

/-- The reads of `getPEHeader`, for every memory: the DOS magic; when it matches,
`e_lfanew` and the Signature at the header address; then `Machine` and the
optional-header magic, each only when the value before it matched. -/
theorem getPEHeaderTr_trace (m : Mem) (image : Nat) (himg : image ≠ 0)
    (hhdr : ADDR image (e_lfanew m image) ≠ 0) :
    (getPEHeaderTr m image).2 =
      Event.peRead image 2 ::
        (if read16 m image ≠ IMAGE_DOS_SIGNATURE then []
         else Event.peRead (image + OFF_e_lfanew) 4 ::
           Event.peRead (ADDR image (e_lfanew m image)) 4 ::
           (if read32 m (ADDR image (e_lfanew m image)) ≠ IMAGE_NT_SIGNATURE then []
            else Event.peRead (ADDR image (e_lfanew m image) + OFF_Machine) 2 ::
              (if read16 m (ADDR image (e_lfanew m image) + OFF_Machine)
                  ≠ IMAGE_FILE_MACHINE_AMD64 then []
               else [Event.peRead (ADDR image (e_lfanew m image) + OFF_OptionalHeader) 2]))) := by
  unfold getPEHeaderTr isValidDosImage isValidNtImage64
  simp only [if_neg himg, if_neg hhdr]
  by_cases h0 : read16 m image = IMAGE_DOS_SIGNATURE
  · by_cases h1 : read32 m (ADDR image (e_lfanew m image)) = IMAGE_NT_SIGNATURE
    · by_cases h2 : read16 m (ADDR image (e_lfanew m image) + OFF_Machine)
          = IMAGE_FILE_MACHINE_AMD64
      · by_cases h3 : read16 m (ADDR image (e_lfanew m image) + OFF_OptionalHeader)
            = IMAGE_NT_OPTIONAL_HDR64_MAGIC
        · simp [h0, h1, h2, h3]
        · simp [h0, h1, h2, h3]
      · simp [h0, h1, h2]
    · simp [h0, h1]
  · have h0' : ¬ IMAGE_DOS_SIGNATURE = read16 m image := fun h => h0 h.symm
    simp [h0, h0']

/-- C2, amended. `getPEHeader` takes no length: for a buffer of any declared length
`n`, at a non-null address with a non-null header address, it reads the DOS magic
and, when it matches, `e_lfanew` and the Signature at offset `e_lfanew`, then `Machine`
and the optional-header magic, each only when the value before it matched; and it
fails exactly when one of the four checked values mismatches.  So when the DOS magic
matches and the buffer ends before the end of the Signature field
(`n < e_lfanew + 4`), a read reaches past `image + n`.  When the DOS header and the
whole NT-headers structure lie inside the buffer (`64 ≤ n`, `e_lfanew + 264 ≤ n`),
every read stays inside `[image, image + n)`. -/
theorem getPEHeader_reads_in_bounds (m : Mem) (image n : Nat) :
    (64 ≤ n → e_lfanew m image + SIZEOF_NT_HEADERS64 ≤ n → image + n ≤ 2 ^ 64 →
      ∀ e ∈ (getPEHeaderTr m image).2, image ≤ e.addr ∧ e.addr + e.size ≤ image + n) ∧
    (image ≠ 0 → ADDR image (e_lfanew m image) ≠ 0 →
      (getPEHeaderTr m image).2 =
        Event.peRead image 2 ::
          (if read16 m image ≠ IMAGE_DOS_SIGNATURE then []
           else Event.peRead (image + OFF_e_lfanew) 4 ::
             Event.peRead (ADDR image (e_lfanew m image)) 4 ::
             (if read32 m (ADDR image (e_lfanew m image)) ≠ IMAGE_NT_SIGNATURE then []
              else Event.peRead (ADDR image (e_lfanew m image) + OFF_Machine) 2 ::
                (if read16 m (ADDR image (e_lfanew m image) + OFF_Machine)
                    ≠ IMAGE_FILE_MACHINE_AMD64 then []
                 else [Event.peRead
                   (ADDR image (e_lfanew m image) + OFF_OptionalHeader) 2]))) ∧
      (getPEHeader m image = none ↔
        ¬ (read16 m image = IMAGE_DOS_SIGNATURE ∧
          read32 m (ADDR image (e_lfanew m image)) = IMAGE_NT_SIGNATURE ∧
          read16 m (ADDR image (e_lfanew m image) + OFF_Machine) = IMAGE_FILE_MACHINE_AMD64 ∧
          read16 m (ADDR image (e_lfanew m image) + OFF_OptionalHeader)
            = IMAGE_NT_OPTIONAL_HDR64_MAGIC)) ∧
      (n < e_lfanew m image + 4 → image + e_lfanew m image + 4 ≤ 2 ^ 64 →
        read16 m image = IMAGE_DOS_SIGNATURE →
        ∃ e ∈ (getPEHeaderTr m image).2, image + n < e.addr + e.size)) := by
  constructor
  · intro hn hfit hwrap e he
    have hA : ADDR image (e_lfanew m image) = image + e_lfanew m image := by
      unfold ADDR
      apply Nat.mod_eq_of_lt
      unfold SIZEOF_NT_HEADERS64 at hfit
      omega
    unfold SIZEOF_NT_HEADERS64 at hfit
    rcases getPEHeaderTr_reads m image e he with h | h
    · omega
    · rw [hA] at h
      omega
  · intro himg hhdr
    have htr := getPEHeaderTr_trace m image himg hhdr
    refine ⟨htr, ?_, ?_⟩
    · rw [getPEHeader_eq m image himg hhdr]
      split_ifs with h
      · simp [h]
      · simp [h]
    · intro hshort hwrap hmz
      have hA : ADDR image (e_lfanew m image) = image + e_lfanew m image := by
        unfold ADDR
        apply Nat.mod_eq_of_lt
        omega
      refine ⟨Event.peRead (ADDR image (e_lfanew m image)) 4, ?_, ?_⟩
      · rw [htr, if_neg (not_not.mpr hmz)]
        exact List.mem_cons_of_mem _ (List.mem_cons_of_mem _ (List.mem_cons_self _ _))
      · show image + n < ADDR image (e_lfanew m image) + 4
        rw [hA]
        omega

/-- Witness of the amended C2: in a buffer of 328 bytes holding both headers, the read
of the optional-header magic stays inside the buffer; in the 64-byte buffer with
`e_lfanew = 64` a read reaches past the buffer. -/
theorem getPEHeader_reads_in_bounds_witness :
    (Event.peRead 0x10058 2 ∈ (getPEHeaderTr truncatedImageThenHeader 0x10000).2 ∧
      0x10000 ≤ (Event.peRead 0x10058 2).addr ∧
      (Event.peRead 0x10058 2).addr + (Event.peRead 0x10058 2).size ≤ 0x10000 + 328) ∧
    (∃ e ∈ (getPEHeaderTr truncatedImage 0x10000).2, 0x10000 + 64 < e.addr + e.size) :=
  ⟨⟨by decide,
    (getPEHeader_reads_in_bounds truncatedImageThenHeader 0x10000 328).1
      (by decide) (by decide) (by decide) (Event.peRead 0x10058 2) (by decide)⟩,
   ((getPEHeader_reads_in_bounds truncatedImage 0x10000 64).2 (by decide) (by decide)).2.2
      (by decide) (by decide) (by decide)⟩

/-- Witness of C3: section 0 of the two-section example, byte 2. -/
theorem buildMemoryImage_section_copied_witness :
    (buildMemoryImage twoSectionFile 0x10000 zeroMem 0x20000).1 = true ∧
    (buildMemoryImage twoSectionFile 0x10000 zeroMem 0x20000).2
        (ADDR 0x20000 (secVirtualAddress twoSectionFile
          (sectionAt (IMAGE_FIRST_SECTION twoSectionFile 0x10040) 0)) + 2)
      = twoSectionFile (ADDR 0x10000 (secPointerToRawData twoSectionFile
          (sectionAt (IMAGE_FIRST_SECTION twoSectionFile 0x10040) 0)) + 2) :=
  buildMemoryImage_section_copied twoSectionFile 0x10000 zeroMem 0x20000 0x10040 0 2
    (by decide) (by decide) (by decide)
    (by
      intro j hj hne a _ h
      have hn : read16 twoSectionFile (0x10040 + OFF_NumberOfSections) = 2 := by decide
      rw [hn] at hj
      have hj1 : j = 1 := by omega
      subst hj1
      have hlen : copyLen twoSectionFile
          (sectionAt (IMAGE_FIRST_SECTION twoSectionFile 0x10040) 1) = 0 := by decide
      unfold inCopied at h
      rw [hlen] at h
      omega)
    (by decide)

/-- C4. After `buildMemoryImage` succeeds, the first `SizeOfHeaders` bytes of the
in-memory image equal the first `SizeOfHeaders` bytes of the file image, provided
no section's copied range meets `[imageBase, imageBase + SizeOfHeaders)`. -/
theorem buildMemoryImage_headers_copied (file : Mem) (fileImage : Nat) (img : Mem)
    (imageBase peHdr i : Nat)
    (hpe : getPEHeader file fileImage = some peHdr)
    (hdisj : ∀ j, j < read16 file (peHdr + OFF_NumberOfSections) → ∀ a,
      inCopied file imageBase (sectionAt (IMAGE_FIRST_SECTION file peHdr) j) a →
      ¬ (imageBase ≤ a ∧ a < imageBase + read32 file (peHdr + OFF_SizeOfHeaders)))
    (hi : i < read32 file (peHdr + OFF_SizeOfHeaders)) :
    (buildMemoryImage file fileImage img imageBase).1 = true ∧
    (buildMemoryImage file fileImage img imageBase).2 (imageBase + i) = file (fileImage + i) := by
  rw [buildMemoryImage_of_header file fileImage img imageBase peHdr hpe]
  refine ⟨rfl, ?_⟩
  show sectionLoop _ _ _ _ _ _ _ = _
  rw [sectionLoop_frame]
  · unfold memcpy
    rw [if_pos (by omega), Nat.add_sub_cancel_left]
  · intro k hk hin
    exact hdisj k hk _ hin (by omega)

theorem twoSectionFile_copied (j a : Nat)
    (hj : j < read16 twoSectionFile (0x10040 + OFF_NumberOfSections))
    (h : inCopied twoSectionFile 0x20000
      (sectionAt (IMAGE_FIRST_SECTION twoSectionFile 0x10040) j) a) :
    0x21000 ≤ a ∧ a < 0x21003 := by
  have hn : read16 twoSectionFile (0x10040 + OFF_NumberOfSections) = 2 := by decide
  rw [hn] at hj
  unfold inCopied at h
  interval_cases j
  · have hd : sectionDest twoSectionFile 0x20000
        (sectionAt (IMAGE_FIRST_SECTION twoSectionFile 0x10040) 0) = 0x21000 := by decide
    have hl : copyLen twoSectionFile
        (sectionAt (IMAGE_FIRST_SECTION twoSectionFile 0x10040) 0) = 3 := by decide
    rw [hd, hl] at h
    omega
  · have hl : copyLen twoSectionFile
        (sectionAt (IMAGE_FIRST_SECTION twoSectionFile 0x10040) 1) = 0 := by decide
    rw [hl] at h
    omega

/-- C5. Starting from an all-zero region, after `buildMemoryImage` every byte outside
the header range `[imageBase, imageBase + SizeOfHeaders)` and outside every section's
copied range is zero; and the loop body for a section with `SizeOfRawData = 0` writes
nothing (it returns the image it was given). -/
theorem buildMemoryImage_frame_zero (file : Mem) (fileImage : Nat) (img : Mem)
    (imageBase peHdr : Nat)
    (hpe : getPEHeader file fileImage = some peHdr)
    (hzero : ∀ a, img a = 0) :
    (∀ a, ¬ (imageBase ≤ a ∧ a < imageBase + read32 file (peHdr + OFF_SizeOfHeaders)) →
      (∀ k, k < read16 file (peHdr + OFF_NumberOfSections) →
        ¬ inCopied file imageBase (sectionAt (IMAGE_FIRST_SECTION file peHdr) k) a) →
      (buildMemoryImage file fileImage img imageBase).2 a = 0) ∧
    (∀ k, k < read16 file (peHdr + OFF_NumberOfSections) →
      secSizeOfRawData file (sectionAt (IMAGE_FIRST_SECTION file peHdr) k) = 0 →
      ∀ img' : Mem, mapSection file fileImage imageBase img'
        (sectionAt (IMAGE_FIRST_SECTION file peHdr) k) = img') := by
  constructor
  · intro a hhdr hsec
    rw [buildMemoryImage_of_header file fileImage img imageBase peHdr hpe]
    show sectionLoop _ _ _ _ _ _ _ = _
    rw [sectionLoop_frame _ _ _ _ _ _ _ hsec]
    unfold memcpy
    rw [if_neg hhdr]
    exact hzero a
  · intro k _ hraw img'
    unfold mapSection
    rw [if_pos hraw]

/-- Witness of C5 on the two-section example loaded into a zero region at 0x20000. -/
theorem buildMemoryImage_frame_zero_witness :
    (buildMemoryImage twoSectionFile 0x10000 zeroMem 0x20000).2 0x22000 = 0 ∧
    mapSection twoSectionFile 0x10000 0x20000 zeroMem
      (sectionAt (IMAGE_FIRST_SECTION twoSectionFile 0x10040) 1) = zeroMem :=
  have h := buildMemoryImage_frame_zero twoSectionFile 0x10000 zeroMem 0x20000 0x10040
    (by decide) (fun _ => rfl)
  ⟨h.1 0x22000 (by decide) (fun k hk hin => by
      have := twoSectionFile_copied k 0x22000 hk hin
      omega),
   h.2 1 (by decide) (by decide) zeroMem⟩

/-- Witness of C4 on the two-section example: byte 1 of the headers ('Z'). -/
theorem buildMemoryImage_headers_copied_witness :
    (buildMemoryImage twoSectionFile 0x10000 zeroMem 0x20000).1 = true ∧
    (buildMemoryImage twoSectionFile 0x10000 zeroMem 0x20000).2 (0x20000 + 1)
      = twoSectionFile (0x10000 + 1) :=
  buildMemoryImage_headers_copied twoSectionFile 0x10000 zeroMem 0x20000 0x10040 1
    (by decide)
    (fun j hj a hin => by
      have := twoSectionFile_copied j a hj hin
      have hs : read32 twoSectionFile (0x10040 + OFF_SizeOfHeaders) = 0x200 := by decide
      rw [hs]
      omega)
    (by decide)

/-! ## Relocations (`performRelocations`) -/

theorem read32_lt (m : Mem) (a : Nat) : read32 m a < 2 ^ 32 := by
  unfold read32
  have h0 := (m a).isLt
  have h1 := (m (a + 1)).isLt
  have h2 := (m (a + 2)).isLt
  have h3 := (m (a + 3)).isLt
  omega

theorem readLE_lt (m : Mem) : ∀ (n a : Nat), readLE m a n < 256 ^ n := by
  intro n
  induction n with
  | zero => intro a; simp [readLE]
  | succ n ih =>
    intro a
    unfold readLE
    have h0 := (m a).isLt
    have h1 := ih (a + 1)
    rw [Nat.pow_succ]
    omega

theorem read64_lt (m : Mem) (a : Nat) : read64 m a < 2 ^ 64 := by
  have h := readLE_lt m 8 a
  unfold read64
  norm_num at h ⊢
  exact h

theorem patches_append (t1 t2 : List Event) : patches (t1 ++ t2) = patches t1 ++ patches t2 := by
  unfold patches; exact List.filterMap_append _ _ _

theorem visits_append (t1 t2 : List Event) : visits (t1 ++ t2) = visits t1 ++ visits t2 := by
  unfold visits; exact List.filterMap_append _ _ _

theorem getPEHeaderTr_peRead (m : Mem) (image : Nat) :
    ∀ e ∈ (getPEHeaderTr m image).2, ∃ a s, e = Event.peRead a s := by
  intro e he
  unfold getPEHeaderTr isValidDosImage isValidNtImage64 at he
  split_ifs at he
  all_goals simp at he
  all_goals aesop

theorem patches_of_peRead (tr : List Event) (h : ∀ e ∈ tr, ∃ a s, e = Event.peRead a s) :
    patches tr = [] := by
  unfold patches
  rw [List.filterMap_eq_nil_iff]
  intro e he
  obtain ⟨a, s, rfl⟩ := h e he
  rfl

theorem visits_of_peRead (tr : List Event) (h : ∀ e ∈ tr, ∃ a s, e = Event.peRead a s) :
    visits tr = [] := by
  unfold visits
  rw [List.filterMap_eq_nil_iff]
  intro e he
  obtain ⟨a, s, rfl⟩ := h e he
  rfl

theorem performRelocations_of_header (fuel : Nat) (m : Mem) (imageBase peHdr : Nat)
    (hpe : getPEHeader m imageBase = some peHdr) :
    performRelocations fuel m imageBase =
      if deltaOf m imageBase peHdr = 0 then
        some { ok := true, mem := m,
               trace := (getPEHeaderTr m imageBase).2 ++ [Event.peRead (peHdr + OFF_ImageBase) 8] }
      else if relocDirSize m peHdr = 0 then
        some { ok := true, mem := m, trace := headerTrace m imageBase peHdr }
      else
        (relocLoop imageBase (deltaOf m imageBase peHdr) (relocEnd m imageBase peHdr)
          fuel (relocStart m imageBase peHdr)
          { mem := m, trace := headerTrace m imageBase peHdr }).map
            (fun s => { ok := true, mem := s.mem, trace := s.trace }) := by
  unfold getPEHeader at hpe
  unfold performRelocations headerTrace deltaOf relocEnd relocStart relocDirSize relocDirVA
  simp only [hpe]
  split_ifs
  · rfl
  · rfl
  · cases relocLoop _ _ _ fuel _ _ <;> rfl

theorem headerTrace_peRead (m : Mem) (imageBase peHdr : Nat) :
    ∀ e ∈ headerTrace m imageBase peHdr, ∃ a s, e = Event.peRead a s := by
  intro e he
  unfold headerTrace at he
  simp only [List.mem_append, List.mem_singleton, List.mem_cons, List.mem_nil_iff,
    or_false] at he
  rcases he with (he | rfl) | rfl | rfl
  · exact getPEHeaderTr_peRead m imageBase e he
  · exact ⟨_, _, rfl⟩
  · exact ⟨_, _, rfl⟩
  · exact ⟨_, _, rfl⟩

theorem locationDeltaOf_self (m : Mem) (a : Nat) :
    locationDeltaOf (read64 m a) (read64 m a) = 0 := by
  unfold locationDeltaOf
  have h := read64_lt m a
  rw [Nat.mod_eq_of_lt h]
  omega

/-- C6. For an in-memory image accepted by `getPEHeader` whose base address equals
the `ImageBase` field of its header, `performRelocations` returns true for every
loop bound, leaves every byte of the image unchanged and performs no fix-up write,
whatever the relocation directory contains. -/
theorem performRelocations_zero_delta (fuel : Nat) (m : Mem) (imageBase peHdr : Nat)
    (hpe : getPEHeader m imageBase = some peHdr)
    (hbase : read64 m (peHdr + OFF_ImageBase) = imageBase) :
    ∃ r, performRelocations fuel m imageBase = some r ∧
      r.ok = true ∧ r.mem = m ∧ patches r.trace = [] := by
  rw [performRelocations_of_header fuel m imageBase peHdr hpe]
  have hd : deltaOf m imageBase peHdr = 0 := by
    unfold deltaOf
    rw [← hbase]
    exact locationDeltaOf_self m _
  rw [if_pos hd]
  refine ⟨_, rfl, rfl, rfl, ?_⟩
  apply patches_of_peRead
  intro e he
  simp only [List.mem_append, List.mem_singleton] at he
  rcases he with he | rfl
  · exact getPEHeaderTr_peRead m imageBase e he
  · exact ⟨_, _, rfl⟩

/-- Witness of C6: an image loaded at its preferred base 0x20000, with no loop
iteration allowed. -/
theorem performRelocations_zero_delta_witness :
    ∃ r, performRelocations 0 preferredBaseImage 0x20000 = some r ∧
      r.ok = true ∧ r.mem = preferredBaseImage ∧ patches r.trace = [] :=
  performRelocations_zero_delta 0 preferredBaseImage 0x20000 0x20040 (by decide) (by decide)

/-- C10. For an in-memory image accepted by `getPEHeader` whose base-relocation
directory entry has `Size = 0`, `performRelocations` returns true for every loop
bound, leaves every byte of the image unchanged and performs no fix-up write,
whether or not the location delta is zero. -/
theorem performRelocations_empty_directory (fuel : Nat) (m : Mem) (imageBase peHdr : Nat)
    (hpe : getPEHeader m imageBase = some peHdr)
    (hsize : relocDirSize m peHdr = 0) :
    ∃ r, performRelocations fuel m imageBase = some r ∧
      r.ok = true ∧ r.mem = m ∧ patches r.trace = [] := by
  rw [performRelocations_of_header fuel m imageBase peHdr hpe]
  split_ifs with hd
  · refine ⟨_, rfl, rfl, rfl, ?_⟩
    apply patches_of_peRead
    intro e he
    simp only [List.mem_append, List.mem_singleton] at he
    rcases he with he | rfl
    · exact getPEHeaderTr_peRead m imageBase e he
    · exact ⟨_, _, rfl⟩
  · exact ⟨_, rfl, rfl, rfl, patches_of_peRead _ (headerTrace_peRead m imageBase peHdr)⟩

/-- Witness of C10: an image preferring 0x10000 loaded at 0x20000 (non-zero delta)
with an empty relocation directory. -/
theorem performRelocations_empty_directory_witness :
    deltaOf noRelocImage 0x20000 0x20040 ≠ 0 ∧
    ∃ r, performRelocations 0 noRelocImage 0x20000 = some r ∧
      r.ok = true ∧ r.mem = noRelocImage ∧ patches r.trace = [] :=
  ⟨by decide,
   performRelocations_empty_directory 0 noRelocImage 0x20000 0x20040 (by decide) (by decide)⟩

theorem patches_log_read (tr : List Event) (b : Nat) :
    patches (tr ++ [Event.readBlockSize b]) = patches tr ∧
    patches (tr ++ [Event.readBlockVA b]) = patches tr ∧
    patches (tr ++ [Event.entryRead b]) = patches tr ∧
    patches (tr ++ [Event.patch b]) = patches tr ++ [b] := by
  simp [patches_append, patches]

theorem visits_log_read (tr : List Event) (b : Nat) :
    visits (tr ++ [Event.readBlockSize b]) = visits tr ∧
    visits (tr ++ [Event.readBlockVA b]) = visits tr ++ [b] ∧
    visits (tr ++ [Event.entryRead b]) = visits tr ∧
    visits (tr ++ [Event.patch b]) = visits tr := by
  simp [visits_append, visits]

/-- The loop of `performRelocations` ends, with the image untouched, as soon as the
current block header is not inside the directory, or declares a zero size, or
declares an extent that passes the end of the directory. -/
theorem relocLoop_exit (imageBase delta endR fuel b : Nat) (s : Machine)
    (h : ¬ (ADDR b SIZEOF_BASE_RELOCATION < endR) ∨ blockSize s.mem b = 0 ∨
      ¬ (ADDR b (blockSize s.mem b) ≤ endR)) :
    ∃ s', relocLoop imageBase delta endR (fuel + 1) b s = some s' ∧
      s'.mem = s.mem ∧ patches s'.trace = patches s.trace ∧
      visits s'.trace = visits s.trace := by
  unfold relocLoop blockSize at *
  by_cases h1 : ADDR b SIZEOF_BASE_RELOCATION < endR
  · by_cases h2 : read32 s.mem (b + 4) = 0
    · rw [if_neg (not_not.mpr h1), if_pos h2]
      exact ⟨_, rfl, rfl, (patches_log_read _ _).1, (visits_log_read _ _).1⟩
    · have h3 : ¬ (ADDR b (read32 s.mem (b + 4)) ≤ endR) := by
        rcases h with h | h | h
        · exact absurd h1 h
        · exact absurd h h2
        · exact h
      rw [if_neg (not_not.mpr h1), if_neg h2, if_pos h3]
      refine ⟨_, rfl, rfl, ?_, ?_⟩
      · simp only [Machine.log]
        rw [(patches_log_read _ _).1, (patches_log_read _ _).1]
      · simp only [Machine.log]
        rw [(visits_log_read _ _).1, (visits_log_read _ _).1]
  · rw [if_pos h1]
    exact ⟨_, rfl, rfl, rfl, rfl⟩

/-- C8, counterexample. With a non-zero delta and a non-empty directory, a first
block whose header lies inside the directory and which declares `SizeOfBlock = 0`
(first image), or an extent of 32 bytes in a directory of 12 (second image), makes
`performRelocations` return true, not false. -/
theorem performRelocations_malformed_returns_true :
    (deltaOf zeroBlockImage 0x20000 0x20040 ≠ 0 ∧
     relocStart zeroBlockImage 0x20000 0x20040 + 8 < relocEnd zeroBlockImage 0x20000 0x20040 ∧
     blockSize zeroBlockImage (relocStart zeroBlockImage 0x20000 0x20040) = 0 ∧
     (performRelocations 1 zeroBlockImage 0x20000).map (fun r => r.ok) = some true) ∧
    (deltaOf overlongBlockImage 0x20000 0x20040 ≠ 0 ∧
     relocStart overlongBlockImage 0x20000 0x20040 + 8
       < relocEnd overlongBlockImage 0x20000 0x20040 ∧
     relocStart overlongBlockImage 0x20000 0x20040 +
       blockSize overlongBlockImage (relocStart overlongBlockImage 0x20000 0x20040)
         > relocEnd overlongBlockImage 0x20000 0x20040 ∧
     (performRelocations 1 overlongBlockImage 0x20000).map (fun r => r.ok) = some true) := by
  decide

/-- C8, amended. With a non-zero delta and a non-empty relocation directory, if the
block at which the walk stands declares a `SizeOfBlock` of zero or an extent that
reaches beyond the end of the directory, the loop stops there without touching the
image, and `performRelocations` returns true: for the first block of the directory
the image is left unchanged and no fix-up is written. -/
theorem performRelocations_malformed_block (fuel : Nat) (m : Mem) (imageBase peHdr : Nat)
    (hpe : getPEHeader m imageBase = some peHdr)
    (hdelta : deltaOf m imageBase peHdr ≠ 0)
    (hsize : relocDirSize m peHdr ≠ 0)
    (hbad : blockSize m (relocStart m imageBase peHdr) = 0 ∨
      ¬ (ADDR (relocStart m imageBase peHdr) (blockSize m (relocStart m imageBase peHdr))
          ≤ relocEnd m imageBase peHdr)) :
    (∃ r, performRelocations (fuel + 1) m imageBase = some r ∧
      r.ok = true ∧ r.mem = m ∧ patches r.trace = []) ∧
    (∀ (b : Nat) (s : Machine),
      (blockSize s.mem b = 0 ∨ ¬ (ADDR b (blockSize s.mem b) ≤ relocEnd m imageBase peHdr)) →
      ∃ s', relocLoop imageBase (deltaOf m imageBase peHdr) (relocEnd m imageBase peHdr)
          (fuel + 1) b s = some s' ∧
        s'.mem = s.mem ∧ patches s'.trace = patches s.trace ∧
        visits s'.trace = visits s.trace) := by
  constructor
  · rw [performRelocations_of_header (fuel + 1) m imageBase peHdr hpe, if_neg hdelta,
      if_neg hsize]
    obtain ⟨s', hs', hmem, hp, _⟩ := relocLoop_exit imageBase (deltaOf m imageBase peHdr)
      (relocEnd m imageBase peHdr) fuel (relocStart m imageBase peHdr)
      { mem := m, trace := headerTrace m imageBase peHdr } (Or.inr hbad)
    rw [hs']
    refine ⟨_, rfl, rfl, hmem, ?_⟩
    show patches s'.trace = []
    rw [hp]
    exact patches_of_peRead _ (headerTrace_peRead m imageBase peHdr)
  · intro b s hb
    exact relocLoop_exit _ _ _ fuel b s (Or.inr hb)

/-- Witness of the amended C8 on the image whose first block declares size 0. -/
theorem performRelocations_malformed_block_witness :
    ∃ r, performRelocations 1 zeroBlockImage 0x20000 = some r ∧
      r.ok = true ∧ r.mem = zeroBlockImage ∧ patches r.trace = [] :=
  (performRelocations_malformed_block 0 zeroBlockImage 0x20000 0x20040
    (by decide) (by decide) (by decide) (Or.inl (by decide))).1

theorem write64_other (m : Mem) (t v x : Nat) (h : ¬ (t ≤ x ∧ x < t + 8)) :
    write64 m t v x = m x := by
  unfold write64
  rw [if_neg h]

theorem read64_write64 (m : Mem) (t v : Nat) (hv : v < 2 ^ 64) :
    read64 (write64 m t v) t = v := by
  simp [read64, readLE, write64, byteOf, Nat.add_assoc]
  omega

theorem ADDR_eq (a b : Nat) (h : a + b < 2 ^ 64) : ADDR a b = a + b := by
  unfold ADDR
  exact Nat.mod_eq_of_lt h

theorem count_ten : IMAGE_REL_BASED_COUNT 10 = 1 := by decide

/-- Processing a block of size 10 whose single entry has type `DIR64`. -/
theorem processBlock_one (imageBase delta b : Nat) (s : Machine)
    (hb : b + 8 < 2 ^ 64)
    (hsz : read32 s.mem (b + 4) = 10)
    (hty : IMAGE_REL_BASED_TYPE (read16 s.mem (b + 8)) = IMAGE_REL_BASED_DIR64) :
    processBlock imageBase delta b s =
      { mem := patchAt delta s.mem
          (ADDR (ADDR imageBase (read32 s.mem b)) (IMAGE_REL_BASED_OFFSET (read16 s.mem (b + 8))))
        trace := s.trace ++ [Event.readBlockVA b, Event.readBlockSize b, Event.entryRead (b + 8),
          Event.patch (ADDR (ADDR imageBase (read32 s.mem b))
            (IMAGE_REL_BASED_OFFSET (read16 s.mem (b + 8))))] } := by
  unfold processBlock
  simp only [Machine.log]
  rw [hsz, count_ten]
  unfold IMAGE_REL_BASED_ENTRIES SIZEOF_BASE_RELOCATION
  rw [ADDR_eq b 8 hb]
  simp only [fixupLoop, Machine.log, applyFixup, Nat.mul_zero, Nat.add_zero]
  rw [if_pos hty]
  simp [patchAt]

/-- After a block at `b` in a directory ending at `b + 10`, whatever `SizeOfBlock`
now holds, the block the loop moves to is rejected by the loop condition. -/
theorem next_block_rejected (m' : Mem) (b : Nat) (hb : b + 2 ^ 32 + 8 ≤ 2 ^ 64) :
    ¬ (ADDR ((b + read32 m' (b + 4)) % 2 ^ 64) SIZEOF_BASE_RELOCATION < b + 10) ∨
    blockSize m' ((b + read32 m' (b + 4)) % 2 ^ 64) = 0 ∨
    ¬ (ADDR ((b + read32 m' (b + 4)) % 2 ^ 64)
        (blockSize m' ((b + read32 m' (b + 4)) % 2 ^ 64)) ≤ b + 10) := by
  have hS := read32_lt m' (b + 4)
  have hnext : (b + read32 m' (b + 4)) % 2 ^ 64 = b + read32 m' (b + 4) :=
    Nat.mod_eq_of_lt (by omega)
  rw [hnext]
  unfold SIZEOF_BASE_RELOCATION
  by_cases h2 : 2 ≤ read32 m' (b + 4)
  · left
    rw [ADDR_eq _ _ (by omega)]
    omega
  · right
    by_cases h0 : read32 m' (b + 4) = 0
    · left
      rw [h0]
      exact h0
    · have h1 : read32 m' (b + 4) = 1 := by omega
      rw [h1]
      by_cases hz : blockSize m' (b + 1) = 0
      · exact Or.inl hz
      · right
        have hS2 := read32_lt m' (b + 1 + 4)
        unfold blockSize at hz ⊢
        rw [ADDR_eq _ _ (by omega)]
        unfold read32 at h1 hz ⊢
        simp only [Nat.add_assoc] at h1 hz ⊢
        norm_num at h1 hz ⊢
        have b4 := (m' (b + 4)).isLt
        have b5 := (m' (b + 5)).isLt
        have b6 := (m' (b + 6)).isLt
        have b7 := (m' (b + 7)).isLt
        have b8 := (m' (b + 8)).isLt
        omega

theorem relocLoop_step (imageBase delta endR fuel b : Nat) (s : Machine)
    (h1 : ADDR b SIZEOF_BASE_RELOCATION < endR) (h2 : read32 s.mem (b + 4) ≠ 0)
    (h3 : ADDR b (read32 s.mem (b + 4)) ≤ endR) :
    relocLoop imageBase delta endR (fuel + 1) b s =
      relocLoop imageBase delta endR fuel
        ((b + read32 (processBlock imageBase delta b
          ((s.log (Event.readBlockSize b)).log (Event.readBlockSize b))).mem (b + 4)) % 2 ^ 64)
        ((processBlock imageBase delta b
          ((s.log (Event.readBlockSize b)).log (Event.readBlockSize b))).log
            (Event.readBlockSize b)) := by
  conv_lhs => unfold relocLoop
  rw [if_neg (not_not.mpr h1), if_neg h2, if_neg (not_not.mpr h3)]

/-- C7. On a 64-bit build, for an image whose relocation directory is one block of
size 10 holding one `DIR64` entry that designates offset `o` of the block's region,
with the 64-bit value `V` stored at `regionBase + o`: `performRelocations` with a
non-zero delta returns true, writes exactly one fix-up, leaves `(V + delta) mod 2^64`
at that location and every byte outside these 8 bytes unchanged; when the delta is
0x10000 and `V + 0x10000` fits in 64 bits the value becomes `V + 0x10000`. -/
theorem performRelocations_one_dir64 (fuel : Nat) (m : Mem) (imageBase peHdr o V : Nat)
    (hpe : getPEHeader m imageBase = some peHdr)
    (hdelta : deltaOf m imageBase peHdr ≠ 0)
    (hspace : imageBase + 2 ^ 33 ≤ 2 ^ 64)
    (hdir : relocDirVA m peHdr + relocDirSize m peHdr < 2 ^ 32)
    (hsize : relocDirSize m peHdr = 10)
    (hblock : blockSize m (relocStart m imageBase peHdr) = 10)
    (htype : IMAGE_REL_BASED_TYPE (read16 m (relocStart m imageBase peHdr + 8))
      = IMAGE_REL_BASED_DIR64)
    (ho : IMAGE_REL_BASED_OFFSET (read16 m (relocStart m imageBase peHdr + 8)) = o)
    (hV : read64 m (ADDR (ADDR imageBase (blockVA m (relocStart m imageBase peHdr))) o) = V) :
    ∃ r, performRelocations (fuel + 2) m imageBase = some r ∧ r.ok = true ∧
      read64 r.mem (ADDR (ADDR imageBase (blockVA m (relocStart m imageBase peHdr))) o)
        = (V + deltaOf m imageBase peHdr) % 2 ^ 64 ∧
      (deltaOf m imageBase peHdr = 0x10000 → V + 0x10000 < 2 ^ 64 →
        read64 r.mem (ADDR (ADDR imageBase (blockVA m (relocStart m imageBase peHdr))) o)
          = V + 0x10000) ∧
      (∀ x, ¬ (ADDR (ADDR imageBase (blockVA m (relocStart m imageBase peHdr))) o ≤ x ∧
          x < ADDR (ADDR imageBase (blockVA m (relocStart m imageBase peHdr))) o + 8) →
        r.mem x = m x) ∧
      patches r.trace = [ADDR (ADDR imageBase (blockVA m (relocStart m imageBase peHdr))) o] := by
  have hva : relocDirVA m peHdr < 2 ^ 32 := read32_lt m _
  have hstart : relocStart m imageBase peHdr = imageBase + relocDirVA m peHdr := by
    unfold relocStart
    exact ADDR_eq _ _ (by omega)
  have hend : relocEnd m imageBase peHdr = relocStart m imageBase peHdr + 10 := by
    unfold relocEnd
    rw [Nat.mod_eq_of_lt hdir, hstart, hsize]
    rw [ADDR_eq _ _ (by omega)]
    omega
  have hb8 : relocStart m imageBase peHdr + 8 < 2 ^ 64 := by
    rw [hstart]; omega
  have hb33 : relocStart m imageBase peHdr + 2 ^ 32 + 8 ≤ 2 ^ 64 := by
    rw [hstart]; omega
  have hsz0 : ¬ relocDirSize m peHdr = 0 := by rw [hsize]; decide
  rw [performRelocations_of_header (fuel + 2) m imageBase peHdr hpe, if_neg hdelta,
    if_neg hsz0, hend]
  generalize relocStart m imageBase peHdr = b at *
  generalize deltaOf m imageBase peHdr = delta at *
  unfold blockSize at hblock
  unfold blockVA at hV ⊢
  have c1 : ADDR b SIZEOF_BASE_RELOCATION < b + 10 := by
    unfold SIZEOF_BASE_RELOCATION; rw [ADDR_eq _ _ hb8]; omega
  have c2 : read32 m (b + 4) ≠ 0 := by rw [hblock]; decide
  have c3 : ADDR b (read32 m (b + 4)) ≤ b + 10 := by
    rw [hblock, ADDR_eq _ _ (by omega)]
  rw [relocLoop_step imageBase delta (b + 10) (fuel + 1) b _ c1 c2 c3]
  have hpb := processBlock_one imageBase delta b
    (({ mem := m, trace := headerTrace m imageBase peHdr } : Machine).log
      (Event.readBlockSize b) |>.log (Event.readBlockSize b)) hb8 hblock htype
  rw [hpb]
  simp only [Machine.log]
  rw [ho]
  generalize ADDR (ADDR imageBase (read32 m b)) o = t at *
  obtain ⟨s', hs', hmem, hp, _⟩ := relocLoop_exit imageBase delta (b + 10) fuel
    ((b + read32 (patchAt delta m t) (b + 4)) % 2 ^ 64)
    { mem := patchAt delta m t,
      trace := headerTrace m imageBase peHdr ++ [Event.readBlockSize b] ++
        [Event.readBlockSize b] ++ [Event.readBlockVA b, Event.readBlockSize b,
          Event.entryRead (b + 8), Event.patch t] ++ [Event.readBlockSize b] }
    (next_block_rejected (patchAt delta m t) b hb33)
  rw [hs']
  have hval : read64 s'.mem t = (V + delta) % 2 ^ 64 := by
    rw [hmem]
    show read64 (patchAt delta m t) t = _
    unfold patchAt
    rw [read64_write64 _ _ _ (Nat.mod_lt _ (Nat.two_pow_pos 64)), hV]
  refine ⟨_, rfl, rfl, hval, ?_, ?_, ?_⟩
  · intro hd hfit
    show read64 s'.mem t = _
    rw [hval, hd]
    exact Nat.mod_eq_of_lt hfit
  · intro x hx
    show s'.mem x = m x
    rw [hmem]
    exact write64_other _ _ _ _ hx
  · show patches s'.trace = [t]
    rw [hp]
    simp only [patches_append, patches_of_peRead _ (headerTrace_peRead m imageBase peHdr)]
    simp [patches]

/-- Witness of C7: the image preferring 0x10000 loaded at 0x20000, whose single
`DIR64` entry designates offset 0x10 of region 0x2000 where 0x11234 is stored. -/
theorem performRelocations_one_dir64_witness :
    ∃ r, performRelocations 2 oneFixupImage 0x20000 = some r ∧ r.ok = true ∧
      read64 r.mem 0x22010 = 0x11234 + 0x10000 ∧ patches r.trace = [0x22010] := by
  have ha : ADDR (ADDR 0x20000 (blockVA oneFixupImage (relocStart oneFixupImage 0x20000 0x20040)))
      0x10 = 0x22010 := by decide
  obtain ⟨r, h1, h2, _, h4, _, h6⟩ :=
    performRelocations_one_dir64 0 oneFixupImage 0x20000 0x20040 0x10 0x11234
      (by decide) (by decide) (by norm_num) (by decide) (by decide) (by decide)
      (by decide) (by decide) (by decide)
  rw [ha] at h4 h6
  exact ⟨r, h1, h2, h4 (by decide) (by norm_num), h6⟩

/-! ## Walking a chain of well-formed blocks -/

theorem read16_congr (m m' : Mem) (a lo hi : Nat) (h : agreeOn m m' lo hi)
    (hlo : lo ≤ a) (hhi : a + 2 ≤ hi) : read16 m a = read16 m' a := by
  unfold read16
  rw [h a (by omega) (by omega), h (a + 1) (by omega) (by omega)]

theorem read32_congr (m m' : Mem) (a lo hi : Nat) (h : agreeOn m m' lo hi)
    (hlo : lo ≤ a) (hhi : a + 4 ≤ hi) : read32 m a = read32 m' a := by
  unfold read32
  rw [h a (by omega) (by omega), h (a + 1) (by omega) (by omega),
    h (a + 2) (by omega) (by omega), h (a + 3) (by omega) (by omega)]

theorem agreeOn_mono (m m' : Mem) (lo hi lo' hi' : Nat) (h : agreeOn m m' lo hi)
    (hlo : lo ≤ lo') (hhi : hi' ≤ hi) : agreeOn m m' lo' hi' :=
  fun x h1 h2 => h x (by omega) (by omega)

theorem agreeOn_symm (m m' : Mem) (lo hi : Nat) (h : agreeOn m m' lo hi) :
    agreeOn m' m lo hi :=
  fun x h1 h2 => (h x h1 h2).symm

theorem agreeOn_trans (m m' m'' : Mem) (lo hi : Nat) (h : agreeOn m m' lo hi)
    (h' : agreeOn m' m'' lo hi) : agreeOn m m'' lo hi :=
  fun x h1 h2 => (h x h1 h2).trans (h' x h1 h2)

theorem patchAt_agree (delta : Nat) (m : Mem) (t lo hi : Nat) (h : t + 8 ≤ lo ∨ hi ≤ t) :
    agreeOn (patchAt delta m t) m lo hi := by
  intro x h1 h2
  unfold patchAt
  exact write64_other _ _ _ _ (by omega)

theorem patchAll_agree (delta : Nat) (lo hi : Nat) :
    ∀ (ts : List Nat) (m : Mem), (∀ t ∈ ts, t + 8 ≤ lo ∨ hi ≤ t) →
      agreeOn (patchAll delta m ts) m lo hi := by
  intro ts
  induction ts with
  | nil => intro m _ x _ _; rfl
  | cons t ts ih =>
    intro m h
    have h1 := ih (patchAt delta m t) (fun t' ht' => h t' (List.mem_cons_of_mem _ ht'))
    have h2 := patchAt_agree delta m t lo hi (h t (List.mem_cons_self _ _))
    exact agreeOn_trans _ _ _ _ _ h1 h2

theorem patchAll_append (delta : Nat) (m : Mem) (ts us : List Nat) :
    patchAll delta m (ts ++ us) = patchAll delta (patchAll delta m ts) us := by
  unfold patchAll
  exact List.foldl_append _ _ _ _

theorem targetsFrom_congr (m m' : Mem) (rb fx lo hi : Nat) (h : agreeOn m m' lo hi) :
    ∀ (n idx : Nat), lo ≤ fx + 2 * idx → fx + 2 * (idx + n) ≤ hi →
      targetsFrom m rb fx n idx = targetsFrom m' rb fx n idx := by
  intro n
  induction n with
  | zero => intro idx _ _; rfl
  | succ n ih =>
    intro idx hlo hhi
    unfold targetsFrom
    rw [read16_congr m m' (fx + 2 * idx) lo hi h hlo (by omega),
      ih (idx + 1) (by omega) (by omega)]

theorem count_le (S : Nat) (h8 : 8 ≤ S) (h32 : S < 2 ^ 32) :
    8 + 2 * IMAGE_REL_BASED_COUNT S ≤ S := by
  unfold IMAGE_REL_BASED_COUNT SIZEOF_BASE_RELOCATION
  omega

theorem headerReads_append (t1 t2 : List Event) :
    headerReads (t1 ++ t2) = headerReads t1 ++ headerReads t2 := by
  unfold headerReads; exact List.filterMap_append _ _ _

theorem applyFixup_dir64 (rb delta : Nat) (s : Machine) (e : Nat)
    (h : IMAGE_REL_BASED_TYPE e = IMAGE_REL_BASED_DIR64) :
    applyFixup rb delta s e =
      { mem := patchAt delta s.mem (ADDR rb (IMAGE_REL_BASED_OFFSET e))
        trace := s.trace ++ [Event.patch (ADDR rb (IMAGE_REL_BASED_OFFSET e))] } := by
  unfold applyFixup
  rw [if_pos h]
  rfl

theorem applyFixup_other (rb delta : Nat) (s : Machine) (e : Nat)
    (h : IMAGE_REL_BASED_TYPE e ≠ IMAGE_REL_BASED_DIR64) :
    applyFixup rb delta s e = s := by
  unfold applyFixup
  rw [if_neg h]
  split_ifs <;> rfl

/-- Effect of the fix-up loop when no fix-up target meets `[lo, hi)`, a range that
contains the entries still to be read. -/
theorem fixupLoop_spec (rb delta fx lo hi : Nat) :
    ∀ (n idx : Nat) (s : Machine),
      (∀ t ∈ targetsFrom s.mem rb fx n idx, t + 8 ≤ lo ∨ hi ≤ t) →
      lo ≤ fx + 2 * idx → fx + 2 * (idx + n) ≤ hi →
      (fixupLoop rb delta fx n idx s).mem = patchAll delta s.mem (targetsFrom s.mem rb fx n idx) ∧
      patches (fixupLoop rb delta fx n idx s).trace
        = patches s.trace ++ targetsFrom s.mem rb fx n idx ∧
      visits (fixupLoop rb delta fx n idx s).trace = visits s.trace ∧
      headerReads (fixupLoop rb delta fx n idx s).trace = headerReads s.trace := by
  intro n
  induction n with
  | zero =>
    intro idx s _ _ _
    simp [fixupLoop, targetsFrom, patchAll]
  | succ n ih =>
    intro idx s hmiss hlo hhi
    unfold fixupLoop
    simp only []
    by_cases hty : IMAGE_REL_BASED_TYPE (read16 s.mem (fx + 2 * idx)) = IMAGE_REL_BASED_DIR64
    · have htg : targetsFrom s.mem rb fx (n + 1) idx =
          ADDR rb (IMAGE_REL_BASED_OFFSET (read16 s.mem (fx + 2 * idx))) ::
            targetsFrom s.mem rb fx n (idx + 1) := by
        conv_lhs => unfold targetsFrom
        rw [if_pos hty]; rfl
      rw [htg] at hmiss ⊢
      rw [applyFixup_dir64 _ _ _ _ hty]
      simp only [Machine.log]
      have hag : agreeOn (patchAt delta s.mem
          (ADDR rb (IMAGE_REL_BASED_OFFSET (read16 s.mem (fx + 2 * idx))))) s.mem lo hi :=
        patchAt_agree delta s.mem _ lo hi (hmiss _ (List.mem_cons_self _ _))
      have hcg := targetsFrom_congr _ _ rb fx lo hi hag n (idx + 1) (by omega) (by omega)
      obtain ⟨h1, h2, h3, h4⟩ := ih (idx + 1)
        { mem := patchAt delta s.mem
            (ADDR rb (IMAGE_REL_BASED_OFFSET (read16 s.mem (fx + 2 * idx))))
          trace := s.trace ++ [Event.entryRead (fx + 2 * idx)] ++
            [Event.patch (ADDR rb (IMAGE_REL_BASED_OFFSET (read16 s.mem (fx + 2 * idx))))] }
        (by
          intro t ht
          simp only [] at ht
          rw [hcg] at ht
          exact hmiss t (List.mem_cons_of_mem _ ht))
        (by omega) (by omega)
      simp only [] at h1 h2 h3 h4
      rw [hcg] at h1 h2
      refine ⟨?_, ?_, ?_, ?_⟩
      · rw [h1]; rfl
      · rw [h2]; simp [patches_append, patches]
      · rw [h3]; simp [visits_append, visits]
      · rw [h4]; simp [headerReads_append, headerReads]
    · have htg : targetsFrom s.mem rb fx (n + 1) idx = targetsFrom s.mem rb fx n (idx + 1) := by
        conv_lhs => unfold targetsFrom
        rw [if_neg hty]; rfl
      rw [htg] at hmiss ⊢
      rw [applyFixup_other _ _ _ _ hty]
      obtain ⟨h1, h2, h3, h4⟩ := ih (idx + 1) (s.log (Event.entryRead (fx + 2 * idx)))
        hmiss (by omega) (by omega)
      simp only [Machine.log] at h1 h2 h3 h4 ⊢
      refine ⟨h1, ?_, ?_, ?_⟩
      · rw [h2]; simp [patches_append, patches]
      · rw [h3]; simp [visits_append, visits]
      · rw [h4]; simp [headerReads_append, headerReads]

theorem chainEnd_ge (m : Mem) : ∀ (k b : Nat), b ≤ chainEnd m k b := by
  intro k
  induction k with
  | zero => intro b; exact Nat.le_refl _
  | succ k ih =>
    intro b
    unfold chainEnd
    exact Nat.le_trans (Nat.le_add_right _ _) (ih _)

theorem blockTargets_congr (m m' : Mem) (imageBase b e : Nat) (h : agreeOn m m' b e)
    (h8 : 8 ≤ blockSize m b) (he : b + blockSize m b ≤ e) :
    blockSize m' b = blockSize m b ∧ blockTargets m' imageBase b = blockTargets m imageBase b := by
  have hS : blockSize m' b = blockSize m b := by
    unfold blockSize
    exact (read32_congr m m' (b + 4) b e h (by omega) (by omega)).symm
  have hV : blockVA m' b = blockVA m b := by
    unfold blockVA
    exact (read32_congr m m' b b e h (by omega) (by omega)).symm
  refine ⟨hS, ?_⟩
  unfold blockTargets
  rw [hS, hV]
  have hc := count_le (blockSize m b) h8 (read32_lt m _)
  unfold SIZEOF_BASE_RELOCATION
  exact (targetsFrom_congr m m' _ (b + 8) b e h _ 0 (by omega) (by omega)).symm

/-- A chain of blocks of size at least 8 is read the same in two memories that agree
on the range it occupies. -/
theorem chain_congr (m m' : Mem) (imageBase e : Nat) :
    ∀ (k b : Nat), agreeOn m m' b e → chainEnd m k b ≤ e →
      (∀ x ∈ blockChain m k b, 8 ≤ blockSize m x) →
      blockChain m' k b = blockChain m k b ∧ chainEnd m' k b = chainEnd m k b ∧
      ∀ x ∈ blockChain m k b, blockSize m' x = blockSize m x ∧
        blockTargets m' imageBase x = blockTargets m imageBase x := by
  intro k
  induction k with
  | zero =>
    intro b _ _ _
    exact ⟨rfl, rfl, fun x hx => by simp [blockChain] at hx⟩
  | succ k ih =>
    intro b hag hend hwf
    unfold chainEnd at hend
    have hge := chainEnd_ge m k (b + blockSize m b)
    have h8 : 8 ≤ blockSize m b := hwf b (by unfold blockChain; exact List.mem_cons_self _ _)
    obtain ⟨hS, hT⟩ := blockTargets_congr m m' imageBase b e hag h8 (by omega)
    obtain ⟨i1, i2, i3⟩ := ih (b + blockSize m b)
      (agreeOn_mono m m' b e _ e hag (by omega) (Nat.le_refl _)) hend
      (fun x hx => hwf x (by unfold blockChain; exact List.mem_cons_of_mem _ hx))
    refine ⟨?_, ?_, ?_⟩
    · unfold blockChain
      rw [hS, i1]
    · unfold chainEnd
      rw [hS, i2]
    · intro x hx
      unfold blockChain at hx
      rcases List.mem_cons.mp hx with rfl | hx
      · exact ⟨hS, hT⟩
      · exact i3 x hx

theorem log_mem (s : Machine) (e : Event) : (s.log e).mem = s.mem := rfl

theorem log_trace (s : Machine) (e : Event) : (s.log e).trace = s.trace ++ [e] := rfl

/-- Effect of the loop body on a block of size at least 8 lying inside
`[b, endR)`, when none of its fix-up targets meets `[b, endR)`. -/
theorem processBlock_spec (imageBase delta b endR : Nat) (s : Machine)
    (hb8 : b + 8 < 2 ^ 64) (h8 : 8 ≤ blockSize s.mem b) (he : b + blockSize s.mem b ≤ endR)
    (hmiss : ∀ t ∈ blockTargets s.mem imageBase b, t + 8 ≤ b ∨ endR ≤ t) :
    (processBlock imageBase delta b s).mem
      = patchAll delta s.mem (blockTargets s.mem imageBase b) ∧
    patches (processBlock imageBase delta b s).trace
      = patches s.trace ++ blockTargets s.mem imageBase b ∧
    visits (processBlock imageBase delta b s).trace = visits s.trace ++ [b] ∧
    headerReads (processBlock imageBase delta b s).trace = headerReads s.trace ++ [b, b] := by
  have hc := count_le (blockSize s.mem b) h8 (read32_lt s.mem _)
  have hpb : processBlock imageBase delta b s =
      fixupLoop (ADDR imageBase (blockVA s.mem b)) delta (b + 8)
        (IMAGE_REL_BASED_COUNT (blockSize s.mem b)) 0
        ((s.log (Event.readBlockVA b)).log (Event.readBlockSize b)) := by
    unfold processBlock IMAGE_REL_BASED_ENTRIES blockSize blockVA SIZEOF_BASE_RELOCATION
    rw [ADDR_eq b 8 hb8]
  rw [hpb]
  have hT : blockTargets s.mem imageBase b =
      targetsFrom s.mem (ADDR imageBase (blockVA s.mem b)) (b + 8)
        (IMAGE_REL_BASED_COUNT (blockSize s.mem b)) 0 := by
    unfold blockTargets SIZEOF_BASE_RELOCATION
    rfl
  rw [hT] at hmiss ⊢
  generalize hs1 : (s.log (Event.readBlockVA b)).log (Event.readBlockSize b) = s1
  have hm1 : s1.mem = s.mem := by rw [← hs1, log_mem, log_mem]
  have ht1 : s1.trace = s.trace ++ [Event.readBlockVA b] ++ [Event.readBlockSize b] := by
    rw [← hs1, log_trace, log_trace]
  generalize IMAGE_REL_BASED_COUNT (blockSize s.mem b) = n at *
  generalize ADDR imageBase (blockVA s.mem b) = rb at *
  rw [← hm1] at hmiss
  obtain ⟨h1, h2, h3, h4⟩ := fixupLoop_spec rb delta (b + 8) b endR n 0 s1
    hmiss (by omega) (by omega)
  rw [hm1] at h1 h2
  rw [ht1] at h2 h3 h4
  refine ⟨h1, ?_, ?_, ?_⟩
  · rw [h2]; simp [patches_append, patches]
  · rw [h3]; simp [visits_append, visits]
  · rw [h4]; simp [headerReads_append, headerReads]

/-- The `while` loop of `performRelocations` on a chain of `k` blocks of size at
least 10 that ends exactly at `endR`, none of whose fix-up targets meets the part of
the directory still to be walked. -/
theorem relocLoop_chain (imageBase delta endR : Nat) (hend8 : endR + 8 < 2 ^ 64) :
    ∀ (k b fuel : Nat) (s : Machine), k < fuel →
      chainEnd s.mem k b = endR →
      (∀ x ∈ blockChain s.mem k b, 10 ≤ blockSize s.mem x) →
      (∀ x ∈ blockChain s.mem k b, ∀ t ∈ blockTargets s.mem imageBase x,
        t + 8 ≤ b ∨ endR ≤ t) →
      ∃ s', relocLoop imageBase delta endR fuel b s = some s' ∧
        s'.mem = patchAll delta s.mem
          ((blockChain s.mem k b).flatMap (blockTargets s.mem imageBase)) ∧
        patches s'.trace = patches s.trace ++
          (blockChain s.mem k b).flatMap (blockTargets s.mem imageBase) ∧
        visits s'.trace = visits s.trace ++ blockChain s.mem k b ∧
        ∀ x ∈ headerReads s'.trace, x ∈ headerReads s.trace ∨ x ∈ blockChain s.mem k b := by
  intro k
  induction k with
  | zero =>
    intro b fuel s hfuel hend _ _
    obtain ⟨f, rfl⟩ : ∃ f, fuel = f + 1 := ⟨fuel - 1, by omega⟩
    unfold chainEnd at hend
    subst hend
    have hc1 : ¬ (ADDR b SIZEOF_BASE_RELOCATION < b) := by
      unfold SIZEOF_BASE_RELOCATION; rw [ADDR_eq _ _ hend8]; omega
    refine ⟨s, ?_, ?_, ?_, ?_, ?_⟩
    · conv_lhs => unfold relocLoop
      rw [if_pos hc1]
    · rfl
    · simp [blockChain]
    · simp [blockChain]
    · intro x hx; exact Or.inl hx
  | succ k ih =>
    intro b fuel s hfuel hend hwf hmiss
    obtain ⟨f, rfl⟩ : ∃ f, fuel = f + 1 := ⟨fuel - 1, by omega⟩
    have hbmem : b ∈ blockChain s.mem (k + 1) b := by
      unfold blockChain; exact List.mem_cons_self _ _
    have htail : ∀ x ∈ blockChain s.mem k (b + blockSize s.mem b),
        x ∈ blockChain s.mem (k + 1) b := by
      intro x hx; unfold blockChain; exact List.mem_cons_of_mem _ hx
    have h10 : 10 ≤ blockSize s.mem b := hwf b hbmem
    have h32 : blockSize s.mem b < 2 ^ 32 := read32_lt s.mem _
    unfold chainEnd at hend
    have hge := chainEnd_ge s.mem k (b + blockSize s.mem b)
    have hb8 : b + 8 < 2 ^ 64 := by omega
    have c1 : ADDR b SIZEOF_BASE_RELOCATION < endR := by
      unfold SIZEOF_BASE_RELOCATION; rw [ADDR_eq _ _ hb8]; omega
    have c2 : read32 s.mem (b + 4) ≠ 0 := by
      have := h10; unfold blockSize at this; omega
    have c3 : ADDR b (read32 s.mem (b + 4)) ≤ endR := by
      have := h10; unfold blockSize at this hge hend
      rw [ADDR_eq _ _ (by omega)]; omega
    rw [relocLoop_step imageBase delta endR f b s c1 c2 c3]
    generalize hs1 : (s.log (Event.readBlockSize b)).log (Event.readBlockSize b) = s1
    have hm1 : s1.mem = s.mem := by rw [← hs1, log_mem, log_mem]
    have ht1 : s1.trace = s.trace ++ [Event.readBlockSize b] ++ [Event.readBlockSize b] := by
      rw [← hs1, log_trace, log_trace]
    have h8' : 8 ≤ blockSize s1.mem b := by rw [hm1]; omega
    have he' : b + blockSize s1.mem b ≤ endR := by rw [hm1]; omega
    have hmiss' : ∀ t ∈ blockTargets s1.mem imageBase b, t + 8 ≤ b ∨ endR ≤ t := by
      rw [hm1]; exact hmiss b hbmem
    obtain ⟨p1, p2, p3, p4⟩ := processBlock_spec imageBase delta b endR s1 hb8 h8' he' hmiss'
    rw [hm1] at p1 p2
    rw [ht1] at p2 p3 p4
    generalize processBlock imageBase delta b s1 = s2 at *
    have hag : agreeOn s2.mem s.mem b endR := by
      rw [p1]
      exact patchAll_agree delta b endR _ s.mem (hmiss b hbmem)
    have hS2 : read32 s2.mem (b + 4) = blockSize s.mem b := by
      unfold blockSize
      exact read32_congr _ _ (b + 4) b endR hag (by omega) (by omega)
    rw [hS2, Nat.mod_eq_of_lt (by omega)]
    obtain ⟨g1, g2, g3⟩ := chain_congr s.mem s2.mem imageBase endR k (b + blockSize s.mem b)
      (agreeOn_mono _ _ b endR _ endR (agreeOn_symm _ _ _ _ hag) (by omega) (Nat.le_refl _))
      (by omega) (fun x hx => by have := hwf x (htail x hx); omega)
    have gT : (blockChain s.mem k (b + blockSize s.mem b)).flatMap (blockTargets s2.mem imageBase)
        = (blockChain s.mem k (b + blockSize s.mem b)).flatMap (blockTargets s.mem imageBase) := by
      apply List.flatMap_congr
      intro x hx
      exact (g3 x hx).2
    generalize hs3 : s2.log (Event.readBlockSize b) = s3
    have hm3 : s3.mem = s2.mem := by rw [← hs3]; exact log_mem _ _
    have ht3 : s3.trace = s2.trace ++ [Event.readBlockSize b] := by
      rw [← hs3]; exact log_trace _ _
    have q1 : chainEnd s3.mem k (b + blockSize s.mem b) = endR := by
      rw [hm3, g2]; exact hend
    have q2 : ∀ x ∈ blockChain s3.mem k (b + blockSize s.mem b), 10 ≤ blockSize s3.mem x := by
      rw [hm3, g1]
      intro x hx
      rw [(g3 x hx).1]
      exact hwf x (htail x hx)
    have q3 : ∀ x ∈ blockChain s3.mem k (b + blockSize s.mem b),
        ∀ t ∈ blockTargets s3.mem imageBase x, t + 8 ≤ b + blockSize s.mem b ∨ endR ≤ t := by
      rw [hm3, g1]
      intro x hx t ht
      rw [(g3 x hx).2] at ht
      have := hmiss x (htail x hx) t ht
      omega
    obtain ⟨s', r1, r2, r3, r4, r5⟩ := ih (b + blockSize s.mem b) f s3 (by omega) q1 q2 q3
    rw [hm3] at r2 r3 r4 r5
    rw [ht3] at r3 r4 r5
    rw [g1, gT] at r2 r3
    rw [g1] at r4 r5
    refine ⟨s', r1, ?_, ?_, ?_, ?_⟩
    · rw [r2, p1]
      conv_rhs => unfold blockChain
      rw [List.flatMap_cons, patchAll_append]
    · rw [r3, patches_append, p2]
      conv_rhs => unfold blockChain
      rw [List.flatMap_cons]
      simp [patches, patches_append]
    · rw [r4, visits_append, p3]
      conv_rhs => unfold blockChain
      simp [visits, visits_append]
    · intro x hx
      rcases r5 x hx with h | h
      · have e1 : headerReads [Event.readBlockSize b] = [b] := rfl
        rw [headerReads_append, p4, headerReads_append, headerReads_append, e1] at h
        simp only [List.mem_append, List.mem_cons, List.mem_singleton, List.not_mem_nil,
          or_false] at h
        have hb' : x = b → x ∈ headerReads s.trace ∨ x ∈ blockChain s.mem (k + 1) b :=
          fun h => Or.inr (by rw [h]; exact hbmem)
        rcases h with (((h | h) | h) | h | h) | h
        · exact Or.inl h
        all_goals exact hb' h
      · exact Or.inr (htail x h)

theorem chain_block_inside (m : Mem) : ∀ (k b x : Nat), x ∈ blockChain m k b →
    b ≤ x ∧ x + blockSize m x ≤ chainEnd m k b := by
  intro k
  induction k with
  | zero => intro b x hx; simp [blockChain] at hx
  | succ k ih =>
    intro b x hx
    unfold blockChain at hx
    unfold chainEnd
    rcases List.mem_cons.mp hx with rfl | hx
    · exact ⟨Nat.le_refl _, chainEnd_ge m k _⟩
    · have := ih _ x hx
      omega

/-- C9, counterexample. The directory of `selfPatchingImage` is two blocks of size 10
laid end to end that end exactly at the directory end, with no trailing zero block;
the `DIR64` entry of the first block designates the `SizeOfBlock` field of the
second, so `performRelocations` (delta 0x10000) enters the first block only and never
applies the entry of the second block. -/
theorem performRelocations_self_patching :
    deltaOf selfPatchingImage 0x20000 0x20040 ≠ 0 ∧
    blockChain selfPatchingImage 2 (relocStart selfPatchingImage 0x20000 0x20040)
      = [0x21000, 0x2100A] ∧
    blockSize selfPatchingImage 0x21000 = 10 ∧ blockSize selfPatchingImage 0x2100A = 10 ∧
    chainEnd selfPatchingImage 2 (relocStart selfPatchingImage 0x20000 0x20040)
      = relocEnd selfPatchingImage 0x20000 0x20040 ∧
    blockTargets selfPatchingImage 0x20000 0x2100A = [0x23020] ∧
    (performRelocations 5 selfPatchingImage 0x20000).map
        (fun r => (r.ok, visits r.trace, patches r.trace, read64 r.mem 0x23020))
      = some (true, [0x21000], [0x2100E], 0x15678) := by
  decide

/-- C9, amended. For a relocation directory made of `k ≥ 1` blocks with
`SizeOfBlock ≥ 10` laid end to end, the last one ending exactly at the directory end
(no trailing zero block), and such that no fix-up target of these blocks overlaps the
directory: `performRelocations` with non-zero delta returns true once the loop bound
exceeds `k`, enters exactly the `k` blocks in order, applies the `DIR64` entries of
every block, the last included, once each and in order, and reads the header of no
block that is not one of the `k`, each of which lies at least 10 bytes before the
directory end. -/
theorem performRelocations_block_chain (fuel k : Nat) (m : Mem) (imageBase peHdr : Nat)
    (hpe : getPEHeader m imageBase = some peHdr)
    (hdelta : deltaOf m imageBase peHdr ≠ 0)
    (hspace : imageBase + 2 ^ 33 ≤ 2 ^ 64)
    (hdir : relocDirVA m peHdr + relocDirSize m peHdr < 2 ^ 32)
    (hk : 1 ≤ k) (hfuel : k < fuel)
    (hwf : ∀ b ∈ blockChain m k (relocStart m imageBase peHdr), 10 ≤ blockSize m b)
    (hend : chainEnd m k (relocStart m imageBase peHdr) = relocEnd m imageBase peHdr)
    (hmiss : ∀ b ∈ blockChain m k (relocStart m imageBase peHdr),
      ∀ t ∈ blockTargets m imageBase b,
        t + 8 ≤ relocStart m imageBase peHdr ∨ relocEnd m imageBase peHdr ≤ t) :
    ∃ r, performRelocations fuel m imageBase = some r ∧ r.ok = true ∧
      visits r.trace = blockChain m k (relocStart m imageBase peHdr) ∧
      patches r.trace = (blockChain m k (relocStart m imageBase peHdr)).flatMap
        (blockTargets m imageBase) ∧
      r.mem = patchAll (deltaOf m imageBase peHdr) m
        ((blockChain m k (relocStart m imageBase peHdr)).flatMap (blockTargets m imageBase)) ∧
      ∀ x ∈ headerReads r.trace, x ∈ blockChain m k (relocStart m imageBase peHdr) ∧
        x + 10 ≤ relocEnd m imageBase peHdr := by
  have hva : relocDirVA m peHdr < 2 ^ 32 := read32_lt m _
  have hstart : relocStart m imageBase peHdr = imageBase + relocDirVA m peHdr := by
    unfold relocStart
    exact ADDR_eq _ _ (by omega)
  have hendv : relocEnd m imageBase peHdr
      = imageBase + relocDirVA m peHdr + relocDirSize m peHdr := by
    unfold relocEnd
    rw [Nat.mod_eq_of_lt hdir, ADDR_eq _ _ (by omega)]
    omega
  obtain ⟨k', rfl⟩ : ∃ k', k = k' + 1 := ⟨k - 1, by omega⟩
  have hb0 : relocStart m imageBase peHdr ∈ blockChain m (k' + 1) (relocStart m imageBase peHdr) := by
    unfold blockChain; exact List.mem_cons_self _ _
  have hin0 := chain_block_inside m (k' + 1) _ _ hb0
  have h10 := hwf _ hb0
  have hsz0 : ¬ relocDirSize m peHdr = 0 := by
    rw [hend] at hin0
    omega
  have hend8 : relocEnd m imageBase peHdr + 8 < 2 ^ 64 := by omega
  rw [performRelocations_of_header fuel m imageBase peHdr hpe, if_neg hdelta, if_neg hsz0]
  generalize hs : ({ mem := m, trace := headerTrace m imageBase peHdr } : Machine) = s
  have hm : s.mem = m := by rw [← hs]
  have ht : s.trace = headerTrace m imageBase peHdr := by rw [← hs]
  obtain ⟨s', r1, r2, r3, r4, r5⟩ := relocLoop_chain imageBase (deltaOf m imageBase peHdr)
    (relocEnd m imageBase peHdr) hend8 (k' + 1) (relocStart m imageBase peHdr) fuel s hfuel
    (by rw [hm]; exact hend) (by rw [hm]; exact hwf) (by rw [hm]; exact hmiss)
  rw [hm] at r2 r3 r4 r5
  rw [ht] at r3 r4 r5
  have hpr := headerTrace_peRead m imageBase peHdr
  rw [r1]
  refine ⟨_, rfl, rfl, ?_, ?_, r2, ?_⟩
  · show visits s'.trace = _
    rw [r4, visits_of_peRead _ hpr, List.nil_append]
  · show patches s'.trace = _
    rw [r3, patches_of_peRead _ hpr, List.nil_append]
  · intro x hx
    change x ∈ headerReads s'.trace at hx
    have hnil : headerReads (headerTrace m imageBase peHdr) = [] := by
      unfold headerReads
      rw [List.filterMap_eq_nil_iff]
      intro e he
      obtain ⟨a, sz, rfl⟩ := hpr e he
      rfl
    rcases r5 x hx with h | h
    · rw [hnil] at h
      exact absurd h (List.not_mem_nil _)
    · refine ⟨h, ?_⟩
      have h1 := chain_block_inside m (k' + 1) _ x h
      have h2 := hwf x h
      rw [hend] at h1
      omega

/-- Witness of the amended C9: two blocks of size 10 whose fix-ups lie outside the
directory. -/
theorem performRelocations_block_chain_witness :
    ∃ r, performRelocations 3 twoBlockImage 0x20000 = some r ∧ r.ok = true ∧
      visits r.trace = [0x21000, 0x2100A] ∧ patches r.trace = [0x22010, 0x23020] := by
  have hc : blockChain twoBlockImage 2 (relocStart twoBlockImage 0x20000 0x20040)
      = [0x21000, 0x2100A] := by decide
  have hp : (blockChain twoBlockImage 2 (relocStart twoBlockImage 0x20000 0x20040)).flatMap
      (blockTargets twoBlockImage 0x20000) = [0x22010, 0x23020] := by decide
  obtain ⟨r, h1, h2, h3, h4, _⟩ :=
    performRelocations_block_chain 3 2 twoBlockImage 0x20000 0x20040
      (by decide) (by decide) (by norm_num) (by decide) (by decide) (by decide)
      (by decide) (by decide) (by decide)
  rw [hc] at h3
  rw [hp] at h4
  exact ⟨r, h1, h2, h3, h4⟩

/-! ## Tables without native entries -/

theorem targetsFrom_nil (m : Mem) (rb fx : Nat) :
    ∀ (n idx : Nat),
      (∀ i, i < n → IMAGE_REL_BASED_TYPE (read16 m (fx + 2 * (idx + i))) ≠ IMAGE_REL_BASED_DIR64) →
      targetsFrom m rb fx n idx = [] := by
  intro n
  induction n with
  | zero => intro idx _; rfl
  | succ n ih =>
    intro idx h
    unfold targetsFrom
    have h0 := h 0 (Nat.succ_pos n)
    rw [Nat.add_zero] at h0
    rw [if_neg h0, List.nil_append]
    apply ih
    intro i hi
    have := h (i + 1) (Nat.succ_lt_succ hi)
    rw [show idx + (i + 1) = idx + 1 + i by omega] at this
    exact this

/-- C11. For a relocation directory made of `k` blocks with `SizeOfBlock ≥ 10` laid
end to end up to the directory end, all of whose entries have a type other than
`DIR64` (`ABSOLUTE` padding or any unsupported type): `performRelocations` with
non-zero delta returns true once the loop bound exceeds `k`, writes no fix-up and
leaves every byte of the image unchanged, after entering each of the `k` blocks. -/
theorem performRelocations_no_native_entries (fuel k : Nat) (m : Mem) (imageBase peHdr : Nat)
    (hpe : getPEHeader m imageBase = some peHdr)
    (hdelta : deltaOf m imageBase peHdr ≠ 0)
    (hspace : imageBase + 2 ^ 33 ≤ 2 ^ 64)
    (hdir : relocDirVA m peHdr + relocDirSize m peHdr < 2 ^ 32)
    (hsize : relocDirSize m peHdr ≠ 0)
    (hfuel : k < fuel)
    (hwf : ∀ b ∈ blockChain m k (relocStart m imageBase peHdr), 10 ≤ blockSize m b)
    (hend : chainEnd m k (relocStart m imageBase peHdr) = relocEnd m imageBase peHdr)
    (htype : ∀ b ∈ blockChain m k (relocStart m imageBase peHdr),
      ∀ idx, idx < IMAGE_REL_BASED_COUNT (blockSize m b) →
        IMAGE_REL_BASED_TYPE (read16 m (b + 8 + 2 * idx)) ≠ IMAGE_REL_BASED_DIR64) :
    ∃ r, performRelocations fuel m imageBase = some r ∧ r.ok = true ∧ r.mem = m ∧
      patches r.trace = [] ∧
      visits r.trace = blockChain m k (relocStart m imageBase peHdr) := by
  have hva : relocDirVA m peHdr < 2 ^ 32 := read32_lt m _
  have hendv : relocEnd m imageBase peHdr
      = imageBase + relocDirVA m peHdr + relocDirSize m peHdr := by
    unfold relocEnd
    rw [Nat.mod_eq_of_lt hdir, ADDR_eq _ _ (by omega)]
    omega
  have hend8 : relocEnd m imageBase peHdr + 8 < 2 ^ 64 := by omega
  have hT : ∀ b ∈ blockChain m k (relocStart m imageBase peHdr),
      blockTargets m imageBase b = [] := by
    intro b hb
    unfold blockTargets SIZEOF_BASE_RELOCATION
    apply targetsFrom_nil
    intro i hi
    rw [Nat.zero_add]
    exact htype b hb i hi
  have hflat : (blockChain m k (relocStart m imageBase peHdr)).flatMap (blockTargets m imageBase)
      = [] := by
    rw [List.flatMap_eq_nil_iff]
    exact hT
  rw [performRelocations_of_header fuel m imageBase peHdr hpe, if_neg hdelta, if_neg hsize]
  generalize hs : ({ mem := m, trace := headerTrace m imageBase peHdr } : Machine) = s
  have hm : s.mem = m := by rw [← hs]
  have ht : s.trace = headerTrace m imageBase peHdr := by rw [← hs]
  obtain ⟨s', r1, r2, r3, r4, _⟩ := relocLoop_chain imageBase (deltaOf m imageBase peHdr)
    (relocEnd m imageBase peHdr) hend8 k (relocStart m imageBase peHdr) fuel s hfuel
    (by rw [hm]; exact hend) (by rw [hm]; exact hwf)
    (by
      rw [hm]
      intro b hb t ht'
      rw [hT b hb] at ht'
      exact absurd ht' (List.not_mem_nil _))
  rw [hm, hflat] at r2 r3
  rw [hm] at r4
  rw [ht] at r3 r4
  have hpr := headerTrace_peRead m imageBase peHdr
  rw [r1]
  refine ⟨_, rfl, rfl, ?_, ?_, ?_⟩
  · show s'.mem = m
    rw [r2]; rfl
  · show patches s'.trace = []
    rw [r3, patches_of_peRead _ hpr]; rfl
  · show visits s'.trace = _
    rw [r4, visits_of_peRead _ hpr, List.nil_append]

/-- Witness of C11: one block holding an `ABSOLUTE` entry and a `HIGHLOW` entry. -/
theorem performRelocations_no_native_entries_witness :
    ∃ r, performRelocations 2 paddingOnlyImage 0x20000 = some r ∧ r.ok = true ∧
      r.mem = paddingOnlyImage ∧ patches r.trace = [] ∧ visits r.trace = [0x21000] := by
  have hc : blockChain paddingOnlyImage 1 (relocStart paddingOnlyImage 0x20000 0x20040)
      = [0x21000] := by decide
  obtain ⟨r, h1, h2, h3, h4, h5⟩ :=
    performRelocations_no_native_entries 2 1 paddingOnlyImage 0x20000 0x20040
      (by decide) (by decide) (by norm_num) (by decide) (by decide) (by decide)
      (by decide) (by decide) (by decide)
  rw [hc] at h5
  exact ⟨r, h1, h2, h3, h4, h5⟩

/-! ## TLS callbacks (`callTLSCallbacks`) -/

/-- C15. For an in-memory image accepted by `getPEHeader` whose TLS directory entry
has `Size = 0`, or whose TLS directory has a zero `AddressOfCallBacks` field,
`callTLSCallbacks` returns true for every loop bound, performs no action (no callback
is invoked) and leaves the image as it is. -/
theorem callTLSCallbacks_nothing_to_call (w : Win32) (fuel imageBase peHdr : Nat)
    (s : LoadState)
    (hpe : getPEHeader s.mem imageBase = some peHdr)
    (h : read32 s.mem (dirEntryAddr peHdr IMAGE_DIRECTORY_ENTRY_TLS + 4) = 0 ∨
      read64 s.mem (ADDR imageBase (read32 s.mem (dirEntryAddr peHdr IMAGE_DIRECTORY_ENTRY_TLS))
        + OFF_AddressOfCallBacks) = 0) :
    callTLSCallbacks w fuel imageBase s = (some true, s) := by
  unfold callTLSCallbacks
  rw [hpe]
  simp only []
  by_cases h0 : read32 s.mem (dirEntryAddr peHdr IMAGE_DIRECTORY_ENTRY_TLS + 4) = 0
  · rw [if_pos h0]
  · rw [if_neg h0]
    rcases h with h | h
    · exact absurd h h0
    · rw [if_pos h]

/-- Witness of C15: `Size = 0` with a non-null callback pointer, and a non-empty
directory with a null callback pointer. -/
theorem callTLSCallbacks_nothing_to_call_witness :
    callTLSCallbacks failingOs 0 0x20000 { mem := noTlsImage, os := [] }
      = (some true, { mem := noTlsImage, os := [] }) ∧
    callTLSCallbacks failingOs 0 0x20000 { mem := emptyTlsImage, os := [] }
      = (some true, { mem := emptyTlsImage, os := [] }) :=
  ⟨callTLSCallbacks_nothing_to_call failingOs 0 0x20000 0x20040
      { mem := noTlsImage, os := [] } (by decide) (Or.inl (by decide)),
   callTLSCallbacks_nothing_to_call failingOs 0 0x20000 0x20040
      { mem := emptyTlsImage, os := [] } (by decide) (Or.inr (by decide))⟩

/-- The callback loop never ends once entered with a non-null array pointer: the
pointer only grows. -/
theorem tlsLoop_never_returns (w : Win32) (imageBase : Nat) :
    ∀ (fuel callbackList : Nat) (s : LoadState), callbackList ≠ 0 →
      (tlsLoop w imageBase fuel callbackList s).1 = none := by
  intro fuel
  induction fuel with
  | zero => intro p s _; rfl
  | succ fuel ih =>
    intro p s hp
    unfold tlsLoop
    rw [if_neg hp]
    exact ih (p + 8) _ (by omega)

/-- C14, the code at the failing input. On the image whose callback array holds one
callback 0x21A00 followed by a null entry, two iterations of the loop of
`callTLSCallbacks` call 0x21A00 and then the null entry itself (function pointer 0
read from slot 0x21908), and the function has not returned; nor has it after 50
iterations. -/
theorem callTLSCallbacks_invokes_null_entry :
    (callTLSCallbacks failingOs 2 0x20000 { mem := tlsImage, os := [] }).1 = none ∧
    (callTLSCallbacks failingOs 2 0x20000 { mem := tlsImage, os := [] }).2.os =
      [OsEvent.tlsCallback 0x21900 0x21A00 0x20000 DLL_PROCESS_ATTACH,
       OsEvent.tlsCallback 0x21908 0 0x20000 DLL_PROCESS_ATTACH] ∧
    (callTLSCallbacks failingOs 50 0x20000 { mem := tlsImage, os := [] }).1 = none := by
  decide

/-! ## Import resolution (`processImportDescriptor`, `linkImports`) -/

theorem readLE_congr (m m' : Mem) (lo hi : Nat) (h : agreeOn m m' lo hi) :
    ∀ (n a : Nat), lo ≤ a → a + n ≤ hi → readLE m a n = readLE m' a n := by
  intro n
  induction n with
  | zero => intro a _ _; rfl
  | succ n ih =>
    intro a hlo hhi
    unfold readLE
    rw [h a hlo (by omega), ih (a + 1) (by omega) (by omega)]

theorem read64_congr (m m' : Mem) (a lo hi : Nat) (h : agreeOn m m' lo hi)
    (hlo : lo ≤ a) (hhi : a + 8 ≤ hi) : read64 m a = read64 m' a := by
  unfold read64
  exact readLE_congr m m' lo hi h 8 a hlo hhi

theorem write64_agree (m : Mem) (t v lo hi : Nat) (h : t + 8 ≤ lo ∨ hi ≤ t) :
    agreeOn (write64 m t v) m lo hi := by
  intro x h1 h2
  exact write64_other _ _ _ _ (by omega)

theorem tableEntries_congr (m m' : Mem) (lo hi : Nat) (h : agreeOn m m' lo hi) :
    ∀ (n table : Nat), lo ≤ table → table + 8 * n ≤ hi →
      tableEntries m table n = tableEntries m' table n := by
  intro n
  induction n with
  | zero => intro table _ _; rfl
  | succ n ih =>
    intro table hlo hhi
    unfold tableEntries
    rw [read64_congr m m' table lo hi h hlo (by omega), ih (table + 8) (by omega) (by omega)]

theorem oslog_mem (s : LoadState) (e : OsEvent) : (s.log e).mem = s.mem := rfl

theorem oslog_os (s : LoadState) (e : OsEvent) : (s.log e).os = s.os ++ [e] := rfl

theorem thunkLoop_succ (w : Win32) (imageBase hModule fuel ILT IAT : Nat) (s : LoadState) :
    thunkLoop w imageBase hModule (fuel + 1) ILT IAT s =
      if read64 s.mem ILT = 0 then
        some (true, s)
      else if IMAGE_SNAP_BY_ORDINAL (read64 s.mem ILT) = true then
        if w.GetProcAddress s.os s.mem hModule (IMAGE_ORDINAL (read64 s.mem ILT)) % 2 ^ 64 = 0 then
          some (false, s.log (OsEvent.procByOrdinal hModule (IMAGE_ORDINAL (read64 s.mem ILT))
            (w.GetProcAddress s.os s.mem hModule (IMAGE_ORDINAL (read64 s.mem ILT)) % 2 ^ 64)))
        else
          thunkLoop w imageBase hModule fuel (ILT + 8) (IAT + 8)
            { mem := write64 s.mem IAT
                (w.GetProcAddress s.os s.mem hModule (IMAGE_ORDINAL (read64 s.mem ILT)) % 2 ^ 64)
              os := s.os ++ [OsEvent.procByOrdinal hModule (IMAGE_ORDINAL (read64 s.mem ILT))
                (w.GetProcAddress s.os s.mem hModule (IMAGE_ORDINAL (read64 s.mem ILT)) % 2 ^ 64)]
                ++ [OsEvent.iatWrite IAT
                  (w.GetProcAddress s.os s.mem hModule (IMAGE_ORDINAL (read64 s.mem ILT)) % 2 ^ 64)] }
      else
        if w.GetProcAddress s.os s.mem hModule
            (ADDR imageBase (read64 s.mem ILT) + OFF_ImportByName_Name) % 2 ^ 64 = 0 then
          if w.readableString (read64 s.mem ILT) = true then
            some (false, s.log (OsEvent.procByName hModule
              (ADDR imageBase (read64 s.mem ILT) + OFF_ImportByName_Name)
              (w.GetProcAddress s.os s.mem hModule
                (ADDR imageBase (read64 s.mem ILT) + OFF_ImportByName_Name) % 2 ^ 64)))
          else none
        else
          thunkLoop w imageBase hModule fuel (ILT + 8) (IAT + 8)
            { mem := write64 s.mem IAT
                (w.GetProcAddress s.os s.mem hModule
                  (ADDR imageBase (read64 s.mem ILT) + OFF_ImportByName_Name) % 2 ^ 64)
              os := s.os ++ [OsEvent.procByName hModule
                (ADDR imageBase (read64 s.mem ILT) + OFF_ImportByName_Name)
                (w.GetProcAddress s.os s.mem hModule
                  (ADDR imageBase (read64 s.mem ILT) + OFF_ImportByName_Name) % 2 ^ 64)]
                ++ [OsEvent.iatWrite IAT
                  (w.GetProcAddress s.os s.mem hModule
                    (ADDR imageBase (read64 s.mem ILT) + OFF_ImportByName_Name) % 2 ^ 64)] } :=
  rfl

theorem tableEntries_zero (m : Mem) (t : Nat) : tableEntries m t 0 = [] := rfl

theorem tableEntries_succ (m : Mem) (t n : Nat) :
    tableEntries m t (n + 1) = read64 m t :: tableEntries m (t + 8) n := rfl

theorem resolveEntries_nil (w : Win32) (imageBase hModule IAT : Nat) (s : LoadState) :
    resolveEntries w imageBase hModule IAT [] s = (true, s) := rfl

theorem resolveEntries_ordinal (w : Win32) (imageBase hModule IAT e : Nat) (es : List Nat)
    (s : LoadState) (h : IMAGE_SNAP_BY_ORDINAL e = true) :
    resolveEntries w imageBase hModule IAT (e :: es) s =
      if w.GetProcAddress s.os s.mem hModule (IMAGE_ORDINAL e) % 2 ^ 64 = 0 then
        (false, s.log (OsEvent.procByOrdinal hModule (IMAGE_ORDINAL e)
          (w.GetProcAddress s.os s.mem hModule (IMAGE_ORDINAL e) % 2 ^ 64)))
      else
        resolveEntries w imageBase hModule (IAT + 8) es
          { mem := write64 s.mem IAT (w.GetProcAddress s.os s.mem hModule (IMAGE_ORDINAL e) % 2 ^ 64)
            os := s.os ++ [OsEvent.procByOrdinal hModule (IMAGE_ORDINAL e)
              (w.GetProcAddress s.os s.mem hModule (IMAGE_ORDINAL e) % 2 ^ 64)]
              ++ [OsEvent.iatWrite IAT
                (w.GetProcAddress s.os s.mem hModule (IMAGE_ORDINAL e) % 2 ^ 64)] } := by
  have h0 : resolveEntries w imageBase hModule IAT (e :: es) s =
      (let arg := if IMAGE_SNAP_BY_ORDINAL e = true then IMAGE_ORDINAL e
          else ADDR imageBase e + OFF_ImportByName_Name
       let r := w.GetProcAddress s.os s.mem hModule arg % 2 ^ 64
       let call := if IMAGE_SNAP_BY_ORDINAL e = true then OsEvent.procByOrdinal hModule arg r
          else OsEvent.procByName hModule arg r
       if r = 0 then (false, s.log call)
       else resolveEntries w imageBase hModule (IAT + 8) es
        { mem := write64 s.mem IAT r, os := s.os ++ [call] ++ [OsEvent.iatWrite IAT r] }) := rfl
  rw [h0]
  simp only [if_pos h]

theorem resolveEntries_name (w : Win32) (imageBase hModule IAT e : Nat) (es : List Nat)
    (s : LoadState) (h : ¬ IMAGE_SNAP_BY_ORDINAL e = true) :
    resolveEntries w imageBase hModule IAT (e :: es) s =
      if w.GetProcAddress s.os s.mem hModule (ADDR imageBase e + OFF_ImportByName_Name) % 2 ^ 64
          = 0 then
        (false, s.log (OsEvent.procByName hModule (ADDR imageBase e + OFF_ImportByName_Name)
          (w.GetProcAddress s.os s.mem hModule (ADDR imageBase e + OFF_ImportByName_Name)
            % 2 ^ 64)))
      else
        resolveEntries w imageBase hModule (IAT + 8) es
          { mem := write64 s.mem IAT
              (w.GetProcAddress s.os s.mem hModule (ADDR imageBase e + OFF_ImportByName_Name)
                % 2 ^ 64)
            os := s.os ++ [OsEvent.procByName hModule (ADDR imageBase e + OFF_ImportByName_Name)
              (w.GetProcAddress s.os s.mem hModule (ADDR imageBase e + OFF_ImportByName_Name)
                % 2 ^ 64)]
              ++ [OsEvent.iatWrite IAT
                (w.GetProcAddress s.os s.mem hModule (ADDR imageBase e + OFF_ImportByName_Name)
                  % 2 ^ 64)] } := by
  have h0 : resolveEntries w imageBase hModule IAT (e :: es) s =
      (let arg := if IMAGE_SNAP_BY_ORDINAL e = true then IMAGE_ORDINAL e
          else ADDR imageBase e + OFF_ImportByName_Name
       let r := w.GetProcAddress s.os s.mem hModule arg % 2 ^ 64
       let call := if IMAGE_SNAP_BY_ORDINAL e = true then OsEvent.procByOrdinal hModule arg r
          else OsEvent.procByName hModule arg r
       if r = 0 then (false, s.log call)
       else resolveEntries w imageBase hModule (IAT + 8) es
        { mem := write64 s.mem IAT r, os := s.os ++ [call] ++ [OsEvent.iatWrite IAT r] }) := rfl
  rw [h0]
  simp only [if_neg h]

/-- The thunk loop, which re-reads the lookup table from the image it is patching,
does what the specification's walk does on the entries present at the start, when the
address table coincides with the lookup table or does not overlap it; unless that
walk ends with a failed lookup by name whose `fprintf` reads an unreadable address:
then the loop does not return. -/
theorem thunkLoop_refines (w : Win32) (imageBase hModule : Nat) :
    ∀ (n ILT IAT fuel : Nat) (s : LoadState), n < fuel →
      (∀ e ∈ tableEntries s.mem ILT n, e ≠ 0) →
      read64 s.mem (ILT + 8 * n) = 0 →
      (IAT = ILT ∨ IAT + 8 * n ≤ ILT ∨ ILT + 8 * (n + 1) ≤ IAT) →
      thunkLoop w imageBase hModule fuel ILT IAT s =
          some (resolveEntries w imageBase hModule IAT (tableEntries s.mem ILT n) s) ∨
      (thunkLoop w imageBase hModule fuel ILT IAT s = none ∧
        (resolveEntries w imageBase hModule IAT (tableEntries s.mem ILT n) s).1 = false ∧
        (∃ a, w.readableString a = false) ∧
        ∃ pre h p,
          (resolveEntries w imageBase hModule IAT (tableEntries s.mem ILT n) s).2.os =
            s.os ++ pre ++ [OsEvent.procByName h p 0]) := by
  intro n
  induction n with
  | zero =>
    intro ILT IAT fuel s hfuel _ hz _
    obtain ⟨f, rfl⟩ : ∃ f, fuel = f + 1 := ⟨fuel - 1, by omega⟩
    rw [Nat.mul_zero, Nat.add_zero] at hz
    rw [thunkLoop_succ, if_pos hz, tableEntries_zero, resolveEntries_nil]
    exact Or.inl rfl
  | succ n ih =>
    intro ILT IAT fuel s hfuel hnz hz hno
    obtain ⟨f, rfl⟩ : ∃ f, fuel = f + 1 := ⟨fuel - 1, by omega⟩
    rw [tableEntries_succ] at hnz ⊢
    have he : read64 s.mem ILT ≠ 0 := hnz _ (List.mem_cons_self _ _)
    have hrest : ∀ (r : Nat) (call : OsEvent),
        thunkLoop w imageBase hModule f (ILT + 8) (IAT + 8)
          { mem := write64 s.mem IAT r, os := s.os ++ [call] ++ [OsEvent.iatWrite IAT r] } =
        some (resolveEntries w imageBase hModule (IAT + 8) (tableEntries s.mem (ILT + 8) n)
          { mem := write64 s.mem IAT r, os := s.os ++ [call] ++ [OsEvent.iatWrite IAT r] }) ∨
        (thunkLoop w imageBase hModule f (ILT + 8) (IAT + 8)
          { mem := write64 s.mem IAT r, os := s.os ++ [call] ++ [OsEvent.iatWrite IAT r] } =
            none ∧
          (resolveEntries w imageBase hModule (IAT + 8) (tableEntries s.mem (ILT + 8) n)
            { mem := write64 s.mem IAT r,
              os := s.os ++ [call] ++ [OsEvent.iatWrite IAT r] }).1 = false ∧
          (∃ a, w.readableString a = false) ∧
          ∃ pre h p,
            (resolveEntries w imageBase hModule (IAT + 8) (tableEntries s.mem (ILT + 8) n)
              { mem := write64 s.mem IAT r,
                os := s.os ++ [call] ++ [OsEvent.iatWrite IAT r] }).2.os =
              s.os ++ pre ++ [OsEvent.procByName h p 0]) := by
      intro r call
      have hag : agreeOn (write64 s.mem IAT r) s.mem (ILT + 8) (ILT + 8 * (n + 2)) :=
        write64_agree s.mem IAT r _ _ (by omega)
      have hte : tableEntries (write64 s.mem IAT r) (ILT + 8) n
          = tableEntries s.mem (ILT + 8) n :=
        tableEntries_congr _ _ _ _ hag n (ILT + 8) (Nat.le_refl _) (by omega)
      generalize hs2 : (LoadState.mk (write64 s.mem IAT r)
        (s.os ++ [call] ++ [OsEvent.iatWrite IAT r])) = s2
      have hm2 : s2.mem = write64 s.mem IAT r := by rw [← hs2]
      have ho2 : s2.os = s.os ++ [call] ++ [OsEvent.iatWrite IAT r] := by rw [← hs2]
      rw [← hm2] at hte hag
      have h := ih (ILT + 8) (IAT + 8) f s2 (by omega)
        (by
          rw [hte]
          intro e he'
          exact hnz e (List.mem_cons_of_mem _ he'))
        (by
          rw [read64_congr _ _ (ILT + 8 + 8 * n) _ _ hag (by omega) (by omega)]
          rw [show ILT + 8 + 8 * n = ILT + 8 * (n + 1) by omega]
          exact hz)
        (by omega)
      rw [hte] at h
      rcases h with h | ⟨h1, h2, h3, pre, hh, p, h4⟩
      · exact Or.inl h
      · refine Or.inr ⟨h1, h2, h3, [call] ++ [OsEvent.iatWrite IAT r] ++ pre, hh, p, ?_⟩
        rw [h4, ho2]
        simp only [List.append_assoc]
    rw [thunkLoop_succ, if_neg he]
    by_cases hord : IMAGE_SNAP_BY_ORDINAL (read64 s.mem ILT) = true
    · rw [if_pos hord, resolveEntries_ordinal _ _ _ _ _ _ _ hord]
      by_cases hr : w.GetProcAddress s.os s.mem hModule (IMAGE_ORDINAL (read64 s.mem ILT))
          % 2 ^ 64 = 0
      · rw [if_pos hr, if_pos hr]
        exact Or.inl rfl
      · rw [if_neg hr, if_neg hr]
        exact hrest _ _
    · rw [if_neg hord, resolveEntries_name _ _ _ _ _ _ _ hord]
      by_cases hr : w.GetProcAddress s.os s.mem hModule
          (ADDR imageBase (read64 s.mem ILT) + OFF_ImportByName_Name) % 2 ^ 64 = 0
      · rw [if_pos hr, if_pos hr]
        by_cases hread : w.readableString (read64 s.mem ILT) = true
        · rw [if_pos hread]
          exact Or.inl rfl
        · rw [if_neg hread]
          refine Or.inr ⟨rfl, rfl, ⟨read64 s.mem ILT, Bool.eq_false_iff.mpr hread⟩, [], hModule,
            ADDR imageBase (read64 s.mem ILT) + OFF_ImportByName_Name, ?_⟩
          rw [oslog_os, hr, List.append_nil]
      · rw [if_neg hr, if_neg hr]
        exact hrest _ _

theorem lookups_append (t1 t2 : List OsEvent) : lookups (t1 ++ t2) = lookups t1 ++ lookups t2 := by
  unfold lookups; exact List.filterMap_append _ _ _

theorem slots_succ (table n : Nat) : slots table (n + 1) = table :: slots (table + 8) n := rfl

theorem lookupFor_ordinal (imageBase hModule e : Nat) (h : IMAGE_SNAP_BY_ORDINAL e = true) :
    lookupFor imageBase hModule e = Lookup.byOrdinal hModule (IMAGE_ORDINAL e) := by
  unfold lookupFor; rw [if_pos h]

theorem lookupFor_name (imageBase hModule e : Nat) (h : ¬ IMAGE_SNAP_BY_ORDINAL e = true) :
    lookupFor imageBase hModule e
      = Lookup.byName hModule (ADDR imageBase e + OFF_ImportByName_Name) := by
  unfold lookupFor; rw [if_neg h]

/-- One step of the specification walk: the call made for entry `e`, its result `r`,
and the outcome. -/
theorem resolveEntries_cons (w : Win32) (imageBase hModule IAT e : Nat) (es : List Nat)
    (s : LoadState) :
    ∃ (call : OsEvent) (r : Nat), r < 2 ^ 64 ∧
      lookups [call] = [(lookupFor imageBase hModule e, r)] ∧
      resolveEntries w imageBase hModule IAT (e :: es) s =
        if r = 0 then (false, s.log call)
        else resolveEntries w imageBase hModule (IAT + 8) es
          { mem := write64 s.mem IAT r, os := s.os ++ [call] ++ [OsEvent.iatWrite IAT r] } := by
  by_cases hord : IMAGE_SNAP_BY_ORDINAL e = true
  · exact ⟨_, _, Nat.mod_lt _ (Nat.two_pow_pos 64),
      by rw [lookupFor_ordinal _ _ _ hord]; rfl,
      resolveEntries_ordinal w imageBase hModule IAT e es s hord⟩
  · exact ⟨_, _, Nat.mod_lt _ (Nat.two_pow_pos 64),
      by rw [lookupFor_name _ _ _ hord]; rfl,
      resolveEntries_name w imageBase hModule IAT e es s hord⟩

/-- What the specification walk over the entries `es` does: one resolver call per
entry in order up to the first failure, success exactly when no call failed, and on
success slot `i` of the address table holds the result of call `i`. -/
theorem resolveEntries_spec (w : Win32) (imageBase hModule : Nat) :
    ∀ (es : List Nat) (IAT : Nat) (s : LoadState),
      ∃ evs, (resolveEntries w imageBase hModule IAT es s).2.os = s.os ++ evs ∧
        (lookups evs).map Prod.fst
          = (es.map (lookupFor imageBase hModule)).take (lookups evs).length ∧
        ((resolveEntries w imageBase hModule IAT es s).1 = true ↔
          ∀ p ∈ lookups evs, p.2 ≠ 0) ∧
        ((resolveEntries w imageBase hModule IAT es s).1 = true →
          (lookups evs).map Prod.fst = es.map (lookupFor imageBase hModule) ∧
          (slots IAT es.length).map (read64 (resolveEntries w imageBase hModule IAT es s).2.mem)
            = (lookups evs).map Prod.snd) ∧
        (∀ x, x < IAT → (resolveEntries w imageBase hModule IAT es s).2.mem x = s.mem x) := by
  intro es
  induction es with
  | nil =>
    intro IAT s
    refine ⟨[], ?_, ?_, ?_, ?_, ?_⟩
    · rw [resolveEntries_nil]; simp
    · simp [lookups]
    · rw [resolveEntries_nil]; simp [lookups]
    · intro _; rw [resolveEntries_nil]; simp [lookups, slots]
    · intro x _; rw [resolveEntries_nil]
  | cons e es ih =>
    intro IAT s
    obtain ⟨call, r, hr64, hcall, heq⟩ := resolveEntries_cons w imageBase hModule IAT e es s
    rw [heq]
    by_cases hr : r = 0
    · rw [if_pos hr]
      refine ⟨[call], ?_, ?_, ?_, ?_, ?_⟩
      · exact oslog_os s call
      · rw [hcall]; simp
      · rw [hcall]; simp [hr]
      · intro h; simp at h
      · intro x _; rfl
    · rw [if_neg hr]
      generalize hs2 : (LoadState.mk (write64 s.mem IAT r)
        (s.os ++ [call] ++ [OsEvent.iatWrite IAT r])) = s2
      have hm2 : s2.mem = write64 s.mem IAT r := by rw [← hs2]
      have ho2 : s2.os = s.os ++ [call] ++ [OsEvent.iatWrite IAT r] := by rw [← hs2]
      obtain ⟨evs, i1, i2, i3, i4, i5⟩ := ih (IAT + 8) s2
      generalize resolveEntries w imageBase hModule (IAT + 8) es s2 = res at *
      have hl : lookups ([call] ++ [OsEvent.iatWrite IAT r] ++ evs)
          = (lookupFor imageBase hModule e, r) :: lookups evs := by
        rw [lookups_append, lookups_append, hcall]
        rfl
      refine ⟨[call] ++ [OsEvent.iatWrite IAT r] ++ evs, ?_, ?_, ?_, ?_, ?_⟩
      · rw [i1, ho2]; simp
      · rw [hl]; simp [i2]
      · rw [hl, i3]; simp [hr]
      · intro hok
        obtain ⟨j1, j2⟩ := i4 hok
        rw [hl]
        refine ⟨by simp [j1], ?_⟩
        have hag : agreeOn res.2.mem s2.mem IAT (IAT + 8) := fun x _ h2 => i5 x h2
        have hslot : read64 res.2.mem IAT = r := by
          rw [read64_congr _ _ IAT IAT (IAT + 8) hag (Nat.le_refl _) (Nat.le_refl _), hm2]
          exact read64_write64 _ _ _ hr64
        rw [List.length_cons, slots_succ, List.map_cons, List.map_cons, j2, hslot]
      · intro x hx
        have hx8 : x < IAT + 8 := Nat.lt_of_lt_of_le hx (Nat.le_add_right _ _)
        have hnot : ¬ (IAT ≤ x ∧ x < IAT + 8) := fun h => absurd h.1 (Nat.not_le_of_lt hx)
        rw [i5 x hx8, hm2]
        exact write64_other _ _ _ _ hnot

theorem tableEntries_length (m : Mem) : ∀ (n table : Nat), (tableEntries m table n).length = n := by
  intro n
  induction n with
  | zero => intro table; rfl
  | succ n ih => intro table; rw [tableEntries_succ, List.length_cons, ih]

/-- C12, counterexample. The lookup table of `overlappingThunksImage` holds one
by-ordinal entry (ordinal 5) followed by a zero entry, and the resolver resolves that
ordinal, to the address 0x57FF5 inside the library; slot 0 of its address table is
that zero entry, so the store of the resolved address turns it into a second entry:
`processImportDescriptor` makes two resolver calls, one of them by name, and returns
false. -/
theorem processImportDescriptor_overlapping_tables :
    tableEntries overlappingThunksImage (iltOf overlappingThunksImage 0x20000 0x21000) 1
      = [0x8000000000000005] ∧
    read64 overlappingThunksImage (iltOf overlappingThunksImage 0x20000 0x21000 + 8) = 0 ∧
    (processImportDescriptor libraryOs 5 0x20000 0x50000 0x21000
        { mem := overlappingThunksImage, os := [] }).map (fun r => (r.1, lookups r.2.os))
      = some (false, [(Lookup.byOrdinal 0x50000 5, 0x57FF5), (Lookup.byName 0x50000 0x77FF7, 0)]) := by
  decide

/-- In the specification walk no lookup follows a failed lookup: every lookup but
the last one succeeded. -/
theorem resolveEntries_stops (w : Win32) (imageBase hModule : Nat) :
    ∀ (es : List Nat) (IAT : Nat) (s : LoadState),
      ∃ evs, (resolveEntries w imageBase hModule IAT es s).2.os = s.os ++ evs ∧
        ∀ p ∈ (lookups evs).dropLast, p.2 ≠ 0 := by
  intro es
  induction es with
  | nil =>
    intro IAT s
    refine ⟨[], ?_, ?_⟩
    · rw [resolveEntries_nil, List.append_nil]
    · intro p hp
      exact absurd hp (List.not_mem_nil p)
  | cons e es ih =>
    intro IAT s
    obtain ⟨call, r, _, hcall, heq⟩ := resolveEntries_cons w imageBase hModule IAT e es s
    rw [heq]
    by_cases hr : r = 0
    · rw [if_pos hr]
      refine ⟨[call], oslog_os s call, ?_⟩
      rw [hcall]
      intro p hp
      exact absurd hp (List.not_mem_nil p)
    · rw [if_neg hr]
      generalize hs2 : (LoadState.mk (write64 s.mem IAT r)
        (s.os ++ [call] ++ [OsEvent.iatWrite IAT r])) = s2
      have ho2 : s2.os = s.os ++ [call] ++ [OsEvent.iatWrite IAT r] := by rw [← hs2]
      obtain ⟨evs, i1, i2⟩ := ih (IAT + 8) s2
      have hl : lookups ([call] ++ [OsEvent.iatWrite IAT r] ++ evs)
          = (lookupFor imageBase hModule e, r) :: lookups evs := by
        rw [lookups_append, lookups_append, hcall]
        rfl
      refine ⟨[call] ++ [OsEvent.iatWrite IAT r] ++ evs, ?_, ?_⟩
      · rw [i1, ho2]
        simp only [List.append_assoc]
      · rw [hl]
        intro p hp
        by_cases hnil : lookups evs = []
        · rw [hnil] at hp
          exact absurd hp (List.not_mem_nil p)
        · rw [List.dropLast_cons_of_ne_nil hnil] at hp
          rcases List.mem_cons.mp hp with h | h
          · rw [h]
            exact hr
          · exact i2 p h

/-- C12, amended. For an import descriptor whose lookup table (at `OriginalFirstThunk`
when that field is non-zero, else the address table at `FirstThunk`) holds `n`
non-zero entries followed by a zero entry, and whose address table either is the
lookup table or does not overlap it, and a loop bound above `n`: the resolver calls
`evs` of `processImportDescriptor` are, in index order, the calls that belong to the
entries (by ordinal `e & 0xFFFF` when the top bit of `e` is set, else by the name at
image offset `e + 2`), and no call follows one that failed.  When no call failed the
function returns true after exactly one call per entry, and slot `i` of the address
table holds the result of call `i`.  When a call failed the function does not return
true: it returns false, or it does not return, and then the failed call was a lookup by
name and some address is not readable. -/
theorem processImportDescriptor_resolves (w : Win32) (fuel imageBase hModule importDesc n : Nat)
    (s : LoadState)
    (hfuel : n < fuel)
    (hnz : ∀ e ∈ tableEntries s.mem (iltOf s.mem imageBase importDesc) n, e ≠ 0)
    (hz : read64 s.mem (iltOf s.mem imageBase importDesc + 8 * n) = 0)
    (hno : iatOf s.mem imageBase importDesc = iltOf s.mem imageBase importDesc ∨
      iatOf s.mem imageBase importDesc + 8 * n ≤ iltOf s.mem imageBase importDesc ∨
      iltOf s.mem imageBase importDesc + 8 * (n + 1) ≤ iatOf s.mem imageBase importDesc) :
    ∃ ok s' evs,
      (processImportDescriptor w fuel imageBase hModule importDesc s = some (ok, s') ∨
        (ok = false ∧
          processImportDescriptor w fuel imageBase hModule importDesc s = none ∧
          (∃ a, w.readableString a = false) ∧
          ∃ h p, (lookups evs).getLast? = some (Lookup.byName h p, 0))) ∧
      s'.os = s.os ++ evs ∧
      (lookups evs).map Prod.fst =
        ((tableEntries s.mem (iltOf s.mem imageBase importDesc) n).map
          (lookupFor imageBase hModule)).take (lookups evs).length ∧
      (∀ p ∈ (lookups evs).dropLast, p.2 ≠ 0) ∧
      (ok = true ↔ ∀ p ∈ lookups evs, p.2 ≠ 0) ∧
      (ok = true →
        (lookups evs).map Prod.fst =
          (tableEntries s.mem (iltOf s.mem imageBase importDesc) n).map
            (lookupFor imageBase hModule) ∧
        (slots (iatOf s.mem imageBase importDesc) n).map (read64 s'.mem)
          = (lookups evs).map Prod.snd) := by
  obtain ⟨evs, h1, h2, h3, h4, _⟩ := resolveEntries_spec w imageBase hModule
    (tableEntries s.mem (iltOf s.mem imageBase importDesc) n)
    (iatOf s.mem imageBase importDesc) s
  obtain ⟨evs2, k1, k2⟩ := resolveEntries_stops w imageBase hModule
    (tableEntries s.mem (iltOf s.mem imageBase importDesc) n)
    (iatOf s.mem imageBase importDesc) s
  have hevs : evs2 = evs := List.append_cancel_left (k1.symm.trans h1)
  rw [hevs] at k2
  rw [tableEntries_length] at h4
  have href := thunkLoop_refines w imageBase hModule n _ _ fuel s hfuel hnz hz hno
  generalize hR : resolveEntries w imageBase hModule (iatOf s.mem imageBase importDesc)
    (tableEntries s.mem (iltOf s.mem imageBase importDesc) n) s = R at *
  refine ⟨R.1, R.2, evs, ?_, h1, h2, k2, h3, h4⟩
  unfold processImportDescriptor
  rcases href with h | ⟨e1, e2, e3, pre, hh, p, e4⟩
  · exact Or.inl h
  · refine Or.inr ⟨e2, e1, e3, hh, p, ?_⟩
    have hev : evs = pre ++ [OsEvent.procByName hh p 0] := by
      have hcancel : s.os ++ evs = s.os ++ (pre ++ [OsEvent.procByName hh p 0]) := by
        rw [← h1, e4, List.append_assoc]
      exact List.append_cancel_left hcancel
    rw [hev, lookups_append]
    show (lookups pre ++ [(Lookup.byName hh p, 0)]).getLast? = _
    rw [List.getLast?_append, List.getLast?_singleton]
    rfl

/-- Witness of the amended C12: a descriptor with one by-ordinal entry and one by-name
entry, lookup table and address table apart. -/
theorem processImportDescriptor_resolves_witness :
    ∃ ok s' evs,
      (processImportDescriptor resolvingOs 3 0x20000 0x50000 0x21000
          { mem := importImage, os := [] } = some (ok, s') ∨
        (ok = false ∧
          processImportDescriptor resolvingOs 3 0x20000 0x50000 0x21000
            { mem := importImage, os := [] } = none ∧
          (∃ a, resolvingOs.readableString a = false) ∧
          ∃ h p, (lookups evs).getLast? = some (Lookup.byName h p, 0))) ∧
      s'.os = [] ++ evs ∧
      (lookups evs).map Prod.fst =
        ((tableEntries importImage (iltOf importImage 0x20000 0x21000) 2).map
          (lookupFor 0x20000 0x50000)).take (lookups evs).length ∧
      (∀ p ∈ (lookups evs).dropLast, p.2 ≠ 0) ∧
      (ok = true ↔ ∀ p ∈ lookups evs, p.2 ≠ 0) ∧
      (ok = true →
        (lookups evs).map Prod.fst =
          (tableEntries importImage (iltOf importImage 0x20000 0x21000) 2).map
            (lookupFor 0x20000 0x50000) ∧
        (slots (iatOf importImage 0x20000 0x21000) 2).map (read64 s'.mem)
          = (lookups evs).map Prod.snd) :=
  processImportDescriptor_resolves resolvingOs 3 0x20000 0x50000 0x21000 2
    { mem := importImage, os := [] } (by decide) (by decide) (by decide) (by decide)

theorem noFailure_append (a b : List OsEvent) (ha : NoFailure a) (hb : NoFailure b) :
    NoFailure (a ++ b) := by
  intro e he
  rcases List.mem_append.mp he with h | h
  · exact ha e h
  · exact hb e h

theorem noFailure_nil : NoFailure [] := fun _ h => absurd h (List.not_mem_nil _)

/-- Every run of the thunk loop that returns made no failed lookup when it returns
true, and when it returns false its last action is the one failed lookup. -/
theorem thunkLoop_dyn (w : Win32) (imageBase hModule : Nat) :
    ∀ (fuel ILT IAT : Nat) (s : LoadState) (ok : Bool) (s' : LoadState),
      thunkLoop w imageBase hModule fuel ILT IAT s = some (ok, s') →
      ∃ evs, s'.os = s.os ++ evs ∧ (ok = true → NoFailure evs) ∧
        (ok = false → ∃ pre e, evs = pre ++ [e] ∧ NoFailure pre ∧ callFailed e = true) := by
  intro fuel
  induction fuel with
  | zero => intro ILT IAT s ok s' h; exact absurd h (by simp [thunkLoop])
  | succ fuel ih =>
    intro ILT IAT s ok s' h
    rw [thunkLoop_succ] at h
    have hstep : ∀ (call : OsEvent) (r : Nat), r ≠ 0 → callFailed call = (r == 0) →
        thunkLoop w imageBase hModule fuel (ILT + 8) (IAT + 8)
          { mem := write64 s.mem IAT r, os := s.os ++ [call] ++ [OsEvent.iatWrite IAT r] }
          = some (ok, s') →
        ∃ evs, s'.os = s.os ++ evs ∧ (ok = true → NoFailure evs) ∧
          (ok = false → ∃ pre e, evs = pre ++ [e] ∧ NoFailure pre ∧ callFailed e = true) := by
      intro call r hr hcf hrun
      obtain ⟨evs, e1, e2, e3⟩ := ih _ _ _ _ _ hrun
      have hpre : NoFailure ([call] ++ [OsEvent.iatWrite IAT r]) := by
        intro e he
        simp only [List.mem_append, List.mem_singleton] at he
        rcases he with rfl | rfl
        · rw [hcf]; simp [hr]
        · rfl
      refine ⟨[call] ++ [OsEvent.iatWrite IAT r] ++ evs, ?_, ?_, ?_⟩
      · rw [e1]; simp
      · intro hok; exact noFailure_append _ _ hpre (e2 hok)
      · intro hok
        obtain ⟨pre, e, h1, h2, h3⟩ := e3 hok
        exact ⟨[call] ++ [OsEvent.iatWrite IAT r] ++ pre, e, by rw [h1]; simp,
          noFailure_append _ _ hpre h2, h3⟩
    have hfail : ∀ (call : OsEvent), callFailed call = true →
        some (false, s.log call) = some (ok, s') →
        ∃ evs, s'.os = s.os ++ evs ∧ (ok = true → NoFailure evs) ∧
          (ok = false → ∃ pre e, evs = pre ++ [e] ∧ NoFailure pre ∧ callFailed e = true) := by
      intro call hcf heq
      simp only [Option.some.injEq, Prod.mk.injEq] at heq
      obtain ⟨h1, h2⟩ := heq
      subst h1 h2
      exact ⟨[call], oslog_os s call, fun h => by simp at h,
        fun _ => ⟨[], call, rfl, noFailure_nil, hcf⟩⟩
    split_ifs at h with h0 h1 h2 h3
    · simp only [Option.some.injEq, Prod.mk.injEq] at h
      obtain ⟨h1, h2⟩ := h
      subst h1 h2
      exact ⟨[], by simp, fun _ => noFailure_nil, fun h => by simp at h⟩
    · exact hfail _ (by show (_ == 0) = true; rw [h2]; rfl) h
    · exact hstep (OsEvent.procByOrdinal _ _ _) _ h2 rfl h
    · exact hfail _ (by show (_ == 0) = true; rw [h3]; rfl) h
    · exact hstep (OsEvent.procByName _ _ _) _ h3 rfl h

theorem descLoop_succ (w : Win32) (inner imageBase fuel importDesc : Nat) (s : LoadState) :
    descLoop w inner imageBase (fuel + 1) importDesc s =
      if read32 s.mem (importDesc + OFF_ImportName) = 0 then
        some (true, s)
      else if w.LoadLibraryA s.os s.mem
          (ADDR imageBase (read32 s.mem (importDesc + OFF_ImportName))) % 2 ^ 64 = 0 then
        some (false, s.log (OsEvent.loadLibrary
          (ADDR imageBase (read32 s.mem (importDesc + OFF_ImportName)))
          (w.LoadLibraryA s.os s.mem
            (ADDR imageBase (read32 s.mem (importDesc + OFF_ImportName))) % 2 ^ 64)))
      else
        match processImportDescriptor w inner imageBase
            (w.LoadLibraryA s.os s.mem
              (ADDR imageBase (read32 s.mem (importDesc + OFF_ImportName))) % 2 ^ 64)
            importDesc
            (s.log (OsEvent.loadLibrary
              (ADDR imageBase (read32 s.mem (importDesc + OFF_ImportName)))
              (w.LoadLibraryA s.os s.mem
                (ADDR imageBase (read32 s.mem (importDesc + OFF_ImportName))) % 2 ^ 64))) with
        | none => none
        | some (false, s2) =>
          some (false, s2.log (OsEvent.freeLibrary
            (w.LoadLibraryA s.os s.mem
              (ADDR imageBase (read32 s.mem (importDesc + OFF_ImportName))) % 2 ^ 64)))
        | some (true, s2) =>
          descLoop w inner imageBase fuel (importDesc + SIZEOF_IMPORT_DESCRIPTOR) s2 :=
  rfl

/-- Every run of the descriptor loop that returns made no failed call when it returns
true, and when it returns false it stopped at the one failed call. -/
theorem descLoop_dyn (w : Win32) (inner imageBase : Nat) :
    ∀ (fuel importDesc : Nat) (s : LoadState) (ok : Bool) (s' : LoadState),
      descLoop w inner imageBase fuel importDesc s = some (ok, s') →
      ∃ evs, s'.os = s.os ++ evs ∧ (ok = true → NoFailure evs) ∧
        (ok = false → StopsAtFailure evs) := by
  intro fuel
  induction fuel with
  | zero => intro d s ok s' h; exact absurd h (by simp [descLoop])
  | succ fuel ih =>
    intro d s ok s' h
    rw [descLoop_succ] at h
    generalize hmn : ADDR imageBase (read32 s.mem (d + OFF_ImportName)) = moduleName at h
    generalize hhm : w.LoadLibraryA s.os s.mem moduleName % 2 ^ 64 = hModule at h
    split_ifs at h with h0 h1
    · simp only [Option.some.injEq, Prod.mk.injEq] at h
      obtain ⟨h1, h2⟩ := h
      subst h1 h2
      exact ⟨[], by simp, fun _ => noFailure_nil, fun h => by simp at h⟩
    · simp only [Option.some.injEq, Prod.mk.injEq] at h
      obtain ⟨e1, e2⟩ := h
      subst e1 e2
      refine ⟨[OsEvent.loadLibrary moduleName hModule], oslog_os s _, fun h => by simp at h,
        fun _ => ⟨[], _, [], rfl, noFailure_nil, ?_, fun x hx => absurd hx (List.not_mem_nil _)⟩⟩
      show (hModule == 0) = true
      rw [h1]; rfl
    · have hload : NoFailure [OsEvent.loadLibrary moduleName hModule] := by
        intro e he
        rw [List.mem_singleton] at he
        subst he
        show (hModule == 0) = false
        simp [h1]
      cases hp : processImportDescriptor w inner imageBase hModule d
          (s.log (OsEvent.loadLibrary moduleName hModule)) with
      | none => rw [hp] at h; exact absurd h (by simp)
      | some res =>
        obtain ⟨b, s2⟩ := res
        rw [hp] at h
        unfold processImportDescriptor at hp
        obtain ⟨evs, t1, t2, t3⟩ := thunkLoop_dyn w imageBase hModule _ _ _ _ _ _ hp
        rw [oslog_os] at t1
        cases b with
        | false =>
          simp only [Option.some.injEq, Prod.mk.injEq] at h
          obtain ⟨e1, e2⟩ := h
          subst e1 e2
          obtain ⟨pre, e, p1, p2, p3⟩ := t3 rfl
          refine ⟨[OsEvent.loadLibrary moduleName hModule] ++ evs ++ [OsEvent.freeLibrary hModule],
            by rw [oslog_os, t1]; simp, fun h => by simp at h, fun _ => ?_⟩
          refine ⟨[OsEvent.loadLibrary moduleName hModule] ++ pre, e,
            [OsEvent.freeLibrary hModule], by rw [p1]; simp, noFailure_append _ _ hload p2, p3, ?_⟩
          intro x hx
          rw [List.mem_singleton] at hx
          subst hx
          rfl
        | true =>
          obtain ⟨evs2, u1, u2, u3⟩ := ih _ _ _ _ h
          refine ⟨[OsEvent.loadLibrary moduleName hModule] ++ evs ++ evs2,
            by rw [u1, t1]; simp, ?_, ?_⟩
          · intro hok
            exact noFailure_append _ _ (noFailure_append _ _ hload (t2 rfl)) (u2 hok)
          · intro hok
            obtain ⟨pre, e, post, p1, p2, p3, p4⟩ := u3 hok
            exact ⟨[OsEvent.loadLibrary moduleName hModule] ++ evs ++ pre, e, post,
              by rw [p1]; simp,
              noFailure_append _ _ (noFailure_append _ _ hload (t2 rfl)) p2, p3, p4⟩

/-- The specification walk writes only into the address table slots of its entries. -/
theorem resolveEntries_frame (w : Win32) (imageBase hModule : Nat) :
    ∀ (es : List Nat) (IAT : Nat) (s : LoadState) (x : Nat),
      ¬ (IAT ≤ x ∧ x < IAT + 8 * es.length) →
      (resolveEntries w imageBase hModule IAT es s).2.mem x = s.mem x := by
  intro es
  induction es with
  | nil => intro IAT s x _; rw [resolveEntries_nil]
  | cons e es ih =>
    intro IAT s x hx
    obtain ⟨call, r, _, _, heq⟩ := resolveEntries_cons w imageBase hModule IAT e es s
    rw [heq]
    rw [List.length_cons] at hx
    split_ifs with hr
    · rfl
    · generalize hs2 : (LoadState.mk (write64 s.mem IAT r)
        (s.os ++ [call] ++ [OsEvent.iatWrite IAT r])) = s2
      have hm2 : s2.mem = write64 s.mem IAT r := by rw [← hs2]
      have hx1 : ¬ (IAT + 8 ≤ x ∧ x < IAT + 8 + 8 * es.length) := fun h => hx ⟨by omega, by omega⟩
      have hx2 : ¬ (IAT ≤ x ∧ x < IAT + 8) := fun h => hx ⟨h.1, by omega⟩
      rw [ih (IAT + 8) s2 x hx1, hm2]
      exact write64_other _ _ _ _ hx2

theorem wellFormedImports_zero (inner imageBase desc : Nat) (m : Mem) :
    WellFormedImports inner imageBase 0 desc m ↔ read32 m (desc + OFF_ImportName) = 0 :=
  Iff.rfl

theorem wellFormedImports_succ (inner imageBase d desc : Nat) (m : Mem) :
    WellFormedImports inner imageBase (d + 1) desc m ↔
      (read32 m (desc + OFF_ImportName) ≠ 0 ∧
      ∃ n, n < inner ∧
        (∀ e ∈ tableEntries m (iltOf m imageBase desc) n, e ≠ 0) ∧
        read64 m (iltOf m imageBase desc + 8 * n) = 0 ∧
        (iatOf m imageBase desc = iltOf m imageBase desc ∨
          iatOf m imageBase desc + 8 * n ≤ iltOf m imageBase desc ∨
          iltOf m imageBase desc + 8 * (n + 1) ≤ iatOf m imageBase desc) ∧
        ∀ m' : Mem,
          (∀ x, ¬ (iatOf m imageBase desc ≤ x ∧ x < iatOf m imageBase desc + 8 * n) →
            m' x = m x) →
          WellFormedImports inner imageBase d (desc + SIZEOF_IMPORT_DESCRIPTOR) m') :=
  Iff.rfl

/-- The descriptor loop returns on a well-formed descriptor array once the loop
bound exceeds the number of descriptors, in a process that can read a string at every
address. -/
theorem descLoop_terminates (w : Win32) (inner imageBase : Nat)
    (hread : ∀ a, w.readableString a = true) :
    ∀ (d importDesc fuel : Nat) (s : LoadState), d < fuel →
      WellFormedImports inner imageBase d importDesc s.mem →
      ∃ r, descLoop w inner imageBase fuel importDesc s = some r := by
  intro d
  induction d with
  | zero =>
    intro desc fuel s hfuel hwf
    obtain ⟨f, rfl⟩ : ∃ f, fuel = f + 1 := ⟨fuel - 1, by omega⟩
    rw [wellFormedImports_zero] at hwf
    rw [descLoop_succ, if_pos hwf]
    exact ⟨_, rfl⟩
  | succ d ih =>
    intro desc fuel s hfuel hwf
    obtain ⟨f, rfl⟩ : ∃ f, fuel = f + 1 := ⟨fuel - 1, by omega⟩
    rw [wellFormedImports_succ] at hwf
    obtain ⟨hname, n, hn, hnz, hz, hno, hrest⟩ := hwf
    rw [descLoop_succ, if_neg hname]
    generalize ADDR imageBase (read32 s.mem (desc + OFF_ImportName)) = moduleName
    generalize w.LoadLibraryA s.os s.mem moduleName % 2 ^ 64 = hModule
    split_ifs with h1
    · exact ⟨_, rfl⟩
    · generalize hs1 : s.log (OsEvent.loadLibrary moduleName hModule) = s1
      have hm1 : s1.mem = s.mem := by rw [← hs1]; exact oslog_mem _ _
      have hp : processImportDescriptor w inner imageBase hModule desc s1 =
          some (resolveEntries w imageBase hModule (iatOf s.mem imageBase desc)
            (tableEntries s.mem (iltOf s.mem imageBase desc) n) s1) := by
        unfold processImportDescriptor
        rcases thunkLoop_refines w imageBase hModule n (iltOf s1.mem imageBase desc)
          (iatOf s1.mem imageBase desc) inner s1 hn
          (by rw [hm1]; exact hnz) (by rw [hm1]; exact hz) (by rw [hm1]; exact hno)
          with h | ⟨_, _, ⟨a, ha⟩, _⟩
        · rw [h, hm1]
        · rw [hread a] at ha
          exact absurd ha (by decide)
      rw [hp]
      have hfr := resolveEntries_frame w imageBase hModule
        (tableEntries s.mem (iltOf s.mem imageBase desc) n) (iatOf s.mem imageBase desc) s1
      rw [tableEntries_length] at hfr
      generalize resolveEntries w imageBase hModule (iatOf s.mem imageBase desc)
        (tableEntries s.mem (iltOf s.mem imageBase desc) n) s1 = res at *
      obtain ⟨b, s2⟩ := res
      cases b with
      | false => exact ⟨_, rfl⟩
      | true =>
        show ∃ r, descLoop w inner imageBase f (desc + SIZEOF_IMPORT_DESCRIPTOR) s2 = some r
        apply ih _ f s2 (by omega)
        apply hrest
        intro x hx
        have := hfr x hx
        rw [hm1] at this
        exact this

theorem linkImports_of_header (w : Win32) (fuel imageBase peHdr : Nat) (s : LoadState)
    (hpe : getPEHeader s.mem imageBase = some peHdr) :
    linkImports w fuel imageBase s =
      if importsSize s.mem peHdr = 0 then some (true, s)
      else descLoop w fuel imageBase fuel (importsStart s.mem imageBase peHdr) s := by
  unfold linkImports importsSize importsStart
  rw [hpe]

/-- What `linkImports` does apart from the fault of its by-name failure path.  For an
in-memory image accepted by `getPEHeader`: whenever `linkImports` returns, it returns
false if and only if a library load or a symbol lookup (by ordinal or by name) it made
failed, and then it stopped at that first failed call, with no resolver call and no
store into an address table after it; and in a process that can read a string at
every address it does return on a well-formed, zero-terminated array of `d` import
descriptors once the loop bound exceeds `d`. -/
theorem linkImports_failure_iff (w : Win32) (fuel imageBase peHdr : Nat) (s : LoadState)
    (hpe : getPEHeader s.mem imageBase = some peHdr) :
    (∀ ok s', linkImports w fuel imageBase s = some (ok, s') →
      ∃ evs, s'.os = s.os ++ evs ∧
        (ok = false ↔ ∃ e ∈ evs, callFailed e = true) ∧
        (ok = false → StopsAtFailure evs)) ∧
    (∀ d, d < fuel → (∀ a, w.readableString a = true) →
      WellFormedImports fuel imageBase d (importsStart s.mem imageBase peHdr) s.mem →
      ∃ ok s', linkImports w fuel imageBase s = some (ok, s')) := by
  rw [linkImports_of_header w fuel imageBase peHdr s hpe]
  constructor
  · intro ok s' h
    have key : ∃ evs, s'.os = s.os ++ evs ∧ (ok = true → NoFailure evs) ∧
        (ok = false → StopsAtFailure evs) := by
      split_ifs at h with h0
      · simp only [Option.some.injEq, Prod.mk.injEq] at h
        obtain ⟨h1, h2⟩ := h
        subst h1 h2
        exact ⟨[], by simp, fun _ => noFailure_nil, fun h => by simp at h⟩
      · exact descLoop_dyn w fuel imageBase fuel _ s ok s' h
    obtain ⟨evs, k1, k2, k3⟩ := key
    refine ⟨evs, k1, ⟨?_, ?_⟩, k3⟩
    · intro hok
      obtain ⟨pre, e, post, p1, _, p3, _⟩ := k3 hok
      exact ⟨e, by rw [p1]; simp, p3⟩
    · intro ⟨e, he, hf⟩
      cases ok with
      | false => rfl
      | true =>
        have := k2 rfl e he
        rw [hf] at this
        exact absurd this (by simp)
  · intro d hd hread hwf
    split_ifs with h0
    · exact ⟨_, _, rfl⟩
    · obtain ⟨⟨ok, s'⟩, hr⟩ := descLoop_terminates w fuel imageBase hread d _ fuel s hd hwf
      exact ⟨ok, s', hr⟩

theorem read32_eq_of_bytes (m m' : Mem) (a : Nat)
    (h : ∀ i, i < 4 → m' (a + i) = m (a + i)) : read32 m' a = read32 m a := by
  unfold read32
  have h0 := h 0 (by omega)
  rw [Nat.add_zero] at h0
  rw [h0, h 1 (by omega), h 2 (by omega), h 3 (by omega)]

theorem importImage_wellFormed : WellFormedImports 3 0x20000 1 0x21000 importImage := by
  rw [wellFormedImports_succ]
  refine ⟨by decide, 2, by decide, by decide, by decide, by decide, ?_⟩
  intro m' hm'
  rw [wellFormedImports_zero]
  have hiat : iatOf importImage 0x20000 0x21000 = 0x21300 := by decide
  rw [hiat] at hm'
  have h0 : read32 importImage (0x21000 + SIZEOF_IMPORT_DESCRIPTOR + OFF_ImportName) = 0 := by
    decide
  rw [← h0]
  apply read32_eq_of_bytes
  intro i hi
  apply hm'
  unfold SIZEOF_IMPORT_DESCRIPTOR OFF_ImportName
  omega

/-- The thunk loop does not return, whatever the loop bound, when the entry at hand
asks for a lookup by name, the lookup fails and no string can be read at the address
that is the value of the entry. -/
theorem thunkLoop_faults (w : Win32) (imageBase hModule fuel ILT IAT : Nat) (s : LoadState)
    (he : read64 s.mem ILT ≠ 0) (hname : ¬ IMAGE_SNAP_BY_ORDINAL (read64 s.mem ILT) = true)
    (hfail : w.GetProcAddress s.os s.mem hModule
      (ADDR imageBase (read64 s.mem ILT) + OFF_ImportByName_Name) % 2 ^ 64 = 0)
    (hread : w.readableString (read64 s.mem ILT) = false) :
    thunkLoop w imageBase hModule fuel ILT IAT s = none := by
  cases fuel with
  | zero => rfl
  | succ f =>
    rw [thunkLoop_succ, if_neg he, if_neg hname, if_pos hfail, if_neg (by rw [hread]; decide)]

/-! ## The demonstration harness (`main`) -/

/-- The result of `main` does not depend on its arguments. -/
theorem main_ignores_arguments (w : Win32) (fuel argc : Nat) (argv : List String) :
    main w fuel argc argv = main w fuel 0 [] := rfl

/-- C20, the code at the failing input. Called with the positional argument
"Other.dll", `main` asks the file-mapping collaborator for "DllPayload.dll", not for
"Other.dll"; the mapping failing, it exits with 1. -/
theorem main_loads_test_payload :
    main failingOs 0 2 ["SelfLoader.exe", "Other.dll"]
      = some (1, [OsEvent.mapFullFile "DllPayload.dll" 0]) := by
  decide

/-! ## The loader façade (`InMemoryLoader`, `LoadDllFromFile`) -/

theorem internal_nil : Internal [] := fun _ h => absurd h (List.not_mem_nil _)

theorem internal_append (a b : List OsEvent) (ha : Internal a) (hb : Internal b) :
    Internal (a ++ b) := by
  intro e he
  rcases List.mem_append.mp he with h | h
  · exact ha e h
  · exact hb e h

theorem internal_filters (evs : List OsEvent) (h : Internal evs) :
    stagesOf evs = [] ∧ allocCalls evs = [] ∧ frees evs = [] ∧ loaderCalls evs = [] ∧
      unmaps evs = [] := by
  unfold stagesOf allocCalls frees loaderCalls unmaps
  simp only [List.filterMap_eq_nil_iff]
  refine ⟨?_, ?_, ?_, ?_, ?_⟩ <;>
  · intro e he
    have := h e he
    cases e <;> simp_all [isStageInternal]

theorem thunkLoop_internal (w : Win32) (imageBase hModule : Nat) :
    ∀ (fuel ILT IAT : Nat) (s : LoadState) (ok : Bool) (s' : LoadState),
      thunkLoop w imageBase hModule fuel ILT IAT s = some (ok, s') →
      ∃ evs, s'.os = s.os ++ evs ∧ Internal evs := by
  intro fuel
  induction fuel with
  | zero => intro ILT IAT s ok s' h; exact absurd h (by simp [thunkLoop])
  | succ fuel ih =>
    intro ILT IAT s ok s' h
    rw [thunkLoop_succ] at h
    have hstep : ∀ (call : OsEvent) (r : Nat), isStageInternal call = true →
        thunkLoop w imageBase hModule fuel (ILT + 8) (IAT + 8)
          { mem := write64 s.mem IAT r, os := s.os ++ [call] ++ [OsEvent.iatWrite IAT r] }
          = some (ok, s') →
        ∃ evs, s'.os = s.os ++ evs ∧ Internal evs := by
      intro call r hc hrun
      obtain ⟨evs, e1, e2⟩ := ih _ _ _ _ _ hrun
      refine ⟨[call] ++ [OsEvent.iatWrite IAT r] ++ evs, by rw [e1]; simp, ?_⟩
      refine internal_append _ _ ?_ e2
      intro e he
      simp only [List.mem_append, List.mem_singleton] at he
      rcases he with rfl | rfl
      · exact hc
      · rfl
    have hfail : ∀ (call : OsEvent), isStageInternal call = true →
        some (false, s.log call) = some (ok, s') →
        ∃ evs, s'.os = s.os ++ evs ∧ Internal evs := by
      intro call hc heq
      simp only [Option.some.injEq, Prod.mk.injEq] at heq
      obtain ⟨h1, h2⟩ := heq
      subst h1 h2
      refine ⟨[call], oslog_os s call, ?_⟩
      intro e he
      rw [List.mem_singleton] at he
      subst he
      exact hc
    split_ifs at h with h0 h1 h2 h3
    · simp only [Option.some.injEq, Prod.mk.injEq] at h
      obtain ⟨h1, h2⟩ := h
      subst h1 h2
      exact ⟨[], by simp, internal_nil⟩
    · exact hfail (OsEvent.procByOrdinal _ _ _) rfl h
    · exact hstep (OsEvent.procByOrdinal _ _ _) _ rfl h
    · exact hfail (OsEvent.procByName _ _ _) rfl h
    · exact hstep (OsEvent.procByName _ _ _) _ rfl h

theorem descLoop_internal (w : Win32) (inner imageBase : Nat) :
    ∀ (fuel importDesc : Nat) (s : LoadState) (ok : Bool) (s' : LoadState),
      descLoop w inner imageBase fuel importDesc s = some (ok, s') →
      ∃ evs, s'.os = s.os ++ evs ∧ Internal evs := by
  intro fuel
  induction fuel with
  | zero => intro d s ok s' h; exact absurd h (by simp [descLoop])
  | succ fuel ih =>
    intro d s ok s' h
    rw [descLoop_succ] at h
    generalize hmn : ADDR imageBase (read32 s.mem (d + OFF_ImportName)) = moduleName at h
    generalize hhm : w.LoadLibraryA s.os s.mem moduleName % 2 ^ 64 = hModule at h
    have hload : Internal [OsEvent.loadLibrary moduleName hModule] := by
      intro e he
      rw [List.mem_singleton] at he
      subst he
      rfl
    split_ifs at h with h0 h1
    · simp only [Option.some.injEq, Prod.mk.injEq] at h
      obtain ⟨h1, h2⟩ := h
      subst h1 h2
      exact ⟨[], by simp, internal_nil⟩
    · simp only [Option.some.injEq, Prod.mk.injEq] at h
      obtain ⟨e1, e2⟩ := h
      subst e1 e2
      exact ⟨[OsEvent.loadLibrary moduleName hModule], oslog_os s _, hload⟩
    · cases hp : processImportDescriptor w inner imageBase hModule d
          (s.log (OsEvent.loadLibrary moduleName hModule)) with
      | none => rw [hp] at h; exact absurd h (by simp)
      | some res =>
        obtain ⟨b, s2⟩ := res
        rw [hp] at h
        unfold processImportDescriptor at hp
        obtain ⟨evs, t1, t2⟩ := thunkLoop_internal w imageBase hModule _ _ _ _ _ _ hp
        rw [oslog_os] at t1
        cases b with
        | false =>
          simp only [Option.some.injEq, Prod.mk.injEq] at h
          obtain ⟨e1, e2⟩ := h
          subst e1 e2
          refine ⟨[OsEvent.loadLibrary moduleName hModule] ++ evs ++ [OsEvent.freeLibrary hModule],
            by rw [oslog_os, t1]; simp, ?_⟩
          refine internal_append _ _ (internal_append _ _ hload t2) ?_
          intro e he
          rw [List.mem_singleton] at he
          subst he
          rfl
        | true =>
          obtain ⟨evs2, u1, u2⟩ := ih _ _ _ _ h
          exact ⟨[OsEvent.loadLibrary moduleName hModule] ++ evs ++ evs2,
            by rw [u1, t1]; simp, internal_append _ _ (internal_append _ _ hload t2) u2⟩

theorem linkImports_internal (w : Win32) (fuel imageBase : Nat) (s : LoadState) (ok : Bool)
    (s' : LoadState) (h : linkImports w fuel imageBase s = some (ok, s')) :
    ∃ evs, s'.os = s.os ++ evs ∧ Internal evs := by
  unfold linkImports at h
  cases hpe : getPEHeader s.mem imageBase with
  | none =>
    rw [hpe] at h
    simp only [Option.some.injEq, Prod.mk.injEq] at h
    obtain ⟨_, h2⟩ := h
    subst h2
    exact ⟨[], by simp, internal_nil⟩
  | some peHdr =>
    rw [hpe] at h
    simp only [] at h
    split_ifs at h with h0
    · simp only [Option.some.injEq, Prod.mk.injEq] at h
      obtain ⟨_, h2⟩ := h
      subst h2
      exact ⟨[], by simp, internal_nil⟩
    · exact descLoop_internal w fuel imageBase fuel _ s ok s' h

theorem tlsLoop_internal (w : Win32) (imageBase : Nat) :
    ∀ (fuel p : Nat) (s : LoadState),
      ∃ evs, (tlsLoop w imageBase fuel p s).2.os = s.os ++ evs ∧ Internal evs := by
  intro fuel
  induction fuel with
  | zero => intro p s; exact ⟨[], by simp [tlsLoop], internal_nil⟩
  | succ fuel ih =>
    intro p s
    unfold tlsLoop
    split_ifs with h0
    · exact ⟨[], by simp, internal_nil⟩
    · obtain ⟨evs, e1, e2⟩ := ih (p + 8)
        { mem := w.runCallback s.os s.mem (read64 s.mem p) imageBase DLL_PROCESS_ATTACH
          os := s.os ++ [OsEvent.tlsCallback p (read64 s.mem p) imageBase DLL_PROCESS_ATTACH] }
      refine ⟨[OsEvent.tlsCallback p (read64 s.mem p) imageBase DLL_PROCESS_ATTACH] ++ evs,
        by rw [e1]; simp, internal_append _ _ ?_ e2⟩
      intro e he
      rw [List.mem_singleton] at he
      subst he
      rfl

theorem callTLSCallbacks_internal (w : Win32) (fuel imageBase : Nat) (s : LoadState) :
    ∃ evs, (callTLSCallbacks w fuel imageBase s).2.os = s.os ++ evs ∧ Internal evs := by
  unfold callTLSCallbacks
  cases hpe : getPEHeader s.mem imageBase with
  | none => exact ⟨[], by simp, internal_nil⟩
  | some peHdr =>
    simp only []
    split_ifs
    · exact ⟨[], by simp, internal_nil⟩
    · exact ⟨[], by simp, internal_nil⟩
    · exact tlsLoop_internal w imageBase fuel _ s

theorem stagesOf_append (a b : List OsEvent) : stagesOf (a ++ b) = stagesOf a ++ stagesOf b := by
  unfold stagesOf; exact List.filterMap_append _ _ _

theorem allocCalls_append (a b : List OsEvent) :
    allocCalls (a ++ b) = allocCalls a ++ allocCalls b := by
  unfold allocCalls; exact List.filterMap_append _ _ _

theorem frees_append (a b : List OsEvent) : frees (a ++ b) = frees a ++ frees b := by
  unfold frees; exact List.filterMap_append _ _ _

theorem loaderCalls_append (a b : List OsEvent) :
    loaderCalls (a ++ b) = loaderCalls a ++ loaderCalls b := by
  unfold loaderCalls; exact List.filterMap_append _ _ _

theorem unmaps_append (a b : List OsEvent) : unmaps (a ++ b) = unmaps a ++ unmaps b := by
  unfold unmaps; exact List.filterMap_append _ _ _

theorem cleanup_fail (base : Nat) (s : LoadState) (h : base ≠ 0) :
    cleanup false base s =
      { handle := 0, mem := s.mem, os := s.os ++ [OsEvent.virtualFree base] } := by
  unfold cleanup
  rw [if_pos ⟨rfl, h⟩]

theorem cleanup_ok (base : Nat) (s : LoadState) :
    cleanup true base s = { handle := base, mem := s.mem, os := s.os } := by
  unfold cleanup
  rw [if_neg (fun h => by simp at h)]

/-- Shape of the actions of the last three stages of `InMemoryLoader`. -/
theorem finishLoad_shape (w : Win32) (fuel base : Nat) (img : Mem) (os : List OsEvent)
    (r : LoadResult) (hbase : base ≠ 0) (h : finishLoad w fuel base img os = some r) :
    ∃ E, r.os = os ++ E ∧ allocCalls E = [] ∧ loaderCalls E = [] ∧ unmaps E = [] ∧
      ((r.handle = base ∧ frees E = [] ∧
          stagesOf E = [(Stage.relocate, true), (Stage.link, true), (Stage.tls, true)]) ∨
       (r.handle = 0 ∧ frees E = [base] ∧
          (stagesOf E = [(Stage.relocate, false)] ∨
           stagesOf E = [(Stage.relocate, true), (Stage.link, false)] ∨
           stagesOf E = [(Stage.relocate, true), (Stage.link, true), (Stage.tls, false)]))) := by
  unfold finishLoad at h
  cases hrel : performRelocations fuel img base with
  | none => rw [hrel] at h; exact absurd h (by simp)
  | some rr =>
    rw [hrel] at h
    simp only [] at h
    by_cases hok : rr.ok = false
    · rw [if_pos hok, cleanup_fail _ _ hbase] at h
      simp only [Option.some.injEq] at h
      subst h
      exact ⟨[OsEvent.stageDone Stage.relocate false] ++ [OsEvent.virtualFree base],
        by simp, rfl, rfl, rfl, Or.inr ⟨rfl, rfl, Or.inl rfl⟩⟩
    · rw [if_neg hok] at h
      cases hlink : linkImports w fuel base
          { mem := rr.mem, os := os ++ [OsEvent.stageDone Stage.relocate true] } with
      | none => rw [hlink] at h; exact absurd h (by simp)
      | some res =>
        obtain ⟨b, s⟩ := res
        obtain ⟨L, l1, l2⟩ := linkImports_internal w fuel base _ b s hlink
        obtain ⟨f1, f2, f3, f4, f5⟩ := internal_filters L l2
        rw [hlink] at h
        simp only [] at l1
        cases b with
        | false =>
          simp only [] at h
          rw [cleanup_fail _ _ hbase, oslog_os, oslog_mem] at h
          simp only [Option.some.injEq] at h
          subst h
          refine ⟨[OsEvent.stageDone Stage.relocate true] ++ L ++
            [OsEvent.stageDone Stage.link false] ++ [OsEvent.virtualFree base],
            by simp only [l1]; simp, ?_, ?_, ?_, Or.inr ⟨rfl, ?_, Or.inr (Or.inl ?_)⟩⟩
          · simp only [allocCalls_append, f2]; rfl
          · simp only [loaderCalls_append, f4]; rfl
          · simp only [unmaps_append, f5]; rfl
          · simp only [frees_append, f3]; rfl
          · simp only [stagesOf_append, f1]; rfl
        | true =>
          simp only [] at h
          obtain ⟨T, t1, t2⟩ := callTLSCallbacks_internal w fuel base
            (s.log (OsEvent.stageDone Stage.link true))
          obtain ⟨g1, g2, g3, g4, g5⟩ := internal_filters T t2
          rw [oslog_os, l1] at t1
          generalize callTLSCallbacks w fuel base (s.log (OsEvent.stageDone Stage.link true))
            = tres at h t1
          obtain ⟨tr, s'⟩ := tres
          simp only [] at t1
          cases tr with
          | none => exact absurd h (by simp)
          | some tb =>
            cases tb with
            | false =>
              simp only [] at h
              rw [cleanup_fail _ _ hbase, oslog_os, oslog_mem] at h
              simp only [Option.some.injEq] at h
              subst h
              refine ⟨[OsEvent.stageDone Stage.relocate true] ++ L ++
                [OsEvent.stageDone Stage.link true] ++ T ++
                [OsEvent.stageDone Stage.tls false] ++ [OsEvent.virtualFree base],
                by simp only [t1]; simp, ?_, ?_, ?_, Or.inr ⟨rfl, ?_, Or.inr (Or.inr ?_)⟩⟩
              · simp only [allocCalls_append, f2, g2]; rfl
              · simp only [loaderCalls_append, f4, g4]; rfl
              · simp only [unmaps_append, f5, g5]; rfl
              · simp only [frees_append, f3, g3]; rfl
              · simp only [stagesOf_append, f1, g1]; rfl
            | true =>
              simp only [] at h
              rw [cleanup_ok, oslog_os, oslog_mem] at h
              simp only [Option.some.injEq] at h
              subst h
              refine ⟨[OsEvent.stageDone Stage.relocate true] ++ L ++
                [OsEvent.stageDone Stage.link true] ++ T ++
                [OsEvent.stageDone Stage.tls true],
                by simp only [t1]; simp, ?_, ?_, ?_, Or.inl ⟨rfl, ?_, ?_⟩⟩
              · simp only [allocCalls_append, f2, g2]; rfl
              · simp only [loaderCalls_append, f4, g4]; rfl
              · simp only [unmaps_append, f5, g5]; rfl
              · simp only [frees_append, f3, g3]; rfl
              · simp only [stagesOf_append, f1, g1]; rfl

/-- The two allocation requests of "Part 3": the preferred address first, an arbitrary
one only when the first request failed. -/
theorem allocateImage_shape (w : Win32) (file : Mem) (peHdr : Nat) (os : List OsEvent) :
    ∃ A, (allocateImage w file peHdr os).2 = os ++ A ∧
      stagesOf A = [] ∧ frees A = [] ∧ loaderCalls A = [] ∧ unmaps A = [] ∧
      ((∃ r1, r1 ≠ 0 ∧ (allocateImage w file peHdr os).1 = r1 ∧
          allocCalls A = [(read64 file (peHdr + OFF_ImageBase),
            read32 file (peHdr + OFF_SizeOfImage), r1)]) ∨
       (allocCalls A = [(read64 file (peHdr + OFF_ImageBase),
            read32 file (peHdr + OFF_SizeOfImage), 0),
          (0, read32 file (peHdr + OFF_SizeOfImage), (allocateImage w file peHdr os).1)])) := by
  unfold allocateImage
  simp only []
  generalize w.VirtualAlloc os (read64 file (peHdr + OFF_ImageBase))
    (read32 file (peHdr + OFF_SizeOfImage)) % 2 ^ 64 = first
  split_ifs with h0
  · subst h0
    generalize w.VirtualAlloc (os ++ [OsEvent.virtualAlloc (read64 file (peHdr + OFF_ImageBase))
      (read32 file (peHdr + OFF_SizeOfImage)) 0]) 0
      (read32 file (peHdr + OFF_SizeOfImage)) % 2 ^ 64 = second
    exact ⟨[OsEvent.virtualAlloc (read64 file (peHdr + OFF_ImageBase))
        (read32 file (peHdr + OFF_SizeOfImage)) 0] ++
      [OsEvent.virtualAlloc 0 (read32 file (peHdr + OFF_SizeOfImage)) second], by simp,
      rfl, rfl, rfl, rfl, Or.inr rfl⟩
  · exact ⟨[OsEvent.virtualAlloc (read64 file (peHdr + OFF_ImageBase))
        (read32 file (peHdr + OFF_SizeOfImage)) first], rfl, rfl, rfl, rfl, rfl,
      Or.inl ⟨_, h0, rfl, rfl⟩⟩

/-- Shape of the actions of `InMemoryLoader`: the stage record, the allocation
requests, the releases and the returned handle of every run that returns. -/
theorem InMemoryLoader_shape (w : Win32) (fuel : Nat) (file : Mem) (fileImage imageSize : Nat)
    (os : List OsEvent) (r : LoadResult)
    (h : InMemoryLoader w fuel file fileImage imageSize os = some r) :
    ∃ E, r.os = os ++ E ∧ loaderCalls E = [(fileImage, imageSize)] ∧ unmaps E = [] ∧
      ((getPEHeader file fileImage = none ∧ r.handle = 0 ∧ stagesOf E = failedAfter 0 ∧
          allocCalls E = [] ∧ frees E = []) ∨
       (∃ peHdr granted, getPEHeader file fileImage = some peHdr ∧
          ((granted ≠ 0 ∧ allocCalls E = [(read64 file (peHdr + OFF_ImageBase),
              read32 file (peHdr + OFF_SizeOfImage), granted)]) ∨
           (allocCalls E = [(read64 file (peHdr + OFF_ImageBase),
              read32 file (peHdr + OFF_SizeOfImage), 0),
              (0, read32 file (peHdr + OFF_SizeOfImage), granted)])) ∧
          ((r.handle = granted ∧ granted ≠ 0 ∧ frees E = [] ∧ stagesOf E = allStagesOk) ∨
           (r.handle = 0 ∧ granted = 0 ∧ frees E = [] ∧ stagesOf E = failedAfter 1) ∨
           (r.handle = 0 ∧ granted ≠ 0 ∧ frees E = [granted] ∧
              (stagesOf E = failedAfter 2 ∨ stagesOf E = failedAfter 3 ∨
               stagesOf E = failedAfter 4 ∨ stagesOf E = failedAfter 5))))) := by
  unfold InMemoryLoader at h
  cases hpe : getPEHeader file fileImage with
  | none =>
    rw [hpe] at h
    simp only [Option.some.injEq] at h
    subst h
    exact ⟨[OsEvent.inMemoryLoader fileImage imageSize] ++
      [OsEvent.stageDone Stage.validate false], by simp, rfl, rfl, Or.inl ⟨rfl, rfl, rfl, rfl, rfl⟩⟩
  | some peHdr =>
    rw [hpe] at h
    simp only [] at h
    obtain ⟨A, a1, a2, a3, a4, a5, a6⟩ := allocateImage_shape w file peHdr
      (os ++ [OsEvent.inMemoryLoader fileImage imageSize] ++
        [OsEvent.stageDone Stage.validate true])
    generalize allocateImage w file peHdr
      (os ++ [OsEvent.inMemoryLoader fileImage imageSize] ++
        [OsEvent.stageDone Stage.validate true]) = a at h a1 a6
    obtain ⟨granted, aos⟩ := a
    simp only [] at h a1 a6
    subst a1
    have halloc : (granted ≠ 0 ∧ allocCalls A = [(read64 file (peHdr + OFF_ImageBase),
          read32 file (peHdr + OFF_SizeOfImage), granted)]) ∨
        (allocCalls A = [(read64 file (peHdr + OFF_ImageBase),
          read32 file (peHdr + OFF_SizeOfImage), 0),
          (0, read32 file (peHdr + OFF_SizeOfImage), granted)]) := by
      rcases a6 with ⟨r1, h1, h2, h3⟩ | h3
      · subst h2; exact Or.inl ⟨h1, h3⟩
      · exact Or.inr h3
    by_cases hg : granted = 0
    · rw [if_pos hg] at h
      simp only [Option.some.injEq] at h
      subst h
      refine ⟨[OsEvent.inMemoryLoader fileImage imageSize] ++
        [OsEvent.stageDone Stage.validate true] ++ A ++ [OsEvent.stageDone Stage.allocate false],
        ?_, ?_, ?_, Or.inr ⟨peHdr, granted, rfl, ?_, Or.inr (Or.inl ⟨?_, hg, ?_, ?_⟩)⟩⟩
      · unfold cleanup
        rw [if_neg (fun hh => hh.2 hg)]
        simp
      · simp only [loaderCalls_append, a4]; rfl
      · simp only [unmaps_append, a5]; rfl
      · simp only [allocCalls_append]
        rcases halloc with ⟨h1, h2⟩ | h2
        · exact absurd hg h1
        · right; rw [h2]; rfl
      · unfold cleanup
        rw [if_neg (fun hh => hh.2 hg)]
        exact hg
      · simp only [frees_append, a3]; rfl
      · simp only [stagesOf_append, a2]; rfl
    · rw [if_neg hg] at h
      have hbuilt : (buildMemoryImage file fileImage zeroMem granted).1 = true := by
        rw [buildMemoryImage_of_header file fileImage zeroMem granted peHdr hpe]
      rw [if_neg (by rw [hbuilt]; simp)] at h
      obtain ⟨F, f1, f2, f3, f4, f5⟩ := finishLoad_shape w fuel granted _ _ r hg h
      refine ⟨[OsEvent.inMemoryLoader fileImage imageSize] ++
        [OsEvent.stageDone Stage.validate true] ++ A ++
        [OsEvent.stageDone Stage.allocate true, OsEvent.stageDone Stage.build true] ++ F,
        by rw [f1]; simp, ?_, ?_, Or.inr ⟨peHdr, granted, rfl, ?_, ?_⟩⟩
      · simp only [loaderCalls_append, a4, f3]; rfl
      · simp only [unmaps_append, a5, f4]; rfl
      · simp only [allocCalls_append, f2, List.append_nil]
        rcases halloc with ⟨h1, h2⟩ | h2
        · left; exact ⟨h1, by rw [h2]; rfl⟩
        · right; rw [h2]; rfl
      · rcases f5 with ⟨g1, g2, g3⟩ | ⟨g1, g2, g3⟩
        · refine Or.inl ⟨g1, hg, ?_, ?_⟩
          · simp only [frees_append, a3, g2]; rfl
          · simp only [stagesOf_append, a2, g3]; rfl
        · refine Or.inr (Or.inr ⟨g1, hg, ?_, ?_⟩)
          · simp only [frees_append, a3, g2]; rfl
          · rcases g3 with g3 | g3 | g3
            · right; left; simp only [stagesOf_append, a2, g3]; rfl
            · right; right; left; simp only [stagesOf_append, a2, g3]; rfl
            · right; right; right; simp only [stagesOf_append, a2, g3]; rfl

theorem between_nil (lo hi : Nat) : Between lo hi [] :=
  ⟨List.Pairwise.nil, fun _ h => absurd h (List.not_mem_nil _)⟩

/-- C18. When the file-mapping collaborator returns null, `LoadDllFromFile` returns
null after that one action (no `InMemoryLoader` call, no unmapping).  Otherwise it
returns exactly when the `InMemoryLoader` call on the mapped bytes and their size
returns, with the same handle and image; its actions are then the mapping, the
actions `E` of that call, which hold one `InMemoryLoader` entry and no unmapping, and
last one `UnmapViewOfFile` of the mapped view, whether the handle is null or not. -/
theorem LoadDllFromFile_spec (w : Win32) (fuel : Nat) (dllPath : String) (os : List OsEvent) :
    ((w.MapFullFile os dllPath).1 % 2 ^ 64 = 0 →
      LoadDllFromFile w fuel dllPath os =
        some { handle := 0, mem := zeroMem, os := os ++ [OsEvent.mapFullFile dllPath 0] }) ∧
    ((w.MapFullFile os dllPath).1 % 2 ^ 64 ≠ 0 →
      (∀ r0, InMemoryLoader w fuel (w.MapFullFile os dllPath).2.2
          ((w.MapFullFile os dllPath).1 % 2 ^ 64) (w.MapFullFile os dllPath).2.1
          (os ++ [OsEvent.mapFullFile dllPath ((w.MapFullFile os dllPath).1 % 2 ^ 64)]) = some r0 →
        ∃ r, LoadDllFromFile w fuel dllPath os = some r) ∧
      (∀ r, LoadDllFromFile w fuel dllPath os = some r →
        ∃ r0 E, InMemoryLoader w fuel (w.MapFullFile os dllPath).2.2
            ((w.MapFullFile os dllPath).1 % 2 ^ 64) (w.MapFullFile os dllPath).2.1
            (os ++ [OsEvent.mapFullFile dllPath ((w.MapFullFile os dllPath).1 % 2 ^ 64)])
              = some r0 ∧
          r.handle = r0.handle ∧ r.mem = r0.mem ∧
          r.os = os ++ [OsEvent.mapFullFile dllPath ((w.MapFullFile os dllPath).1 % 2 ^ 64)]
            ++ E ++ [OsEvent.unmapViewOfFile ((w.MapFullFile os dllPath).1 % 2 ^ 64)] ∧
          loaderCalls E = [((w.MapFullFile os dllPath).1 % 2 ^ 64,
            (w.MapFullFile os dllPath).2.1)] ∧
          unmaps E = [])) := by
  refine ⟨fun h0 => ?_, fun hn => ⟨fun r0 hr0 => ?_, fun r hr => ?_⟩⟩
  · unfold LoadDllFromFile
    simp only [h0, if_true]
  · unfold LoadDllFromFile
    simp only [if_neg hn, hr0]
    rw [if_pos hn]
    exact ⟨_, rfl⟩
  · unfold LoadDllFromFile at hr
    simp only [if_neg hn] at hr
    generalize hi : InMemoryLoader w fuel (w.MapFullFile os dllPath).2.2
      ((w.MapFullFile os dllPath).1 % 2 ^ 64) (w.MapFullFile os dllPath).2.1
      (os ++ [OsEvent.mapFullFile dllPath ((w.MapFullFile os dllPath).1 % 2 ^ 64)]) = res at hr
    cases res with
    | none => simp at hr
    | some r0 =>
      simp only [ne_eq, hn, not_false_eq_true, if_true, Option.some.injEq] at hr
      obtain ⟨E, hE, hl, hu, _⟩ := InMemoryLoader_shape w fuel _ _ _ _ r0 hi
      refine ⟨r0, E, rfl, ?_, ?_, ?_, hl, hu⟩
      · rw [← hr]
      · rw [← hr]
      · rw [← hr]
        show r0.os ++ _ = _
        rw [hE]

/-- Witness of C18: the collaborator of `demoOs` maps "DllPayload.dll" at 0x10000 and
the load succeeds at 0x20000; it maps no file "Other.dll". -/
theorem LoadDllFromFile_spec_witness :
    (LoadDllFromFile demoOs 5 "Other.dll" [] =
      some { handle := 0, mem := zeroMem, os := [] ++ [OsEvent.mapFullFile "Other.dll" 0] }) ∧
    (∃ r r0 E, LoadDllFromFile demoOs 5 "DllPayload.dll" [] = some r ∧
      InMemoryLoader demoOs 5 (scenarioFile 0x260) 0x10000 0x408
        ([] ++ [OsEvent.mapFullFile "DllPayload.dll" 0x10000]) = some r0 ∧
      r.handle = r0.handle ∧ r.handle = 0x20000 ∧
      r.os = [] ++ [OsEvent.mapFullFile "DllPayload.dll" 0x10000] ++ E ++
        [OsEvent.unmapViewOfFile 0x10000] ∧
      loaderCalls E = [(0x10000, 0x408)] ∧ unmaps E = []) := by
  refine ⟨(LoadDllFromFile_spec demoOs 5 "Other.dll" []).1 (by decide), ?_⟩
  have hs : (LoadDllFromFile demoOs 5 "DllPayload.dll" []).isSome = true := by decide
  obtain ⟨r, hr⟩ := Option.isSome_iff_exists.mp hs
  obtain ⟨r0, E, h1, h2, _, h4, h5, h6⟩ :=
    ((LoadDllFromFile_spec demoOs 5 "DllPayload.dll" []).2 (by decide)).2 r hr
  have hh : (LoadDllFromFile demoOs 5 "DllPayload.dll" []).map (fun r => r.handle)
      = some 0x20000 := by decide
  rw [hr] at hh
  simp only [Option.map_some', Option.some.injEq] at hh
  exact ⟨r, r0, E, hr, h1, h2, hh, h4, h5, h6⟩

/-! ## End to end: one import by name -/

/-- A header accepted by `getPEHeader` lies at `ADDR(image, e_lfanew)`, and neither
the image nor the header address is null. -/
theorem getPEHeader_some (m : Mem) (image hdr : Nat) (h : getPEHeader m image = some hdr) :
    image ≠ 0 ∧ hdr ≠ 0 ∧ hdr = ADDR image (e_lfanew m image) := by
  have himg : image ≠ 0 := by
    intro h0
    rw [h0] at h
    unfold getPEHeader getPEHeaderTr isValidDosImage at h
    simp at h
  have hh : hdr = ADDR image (e_lfanew m image) := by
    unfold getPEHeader getPEHeaderTr at h
    simp only [] at h
    by_cases h1 : (isValidDosImage m image).1 = false
    · rw [if_pos h1] at h
      exact absurd h (by simp)
    · rw [if_neg h1] at h
      by_cases h2 : (isValidNtImage64 m (ADDR image (e_lfanew m image))).1 = false
      · rw [if_pos h2] at h
        exact absurd h (by simp)
      · rw [if_neg h2] at h
        exact (Option.some.inj h).symm
  refine ⟨himg, ?_, hh⟩
  intro h0
  rw [hh] at h0
  unfold getPEHeader getPEHeaderTr at h
  simp only [] at h
  rw [h0] at h
  unfold isValidNtImage64 at h
  simp only [if_true] at h
  split_ifs at h

/-- A store that misses the DOS header and the NT headers leaves the result of
`getPEHeader` as it was. -/
theorem getPEHeader_write64 (m : Mem) (image hdr t v : Nat)
    (h : getPEHeader m image = some hdr)
    (hd : t + 8 ≤ image ∨ image + 64 ≤ t)
    (hn : t + 8 ≤ hdr ∨ hdr + SIZEOF_NT_HEADERS64 ≤ t) :
    getPEHeader (write64 m t v) image = some hdr := by
  obtain ⟨himg, hhdr, hh⟩ := getPEHeader_some m image hdr h
  have a1 := write64_agree m t v image (image + 64) hd
  have a2 := write64_agree m t v hdr (hdr + SIZEOF_NT_HEADERS64) hn
  have e0 : e_lfanew (write64 m t v) image = e_lfanew m image := by
    unfold e_lfanew OFF_e_lfanew
    rw [read32_congr _ _ _ _ _ a1 (by omega) (by omega)]
  have hhdr' : ADDR image (e_lfanew (write64 m t v) image) ≠ 0 := by
    rw [e0, ← hh]; exact hhdr
  rw [getPEHeader_eq m image himg (by rw [← hh]; exact hhdr)] at h
  rw [getPEHeader_eq _ image himg hhdr', e0, ← hh]
  rw [← hh] at h
  unfold SIZEOF_NT_HEADERS64 at a2
  rw [read16_congr _ _ _ _ _ a1 (by omega) (by omega),
    read32_congr _ _ _ _ _ a2 (by omega) (by omega),
    read16_congr _ _ _ _ _ a2 (by unfold OFF_Machine; omega) (by unfold OFF_Machine; omega),
    read16_congr _ _ _ _ _ a2 (by unfold OFF_OptionalHeader; omega)
      (by unfold OFF_OptionalHeader; omega)]
  exact h

/-- With an empty base-relocation directory `performRelocations` returns true for
every loop bound and leaves the image as it is. -/
theorem performRelocations_empty (fuel : Nat) (m : Mem) (imageBase peHdr : Nat)
    (hpe : getPEHeader m imageBase = some peHdr)
    (hsize : relocDirSize m peHdr = 0) :
    ∃ r, performRelocations fuel m imageBase = some r ∧ r.ok = true ∧ r.mem = m := by
  rw [performRelocations_of_header fuel m imageBase peHdr hpe]
  split_ifs with hd
  · exact ⟨_, rfl, rfl, rfl⟩
  · exact ⟨_, rfl, rfl, rfl⟩

/-- With an empty TLS directory `callTLSCallbacks` returns true at once. -/
theorem callTLSCallbacks_empty (w : Win32) (fuel imageBase peHdr : Nat) (s : LoadState)
    (hpe : getPEHeader s.mem imageBase = some peHdr)
    (h : read32 s.mem (dirEntryAddr peHdr IMAGE_DIRECTORY_ENTRY_TLS + 4) = 0) :
    callTLSCallbacks w fuel imageBase s = (some true, s) := by
  unfold callTLSCallbacks
  rw [hpe]
  simp only []
  rw [if_pos h]

/-- The run of `linkImports` on an image with one import descriptor that imports one
symbol by name, both resolved, the store into the address table missing the end of
the lookup table and the terminating descriptor. -/
theorem linkImports_one_by_name (w : Win32) (f base hdr D : Nat) (s : LoadState)
    (hpe : getPEHeader s.mem base = some hdr)
    (himp : importsSize s.mem hdr ≠ 0)
    (hD : importsStart s.mem base hdr = D)
    (hname : read32 s.mem (D + OFF_ImportName) ≠ 0)
    (hentry : read64 s.mem (iltOf s.mem base D) ≠ 0)
    (hbyname : IMAGE_SNAP_BY_ORDINAL (read64 s.mem (iltOf s.mem base D)) = false)
    (hend : read64 s.mem (iltOf s.mem base D + 8) = 0)
    (hlast : read32 s.mem (D + SIZEOF_IMPORT_DESCRIPTOR + OFF_ImportName) = 0)
    (hlib : ∀ h m, w.LoadLibraryA h m (ADDR base (read32 s.mem (D + OFF_ImportName)))
      % 2 ^ 64 ≠ 0)
    (hsym : ∀ h m l, w.GetProcAddress h m l
      (ADDR base (read64 s.mem (iltOf s.mem base D)) + OFF_ImportByName_Name) % 2 ^ 64 ≠ 0)
    (hs3 : iatOf s.mem base D + 8 ≤ iltOf s.mem base D + 8 ∨
      iltOf s.mem base D + 16 ≤ iatOf s.mem base D)
    (hs4 : iatOf s.mem base D + 8 ≤ D + SIZEOF_IMPORT_DESCRIPTOR ∨
      D + 2 * SIZEOF_IMPORT_DESCRIPTOR ≤ iatOf s.mem base D) :
    ∃ lib addr, lib ≠ 0 ∧ addr ≠ 0 ∧ addr < 2 ^ 64 ∧
      linkImports w (f + 2) base s = some (true,
        { mem := write64 s.mem (iatOf s.mem base D) addr,
          os := s.os ++ [OsEvent.loadLibrary (ADDR base (read32 s.mem (D + OFF_ImportName))) lib,
            OsEvent.procByName lib
              (ADDR base (read64 s.mem (iltOf s.mem base D)) + OFF_ImportByName_Name) addr,
            OsEvent.iatWrite (iatOf s.mem base D) addr] }) := by
  generalize hlibv : w.LoadLibraryA s.os s.mem (ADDR base (read32 s.mem (D + OFF_ImportName)))
    % 2 ^ 64 = lib
  have hlib0 : lib ≠ 0 := by rw [← hlibv]; exact hlib _ _
  generalize haddrv : w.GetProcAddress
    (s.os ++ [OsEvent.loadLibrary (ADDR base (read32 s.mem (D + OFF_ImportName))) lib])
    s.mem lib (ADDR base (read64 s.mem (iltOf s.mem base D)) + OFF_ImportByName_Name)
    % 2 ^ 64 = addr
  have haddr0 : addr ≠ 0 := by rw [← haddrv]; exact hsym _ _ _
  have haddrlt : addr < 2 ^ 64 := by rw [← haddrv]; exact Nat.mod_lt _ (Nat.two_pow_pos 64)
  refine ⟨lib, addr, hlib0, haddr0, haddrlt, ?_⟩
  rw [linkImports_of_header w (f + 2) base hdr s hpe, if_neg himp, hD, descLoop_succ,
    if_neg hname, hlibv, if_neg hlib0]
  have hp : processImportDescriptor w (f + 2) base lib D
      (s.log (OsEvent.loadLibrary (ADDR base (read32 s.mem (D + OFF_ImportName))) lib)) =
      some (true,
        { mem := write64 s.mem (iatOf s.mem base D) addr,
          os := s.os ++ [OsEvent.loadLibrary (ADDR base (read32 s.mem (D + OFF_ImportName))) lib,
            OsEvent.procByName lib
              (ADDR base (read64 s.mem (iltOf s.mem base D)) + OFF_ImportByName_Name) addr,
            OsEvent.iatWrite (iatOf s.mem base D) addr] }) := by
    unfold processImportDescriptor
    rw [thunkLoop_succ]
    simp only [oslog_mem, oslog_os]
    rw [if_neg hentry, hbyname, if_neg (by simp), haddrv, if_neg haddr0, thunkLoop_succ]
    have hz : read64 (write64 s.mem (iatOf s.mem base D) addr) (iltOf s.mem base D + 8) = 0 := by
      rw [read64_congr _ s.mem _ (iltOf s.mem base D + 8) (iltOf s.mem base D + 16)
        (write64_agree s.mem _ addr _ _ hs3) (Nat.le_refl _) (by omega)]
      exact hend
    simp only []
    rw [if_pos hz]
    simp only [List.append_assoc, List.singleton_append, List.cons_append, List.nil_append]
  rw [hp]
  show descLoop w (f + 2) base (f + 1) (D + SIZEOF_IMPORT_DESCRIPTOR) _ = _
  rw [descLoop_succ]
  have hz : read32 (write64 s.mem (iatOf s.mem base D) addr)
      (D + SIZEOF_IMPORT_DESCRIPTOR + OFF_ImportName) = 0 := by
    rw [read32_congr _ s.mem _ (D + SIZEOF_IMPORT_DESCRIPTOR) (D + 2 * SIZEOF_IMPORT_DESCRIPTOR)
      (write64_agree s.mem _ addr _ _ hs4) (by omega)
      (by unfold SIZEOF_IMPORT_DESCRIPTOR OFF_ImportName; omega)]
    exact hlast
  exact if_pos hz

/-- The stages after `buildMemoryImage` on an image with an empty relocation
directory, one import by name that is resolved, and an empty TLS directory. -/
theorem finishLoad_one_import (w : Win32) (f base hdr D : Nat) (img : Mem) (os : List OsEvent)
    (hpe : getPEHeader img base = some hdr)
    (hreloc : relocDirSize img hdr = 0)
    (himp : importsSize img hdr ≠ 0)
    (hD : importsStart img base hdr = D)
    (hname : read32 img (D + OFF_ImportName) ≠ 0)
    (hentry : read64 img (iltOf img base D) ≠ 0)
    (hbyname : IMAGE_SNAP_BY_ORDINAL (read64 img (iltOf img base D)) = false)
    (hend : read64 img (iltOf img base D + 8) = 0)
    (hlast : read32 img (D + SIZEOF_IMPORT_DESCRIPTOR + OFF_ImportName) = 0)
    (htls : read32 img (dirEntryAddr hdr IMAGE_DIRECTORY_ENTRY_TLS + 4) = 0)
    (hlib : ∀ h m, w.LoadLibraryA h m (ADDR base (read32 img (D + OFF_ImportName)))
      % 2 ^ 64 ≠ 0)
    (hsym : ∀ h m l, w.GetProcAddress h m l
      (ADDR base (read64 img (iltOf img base D)) + OFF_ImportByName_Name) % 2 ^ 64 ≠ 0)
    (hs1 : iatOf img base D + 8 ≤ base ∨ base + 64 ≤ iatOf img base D)
    (hs2 : iatOf img base D + 8 ≤ hdr ∨ hdr + SIZEOF_NT_HEADERS64 ≤ iatOf img base D)
    (hs3 : iatOf img base D + 8 ≤ iltOf img base D + 8 ∨
      iltOf img base D + 16 ≤ iatOf img base D)
    (hs4 : iatOf img base D + 8 ≤ D + SIZEOF_IMPORT_DESCRIPTOR ∨
      D + 2 * SIZEOF_IMPORT_DESCRIPTOR ≤ iatOf img base D) :
    ∃ lib addr, lib ≠ 0 ∧ addr ≠ 0 ∧ addr < 2 ^ 64 ∧
      finishLoad w (f + 2) base img os = some
        { handle := base,
          mem := write64 img (iatOf img base D) addr,
          os := os ++ [OsEvent.stageDone Stage.relocate true,
            OsEvent.loadLibrary (ADDR base (read32 img (D + OFF_ImportName))) lib,
            OsEvent.procByName lib
              (ADDR base (read64 img (iltOf img base D)) + OFF_ImportByName_Name) addr,
            OsEvent.iatWrite (iatOf img base D) addr,
            OsEvent.stageDone Stage.link true,
            OsEvent.stageDone Stage.tls true] } := by
  obtain ⟨r, hr, hok, hmem⟩ := performRelocations_empty (f + 2) img base hdr hpe hreloc
  obtain ⟨lib, addr, hlib0, haddr0, haddrlt, hlink⟩ :=
    linkImports_one_by_name w f base hdr D
      (LoadState.mk img (os ++ [OsEvent.stageDone Stage.relocate true]))
      hpe himp hD hname hentry hbyname hend hlast hlib hsym hs3 hs4
  refine ⟨lib, addr, hlib0, haddr0, haddrlt, ?_⟩
  have htl := callTLSCallbacks_empty w (f + 2) base hdr
    (LoadState.mk (write64 img (iatOf img base D) addr)
      (os ++ [OsEvent.stageDone Stage.relocate true] ++
        [OsEvent.loadLibrary (ADDR base (read32 img (D + OFF_ImportName))) lib,
         OsEvent.procByName lib
           (ADDR base (read64 img (iltOf img base D)) + OFF_ImportByName_Name) addr,
         OsEvent.iatWrite (iatOf img base D) addr] ++ [OsEvent.stageDone Stage.link true]))
    (getPEHeader_write64 img base hdr _ addr hpe hs1 hs2)
    (by
      show read32 (write64 img (iatOf img base D) addr)
        (dirEntryAddr hdr IMAGE_DIRECTORY_ENTRY_TLS + 4) = 0
      rw [read32_congr _ img _ hdr (hdr + SIZEOF_NT_HEADERS64)
        (write64_agree img _ addr _ _ hs2)
        (by unfold dirEntryAddr; omega)
        (by unfold dirEntryAddr OFF_DataDirectory IMAGE_DIRECTORY_ENTRY_TLS SIZEOF_NT_HEADERS64
            omega)]
      exact htls)
  unfold finishLoad
  rw [hr]
  simp only []
  rw [hok, if_neg (by simp), hmem, hlink]
  simp only [oslog_mem, oslog_os]
  rw [show LoadState.log (LoadState.mk (write64 img (iatOf img base D) addr)
      (os ++ [OsEvent.stageDone Stage.relocate true] ++
        [OsEvent.loadLibrary (ADDR base (read32 img (D + OFF_ImportName))) lib,
         OsEvent.procByName lib
           (ADDR base (read64 img (iltOf img base D)) + OFF_ImportByName_Name) addr,
         OsEvent.iatWrite (iatOf img base D) addr])) (OsEvent.stageDone Stage.link true)
      = LoadState.mk (write64 img (iatOf img base D) addr)
      (os ++ [OsEvent.stageDone Stage.relocate true] ++
        [OsEvent.loadLibrary (ADDR base (read32 img (D + OFF_ImportName))) lib,
         OsEvent.procByName lib
           (ADDR base (read64 img (iltOf img base D)) + OFF_ImportByName_Name) addr,
         OsEvent.iatWrite (iatOf img base D) addr] ++ [OsEvent.stageDone Stage.link true])
      from rfl, htl]
  simp only []
  rw [cleanup_ok]
  simp only [oslog_mem, oslog_os, List.append_assoc, List.singleton_append, List.cons_append,
    List.nil_append]

theorem allocateImage_lookups (w : Win32) (file : Mem) (peHdr : Nat) (os : List OsEvent) :
    lookups (allocateImage w file peHdr os).2 = lookups os := by
  unfold allocateImage
  simp only []
  split_ifs
  · rw [lookups_append, lookups_append]
    show (lookups os ++ []) ++ [] = lookups os
    rw [List.append_nil, List.append_nil]
  · rw [lookups_append]
    show lookups os ++ [] = lookups os
    rw [List.append_nil]

/-- C19 (amended). A file image accepted by `getPEHeader` with two sections, the
second with `SizeOfRawData = 0`, is loaded with at least two iterations allowed per
loop into a zero-filled region granted at `base`.  The
image `img` laid out by `buildMemoryImage` has a valid header `hdr`, an empty
relocation directory, an import directory whose first descriptor `D` has one lookup
entry, by name, then a zero entry, and is followed by a zero descriptor, and an empty
TLS directory; the resolver resolves that library and that name; the 8 bytes of the
Import Address Table slot miss the DOS header, the NT headers, the zero lookup entry
and the zero descriptor; the second section's virtual range meets neither the header
copy nor the first section's copy.  Then `InMemoryLoader` returns the non-null handle
`base`; its one symbol lookup is by that name in the loaded library and returned
`addr`, which the slot holds; outside the 8 bytes of the slot, the first section's
bytes are the file's at its `VirtualAddress` and every byte of the second section's
virtual range is zero. -/
theorem InMemoryLoader_end_to_end (w : Win32) (fuel : Nat) (file : Mem)
    (fileImage imageSize : Nat) (os : List OsEvent) (peHdr base : Nat) (img : Mem)
    (hdr D : Nat)
    (hfuel : 2 ≤ fuel)
    (hpe : getPEHeader file fileImage = some peHdr)
    (hnsec : read16 file (peHdr + OFF_NumberOfSections) = 2)
    (hraw1 : secSizeOfRawData file (sectionAt (IMAGE_FIRST_SECTION file peHdr) 1) = 0)
    (hbase : (allocateImage w file peHdr (os ++ [OsEvent.inMemoryLoader fileImage imageSize] ++
        [OsEvent.stageDone Stage.validate true])).1 = base)
    (hbase0 : base ≠ 0)
    (himg : (buildMemoryImage file fileImage zeroMem base).2 = img)
    (hhdr : getPEHeader img base = some hdr)
    (hreloc : relocDirSize img hdr = 0)
    (himp : importsSize img hdr ≠ 0)
    (hD : importsStart img base hdr = D)
    (hname : read32 img (D + OFF_ImportName) ≠ 0)
    (hentry : read64 img (iltOf img base D) ≠ 0)
    (hbyname : IMAGE_SNAP_BY_ORDINAL (read64 img (iltOf img base D)) = false)
    (hend : read64 img (iltOf img base D + 8) = 0)
    (hlast : read32 img (D + SIZEOF_IMPORT_DESCRIPTOR + OFF_ImportName) = 0)
    (htls : read32 img (dirEntryAddr hdr IMAGE_DIRECTORY_ENTRY_TLS + 4) = 0)
    (hlib : ∀ h m, w.LoadLibraryA h m (ADDR base (read32 img (D + OFF_ImportName)))
      % 2 ^ 64 ≠ 0)
    (hsym : ∀ h m l, w.GetProcAddress h m l
      (ADDR base (read64 img (iltOf img base D)) + OFF_ImportByName_Name) % 2 ^ 64 ≠ 0)
    (hs1 : iatOf img base D + 8 ≤ base ∨ base + 64 ≤ iatOf img base D)
    (hs2 : iatOf img base D + 8 ≤ hdr ∨ hdr + SIZEOF_NT_HEADERS64 ≤ iatOf img base D)
    (hs3 : iatOf img base D + 8 ≤ iltOf img base D + 8 ∨
      iltOf img base D + 16 ≤ iatOf img base D)
    (hs4 : iatOf img base D + 8 ≤ D + SIZEOF_IMPORT_DESCRIPTOR ∨
      D + 2 * SIZEOF_IMPORT_DESCRIPTOR ≤ iatOf img base D)
    (hdh : base + read32 file (peHdr + OFF_SizeOfHeaders) ≤
        sectionDest file base (sectionAt (IMAGE_FIRST_SECTION file peHdr) 1) ∨
      sectionDest file base (sectionAt (IMAGE_FIRST_SECTION file peHdr) 1) +
        secVirtualSize file (sectionAt (IMAGE_FIRST_SECTION file peHdr) 1) ≤ base)
    (hdc : sectionDest file base (sectionAt (IMAGE_FIRST_SECTION file peHdr) 0) +
        copyLen file (sectionAt (IMAGE_FIRST_SECTION file peHdr) 0) ≤
        sectionDest file base (sectionAt (IMAGE_FIRST_SECTION file peHdr) 1) ∨
      sectionDest file base (sectionAt (IMAGE_FIRST_SECTION file peHdr) 1) +
        secVirtualSize file (sectionAt (IMAGE_FIRST_SECTION file peHdr) 1) ≤
        sectionDest file base (sectionAt (IMAGE_FIRST_SECTION file peHdr) 0)) :
    ∃ r lib addr, InMemoryLoader w fuel file fileImage imageSize os = some r ∧
      r.handle = base ∧ r.handle ≠ 0 ∧ lib ≠ 0 ∧ addr ≠ 0 ∧
      lookups r.os = lookups os ++ [(Lookup.byName lib
        (ADDR base (read64 img (iltOf img base D)) + OFF_ImportByName_Name), addr)] ∧
      read64 r.mem (iatOf img base D) = addr ∧
      (∀ a, inCopied file base (sectionAt (IMAGE_FIRST_SECTION file peHdr) 0) a →
        ¬ (iatOf img base D ≤ a ∧ a < iatOf img base D + 8) →
        r.mem a = file (sectionSrc file fileImage (sectionAt (IMAGE_FIRST_SECTION file peHdr) 0)
          + (a - sectionDest file base (sectionAt (IMAGE_FIRST_SECTION file peHdr) 0)))) ∧
      (∀ a, sectionDest file base (sectionAt (IMAGE_FIRST_SECTION file peHdr) 1) ≤ a →
        a < sectionDest file base (sectionAt (IMAGE_FIRST_SECTION file peHdr) 1) +
          secVirtualSize file (sectionAt (IMAGE_FIRST_SECTION file peHdr) 1) →
        ¬ (iatOf img base D ≤ a ∧ a < iatOf img base D + 8) →
        r.mem a = 0) := by
  obtain ⟨f, rfl⟩ : ∃ f, fuel = f + 2 := ⟨fuel - 2, by omega⟩
  obtain ⟨lib, addr, hlib0, haddr0, haddrlt, hfin⟩ :=
    finishLoad_one_import w f base hdr D img
      ((allocateImage w file peHdr (os ++ [OsEvent.inMemoryLoader fileImage imageSize] ++
        [OsEvent.stageDone Stage.validate true])).2 ++
        [OsEvent.stageDone Stage.allocate true, OsEvent.stageDone Stage.build true])
      hhdr hreloc himp hD hname hentry hbyname hend hlast htls hlib hsym hs1 hs2 hs3 hs4
  have hb1 : (buildMemoryImage file fileImage zeroMem base).1 = true := by
    rw [buildMemoryImage_of_header file fileImage zeroMem base peHdr hpe]
  have hrun : InMemoryLoader w (f + 2) file fileImage imageSize os = some
      { handle := base,
        mem := write64 img (iatOf img base D) addr,
        os := (allocateImage w file peHdr (os ++ [OsEvent.inMemoryLoader fileImage imageSize] ++
            [OsEvent.stageDone Stage.validate true])).2 ++
          [OsEvent.stageDone Stage.allocate true, OsEvent.stageDone Stage.build true] ++
          [OsEvent.stageDone Stage.relocate true,
            OsEvent.loadLibrary (ADDR base (read32 img (D + OFF_ImportName))) lib,
            OsEvent.procByName lib
              (ADDR base (read64 img (iltOf img base D)) + OFF_ImportByName_Name) addr,
            OsEvent.iatWrite (iatOf img base D) addr,
            OsEvent.stageDone Stage.link true,
            OsEvent.stageDone Stage.tls true] } := by
    unfold InMemoryLoader
    rw [hpe]
    simp only []
    rw [hbase, if_neg hbase0, hb1, if_neg (by simp), himg, hfin]
  have himga : ∀ a, img a = sectionLoop file fileImage base 2
      (IMAGE_FIRST_SECTION file peHdr)
      (memcpy zeroMem base file fileImage (read32 file (peHdr + OFF_SizeOfHeaders))) a := by
    intro a
    rw [← himg, buildMemoryImage_of_header file fileImage zeroMem base peHdr hpe, hnsec]
  have hno1 : ∀ a, ¬ inCopied file base (sectionAt (IMAGE_FIRST_SECTION file peHdr) 1) a := by
    intro a h
    unfold inCopied copyLen at h
    rw [if_pos hraw1] at h
    omega
  refine ⟨_, lib, addr, hrun, rfl, hbase0, hlib0, haddr0, ?_, ?_, ?_, ?_⟩
  · show lookups (_ ++ _ ++ _) = _
    rw [lookups_append, lookups_append, allocateImage_lookups, lookups_append, lookups_append]
    show ((lookups os ++ []) ++ []) ++ [] ++ _ = _
    simp only [List.append_nil]
    rfl
  · exact read64_write64 img _ addr haddrlt
  · intro a hin hout
    show write64 img (iatOf img base D) addr a = _
    rw [write64_other _ _ _ _ hout, himga,
      sectionLoop_copied file fileImage base a 2 _ _ 0 (by omega) hin]
    intro j hj0 hj2
    have hj : j = 1 := by omega
    rw [hj]
    exact hno1 a
  · intro a hlo hhi hout
    show write64 img (iatOf img base D) addr a = _
    rw [write64_other _ _ _ _ hout, himga, sectionLoop_frame]
    · unfold memcpy
      rw [if_neg (by omega)]
      rfl
    · intro k hk
      have hk01 : k = 0 ∨ k = 1 := by omega
      rcases hk01 with h | h
      · rw [h]
        intro hin
        unfold inCopied at hin
        omega
      · rw [h]
        exact hno1 a

/-- C19, counterexample. The scenario file whose Import Address Table is at RVA
0x1000, the start of its code section, is a valid 64-bit image with two sections (8
raw bytes at file offset 0x400 for RVA 0x1000; `SizeOfRawData = 0` and virtual size
16 at RVA 0x2000), an empty relocation directory, one descriptor importing one symbol
by name, and an empty TLS directory.  Loaded with the resolving operating system,
`InMemoryLoader` returns the handle 0x20000 and the slot at 0x21000 holds the
resolver's address 0x80282, so the first byte of the code section is 0x82 and not the
file's 0xAA.  With the table at RVA 0x2000, the start of the data section, the first
byte of the data section is 0x82 and not zero. -/
theorem InMemoryLoader_import_slot_in_section :
    (getPEHeader (scenarioFile 0x1000) 0x10000 = some 0x10040 ∧
     read16 (scenarioFile 0x1000) (0x10040 + OFF_NumberOfSections) = 2 ∧
     IMAGE_FIRST_SECTION (scenarioFile 0x1000) 0x10040 = 0x10148 ∧
     secVirtualAddress (scenarioFile 0x1000) 0x10148 = 0x1000 ∧
     secSizeOfRawData (scenarioFile 0x1000) 0x10148 = 8 ∧
     secPointerToRawData (scenarioFile 0x1000) 0x10148 = 0x400 ∧
     secVirtualAddress (scenarioFile 0x1000) 0x10170 = 0x2000 ∧
     secVirtualSize (scenarioFile 0x1000) 0x10170 = 16 ∧
     secSizeOfRawData (scenarioFile 0x1000) 0x10170 = 0 ∧
     relocDirSize (scenarioFile 0x1000) 0x10040 = 0 ∧
     read32 (scenarioFile 0x1000) (dirEntryAddr 0x10040 IMAGE_DIRECTORY_ENTRY_TLS + 4) = 0 ∧
     scenarioFile 0x1000 (0x10000 + 0x400) = 0xAA) ∧
    (InMemoryLoader resolvingOs 2 (scenarioFile 0x1000) 0x10000 0x408 []).map
      (fun r => (r.handle, lookups r.os, read64 r.mem (0x20000 + 0x1000),
        r.mem (0x20000 + 0x1000)))
      = some (0x20000, [(Lookup.byName 0x50000 0x20282, 0x80282)], 0x80282, 0x82) ∧
    (InMemoryLoader resolvingOs 2 (scenarioFile 0x2000) 0x10000 0x408 []).map
      (fun r => (r.handle, lookups r.os, read64 r.mem (0x20000 + 0x2000),
        r.mem (0x20000 + 0x2000)))
      = some (0x20000, [(Lookup.byName 0x50000 0x20282, 0x80282)], 0x80282, 0x82) := by
  refine ⟨⟨?_, ?_, ?_, ?_, ?_, ?_, ?_, ?_, ?_, ?_, ?_, ?_⟩, ?_, ?_⟩ <;> decide

/-- Witness of C19 (amended): the scenario file with its address table at RVA 0x260,
inside the header area, loaded at its preferred base 0x20000. -/
theorem InMemoryLoader_end_to_end_witness :
    ∃ r, InMemoryLoader resolvingOs 2 (scenarioFile 0x260) 0x10000 0x408 [] = some r ∧
      r.handle = 0x20000 ∧
      lookups r.os = [(Lookup.byName 0x50000 0x20282, 0x80282)] ∧
      read64 r.mem 0x20260 = 0x80282 ∧
      (∀ a, 0x21000 ≤ a → a < 0x21008 → r.mem a = scenarioFile 0x260 (0x10400 + (a - 0x21000))) ∧
      (∀ a, 0x22000 ≤ a → a < 0x22010 → r.mem a = 0) := by
  have hiat : iatOf (buildMemoryImage (scenarioFile 0x260) 0x10000 zeroMem 0x20000).2
      0x20000 0x20200 = 0x20260 := by decide
  have hd0 : sectionDest (scenarioFile 0x260) 0x20000
      (sectionAt (IMAGE_FIRST_SECTION (scenarioFile 0x260) 0x10040) 0) = 0x21000 := by decide
  have hl0 : copyLen (scenarioFile 0x260)
      (sectionAt (IMAGE_FIRST_SECTION (scenarioFile 0x260) 0x10040) 0) = 8 := by decide
  have hs0 : sectionSrc (scenarioFile 0x260) 0x10000
      (sectionAt (IMAGE_FIRST_SECTION (scenarioFile 0x260) 0x10040) 0) = 0x10400 := by decide
  have hd1 : sectionDest (scenarioFile 0x260) 0x20000
      (sectionAt (IMAGE_FIRST_SECTION (scenarioFile 0x260) 0x10040) 1) = 0x22000 := by decide
  have hv1 : secVirtualSize (scenarioFile 0x260)
      (sectionAt (IMAGE_FIRST_SECTION (scenarioFile 0x260) 0x10040) 1) = 16 := by decide
  obtain ⟨r, lib, addr, h1, h2, _, _, _, h6, h7, h8, h9⟩ :=
    InMemoryLoader_end_to_end resolvingOs 2 (scenarioFile 0x260) 0x10000 0x408 [] 0x10040
      0x20000 (buildMemoryImage (scenarioFile 0x260) 0x10000 zeroMem 0x20000).2
      0x20040 0x20200
      (by decide) (by decide) (by decide) (by decide) (by decide) (by decide) rfl
      (by decide) (by decide) (by decide) (by decide) (by decide) (by decide) (by decide)
      (by decide) (by decide) (by decide)
      (fun _ _ => by
        show (0x50000 : Nat) % 2 ^ 64 ≠ 0
        decide)
      (fun _ _ _ => by
        show (0x80282 : Nat) % 2 ^ 64 ≠ 0
        decide)
      (by decide) (by decide) (by decide) (by decide) (by decide) (by decide)
  have hlk : (InMemoryLoader resolvingOs 2 (scenarioFile 0x260) 0x10000 0x408 []).map
      (fun r => lookups r.os) = some [(Lookup.byName 0x50000 0x20282, 0x80282)] := by decide
  rw [h1] at hlk
  simp only [Option.map_some', Option.some.injEq] at hlk
  have haddr : addr = 0x80282 := by
    rw [hlk] at h6
    simp only [lookups, List.filterMap_nil, List.nil_append, List.cons.injEq, Prod.mk.injEq,
      and_true] at h6
    exact h6.2.symm
  rw [hiat] at h7 h8 h9
  rw [hd0, hs0] at h8
  rw [hd1, hv1] at h9
  refine ⟨r, h1, h2, hlk, by rw [h7, haddr], ?_, ?_⟩
  · intro a hlo hhi
    apply h8 a
    · unfold inCopied
      rw [hd0, hl0]
      omega
    · omega
  · intro a hlo hhi
    exact h9 a hlo (by omega) (by omega)

/-! ## Export name lookup (`FindNameIndexForOrdinal`) -/

theorem unsignedToInt_ne_neg_one (idx : Nat) (h : idx + 1 < 2 ^ 32) : unsignedToInt idx ≠ -1 := by
  unfold unsignedToInt
  rw [Nat.mod_eq_of_lt (by omega)]
  split_ifs <;> omega

/-- The loop returns `-1` when no element from `idx` on matches, and the converted
index of the first match otherwise. -/
theorem nameIndexLoop_spec (m : Mem) (ordinal arr : Nat) :
    ∀ (remaining idx : Nat),
      ((∀ i, i < remaining → read16 m (arr + 2 * (idx + i)) ≠ ordinal) ∧
        nameIndexLoop m ordinal arr remaining idx = -1) ∨
      (∃ i, i < remaining ∧ read16 m (arr + 2 * (idx + i)) = ordinal ∧
        (∀ j, j < i → read16 m (arr + 2 * (idx + j)) ≠ ordinal) ∧
        nameIndexLoop m ordinal arr remaining idx = unsignedToInt (idx + i)) := by
  intro remaining
  induction remaining with
  | zero =>
    intro idx
    exact Or.inl ⟨fun i hi => absurd hi (Nat.not_lt_zero i), rfl⟩
  | succ n ih =>
    intro idx
    by_cases h0 : read16 m (arr + 2 * idx) = ordinal
    · refine Or.inr ⟨0, Nat.succ_pos n, h0, fun j hj => absurd hj (Nat.not_lt_zero j), ?_⟩
      unfold nameIndexLoop
      rw [if_pos h0]
      rfl
    · rcases ih (idx + 1) with ⟨hno, hr⟩ | ⟨i, hi, hm, hf, hr⟩
      · left
        constructor
        · intro i hi
          cases i with
          | zero => exact h0
          | succ i =>
            have := hno i (by omega)
            rw [show idx + 1 + i = idx + (i + 1) by omega] at this
            exact this
        · unfold nameIndexLoop
          rw [if_neg h0]
          exact hr
      · right
        refine ⟨i + 1, by omega, ?_, ?_, ?_⟩
        · rw [show idx + (i + 1) = idx + 1 + i by omega]
          exact hm
        · intro j hj
          cases j with
          | zero => exact h0
          | succ j =>
            have := hf j (by omega)
            rw [show idx + 1 + j = idx + (j + 1) by omega] at this
            exact this
        · unfold nameIndexLoop
          rw [if_neg h0, hr, show idx + (i + 1) = idx + 1 + i by omega]

/-- C21, the code at the failing input. In a table of `2^31 + 1` name ordinals
(`numberOfNames` is `unsigned`) whose only entry equal to 5 is entry `2^31`, the
smallest index holding ordinal 5 is `2^31`, and `FindNameIndexForOrdinal` returns
`-2^31`: neither that index nor `-1`, against its own contract "Returns name index or
-1 if not found" and `_Success_(return >= 0)`; the `unsigned` loop index does not fit
the `int` result. -/
theorem FindNameIndexForOrdinal_index_overflow :
    read16 hugeOrdinalTable (0x10000 + 2 * 2 ^ 31) = 5 ∧
    FindNameIndexForOrdinal hugeOrdinalTable 5 0x10000 (2 ^ 31 + 1) = -2147483648 ∧
    FindNameIndexForOrdinal hugeOrdinalTable 5 0x10000 (2 ^ 31 + 1) ≠ ((2 ^ 31 : Nat) : Int) := by
  have hat : read16 hugeOrdinalTable (0x10000 + 2 * 2 ^ 31) = 5 := by
    unfold read16 hugeOrdinalTable
    rw [if_pos rfl, if_neg (by omega)]
    rfl
  have hbefore : ∀ j, j < 2 ^ 31 → read16 hugeOrdinalTable (0x10000 + 2 * (0 + j)) ≠ 5 := by
    intro j hj
    unfold read16 hugeOrdinalTable
    rw [if_neg (by omega), if_neg (by omega)]
    decide
  have hval : FindNameIndexForOrdinal hugeOrdinalTable 5 0x10000 (2 ^ 31 + 1) = -2147483648 := by
    unfold FindNameIndexForOrdinal
    rw [show 5 % 2 ^ 32 = 5 by decide, show (2 ^ 31 + 1) % 2 ^ 32 = 2 ^ 31 + 1 by decide]
    rcases nameIndexLoop_spec hugeOrdinalTable 5 0x10000 (2 ^ 31 + 1) 0 with
      ⟨hno, _⟩ | ⟨i, hi, hm, hf, hr⟩
    · exact absurd hat (by simpa using hno (2 ^ 31) (by omega))
    · have hi31 : i = 2 ^ 31 := by
        by_contra hne
        have hlt : i < 2 ^ 31 := by omega
        exact hbefore i hlt hm
      rw [hr, hi31]
      decide
  refine ⟨hat, hval, ?_⟩
  rw [hval]
  decide

/-- What `FindNameIndexForOrdinal` computes on every input (`ordinal` and
`numberOfNames` both `unsigned`): it returns `-1` if and only if no element equals
`ordinal`, which is the case for every ordinal above 0xFFFF and for an empty array;
otherwise the loop stops at the smallest index `i` whose element equals `ordinal` and
the function returns `(int) i`, which is `i` itself whenever `i < 2^31`. -/
theorem FindNameIndexForOrdinal_spec (m : Mem) (ordinal arr numberOfNames : Nat)
    (ho : ordinal < 2 ^ 32) (hn : numberOfNames < 2 ^ 32) :
    (FindNameIndexForOrdinal m ordinal arr numberOfNames = -1 ↔
      ∀ i, i < numberOfNames → read16 m (arr + 2 * i) ≠ ordinal) ∧
    ((∃ i, i < numberOfNames ∧ read16 m (arr + 2 * i) = ordinal) →
      ∃ i, i < numberOfNames ∧ read16 m (arr + 2 * i) = ordinal ∧
        (∀ j, j < i → read16 m (arr + 2 * j) ≠ ordinal) ∧
        FindNameIndexForOrdinal m ordinal arr numberOfNames = unsignedToInt i ∧
        (i < 2 ^ 31 → FindNameIndexForOrdinal m ordinal arr numberOfNames = (i : Int))) ∧
    (0xFFFF < ordinal ∨ numberOfNames = 0 →
      FindNameIndexForOrdinal m ordinal arr numberOfNames = -1) := by
  have key := nameIndexLoop_spec m ordinal arr numberOfNames 0
  simp only [Nat.zero_add] at key
  have hdef : FindNameIndexForOrdinal m ordinal arr numberOfNames =
      nameIndexLoop m ordinal arr numberOfNames 0 := by
    unfold FindNameIndexForOrdinal
    rw [Nat.mod_eq_of_lt ho, Nat.mod_eq_of_lt hn]
  rw [hdef]
  have hiff : nameIndexLoop m ordinal arr numberOfNames 0 = -1 ↔
      ∀ i, i < numberOfNames → read16 m (arr + 2 * i) ≠ ordinal := by
    rcases key with ⟨hno, hr⟩ | ⟨i, hi, hm, _, hr⟩
    · exact ⟨fun _ => hno, fun _ => hr⟩
    · constructor
      · intro h
        rw [hr] at h
        exact absurd h (unsignedToInt_ne_neg_one i (by omega))
      · intro h
        exact absurd hm (h i hi)
  refine ⟨hiff, ?_, ?_⟩
  · rintro ⟨i0, hi0, hm0⟩
    rcases key with ⟨hno, _⟩ | ⟨i, hi, hm, hf, hr⟩
    · exact absurd hm0 (hno i0 hi0)
    · refine ⟨i, hi, hm, hf, hr, fun h31 => ?_⟩
      rw [hr]
      unfold unsignedToInt
      rw [Nat.mod_eq_of_lt (by omega), if_pos h31]
  · intro h
    rw [hiff]
    intro i hi hm
    rcases h with h | h
    · have : read16 m (arr + 2 * i) < 2 ^ 16 := by
        unfold read16
        have h1 := (m (arr + 2 * i)).isLt
        have h2 := (m (arr + 2 * i + 1)).isLt
        omega
      omega
    · omega

/-- Instance of `FindNameIndexForOrdinal_spec`: in the table 7, 3, 9, 3 ordinal 3 has a first
occurrence, which is returned, and ordinal 4 is not found. -/
theorem FindNameIndexForOrdinal_spec_witness :
    (∃ i, i < 4 ∧ read16 smallOrdinalTable (0x10000 + 2 * i) = 3 ∧
      (∀ j, j < i → read16 smallOrdinalTable (0x10000 + 2 * j) ≠ 3) ∧
      FindNameIndexForOrdinal smallOrdinalTable 3 0x10000 4 = unsignedToInt i ∧
      (i < 2 ^ 31 → FindNameIndexForOrdinal smallOrdinalTable 3 0x10000 4 = (i : Int))) ∧
    (FindNameIndexForOrdinal smallOrdinalTable 4 0x10000 4 = -1 ↔
      ∀ i, i < 4 → read16 smallOrdinalTable (0x10000 + 2 * i) ≠ 4) ∧
    FindNameIndexForOrdinal smallOrdinalTable 3 0x10000 4 = 1 :=
  ⟨(FindNameIndexForOrdinal_spec smallOrdinalTable 3 0x10000 4 (by decide) (by decide)).2.1
      ⟨1, by decide, by decide⟩,
   (FindNameIndexForOrdinal_spec smallOrdinalTable 4 0x10000 4 (by decide) (by decide)).1,
   by decide⟩

/-! ## Relocation entry encoding -/

/-- C24. For every 16-bit relocation entry `e`: `IMAGE_REL_BASED_TYPE(e)` is
`e >> 12`, a value below 16; `IMAGE_REL_BASED_OFFSET(e)` is `e & 0x0FFF`, a value
below 4096; and `e = TYPE(e) * 4096 + OFFSET(e)`. -/
theorem IMAGE_REL_BASED_decompose (e : Nat) (h : e < 2 ^ 16) :
    IMAGE_REL_BASED_TYPE e = e >>> 12 ∧ IMAGE_REL_BASED_TYPE e < 16 ∧
    IMAGE_REL_BASED_OFFSET e = e &&& 0x0FFF ∧ IMAGE_REL_BASED_OFFSET e < 4096 ∧
    e = IMAGE_REL_BASED_TYPE e * 4096 + IMAGE_REL_BASED_OFFSET e := by
  unfold IMAGE_REL_BASED_TYPE IMAGE_REL_BASED_OFFSET
  rw [Nat.mod_eq_of_lt h]
  have hand : e &&& 0x0FFF = e % 2 ^ 12 := Nat.and_pow_two_sub_one_eq_mod e 12
  have hshift : e >>> 12 = e / 2 ^ 12 := Nat.shiftRight_eq_div_pow e 12
  rw [hand, hshift]
  refine ⟨rfl, ?_, rfl, ?_, ?_⟩
  · omega
  · omega
  · omega

/-- Witness of C24: the entry 0xA123 has type 10 (`DIR64`) and offset 0x123. -/
theorem IMAGE_REL_BASED_decompose_witness :
    IMAGE_REL_BASED_TYPE 0xA123 = 0xA123 >>> 12 ∧ IMAGE_REL_BASED_TYPE 0xA123 < 16 ∧
    IMAGE_REL_BASED_OFFSET 0xA123 = 0xA123 &&& 0x0FFF ∧ IMAGE_REL_BASED_OFFSET 0xA123 < 4096 ∧
    0xA123 = IMAGE_REL_BASED_TYPE 0xA123 * 4096 + IMAGE_REL_BASED_OFFSET 0xA123 :=
  IMAGE_REL_BASED_decompose 0xA123 (by decide)

/-! ## Termination of the block walk -/

theorem applyFixup_visits (rb delta : Nat) (s : Machine) (e : Nat) :
    visits (applyFixup rb delta s e).trace = visits s.trace := by
  by_cases h : IMAGE_REL_BASED_TYPE e = IMAGE_REL_BASED_DIR64
  · rw [applyFixup_dir64 rb delta s e h]
    exact (visits_log_read s.trace _).2.2.2
  · rw [applyFixup_other rb delta s e h]

theorem fixupLoop_succ (rb delta fx remaining idx : Nat) (s : Machine) :
    fixupLoop rb delta fx (remaining + 1) idx s =
      fixupLoop rb delta fx remaining (idx + 1)
        (applyFixup rb delta (s.log (Event.entryRead (fx + 2 * idx)))
          (read16 s.mem (fx + 2 * idx))) := rfl

theorem fixupLoop_visits (rb delta fx : Nat) :
    ∀ (remaining idx : Nat) (s : Machine),
      visits (fixupLoop rb delta fx remaining idx s).trace = visits s.trace := by
  intro remaining
  induction remaining with
  | zero => intro idx s; rfl
  | succ n ih =>
    intro idx s
    rw [fixupLoop_succ, ih, applyFixup_visits, log_trace]
    exact (visits_log_read s.trace _).2.2.1

theorem processBlock_visits (imageBase delta b : Nat) (s : Machine) :
    visits (processBlock imageBase delta b s).trace = visits s.trace ++ [b] := by
  have hpb : processBlock imageBase delta b s =
      fixupLoop (ADDR imageBase (read32 s.mem b)) delta (IMAGE_REL_BASED_ENTRIES b)
        (IMAGE_REL_BASED_COUNT (read32 s.mem (b + 4))) 0
        ((s.log (Event.readBlockVA b)).log (Event.readBlockSize b)) := rfl
  rw [hpb, fixupLoop_visits, log_trace, log_trace, (visits_log_read _ b).1]
  exact (visits_log_read s.trace b).2.1

/-- The block walk ends within `endR - b + 1` iterations whatever the fix-ups write:
the blocks it enters lie at strictly increasing addresses, each with its header before
the directory end. -/
theorem relocLoop_terminates (imageBase delta endR : Nat) (hE : endR + 2 ^ 32 ≤ 2 ^ 64) :
    ∀ (fuel b : Nat) (s : Machine), b + 8 < 2 ^ 64 → endR - b < fuel →
      ∃ s' L, relocLoop imageBase delta endR fuel b s = some s' ∧
        visits s'.trace = visits s.trace ++ L ∧
        L.Pairwise (fun x y => x < y) ∧ ∀ x ∈ L, b ≤ x ∧ x + 8 < endR := by
  intro fuel
  induction fuel with
  | zero => intro b s _ h; omega
  | succ n ih =>
    intro b s hb hfuel
    have hA : ADDR b SIZEOF_BASE_RELOCATION = b + 8 := by
      unfold SIZEOF_BASE_RELOCATION
      exact ADDR_eq b 8 hb
    by_cases h1 : ADDR b SIZEOF_BASE_RELOCATION < endR
    · by_cases h2 : read32 s.mem (b + 4) = 0
      · obtain ⟨s', hr, _, _, hv⟩ := relocLoop_exit imageBase delta endR n b s (Or.inr (Or.inl h2))
        exact ⟨s', [], hr, by rw [hv, List.append_nil], List.Pairwise.nil,
          fun x hx => absurd hx (List.not_mem_nil x)⟩
      · by_cases h3 : ADDR b (read32 s.mem (b + 4)) ≤ endR
        · rw [relocLoop_step imageBase delta endR n b s h1 h2 h3]
          generalize hs2 : processBlock imageBase delta b
            ((s.log (Event.readBlockSize b)).log (Event.readBlockSize b)) = s2
          have hv2 : visits s2.trace = visits s.trace ++ [b] := by
            rw [← hs2, processBlock_visits, log_trace, log_trace, (visits_log_read _ _).1,
              (visits_log_read _ _).1]
          have hv3 : visits (s2.log (Event.readBlockSize b)).trace = visits s.trace ++ [b] := by
            rw [log_trace, (visits_log_read _ _).1, hv2]
          have hlt : read32 s2.mem (b + 4) < 2 ^ 32 := read32_lt _ _
          rw [hA] at h1
          have hn : 0 < n := by omega
          have hmod : (b + read32 s2.mem (b + 4)) % 2 ^ 64 = b + read32 s2.mem (b + 4) :=
            Nat.mod_eq_of_lt (by omega)
          rw [hmod]
          by_cases hz : read32 s2.mem (b + 4) = 0
          · rw [hz, Nat.add_zero]
            obtain ⟨k, hk⟩ : ∃ k, n = k + 1 := ⟨n - 1, by omega⟩
            rw [hk]
            obtain ⟨s', hr, _, _, hv⟩ := relocLoop_exit imageBase delta endR k b
              (s2.log (Event.readBlockSize b)) (Or.inr (Or.inl (by
                show read32 (s2.log (Event.readBlockSize b)).mem (b + 4) = 0
                rw [log_mem]
                exact hz)))
            refine ⟨s', [b], hr, by rw [hv, hv3], List.pairwise_singleton _ _, ?_⟩
            intro x hx
            rw [List.mem_singleton] at hx
            rw [hx]
            exact ⟨Nat.le_refl _, h1⟩
          · obtain ⟨s', L, hr, hv, hp, hin⟩ := ih (b + read32 s2.mem (b + 4))
              (s2.log (Event.readBlockSize b)) (by omega) (by omega)
            refine ⟨s', b :: L, hr, ?_, ?_, ?_⟩
            · rw [hv, hv3, List.append_assoc, List.singleton_append]
            · rw [List.pairwise_cons]
              refine ⟨fun x hx => ?_, hp⟩
              have := (hin x hx).1
              omega
            · intro x hx
              rw [List.mem_cons] at hx
              rcases hx with hx | hx
              · rw [hx]
                exact ⟨Nat.le_refl _, h1⟩
              · have := hin x hx
                exact ⟨by omega, this.2⟩
        · obtain ⟨s', hr, _, _, hv⟩ := relocLoop_exit imageBase delta endR n b s
            (Or.inr (Or.inr h3))
          exact ⟨s', [], hr, by rw [hv, List.append_nil], List.Pairwise.nil,
            fun x hx => absurd hx (List.not_mem_nil x)⟩
    · obtain ⟨s', hr, _, _, hv⟩ := relocLoop_exit imageBase delta endR n b s (Or.inl h1)
      exact ⟨s', [], hr, by rw [hv, List.append_nil], List.Pairwise.nil,
        fun x hx => absurd hx (List.not_mem_nil x)⟩

/-- C26. For every in-memory image accepted by `getPEHeader` (not in the top 8 GiB
of the address space) and every relocation directory, whatever its fix-ups
overwrite, the table itself included: `performRelocations` returns true once the
loop bound exceeds the directory size; the blocks whose body it enters lie at
strictly increasing addresses (an iteration that leaves the block pointer where it
was, its `SizeOfBlock` having become zero, is followed by the loop exit), each at or
after the directory start and with its 8-byte header before the directory end. -/
theorem performRelocations_walk_terminates (fuel : Nat) (m : Mem) (imageBase peHdr : Nat)
    (hpe : getPEHeader m imageBase = some peHdr)
    (hspace : imageBase + 2 ^ 33 ≤ 2 ^ 64)
    (hfuel : relocDirSize m peHdr < fuel) :
    ∃ r, performRelocations fuel m imageBase = some r ∧ r.ok = true ∧
      (visits r.trace).Pairwise (fun x y => x < y) ∧
      ∀ b ∈ visits r.trace,
        relocStart m imageBase peHdr ≤ b ∧ b + 8 < relocEnd m imageBase peHdr := by
  rw [performRelocations_of_header fuel m imageBase peHdr hpe]
  have hheader : visits (headerTrace m imageBase peHdr) = [] :=
    visits_of_peRead _ (headerTrace_peRead m imageBase peHdr)
  split_ifs with hd hs
  · refine ⟨_, rfl, rfl, ?_⟩
    have hv : visits ((getPEHeaderTr m imageBase).2 ++ [Event.peRead (peHdr + OFF_ImageBase) 8])
        = [] := by
      apply visits_of_peRead
      intro e he
      simp only [List.mem_append, List.mem_singleton] at he
      rcases he with he | rfl
      · exact getPEHeaderTr_peRead m imageBase e he
      · exact ⟨_, _, rfl⟩
    show (visits (_ ++ _)).Pairwise _ ∧ ∀ b ∈ visits (_ ++ _), _
    rw [hv]
    exact ⟨List.Pairwise.nil, fun b hb => absurd hb (List.not_mem_nil b)⟩
  · refine ⟨_, rfl, rfl, ?_⟩
    show (visits (headerTrace m imageBase peHdr)).Pairwise _ ∧
      ∀ b ∈ visits (headerTrace m imageBase peHdr), _
    rw [hheader]
    exact ⟨List.Pairwise.nil, fun b hb => absurd hb (List.not_mem_nil b)⟩
  · have hva : relocDirVA m peHdr < 2 ^ 32 := read32_lt m _
    have hmodlt : (relocDirVA m peHdr + relocDirSize m peHdr) % 2 ^ 32 < 2 ^ 32 :=
      Nat.mod_lt _ (Nat.two_pow_pos 32)
    have hmodle : (relocDirVA m peHdr + relocDirSize m peHdr) % 2 ^ 32 ≤
        relocDirVA m peHdr + relocDirSize m peHdr := Nat.mod_le _ _
    have hstart : relocStart m imageBase peHdr = imageBase + relocDirVA m peHdr := by
      unfold relocStart
      exact ADDR_eq _ _ (by omega)
    have hend : relocEnd m imageBase peHdr =
        imageBase + (relocDirVA m peHdr + relocDirSize m peHdr) % 2 ^ 32 := by
      unfold relocEnd
      exact ADDR_eq _ _ (by omega)
    obtain ⟨s', L, hr, hv, hp, hin⟩ := relocLoop_terminates imageBase
      (deltaOf m imageBase peHdr) (relocEnd m imageBase peHdr) (by omega) fuel
      (relocStart m imageBase peHdr) (Machine.mk m (headerTrace m imageBase peHdr))
      (by omega) (by omega)
    rw [hr]
    refine ⟨_, rfl, rfl, ?_⟩
    show (visits s'.trace).Pairwise _ ∧ ∀ b ∈ visits s'.trace, _
    rw [hv]
    show (visits (headerTrace m imageBase peHdr) ++ L).Pairwise _ ∧
      ∀ b ∈ visits (headerTrace m imageBase peHdr) ++ L, _
    rw [hheader, List.nil_append]
    exact ⟨hp, hin⟩

/-- Witness of C26: the first block of `sizeZeroingImage` patches its own
`SizeOfBlock` from 10 to 0; the walk enters that block only and returns true. -/
theorem performRelocations_walk_terminates_witness :
    (∃ r, performRelocations 21 sizeZeroingImage 0x20000 = some r ∧ r.ok = true ∧
      (visits r.trace).Pairwise (fun x y => x < y) ∧
      ∀ b ∈ visits r.trace,
        relocStart sizeZeroingImage 0x20000 0x20040 ≤ b ∧
        b + 8 < relocEnd sizeZeroingImage 0x20000 0x20040) ∧
    deltaOf sizeZeroingImage 0x20000 0x20040 ≠ 0 ∧
    blockSize sizeZeroingImage 0x21000 = 10 ∧
    (performRelocations 21 sizeZeroingImage 0x20000).map
      (fun r => (r.ok, visits r.trace, patches r.trace, blockSize r.mem 0x21000))
      = some (true, [0x21000], [0x21004], 0) :=
  ⟨performRelocations_walk_terminates 21 sizeZeroingImage 0x20000 0x20040 (by decide)
      (by decide) (by decide),
   by decide, by decide, by decide⟩

/-! ## Fix-up entries read for one block -/

theorem entryReads_append (t1 t2 : List Event) :
    entryReads (t1 ++ t2) = entryReads t1 ++ entryReads t2 := by
  unfold entryReads; exact List.filterMap_append _ _ _

theorem applyFixup_entryReads (rb delta : Nat) (s : Machine) (e : Nat) :
    entryReads (applyFixup rb delta s e).trace = entryReads s.trace := by
  by_cases h : IMAGE_REL_BASED_TYPE e = IMAGE_REL_BASED_DIR64
  · rw [applyFixup_dir64 rb delta s e h]
    show entryReads (s.trace ++ [Event.patch _]) = _
    rw [entryReads_append]
    exact List.append_nil _
  · rw [applyFixup_other rb delta s e h]

/-- The fix-up loop reads the `remaining` entries `fixups[idx ..]`, in order. -/
theorem fixupLoop_entryReads (rb delta fx : Nat) :
    ∀ (remaining idx : Nat) (s : Machine),
      entryReads (fixupLoop rb delta fx remaining idx s).trace =
        entryReads s.trace ++ (List.range remaining).map (fun i => fx + 2 * (idx + i)) := by
  intro remaining
  induction remaining with
  | zero =>
    intro idx s
    show entryReads s.trace = entryReads s.trace ++ []
    rw [List.append_nil]
  | succ n ih =>
    intro idx s
    rw [fixupLoop_succ, ih, applyFixup_entryReads, log_trace, entryReads_append,
      List.range_succ_eq_map, List.map_cons, List.map_map, List.append_assoc]
    congr 1
    show (fx + 2 * idx) :: List.map _ _ = (fx + 2 * idx) :: List.map _ _
    congr 1
    apply List.map_congr_left
    intro i _
    show fx + 2 * (idx + 1 + i) = fx + 2 * (idx + (i + 1))
    omega

/-- The entries read for the block at `b`: `IMAGE_REL_BASED_COUNT(SizeOfBlock)`
entries from `b + 8` on. -/
theorem processBlock_entryReads (imageBase delta b : Nat) (s : Machine) (hb : b + 8 < 2 ^ 64) :
    entryReads (processBlock imageBase delta b s).trace =
      entryReads s.trace ++
        (List.range (IMAGE_REL_BASED_COUNT (blockSize s.mem b))).map (fun i => b + 8 + 2 * i) := by
  have hpb : processBlock imageBase delta b s =
      fixupLoop (ADDR imageBase (read32 s.mem b)) delta (IMAGE_REL_BASED_ENTRIES b)
        (IMAGE_REL_BASED_COUNT (read32 s.mem (b + 4))) 0
        ((s.log (Event.readBlockVA b)).log (Event.readBlockSize b)) := rfl
  have he : IMAGE_REL_BASED_ENTRIES b = b + 8 := by
    unfold IMAGE_REL_BASED_ENTRIES SIZEOF_BASE_RELOCATION
    exact ADDR_eq b 8 hb
  rw [hpb, fixupLoop_entryReads, he, log_trace, log_trace, entryReads_append, entryReads_append]
  show (entryReads s.trace ++ [] ++ []) ++ _ = _
  rw [List.append_nil, List.append_nil]
  congr 1
  apply List.map_congr_left
  intro i _
  show b + 8 + 2 * (0 + i) = b + 8 + 2 * i
  omega

/-- For a block whose `SizeOfBlock` is at least 8, every entry read lies inside the
block's declared extent, after its header. -/
theorem processBlock_reads_inside (imageBase delta b : Nat) (s : Machine)
    (hb : b + 8 < 2 ^ 64) (h8 : 8 ≤ blockSize s.mem b) (hs : entryReads s.trace = []) :
    ∀ a ∈ entryReads (processBlock imageBase delta b s).trace,
      b + 8 ≤ a ∧ a + 2 ≤ b + blockSize s.mem b := by
  intro a ha
  rw [processBlock_entryReads imageBase delta b s hb, hs, List.nil_append, List.mem_map] at ha
  obtain ⟨i, hi, rfl⟩ := ha
  rw [List.mem_range] at hi
  have hc := count_le (blockSize s.mem b) h8 (read32_lt s.mem _)
  omega

/-- C27, the code at the failing input. The first block of `shortBlockImage`
declares `SizeOfBlock = 4` and passes the three tests of the loop (header inside the
directory, size non-zero, block end before the directory end 0x21010); its entry count
is 4294967294, not 0, and the entries read for it are the 4294967294 entries from
0x21008 on: the first lies after the block's declared extent `[0x21000, 0x21004)`,
the last one 8 GiB after the directory end. -/
theorem performRelocations_short_block_reads_outside :
    (ADDR 0x21000 SIZEOF_BASE_RELOCATION < relocEnd shortBlockImage 0x20000 0x20040 ∧
     blockSize shortBlockImage 0x21000 = 4 ∧
     ADDR 0x21000 (blockSize shortBlockImage 0x21000) ≤ relocEnd shortBlockImage 0x20000 0x20040 ∧
     relocEnd shortBlockImage 0x20000 0x20040 = 0x21010) ∧
    IMAGE_REL_BASED_COUNT (blockSize shortBlockImage 0x21000) = 4294967294 ∧
    entryReads (processBlock 0x20000 (deltaOf shortBlockImage 0x20000 0x20040) 0x21000
        { mem := shortBlockImage, trace := [] }).trace
      = (List.range 4294967294).map (fun i => 0x21008 + 2 * i) ∧
    0x21008 + 2 * 4294967293 ∈
      entryReads (processBlock 0x20000 (deltaOf shortBlockImage 0x20000 0x20040) 0x21000
        { mem := shortBlockImage, trace := [] }).trace := by
  have hc : IMAGE_REL_BASED_COUNT (blockSize shortBlockImage 0x21000) = 4294967294 := by decide
  have hr := processBlock_entryReads 0x20000 (deltaOf shortBlockImage 0x20000 0x20040) 0x21000
    { mem := shortBlockImage, trace := [] } (by decide)
  rw [hc] at hr
  have hr2 : entryReads (processBlock 0x20000 (deltaOf shortBlockImage 0x20000 0x20040) 0x21000
      { mem := shortBlockImage, trace := [] }).trace
      = (List.range 4294967294).map (fun i => 0x21008 + 2 * i) := by
    rw [hr]
    show [] ++ List.map _ _ = List.map _ _
    rw [List.nil_append]
  refine ⟨⟨by decide, by decide, by decide, by decide⟩, hc, hr2, ?_⟩
  rw [hr2]
  exact List.mem_map.mpr ⟨4294967293, List.mem_range.mpr (by omega), rfl⟩

/-! ## The headers of the loaded image -/

theorem read16_shift (m m' : Mem) (a a' n x : Nat)
    (h : ∀ i, i < n → m' (a' + i) = m (a + i)) (hx : x + 2 ≤ n) :
    read16 m' (a' + x) = read16 m (a + x) := by
  unfold read16
  rw [h x (by omega), Nat.add_assoc a' x 1, h (x + 1) (by omega), Nat.add_assoc a x 1]

theorem read32_shift (m m' : Mem) (a a' n x : Nat)
    (h : ∀ i, i < n → m' (a' + i) = m (a + i)) (hx : x + 4 ≤ n) :
    read32 m' (a' + x) = read32 m (a + x) := by
  unfold read32
  rw [h x (by omega), Nat.add_assoc a' x 1, h (x + 1) (by omega), Nat.add_assoc a x 1,
    Nat.add_assoc a' x 2, h (x + 2) (by omega), Nat.add_assoc a x 2,
    Nat.add_assoc a' x 3, h (x + 3) (by omega), Nat.add_assoc a x 3]

theorem readLE_shift (m m' : Mem) (a a' n : Nat)
    (h : ∀ i, i < n → m' (a' + i) = m (a + i)) :
    ∀ (k x : Nat), x + k ≤ n → readLE m' (a' + x) k = readLE m (a + x) k := by
  intro k
  induction k with
  | zero => intro x _; rfl
  | succ k ih =>
    intro x hx
    unfold readLE
    rw [h x (by omega), Nat.add_assoc a' x 1, Nat.add_assoc a x 1, ih (x + 1) (by omega)]

theorem read64_shift (m m' : Mem) (a a' n x : Nat)
    (h : ∀ i, i < n → m' (a' + i) = m (a + i)) (hx : x + 8 ≤ n) :
    read64 m' (a' + x) = read64 m (a + x) := by
  unfold read64
  exact readLE_shift m m' a a' n h 8 x hx

/-- Two memories that agree on the DOS header and on the NT headers of an accepted
image give the same result of `getPEHeader`. -/
theorem getPEHeader_congr (m m' : Mem) (image hdr : Nat)
    (h : getPEHeader m image = some hdr)
    (hd : agreeOn m' m image (image + 64))
    (hn : agreeOn m' m hdr (hdr + SIZEOF_NT_HEADERS64)) :
    getPEHeader m' image = some hdr := by
  obtain ⟨himg, hhdr, hh⟩ := getPEHeader_some m image hdr h
  have e0 : e_lfanew m' image = e_lfanew m image := by
    unfold e_lfanew OFF_e_lfanew
    rw [read32_congr _ _ _ _ _ hd (by omega) (by omega)]
  have hhdr' : ADDR image (e_lfanew m' image) ≠ 0 := by
    rw [e0, ← hh]; exact hhdr
  rw [getPEHeader_eq m image himg (by rw [← hh]; exact hhdr)] at h
  rw [getPEHeader_eq _ image himg hhdr', e0, ← hh]
  rw [← hh] at h
  unfold SIZEOF_NT_HEADERS64 at hn
  rw [read16_congr _ _ _ _ _ hd (by omega) (by omega),
    read32_congr _ _ _ _ _ hn (by omega) (by omega),
    read16_congr _ _ _ _ _ hn (by unfold OFF_Machine; omega) (by unfold OFF_Machine; omega),
    read16_congr _ _ _ _ _ hn (by unfold OFF_OptionalHeader; omega)
      (by unfold OFF_OptionalHeader; omega)]
  exact h

/-- The four checks that an accepted image passed. -/
theorem getPEHeader_checks (m : Mem) (image hdr : Nat) (h : getPEHeader m image = some hdr) :
    read16 m image = IMAGE_DOS_SIGNATURE ∧ read32 m hdr = IMAGE_NT_SIGNATURE ∧
    read16 m (hdr + OFF_Machine) = IMAGE_FILE_MACHINE_AMD64 ∧
    read16 m (hdr + OFF_OptionalHeader) = IMAGE_NT_OPTIONAL_HDR64_MAGIC := by
  obtain ⟨himg, hhdr, hh⟩ := getPEHeader_some m image hdr h
  rw [getPEHeader_eq m image himg (by rw [← hh]; exact hhdr), ← hh] at h
  by_contra hc
  rw [if_neg hc] at h
  exact absurd h (by simp)

/-- The function `performRelocations` returns false only when `getPEHeader` rejects
the image. -/
theorem performRelocations_ok (fuel : Nat) (m : Mem) (imageBase peHdr : Nat)
    (hpe : getPEHeader m imageBase = some peHdr) (r : RelocResult)
    (h : performRelocations fuel m imageBase = some r) : r.ok = true := by
  rw [performRelocations_of_header fuel m imageBase peHdr hpe] at h
  split_ifs at h
  · rw [← Option.some.inj h]
  · rw [← Option.some.inj h]
  · simp only [Option.map_eq_some'] at h
    obtain ⟨s, _, hs⟩ := h
    rw [← hs]

/-- After `buildMemoryImage` the first `SizeOfHeaders` bytes of the loaded image are
those of the file image when no section is copied onto them. -/
theorem buildMemoryImage_header_bytes (file : Mem) (fileImage : Nat) (img : Mem)
    (imageBase peHdr : Nat)
    (hpe : getPEHeader file fileImage = some peHdr)
    (hsec : ∀ k, k < read16 file (peHdr + OFF_NumberOfSections) → ∀ a,
      inCopied file imageBase (sectionAt (IMAGE_FIRST_SECTION file peHdr) k) a →
      ¬ (imageBase ≤ a ∧ a < imageBase + read32 file (peHdr + OFF_SizeOfHeaders))) :
    ∀ i, i < read32 file (peHdr + OFF_SizeOfHeaders) →
      (buildMemoryImage file fileImage img imageBase).2 (imageBase + i) = file (fileImage + i) := by
  intro i hi
  rw [buildMemoryImage_of_header file fileImage img imageBase peHdr hpe]
  show sectionLoop _ _ _ _ _ _ _ = _
  rw [sectionLoop_frame]
  · unfold memcpy
    rw [if_pos ⟨by omega, by omega⟩, Nat.add_sub_cancel_left]
  · intro k hk hin
    exact hsec k hk _ hin ⟨by omega, by omega⟩

/-- C28, counterexample. The file `headerFixupFile` passes `getPEHeader`, its
`SizeOfHeaders` 0x400 covers `e_lfanew + sizeof(IMAGE_NT_HEADERS64) = 0x148`, and it
has no section; loaded at 0x30000 its headers pass `getPEHeader` and
`performRelocations` returns true after one fix-up, at 0x30040, the `Signature` field
of the NT headers.  The header re-validation of `linkImports` then fails: it returns
false without a resolver call, and `InMemoryLoader` fails at the import stage. -/
theorem linkImports_revalidation_fails :
    (getPEHeader headerFixupFile 0x10000 = some 0x10040 ∧
     e_lfanew headerFixupFile 0x10000 + SIZEOF_NT_HEADERS64 ≤
       read32 headerFixupFile (0x10040 + OFF_SizeOfHeaders) ∧
     read16 headerFixupFile (0x10040 + OFF_NumberOfSections) = 0) ∧
    getPEHeader (buildMemoryImage headerFixupFile 0x10000 zeroMem 0x30000).2 0x30000
      = some 0x30040 ∧
    (performRelocations 12 (buildMemoryImage headerFixupFile 0x10000 zeroMem 0x30000).2
        0x30000).map (fun r => (r.ok, patches r.trace, getPEHeader r.mem 0x30000))
      = some (true, [0x30040], none) ∧
    ((performRelocations 12 (buildMemoryImage headerFixupFile 0x10000 zeroMem 0x30000).2
        0x30000).bind (fun r => linkImports relocatingOs 3 0x30000 { mem := r.mem, os := [] })).map
          (fun x => (x.1, libraryLoads x.2.os, lookups x.2.os))
      = some (false, [], []) ∧
    (InMemoryLoader relocatingOs 12 headerFixupFile 0x10000 0x400 []).map
      (fun r => (r.handle, stagesOf r.os)) = some (0, failedAfter 4) := by
  refine ⟨⟨?_, ?_, ?_⟩, ?_, ?_, ?_, ?_⟩ <;> decide

/-- C28 (amended). If the file image passes `getPEHeader`, its `SizeOfHeaders` is at
least `e_lfanew + sizeof(IMAGE_NT_HEADERS64)`, no section is copied onto
`[0, SizeOfHeaders)`, and the region is allocated at a non-null base (both header
ranges inside the address space), then after `buildMemoryImage`: `getPEHeader`
accepts the loaded image, with its header at offset `e_lfanew`; the NT headers are
byte for byte those of the file, so that `ImageBase`, `SizeOfImage` and the 16
data-directory entries read the same; `performRelocations` on that image never
returns false; and `getPEHeader` accepts every later state of the image that still
agrees with it on the DOS header and the NT headers.  Without the hypothesis on
`SizeOfHeaders`: `shortHeadersFile` passes `getPEHeader`, and on the image built from
it `getPEHeader` fails and `performRelocations` returns false. -/
theorem buildMemoryImage_headers_revalidate (file : Mem) (fileImage : Nat) (img : Mem)
    (imageBase peHdr : Nat)
    (hpe : getPEHeader file fileImage = some peHdr)
    (hbase : imageBase ≠ 0)
    (hfit : fileImage + read32 file (peHdr + OFF_SizeOfHeaders) ≤ 2 ^ 64)
    (hfit' : imageBase + read32 file (peHdr + OFF_SizeOfHeaders) ≤ 2 ^ 64)
    (hsoh : e_lfanew file fileImage + SIZEOF_NT_HEADERS64 ≤
      read32 file (peHdr + OFF_SizeOfHeaders))
    (hsec : ∀ k, k < read16 file (peHdr + OFF_NumberOfSections) → ∀ a,
      inCopied file imageBase (sectionAt (IMAGE_FIRST_SECTION file peHdr) k) a →
      ¬ (imageBase ≤ a ∧ a < imageBase + read32 file (peHdr + OFF_SizeOfHeaders))) :
    getPEHeader (buildMemoryImage file fileImage img imageBase).2 imageBase
      = some (imageBase + e_lfanew file fileImage) ∧
    (∀ k, k < SIZEOF_NT_HEADERS64 →
      (buildMemoryImage file fileImage img imageBase).2 (imageBase + e_lfanew file fileImage + k)
        = file (peHdr + k)) ∧
    read64 (buildMemoryImage file fileImage img imageBase).2
        (imageBase + e_lfanew file fileImage + OFF_ImageBase)
      = read64 file (peHdr + OFF_ImageBase) ∧
    read32 (buildMemoryImage file fileImage img imageBase).2
        (imageBase + e_lfanew file fileImage + OFF_SizeOfImage)
      = read32 file (peHdr + OFF_SizeOfImage) ∧
    (∀ idx, idx < 16 →
      read32 (buildMemoryImage file fileImage img imageBase).2
          (dirEntryAddr (imageBase + e_lfanew file fileImage) idx)
        = read32 file (dirEntryAddr peHdr idx) ∧
      read32 (buildMemoryImage file fileImage img imageBase).2
          (dirEntryAddr (imageBase + e_lfanew file fileImage) idx + 4)
        = read32 file (dirEntryAddr peHdr idx + 4)) ∧
    (∀ fuel r, performRelocations fuel (buildMemoryImage file fileImage img imageBase).2
        imageBase = some r → r.ok = true) ∧
    (∀ m', agreeOn m' (buildMemoryImage file fileImage img imageBase).2 imageBase
        (imageBase + 64) →
      agreeOn m' (buildMemoryImage file fileImage img imageBase).2
        (imageBase + e_lfanew file fileImage)
        (imageBase + e_lfanew file fileImage + SIZEOF_NT_HEADERS64) →
      getPEHeader m' imageBase = some (imageBase + e_lfanew file fileImage)) ∧
    (getPEHeader shortHeadersFile 0x10000 = some 0x10040 ∧
     read32 shortHeadersFile (0x10040 + OFF_SizeOfHeaders) <
       e_lfanew shortHeadersFile 0x10000 + SIZEOF_NT_HEADERS64 ∧
     getPEHeader (buildMemoryImage shortHeadersFile 0x10000 zeroMem 0x20000).2 0x20000 = none ∧
     (performRelocations 0 (buildMemoryImage shortHeadersFile 0x10000 zeroMem 0x20000).2
        0x20000).map (fun r => r.ok) = some false) := by
  generalize hB : (buildMemoryImage file fileImage img imageBase).2 = built
  have hb : ∀ i, i < read32 file (peHdr + OFF_SizeOfHeaders) →
      built (imageBase + i) = file (fileImage + i) := by
    rw [← hB]
    exact buildMemoryImage_header_bytes file fileImage img imageBase peHdr hpe hsec
  generalize hS : read32 file (peHdr + OFF_SizeOfHeaders) = SoH at *
  generalize hoff : e_lfanew file fileImage = off at *
  unfold SIZEOF_NT_HEADERS64 at hsoh
  obtain ⟨hfi, _, hpeq⟩ := getPEHeader_some file fileImage peHdr hpe
  rw [hoff, ADDR_eq _ _ (by omega)] at hpeq
  obtain ⟨c1, c2, c3, c4⟩ := getPEHeader_checks file fileImage peHdr hpe
  have e0 : e_lfanew built imageBase = off := by
    rw [← hoff]
    unfold e_lfanew OFF_e_lfanew
    rw [read32_shift file built fileImage imageBase SoH 60 hb (by omega)]
  have hA : ADDR imageBase off = imageBase + off := ADDR_eq _ _ (by omega)
  have hnt : ∀ k, k < 264 → built (imageBase + off + k) = file (peHdr + k) := by
    intro k hk
    rw [hpeq, Nat.add_assoc, Nat.add_assoc, hb (off + k) (by omega)]
  have hvalid : getPEHeader built imageBase = some (imageBase + off) := by
    rw [getPEHeader_eq built imageBase hbase (by rw [e0, hA]; omega), e0, hA]
    have r1 : read16 built imageBase = read16 file fileImage := by
      have := read16_shift file built fileImage imageBase SoH 0 hb (by omega)
      rw [Nat.add_zero, Nat.add_zero] at this
      exact this
    have r2 : read32 built (imageBase + off) = read32 file peHdr := by
      have := read32_shift file built peHdr (imageBase + off) 264 0 hnt (by omega)
      rw [Nat.add_zero, Nat.add_zero] at this
      exact this
    have r3 : read16 built (imageBase + off + OFF_Machine) = read16 file (peHdr + OFF_Machine) :=
      read16_shift file built peHdr (imageBase + off) 264 OFF_Machine hnt
        (by unfold OFF_Machine; omega)
    have r4 : read16 built (imageBase + off + OFF_OptionalHeader)
        = read16 file (peHdr + OFF_OptionalHeader) :=
      read16_shift file built peHdr (imageBase + off) 264 OFF_OptionalHeader hnt
        (by unfold OFF_OptionalHeader; omega)
    rw [r1, r2, r3, r4, if_pos ⟨c1, c2, c3, c4⟩]
  refine ⟨hvalid, hnt, ?_, ?_, ?_, ?_, ?_, ?_⟩
  · exact read64_shift file built peHdr (imageBase + off) 264 OFF_ImageBase hnt
      (by unfold OFF_ImageBase; omega)
  · exact read32_shift file built peHdr (imageBase + off) 264 OFF_SizeOfImage hnt
      (by unfold OFF_SizeOfImage; omega)
  · intro idx hidx
    unfold dirEntryAddr
    rw [Nat.add_assoc (imageBase + off), Nat.add_assoc peHdr,
      Nat.add_assoc (imageBase + off), Nat.add_assoc peHdr]
    exact ⟨read32_shift file built peHdr (imageBase + off) 264 _ hnt
        (by unfold OFF_DataDirectory; omega),
      read32_shift file built peHdr (imageBase + off) 264 _ hnt
        (by unfold OFF_DataDirectory; omega)⟩
  · intro fuel r hr
    exact performRelocations_ok fuel built imageBase _ hvalid r hr
  · intro m' h1 h2
    exact getPEHeader_congr built m' imageBase _ hvalid h1 h2
  · refine ⟨?_, ?_, ?_, ?_⟩ <;> decide

/-- Witness of C28 (amended): the two-section scenario file (`SizeOfHeaders` 0x400,
sections copied at 0x21000 and nowhere) loaded into a zero region at 0x20000. -/
theorem buildMemoryImage_headers_revalidate_witness :
    getPEHeader (buildMemoryImage (scenarioFile 0x260) 0x10000 zeroMem 0x20000).2 0x20000
      = some (0x20000 + e_lfanew (scenarioFile 0x260) 0x10000) ∧
    read64 (buildMemoryImage (scenarioFile 0x260) 0x10000 zeroMem 0x20000).2
        (0x20000 + e_lfanew (scenarioFile 0x260) 0x10000 + OFF_ImageBase)
      = read64 (scenarioFile 0x260) (0x10040 + OFF_ImageBase) ∧
    read32 (buildMemoryImage (scenarioFile 0x260) 0x10000 zeroMem 0x20000).2
        (0x20000 + e_lfanew (scenarioFile 0x260) 0x10000 + OFF_SizeOfImage)
      = read32 (scenarioFile 0x260) (0x10040 + OFF_SizeOfImage) := by
  have hd0 : sectionDest (scenarioFile 0x260) 0x20000
      (sectionAt (IMAGE_FIRST_SECTION (scenarioFile 0x260) 0x10040) 0) = 0x21000 := by decide
  have hl1 : copyLen (scenarioFile 0x260)
      (sectionAt (IMAGE_FIRST_SECTION (scenarioFile 0x260) 0x10040) 1) = 0 := by decide
  have hn : read16 (scenarioFile 0x260) (0x10040 + OFF_NumberOfSections) = 2 := by decide
  have hs : read32 (scenarioFile 0x260) (0x10040 + OFF_SizeOfHeaders) = 0x400 := by decide
  have h := buildMemoryImage_headers_revalidate (scenarioFile 0x260) 0x10000 zeroMem 0x20000
    0x10040 (by decide) (by decide) (by decide) (by decide) (by decide) (by
      intro k hk a hin
      rw [hn] at hk
      rw [hs]
      have hk01 : k = 0 ∨ k = 1 := by omega
      rcases hk01 with h | h
      · rw [h] at hin
        unfold inCopied at hin
        rw [hd0] at hin
        omega
      · rw [h] at hin
        unfold inCopied at hin
        rw [hl1] at hin
        omega)
  exact ⟨h.1, h.2.2.1, h.2.2.2.1⟩

/-- The descriptor loop does not return when the thunk loop of its first descriptor
does not return. -/
theorem descLoop_of_fault (w : Win32) (inner imageBase fuel importDesc : Nat) (s : LoadState)
    (hn : read32 s.mem (importDesc + OFF_ImportName) ≠ 0)
    (hl : w.LoadLibraryA s.os s.mem
      (ADDR imageBase (read32 s.mem (importDesc + OFF_ImportName))) % 2 ^ 64 ≠ 0)
    (hp : processImportDescriptor w inner imageBase
      (w.LoadLibraryA s.os s.mem
        (ADDR imageBase (read32 s.mem (importDesc + OFF_ImportName))) % 2 ^ 64)
      importDesc
      (s.log (OsEvent.loadLibrary
        (ADDR imageBase (read32 s.mem (importDesc + OFF_ImportName)))
        (w.LoadLibraryA s.os s.mem
          (ADDR imageBase (read32 s.mem (importDesc + OFF_ImportName))) % 2 ^ 64))) = none) :
    descLoop w inner imageBase (fuel + 1) importDesc s = none := by
  rw [descLoop_succ, if_neg hn, if_neg hl, hp]

/-- C13, the code at the failing input.  Image `importImage` (one import descriptor:
library "k.dll", ordinal 5, then the name at RVA 0x1202) is linked in a process in which
ordinal 5 resolves, the name does not, and nothing can be read at address 0x1200: for
every loop bound `linkImports` does not return.  In the same process with readable low
addresses it returns false after the failed lookup by name and the release of the
library. -/
theorem linkImports_faults_on_unresolved_name :
    (∀ fuel, linkImports ordinalOnlyOs fuel 0x20000 { mem := importImage, os := [] } = none) ∧
    (linkImports lowMappedOs 3 0x20000 { mem := importImage, os := [] }).map
        (fun r => (r.1, lookups r.2.os, r.2.os.getLast?)) =
      some (false, [(Lookup.byOrdinal 0x50000 5, 0x7FF5), (Lookup.byName 0x50000 0x21202, 0)],
        some (OsEvent.freeLibrary 0x50000)) := by
  refine ⟨?_, by decide⟩
  intro fuel
  rw [linkImports_of_header ordinalOnlyOs fuel 0x20000 0x20040 _ (by decide),
    if_neg (by decide)]
  have hst : importsStart importImage 0x20000 0x20040 = 0x21000 := by decide
  show descLoop ordinalOnlyOs fuel 0x20000 fuel (importsStart importImage 0x20000 0x20040)
    { mem := importImage, os := [] } = none
  rw [hst]
  cases fuel with
  | zero => rfl
  | succ f =>
    have hthunk : processImportDescriptor ordinalOnlyOs (f + 1) 0x20000 0x50000 0x21000
        (LoadState.log { mem := importImage, os := [] } (OsEvent.loadLibrary 0x21080 0x50000))
        = none := by
      unfold processImportDescriptor
      rw [oslog_mem]
      have hilt : iltOf importImage 0x20000 0x21000 = 0x21100 := by decide
      have hiat : iatOf importImage 0x20000 0x21000 = 0x21300 := by decide
      show thunkLoop ordinalOnlyOs 0x20000 0x50000 (f + 1) (iltOf importImage 0x20000 0x21000)
        (iatOf importImage 0x20000 0x21000) _ = none
      rw [hilt, hiat, thunkLoop_succ, oslog_mem]
      have e0 : read64 importImage 0x21100 = 0x8000000000000005 := by decide
      show (if read64 importImage 0x21100 = 0 then _ else _) = none
      rw [e0, if_neg (by decide), if_pos (by decide), if_neg (by decide)]
      exact thunkLoop_faults ordinalOnlyOs 0x20000 0x50000 f _ _ _ (by decide) (by decide)
        (by decide) (by decide)
    refine descLoop_of_fault ordinalOnlyOs (f + 1) 0x20000 f 0x21000
      { mem := importImage, os := [] } (by decide) (by decide) ?_
    have hm : ADDR 0x20000 (read32 (LoadState.mk importImage []).mem (0x21000 + OFF_ImportName))
        = 0x21080 := by decide
    have hl : ordinalOnlyOs.LoadLibraryA (LoadState.mk importImage []).os
        (LoadState.mk importImage []).mem 0x21080 % 2 ^ 64 = 0x50000 := by decide
    rw [hm, hl]
    exact hthunk

end SelfLoader

namespace Stego
open SelfLoader

/-! ## Bits of a carrier byte -/

set_option maxRecDepth 100000 in
theorem readLSB_setLSB : ∀ (b : Byte) (bit : Bool), readLSB (setLSB b bit) = bit := by
  decide

set_option maxRecDepth 100000 in
theorem setLSB_upper : ∀ (b : Byte) (bit : Bool),
    (setLSB b bit).val &&& 0xFE = b.val &&& 0xFE := by
  decide

theorem writeByte_same (m : Mem) (a : Nat) (b : Byte) : writeByte m a b a = b := by
  unfold writeByte
  rw [if_pos rfl]

theorem writeByte_other (m : Mem) (a x : Nat) (b : Byte) (h : x ≠ a) :
    writeByte m a b x = m x := by
  unfold writeByte
  rw [if_neg h]

/-- The test `(bool)(x & (1 << k))` reads bit `k` of `x`. -/
theorem and_two_pow_ne_zero (x k : Nat) : decide (x &&& 2 ^ k ≠ 0) = x.testBit k := by
  by_cases h : x.testBit k = true
  · rw [h, decide_eq_true_eq]
    intro h0
    have : (x &&& 2 ^ k).testBit k = true := by
      rw [Nat.testBit_and, h, Nat.testBit_two_pow_self]
      rfl
    rw [h0, Nat.zero_testBit] at this
    exact absurd this (by decide)
  · rw [Bool.not_eq_true] at h
    rw [h, decide_eq_false_iff_not, not_not]
    apply Nat.eq_of_testBit_eq
    intro i
    rw [Nat.testBit_and, Nat.zero_testBit, Nat.testBit_two_pow]
    by_cases hi : k = i
    · rw [← hi, h]
      rfl
    · rw [decide_eq_false hi, Bool.and_false]

/-! ## The size field (`encodeSize`, `decodeSize`) -/

theorem encodeSizeLoop_succ (l : LSB) (p remaining idx bitMask : Nat) (m : Mem) :
    encodeSizeLoop l p (remaining + 1) idx bitMask m =
      encodeSizeLoop l p remaining (idx + 1) (bitMask >>> 1)
        (writeByte m (l.data + idx)
          (setLSB (m (l.data + idx)) (decide (p &&& bitMask ≠ 0)))) := rfl

/-- The loop of `encodeSize` started with the mask `2^k` stores bit `k - j` of the
size in the least significant bit of carrier byte `idx + j` and writes nothing else. -/
theorem encodeSizeLoop_spec (l : LSB) (p : Nat) :
    ∀ (r idx k : Nat) (m : Mem), r ≤ k + 1 →
      (∀ j, j < r → encodeSizeLoop l p r idx (2 ^ k) m (l.data + (idx + j)) =
        setLSB (m (l.data + (idx + j))) (p.testBit (k - j))) ∧
      (∀ a, a < l.data + idx ∨ l.data + idx + r ≤ a →
        encodeSizeLoop l p r idx (2 ^ k) m a = m a) := by
  intro r
  induction r with
  | zero =>
    intro idx k m _
    exact ⟨fun j hj => absurd hj (Nat.not_lt_zero j), fun a _ => rfl⟩
  | succ r ih =>
    intro idx k m hk
    rw [encodeSizeLoop_succ, and_two_pow_ne_zero]
    cases r with
    | zero =>
      constructor
      · intro j hj
        have hj0 : j = 0 := by omega
        rw [hj0]
        exact writeByte_same _ _ _
      · intro a ha
        exact writeByte_other _ _ _ _ (by omega)
    | succ r =>
      obtain ⟨k', hk'⟩ : ∃ k', k = k' + 1 := ⟨k - 1, by omega⟩
      have hshift : 2 ^ k >>> 1 = 2 ^ k' := by
        rw [hk', Nat.shiftRight_eq_div_pow, Nat.pow_succ, Nat.pow_one,
          Nat.mul_div_cancel _ (by decide)]
      rw [hshift]
      obtain ⟨ih1, ih2⟩ := ih (idx + 1) k'
        (writeByte m (l.data + idx) (setLSB (m (l.data + idx)) (p.testBit k))) (by omega)
      constructor
      · intro j hj
        cases j with
        | zero =>
          rw [ih2 _ (Or.inl (by omega))]
          exact writeByte_same _ _ _
        | succ j =>
          have := ih1 j (by omega)
          rw [show idx + 1 + j = idx + (j + 1) by omega,
            writeByte_other _ _ _ _ (by omega)] at this
          rw [this, hk']
          congr 2
          omega
      · intro a ha
        rw [ih2 a (by omega)]
        exact writeByte_other _ _ _ _ (by omega)

/-- The carrier holds the 32-bit value `p` in its size field, most significant bit
first. -/
theorem encodeSize_spec (l : LSB) (m : Mem) (p : Nat) (hsize : SIZE_BITS ≤ l.size)
    (hp : p < 2 ^ 32) :
    (l.encodeSize m p).1 = true ∧
    (∀ j, j < 32 → (l.encodeSize m p).2 (l.data + j) =
      setLSB (m (l.data + j)) (p.testBit (31 - j))) ∧
    (∀ a, a < l.data ∨ l.data + 32 ≤ a → (l.encodeSize m p).2 a = m a) := by
  unfold LSB.encodeSize
  rw [if_neg (by omega), Nat.mod_eq_of_lt hp]
  obtain ⟨h1, h2⟩ := encodeSizeLoop_spec l p 32 0 31 m (by omega)
  refine ⟨rfl, ?_, ?_⟩
  · intro j hj
    have := h1 j hj
    rw [Nat.zero_add] at this
    exact this
  · intro a ha
    exact h2 a (by omega)

theorem decodeSizeLoop_succ (l : LSB) (m : Mem) (remaining idx acc : Nat) :
    decodeSizeLoop l m (remaining + 1) idx acc =
      decodeSizeLoop l m remaining (idx + 1)
        ((acc + intToSizeT ((readLSB (m (l.data + idx))).toNat <<< ((SIZE_BITS - 1) - idx)))
          % 2 ^ 64) := rfl

theorem intToSizeT_small (x : Nat) (h : x < 2 ^ 31) : intToSizeT x = x := by
  unfold intToSizeT
  rw [Nat.mod_eq_of_lt (by omega), if_pos h]

/-- The last `r ≤ 31` iterations of the loop of `decodeSize` add `p mod 2^r`. -/
theorem decodeSizeLoop_low (l : LSB) (m : Mem) (p : Nat) :
    ∀ (r idx acc : Nat), idx + r = 32 → r ≤ 31 →
      (∀ j, j < r → readLSB (m (l.data + (idx + j))) = p.testBit (r - 1 - j)) →
      acc < 2 ^ 64 →
      decodeSizeLoop l m r idx acc = (acc + p % 2 ^ r) % 2 ^ 64 := by
  intro r
  induction r with
  | zero =>
    intro idx acc _ _ _
    intro hacc
    show acc = (acc + p % 2 ^ 0) % 2 ^ 64
    rw [Nat.pow_zero, Nat.mod_one, Nat.add_zero, Nat.mod_eq_of_lt hacc]
  | succ r ih =>
    intro idx acc hidx hr hbits _
    rw [decodeSizeLoop_succ, ih (idx + 1) _ (by omega) (by omega) ?_
      (Nat.mod_lt _ (Nat.two_pow_pos 64))]
    · have hb := hbits 0 (by omega)
      rw [Nat.add_zero] at hb
      rw [hb, show r + 1 - 1 - 0 = r by omega, show SIZE_BITS - 1 - idx = r by
        unfold SIZE_BITS; omega, Nat.shiftLeft_eq, Nat.toNat_testBit]
      have hlt : p / 2 ^ r % 2 * 2 ^ r < 2 ^ 31 := by
        have h1 : p / 2 ^ r % 2 < 2 := Nat.mod_lt _ (by decide)
        have h2 : 2 ^ r ≤ 2 ^ 30 := Nat.pow_le_pow_right (by decide) (by omega)
        have h3 : p / 2 ^ r % 2 * 2 ^ r ≤ 1 * 2 ^ r := Nat.mul_le_mul_right _ (by omega)
        omega
      have hmp : p % 2 ^ (r + 1) = p % 2 ^ r + 2 ^ r * (p / 2 ^ r % 2) := Nat.mod_pow_succ
      rw [intToSizeT_small _ hlt, Nat.mod_add_mod, hmp, Nat.mul_comm (2 ^ r)]
      congr 1
      omega
    · intro j hj
      have := hbits (j + 1) (by omega)
      rw [show idx + (j + 1) = idx + 1 + j by omega] at this
      rw [this]
      congr 1
      omega

/-- A carrier whose size field holds the bits of `p` decodes to `p` sign-extended
from 32 to 64 bits. -/
theorem decodeSize_of_bits (l : LSB) (m : Mem) (p : Nat) (hsize : SIZE_BITS ≤ l.size)
    (hp : p < 2 ^ 32)
    (hbits : ∀ j, j < 32 → readLSB (m (l.data + j)) = p.testBit (31 - j)) :
    l.decodeSize m = intToSizeT p := by
  unfold LSB.decodeSize
  rw [if_neg (by omega)]
  show decodeSizeLoop l m (31 + 1) 0 0 = _
  rw [decodeSizeLoop_succ, decodeSizeLoop_low l m p 31 1 _ (by omega) (by omega) ?_
    (Nat.mod_lt _ (Nat.two_pow_pos 64))]
  · have hb := hbits 0 (by omega)
    rw [Nat.add_zero, Nat.sub_zero] at hb
    rw [Nat.add_zero, hb, Nat.zero_add, Nat.mod_add_mod,
      show SIZE_BITS - 1 - 0 = 31 by decide, Nat.shiftLeft_eq, Nat.toNat_testBit]
    have h31 : (2 : Nat) ^ 31 = 2147483648 := by norm_num
    have h32 : (2 : Nat) ^ 32 = 4294967296 := by norm_num
    have h64 : (2 : Nat) ^ 64 = 18446744073709551616 := by norm_num
    unfold intToSizeT
    rw [h31, h32, h64] at *
    by_cases hlt : p < 2147483648
    · have hq : p / 2147483648 % 2 = 0 := by omega
      rw [hq]
      rw [if_pos (by omega), if_pos (by omega)]
      omega
    · have hq : p / 2147483648 % 2 = 1 := by omega
      rw [hq]
      rw [if_neg (by omega), if_neg (by omega)]
      omega
  · intro j hj
    have := hbits (1 + j) (by omega)
    rw [this]
    congr 1
    omega

/-- After `encodeSize(p)` the function `decodeSize` returns `p` sign-extended from 32
to 64 bits: `p` itself below `2^31`, and `p + 2^64 - 2^32` from `2^31` on. -/
theorem decodeSize_encodeSize (l : LSB) (m : Mem) (p : Nat) (hsize : SIZE_BITS ≤ l.size)
    (hp : p < 2 ^ 32) :
    l.decodeSize (l.encodeSize m p).2 = intToSizeT p := by
  obtain ⟨_, h2, _⟩ := encodeSize_spec l m p hsize hp
  apply decodeSize_of_bits l _ p hsize hp
  intro j hj
  rw [h2 j hj, readLSB_setLSB]

/-- C25, the code at the failing input. On a carrier of 32 zero bytes
`encodeSize(0x80000000)` returns true and stores the size most significant bit first
(byte 0 gets the bit 1, the other 31 bytes the bit 0), and the subsequent
`decodeSize()` returns `0xFFFFFFFF80000000`, not `0x80000000`. -/
theorem decodeSize_sign_extends :
    (smallCarrier.encodeSize zeroMem 0x80000000).1 = true ∧
    (List.range 32).map (fun i => ((smallCarrier.encodeSize zeroMem 0x80000000).2 i).val)
      = 1 :: List.replicate 31 0 ∧
    smallCarrier.decodeSize (smallCarrier.encodeSize zeroMem 0x80000000).2
      = 0xFFFFFFFF80000000 ∧
    smallCarrier.decodeSize (smallCarrier.encodeSize zeroMem 0x80000000).2 ≠ 0x80000000 := by
  refine ⟨?_, ?_, ?_, ?_⟩ <;> decide

/-! ## The payload bits (`encodeData`, `decodeData`) -/

theorem encodeDataLoop_succ (l : LSB) (pm : Mem) (payload p fuel idx bitMask : Nat) (m : Mem) :
    encodeDataLoop l pm payload p (fuel + 1) idx bitMask m =
      if idx < (p * 8) % 2 ^ 32 ∧ idx < (l.size + 2 ^ 64 - SIZE_BITS) % 2 ^ 64 then
        encodeDataLoop l pm payload p fuel ((idx + 1) % 2 ^ 32)
          (if bitMask >>> 1 = 0 then 0x80 else bitMask >>> 1)
          (writeByte m (l.data + (idx + SIZE_BITS) % 2 ^ 32)
            (setLSB (m (l.data + (idx + SIZE_BITS) % 2 ^ 32))
              (decide (bitMask &&& (pm (payload + idx / 8)).val ≠ 0))))
      else some m := rfl

/-- Frame of the loop of `encodeData`, whatever the sizes: it ends within
`(payloadSize * 8) mod 2^32` iterations, every byte keeps its upper seven bits, and
the bytes outside the first `32 + (payloadSize * 8) mod 2^32` carrier bytes are
untouched. -/
theorem encodeDataLoop_frame (l : LSB) (pm : Mem) (payload p : Nat) :
    ∀ (fuel idx bitMask : Nat) (m : Mem), (p * 8) % 2 ^ 32 - idx < fuel →
      ∃ m', encodeDataLoop l pm payload p fuel idx bitMask m = some m' ∧
        (∀ a, (m' a).val &&& 0xFE = (m a).val &&& 0xFE) ∧
        (∀ a, a < l.data ∨ l.data + (32 + (p * 8) % 2 ^ 32) ≤ a → m' a = m a) := by
  intro fuel
  induction fuel with
  | zero => intro idx bitMask m h; omega
  | succ n ih =>
    intro idx bitMask m hfuel
    rw [encodeDataLoop_succ]
    have hlt : (p * 8) % 2 ^ 32 < 2 ^ 32 := Nat.mod_lt _ (Nat.two_pow_pos 32)
    by_cases hc : idx < (p * 8) % 2 ^ 32 ∧ idx < (l.size + 2 ^ 64 - SIZE_BITS) % 2 ^ 64
    · rw [if_pos hc, Nat.mod_eq_of_lt (by omega : idx + 1 < 2 ^ 32)]
      generalize hdst : (idx + SIZE_BITS) % 2 ^ 32 = dst
      have hdle : dst < 32 + (p * 8) % 2 ^ 32 := by
        rw [← hdst]
        unfold SIZE_BITS
        have := Nat.mod_le (idx + 32) (2 ^ 32)
        omega
      obtain ⟨m', hr, h1, h2⟩ := ih (idx + 1) (if bitMask >>> 1 = 0 then 0x80 else bitMask >>> 1)
        (writeByte m (l.data + dst) (setLSB (m (l.data + dst))
          (decide (bitMask &&& (pm (payload + idx / 8)).val ≠ 0)))) (by omega)
      refine ⟨m', hr, ?_, ?_⟩
      · intro a
        rw [h1 a]
        by_cases ha : a = l.data + dst
        · rw [ha, writeByte_same, setLSB_upper]
        · rw [writeByte_other _ _ _ _ ha]
      · intro a ha
        rw [h2 a ha]
        exact writeByte_other _ _ _ _ (by omega)
    · rw [if_neg hc]
      exact ⟨m, rfl, fun _ => rfl, fun _ _ => rfl⟩

/-- C30. For every carrier of `size ≥ 32` bytes and every payload with
`8 * payloadSize ≤ size - 32`: `encodeSize(payloadSize)` returns true and
`encodeData(payload, payloadSize)` returns true once the loop bound exceeds the bit
count; afterwards every byte of the memory has its upper seven bits as before
(`new & 0xFE = old & 0xFE`), and every byte outside the first `32 + 8 * payloadSize`
carrier bytes is unchanged.  Whenever `encodeSize` or `encodeData` returns false, the
memory it returns is the memory it was given. -/
theorem encode_touches_only_lsb (l : LSB) (m pm : Mem) (payload p fuel : Nat)
    (hsize : SIZE_BITS ≤ l.size) (hszt : l.size < 2 ^ 64) (hp : p < 2 ^ 32)
    (hcap : 8 * p ≤ l.size - SIZE_BITS) (hfuel : 8 * p < fuel) :
    ((l.encodeSize m p).1 = true ∧
     ∃ m2, l.encodeData (l.encodeSize m p).2 pm payload p fuel = some (true, m2) ∧
       (∀ a, (m2 a).val &&& 0xFE = (m a).val &&& 0xFE) ∧
       (∀ a, a < l.data ∨ l.data + (32 + 8 * p) ≤ a → m2 a = m a)) ∧
    (∀ (l' : LSB) (m' : Mem) (p' : Nat),
      (l'.encodeSize m' p').1 = false → (l'.encodeSize m' p').2 = m') ∧
    (∀ (l' : LSB) (m' pm' : Mem) (payload' p' fuel' : Nat) (r : Bool × Mem),
      l'.encodeData m' pm' payload' p' fuel' = some r → r.1 = false → r.2 = m') := by
  refine ⟨?_, ?_, ?_⟩
  · obtain ⟨h1, h2, h3⟩ := encodeSize_spec l m p hsize hp
    refine ⟨h1, ?_⟩
    have hle : (p * 8) % 2 ^ 32 ≤ 8 * p := by
      have := Nat.mod_le (p * 8) (2 ^ 32)
      omega
    have hsub : (l.size + 2 ^ 64 - SIZE_BITS) % 2 ^ 64 = l.size - SIZE_BITS := by
      unfold SIZE_BITS at *
      rw [show l.size + 2 ^ 64 - 32 = (l.size - 32) + 2 ^ 64 by omega, Nat.add_mod_right,
        Nat.mod_eq_of_lt (by omega)]
    obtain ⟨m2, hr, f1, f2⟩ := encodeDataLoop_frame l pm payload p fuel 0 0x80
      (l.encodeSize m p).2 (by omega)
    refine ⟨m2, ?_, ?_, ?_⟩
    · unfold LSB.encodeData
      rw [if_neg (by rw [hsub]; omega), hr]
      rfl
    · intro a
      rw [f1 a]
      by_cases ha : l.data ≤ a ∧ a < l.data + 32
      · obtain ⟨j, hj⟩ : ∃ j, a = l.data + j := ⟨a - l.data, by omega⟩
        rw [hj, h2 j (by omega), setLSB_upper]
      · rw [h3 a (by omega)]
    · intro a ha
      rw [f2 a (by omega), h3 a (by omega)]
  · intro l' m' p' h
    unfold LSB.encodeSize at h ⊢
    by_cases hs : l'.size < SIZE_BITS
    · rw [if_pos hs]
    · rw [if_neg hs] at h
      exact absurd h (by simp)
  · intro l' m' pm' payload' p' fuel' r hr hf
    unfold LSB.encodeData at hr
    by_cases hc : (p' * 8) % 2 ^ 32 > (l'.size + 2 ^ 64 - SIZE_BITS) % 2 ^ 64
    · rw [if_pos hc] at hr
      rw [← Option.some.inj hr]
    · rw [if_neg hc, Option.map_eq_some'] at hr
      obtain ⟨m2, _, hm2⟩ := hr
      rw [← hm2] at hf
      exact absurd hf (by simp)

/-- Witness of C30: the 48 pixel bytes of `bmpImage` as carrier and the two payload
bytes `A5 3C`. -/
theorem encode_touches_only_lsb_witness :
    ((lsbOf bmpImage 0x1000).encodeSize bmpImage 2).1 = true ∧
    ∃ m2, (lsbOf bmpImage 0x1000).encodeData ((lsbOf bmpImage 0x1000).encodeSize bmpImage 2).2
        payloadMem 0x5000 2 17 = some (true, m2) ∧
      (∀ a, (m2 a).val &&& 0xFE = (bmpImage a).val &&& 0xFE) ∧
      (∀ a, a < (lsbOf bmpImage 0x1000).data ∨ (lsbOf bmpImage 0x1000).data + (32 + 8 * 2) ≤ a →
        m2 a = bmpImage a) :=
  (encode_touches_only_lsb (lsbOf bmpImage 0x1000) bmpImage payloadMem 0x5000 2 17
    (by decide) (by decide) (by decide) (by decide) (by decide)).1

/-! ## Round trip of the payload bits -/

set_option maxRecDepth 100000 in
theorem mask_step : ∀ (t : Fin 8),
    (if (2 ^ (7 - t.val)) >>> 1 = 0 then 0x80 else (2 ^ (7 - t.val)) >>> 1)
      = 2 ^ (7 - (t.val + 1) % 8) := by
  decide

/-- The loop of `encodeData` when no index wraps: carrier byte `32 + i` receives bit
`7 - i mod 8` of payload byte `i / 8`, for every `i` from `idx` up to the bit count. -/
theorem encodeDataLoop_spec (l : LSB) (pm : Mem) (payload p : Nat)
    (hp8 : 8 * p + 32 ≤ 2 ^ 32)
    (hcap : 8 * p ≤ (l.size + 2 ^ 64 - SIZE_BITS) % 2 ^ 64) :
    ∀ (fuel idx : Nat) (m : Mem), idx ≤ 8 * p → 8 * p - idx < fuel →
      ∃ m', encodeDataLoop l pm payload p fuel idx (2 ^ (7 - idx % 8)) m = some m' ∧
        (∀ i, idx ≤ i → i < 8 * p → m' (l.data + (i + 32)) =
          setLSB (m (l.data + (i + 32))) ((pm (payload + i / 8)).val.testBit (7 - i % 8))) ∧
        (∀ a, a < l.data + (idx + 32) ∨ l.data + (8 * p + 32) ≤ a → m' a = m a) := by
  have hmod : (p * 8) % 2 ^ 32 = 8 * p := by
    rw [Nat.mul_comm]
    exact Nat.mod_eq_of_lt (by omega)
  intro fuel
  induction fuel with
  | zero => intro idx m _ h; omega
  | succ n ih =>
    intro idx m hidx hfuel
    rw [encodeDataLoop_succ, hmod]
    by_cases hc : idx < 8 * p
    · rw [if_pos ⟨hc, by omega⟩, Nat.mod_eq_of_lt (by omega : idx + 1 < 2 ^ 32),
        show (idx + SIZE_BITS) % 2 ^ 32 = idx + 32 from Nat.mod_eq_of_lt (by
          unfold SIZE_BITS; omega),
        Nat.land_comm, and_two_pow_ne_zero]
      have hm := mask_step ⟨idx % 8, Nat.mod_lt _ (by decide)⟩
      simp only [] at hm
      rw [hm, show (idx % 8 + 1) % 8 = (idx + 1) % 8 by omega]
      obtain ⟨m', hr, h1, h2⟩ := ih (idx + 1)
        (writeByte m (l.data + (idx + 32)) (setLSB (m (l.data + (idx + 32)))
          ((pm (payload + idx / 8)).val.testBit (7 - idx % 8)))) (by omega) (by omega)
      refine ⟨m', hr, ?_, ?_⟩
      · intro i hi1 hi2
        by_cases hi : i = idx
        · rw [hi, h2 _ (Or.inl (by omega)), writeByte_same]
        · rw [h1 i (by omega) hi2, writeByte_other _ _ _ _ (by omega)]
      · intro a ha
        rw [h2 a (by omega)]
        exact writeByte_other _ _ _ _ (by omega)
    · rw [if_neg (fun h => hc h.1)]
      exact ⟨m, rfl, fun i h1 h2 => absurd h2 (by omega), fun _ _ => rfl⟩

theorem decodeDataLoop_succ (l : LSB) (m : Mem) (p fuel idx : Nat) (buf : Mem) :
    decodeDataLoop l m p (fuel + 1) idx buf =
      if idx < (p * 8) % 2 ^ 64 ∧ idx < (l.size + 2 ^ 64 - SIZE_BITS) % 2 ^ 64 then
        decodeDataLoop l m p fuel ((idx + 1) % 2 ^ 64)
          (writeByte buf (idx / 8)
            ⟨((buf (idx / 8)).val +
                (readLSB (m (l.data + (idx + SIZE_BITS) % 2 ^ 64))).toNat <<< (7 - idx % 8)) % 256,
              Nat.mod_lt _ (by decide)⟩)
      else some buf := rfl

set_option maxRecDepth 1000000 in
/-- Adding bit `7 - t` of `b` to the top `t` bits of `b` gives its top `t + 1` bits. -/
theorem top_bits_step : ∀ (b : Fin 256) (t : Fin 8),
    (b.val / 2 ^ (8 - t.val) * 2 ^ (8 - t.val) +
      (b.val.testBit (7 - t.val)).toNat <<< (7 - t.val)) % 256
      = b.val / 2 ^ (8 - (t.val + 1)) * 2 ^ (8 - (t.val + 1)) := by
  decide

/-- The loop of `decodeData` on a carrier whose byte `32 + i` holds bit `7 - i mod 8`
of `B (i / 8)`: when `idx` bits have been read, buffer byte `j` holds the top
`min 8 (idx - 8 j)` bits of `B j`. -/
theorem decodeDataLoop_spec (l : LSB) (m : Mem) (p : Nat) (B : Nat → Byte)
    (hp64 : 8 * p + 32 < 2 ^ 64)
    (hcap : 8 * p ≤ (l.size + 2 ^ 64 - SIZE_BITS) % 2 ^ 64)
    (hbits : ∀ i, i < 8 * p →
      readLSB (m (l.data + (i + 32))) = (B (i / 8)).val.testBit (7 - i % 8)) :
    ∀ (fuel idx : Nat) (buf : Mem), idx ≤ 8 * p → 8 * p - idx < fuel →
      (∀ j, (buf j).val = if j < p then
        (B j).val / 2 ^ (8 - min 8 (idx - 8 * j)) * 2 ^ (8 - min 8 (idx - 8 * j)) else 0) →
      ∃ buf', decodeDataLoop l m p fuel idx buf = some buf' ∧
        ∀ j, buf' j = if j < p then B j else 0 := by
  have hmod : (p * 8) % 2 ^ 64 = 8 * p := by
    rw [Nat.mul_comm]
    exact Nat.mod_eq_of_lt (by omega)
  intro fuel
  induction fuel with
  | zero => intro idx buf _ h; omega
  | succ n ih =>
    intro idx buf hidx hfuel hinv
    rw [decodeDataLoop_succ, hmod]
    by_cases hc : idx < 8 * p
    · rw [if_pos ⟨hc, by omega⟩, Nat.mod_eq_of_lt (by omega : idx + 1 < 2 ^ 64),
        show (idx + SIZE_BITS) % 2 ^ 64 = idx + 32 from Nat.mod_eq_of_lt (by
          unfold SIZE_BITS; omega),
        hbits idx hc]
      apply ih (idx + 1) _ (by omega) (by omega)
      intro j
      by_cases hj : j = idx / 8
      · rw [hj, writeByte_same]
        show ((buf (idx / 8)).val + _) % 256 = _
        rw [hinv (idx / 8), if_pos (by omega), if_pos (by omega),
          show min 8 (idx - 8 * (idx / 8)) = idx % 8 by omega,
          show min 8 (idx + 1 - 8 * (idx / 8)) = idx % 8 + 1 by omega]
        exact top_bits_step (B (idx / 8)) ⟨idx % 8, Nat.mod_lt _ (by decide)⟩
      · rw [writeByte_other _ _ _ _ hj, hinv j,
          show min 8 (idx + 1 - 8 * j) = min 8 (idx - 8 * j) by omega]
    · rw [if_neg (fun h => hc h.1)]
      refine ⟨buf, rfl, fun j => ?_⟩
      apply Fin.ext
      rw [hinv j]
      by_cases hj : j < p
      · rw [if_pos hj, if_pos hj, show min 8 (idx - 8 * j) = 8 by omega]
        simp
      · rw [if_neg hj, if_neg hj]
        rfl

/-! ## BMP embedding and extraction (`BMPWriteLSB`, `BMPReadLSB`) -/

theorem size_sub_bits (S : Nat) (h32 : SIZE_BITS ≤ S) (h64 : S < 2 ^ 64) :
    (S + 2 ^ 64 - SIZE_BITS) % 2 ^ 64 = S - SIZE_BITS := by
  unfold SIZE_BITS at *
  rw [show S + 2 ^ 64 - 32 = (S - 32) + 2 ^ 64 by omega, Nat.add_mod_right,
    Nat.mod_eq_of_lt (by omega)]

/-- What a successful `BMPWriteLSB` did, for a payload size whose bit count fits in
32 bits. -/
theorem BMPWriteLSB_true (m pm : Mem) (image payload p fuel : Nat) (m2 : Mem)
    (hp : p < 2 ^ 29) (hfuel : 8 * p < fuel)
    (hw : BMPWriteLSB m image pm payload p fuel = some (true, m2)) :
    read16 m image = BMP_TYPE ∧ SIZE_BITS ≤ (lsbOf m image).size ∧
    8 * p ≤ (lsbOf m image).size - SIZE_BITS ∧
    (∀ j, j < 32 → m2 ((lsbOf m image).data + j) =
      setLSB (m ((lsbOf m image).data + j)) (p.testBit (31 - j))) ∧
    (∀ i, i < 8 * p → m2 ((lsbOf m image).data + (i + 32)) =
      setLSB (m ((lsbOf m image).data + (i + 32)))
        ((pm (payload + i / 8)).val.testBit (7 - i % 8))) ∧
    (∀ a, a < (lsbOf m image).data ∨ (lsbOf m image).data + (8 * p + 32) ≤ a → m2 a = m a) := by
  unfold BMPWriteLSB at hw
  by_cases ht : read16 m image = BMP_TYPE
  · rw [if_neg (not_not.mpr ht)] at hw
    simp only [] at hw
    generalize hl : lsbOf m image = l at *
    have hS : l.size < 2 ^ 32 := by
      rw [← hl]
      exact read32_lt m _
    by_cases hsz : SIZE_BITS ≤ l.size
    · obtain ⟨e1, e2, e3⟩ := encodeSize_spec l m p hsz (by omega)
      rw [if_neg (by rw [e1]; simp)] at hw
      have hsub := size_sub_bits l.size hsz (by omega)
      have hmod : (p * 8) % 2 ^ 32 = 8 * p := by
        rw [Nat.mul_comm]
        exact Nat.mod_eq_of_lt (by omega)
      unfold LSB.encodeData at hw
      rw [hmod, hsub] at hw
      by_cases hcap : 8 * p > l.size - SIZE_BITS
      · rw [if_pos hcap] at hw
        exact absurd (Option.some.inj hw) (by simp)
      · rw [if_neg hcap] at hw
        have hcap' : 8 * p ≤ l.size - SIZE_BITS := by omega
        have h8 : 8 * p + 32 ≤ 2 ^ 32 := by
          unfold SIZE_BITS at *
          omega
        obtain ⟨m', hr, b1, b2⟩ := encodeDataLoop_spec l pm payload p h8 (by rw [hsub]; exact hcap')
          fuel 0 (l.encodeSize m p).2 (Nat.zero_le _) (by omega)
        rw [show (2 : Nat) ^ (7 - 0 % 8) = 0x80 by decide] at hr
        rw [hr] at hw
        have hm2 : m' = m2 := by
          have := Option.some.inj hw
          exact (Prod.mk.inj this).2
        rw [hm2] at b1 b2
        refine ⟨ht, hsz, hcap', ?_, ?_, ?_⟩
        · intro j hj
          rw [b2 _ (Or.inl (by omega)), e2 j hj]
        · intro i hi
          rw [b1 i (Nat.zero_le _) hi, e3 _ (Or.inr (by omega))]
        · intro a ha
          rw [b2 a (by omega), e3 a (by omega)]
    · rw [LSB.encodeSize, if_pos (show l.size < SIZE_BITS by omega)] at hw
      exact absurd (Option.some.inj hw) (by simp)
  · rw [if_pos ht] at hw
    exact absurd (Option.some.inj hw) (by simp)

set_option maxRecDepth 100000 in
theorem bmp_write_then_read (n : Nat) (hn : n = 0 ∨ n = 2 ^ 29) :
    (BMPWriteLSB bmpImage 0x1000 payloadMem 0x5000 n 20).map (fun r => r.1) = some true ∧
    ((BMPWriteLSB bmpImage 0x1000 payloadMem 0x5000 n 20).bind
      (fun r => BMPReadLSB r.2 0x1000 20)).map
        (fun x => (x.ok, x.payloadSize, x.payload.isSome)) = some (false, n, false) := by
  rcases hn with h | h <;> rw [h] <;> constructor <;> decide

/-- C22, counterexample. On `bmpImage` (48 pixel bytes) `BMPWriteLSB` returns true
for an empty payload and for `payloadSize = 2^29`, whose bit count `2^32` does not fit
in 32 bits; `BMPReadLSB` on the modified image returns false in both cases, with no
buffer. -/
theorem BMPReadLSB_rejects_after_write :
    ((BMPWriteLSB bmpImage 0x1000 payloadMem 0x5000 0 20).map (fun r => r.1) = some true ∧
     ((BMPWriteLSB bmpImage 0x1000 payloadMem 0x5000 0 20).bind
        (fun r => BMPReadLSB r.2 0x1000 20)).map
          (fun x => (x.ok, x.payloadSize, x.payload.isSome)) = some (false, 0, false)) ∧
    ((BMPWriteLSB bmpImage 0x1000 payloadMem 0x5000 (2 ^ 29) 20).map (fun r => r.1) = some true ∧
     ((BMPWriteLSB bmpImage 0x1000 payloadMem 0x5000 (2 ^ 29) 20).bind
        (fun r => BMPReadLSB r.2 0x1000 20)).map
          (fun x => (x.ok, x.payloadSize, x.payload.isSome)) = some (false, 2 ^ 29, false)) :=
  ⟨bmp_write_then_read 0 (Or.inl rfl), bmp_write_then_read (2 ^ 29) (Or.inr rfl)⟩

/-- C22 (amended). For every BMP image and every payload of `payloadSize ≥ 1` bytes
whose bit count fits in 32 bits (`payloadSize < 2^29`): if `BMPWriteLSB` returns true,
then `BMPReadLSB` on the modified image returns true, reports the same `payloadSize`,
and yields a buffer whose bytes are those of the payload (the loop bound exceeding the
bit count in both calls); and `BMPWriteLSB` does return true on an image of type "BM"
with `ImageSize ≥ 32 + 8 * payloadSize`. -/
theorem BMP_round_trip (m pm : Mem) (image payload p fuel : Nat)
    (hp1 : 1 ≤ p) (hp : p < 2 ^ 29) (hfuel : 8 * p < fuel) :
    (∀ m2, BMPWriteLSB m image pm payload p fuel = some (true, m2) →
      ∃ r buf, BMPReadLSB m2 image fuel = some r ∧ r.ok = true ∧ r.payloadSize = p ∧
        r.payload = some buf ∧ ∀ i, i < p → buf i = pm (payload + i)) ∧
    (read16 m image = BMP_TYPE → 32 + 8 * p ≤ read32 m (image + OFF_ImageSize) →
      ∃ m2, BMPWriteLSB m image pm payload p fuel = some (true, m2)) := by
  constructor
  · intro m2 hw
    obtain ⟨ht, hsz, hcap, hsizebits, hdatabits, hframe⟩ :=
      BMPWriteLSB_true m pm image payload p fuel m2 hp hfuel hw
    have hdata : (lsbOf m image).data = image + 54 := rfl
    have hl2 : lsbOf m2 image = lsbOf m image := by
      unfold lsbOf
      have : read32 m2 (image + OFF_ImageSize) = read32 m (image + OFF_ImageSize) := by
        unfold read32 OFF_ImageSize
        rw [hframe _ (Or.inl (by omega)), hframe _ (Or.inl (by omega)),
          hframe _ (Or.inl (by omega)), hframe _ (Or.inl (by omega))]
      rw [this]
    have ht2 : read16 m2 image = BMP_TYPE := by
      rw [← ht]
      unfold read16
      rw [hframe _ (Or.inl (by omega)), hframe _ (Or.inl (by omega))]
    generalize hl : lsbOf m image = l at *
    have hS : l.size < 2 ^ 32 := by
      rw [← hl]
      exact read32_lt m _
    have hdec : l.decodeSize m2 = p := by
      rw [decodeSize_of_bits l m2 p hsz (by omega) (fun j hj => by
        rw [hsizebits j hj, readLSB_setLSB])]
      exact intToSizeT_small p (by omega)
    have hsub := size_sub_bits l.size hsz (by omega)
    obtain ⟨buf, hbuf, hall⟩ := decodeDataLoop_spec l m2 p (fun j => pm (payload + j))
      (by omega) (by rw [hsub]; exact hcap)
      (fun i hi => by rw [hdatabits i hi, readLSB_setLSB])
      fuel 0 zeroMem (Nat.zero_le _) (by omega) (fun j => by
        have hz : (pm (payload + j)).val / 2 ^ 8 = 0 := Nat.div_eq_of_lt (pm (payload + j)).isLt
        show (zeroMem j).val = if j < p then
          (pm (payload + j)).val / 2 ^ (8 - min 8 (0 - 8 * j)) *
            2 ^ (8 - min 8 (0 - 8 * j)) else 0
        rw [Nat.zero_sub, Nat.min_zero, Nat.sub_zero, hz, Nat.zero_mul, ite_self]
        rfl)
    refine ⟨{ ok := true, payload := some buf, payloadSize := p }, buf, ?_, rfl, rfl, rfl, ?_⟩
    · unfold BMPReadLSB
      rw [if_neg (not_not.mpr ht2)]
      simp only []
      rw [hl2, hdec, Nat.mod_eq_of_lt (by omega : p < 2 ^ 32), if_neg (by omega)]
      unfold LSB.decodeData
      rw [show (p * 8) % 2 ^ 64 = 8 * p by
        rw [Nat.mul_comm]
        exact Nat.mod_eq_of_lt (by omega), hsub, if_neg (by omega), hbuf]
      rfl
    · intro i hi
      rw [hall i, if_pos hi]
  · intro ht hsize
    unfold BMPWriteLSB
    rw [if_neg (not_not.mpr ht)]
    simp only []
    generalize hl : lsbOf m image = l
    have hSeq : l.size = read32 m (image + OFF_ImageSize) := by rw [← hl]; rfl
    have hS : l.size < 2 ^ 32 := by
      rw [hSeq]
      exact read32_lt m _
    have hsz : SIZE_BITS ≤ l.size := by
      unfold SIZE_BITS
      omega
    obtain ⟨e1, _, _⟩ := encodeSize_spec l m p hsz (by omega)
    rw [if_neg (by rw [e1]; simp)]
    have hsub := size_sub_bits l.size hsz (by omega)
    have hcap : 8 * p ≤ l.size - SIZE_BITS := by
      unfold SIZE_BITS
      omega
    obtain ⟨m', hr, _, _⟩ := encodeDataLoop_spec l pm payload p (by omega)
      (by rw [hsub]; exact hcap) fuel 0 (l.encodeSize m p).2 (Nat.zero_le _) (by omega)
    rw [show (2 : Nat) ^ (7 - 0 % 8) = 0x80 by decide] at hr
    unfold LSB.encodeData
    rw [show (p * 8) % 2 ^ 32 = 8 * p by
      rw [Nat.mul_comm]
      exact Nat.mod_eq_of_lt (by omega), hsub, if_neg (by omega), hr]
    exact ⟨m', rfl⟩

/-- Witness of C22 (amended): the two payload bytes `A5 3C` embedded in `bmpImage`
and read back. -/
theorem BMP_round_trip_witness :
    ∃ m2 r buf, BMPWriteLSB bmpImage 0x1000 payloadMem 0x5000 2 17 = some (true, m2) ∧
      BMPReadLSB m2 0x1000 17 = some r ∧ r.ok = true ∧ r.payloadSize = 2 ∧
      r.payload = some buf ∧ (∀ i, i < 2 → buf i = payloadMem (0x5000 + i)) := by
  have h := BMP_round_trip bmpImage payloadMem 0x1000 0x5000 2 17 (by decide) (by decide)
    (by decide)
  obtain ⟨m2, hw⟩ := h.2 (by decide) (by decide)
  obtain ⟨r, buf, hr, h1, h2, h3, h4⟩ := h.1 m2 hw
  exact ⟨m2, r, buf, hw, hr, h1, h2, h3, h4⟩

end Stego

namespace CovertComms
open SelfLoader

/-! ## base32: round trip -/

theorem store_same (m : Mem) (i : Nat) (b : Byte) : store m i b i = b := by
  unfold store
  rw [if_pos rfl]

theorem store_other (m : Mem) (i x : Nat) (b : Byte) (h : x ≠ i) : store m i b x = m x := by
  unfold store
  rw [if_neg h]

theorem and_1F (x : Nat) : 0x1F &&& x = x % 32 := by
  rw [Nat.and_comm]
  exact Nat.and_pow_two_sub_one_eq_mod x 5

theorem and_FF (x : Nat) (h : x < 256) : x &&& 0xFF = x := by
  have := Nat.and_pow_two_sub_one_eq_mod x 8
  rw [show (0xFF : Nat) = 2 ^ 8 - 1 by norm_num, this]
  exact Nat.mod_eq_of_lt h

theorem shl_or (b k d : Nat) (hk : k ≤ 8) (hd : d < 2 ^ k) :
    ((b <<< k) % 2 ^ 32) ||| d = (b * 2 ^ k) % 2 ^ 32 + d := by
  have h1 : (b <<< k) % 2 ^ 32 = 2 ^ k * (b % 2 ^ (32 - k)) := by
    rw [Nat.shiftLeft_eq, Nat.mul_comm b]
    have h32 : (2 : Nat) ^ 32 = 2 ^ k * 2 ^ (32 - k) := by
      rw [← pow_add]
      congr 1
      omega
    rw [h32, Nat.mul_mod_mul_left]
  have h2 : (b * 2 ^ k) % 2 ^ 32 = 2 ^ k * (b % 2 ^ (32 - k)) := by
    rw [← h1, Nat.shiftLeft_eq]
  rw [h1, h2]
  exact (Nat.mul_add_lt_is_or hd _).symm

/-- The arithmetic of one step of the encoder when at least five bits are pending. -/
theorem enc_arith_keep (B d0 d1 bl : Nat) (h5 : 5 ≤ bl) (h8 : bl ≤ 8)
    (hB : B % 2 ^ bl = d0 % 2 ^ bl) (hd0 : d0 < 256) (hd1 : d1 < 256) :
    (B / 2 ^ (bl - 5)) % 32 = ((d0 * 256 + d1) / 2 ^ (11 - (8 - bl))) % 32 ∧
    B % 2 ^ (bl - 5) = d0 % 2 ^ (bl - 5) := by
  interval_cases bl <;> norm_num at hB ⊢ <;> omega

/-- The arithmetic of one step of the encoder that takes the next byte `d1`. -/
theorem enc_arith_load (B d0 d1 bl : Nat) (h5 : bl < 5) (h0 : 0 < bl)
    (hB : B % 2 ^ bl = d0 % 2 ^ bl) :
    (((B * 2 ^ 8) % 2 ^ 32 + d1) / 2 ^ (bl + 8 - 5)) % 32 =
      ((d0 * 256 + d1) / 2 ^ (11 - (8 - bl))) % 32 ∧
    ((B * 2 ^ 8) % 2 ^ 32 + d1) % 2 ^ (bl + 8 - 5) = d1 % 2 ^ (bl + 8 - 5) := by
  interval_cases bl <;> norm_num at hB ⊢ <;> omega

theorem enc_arith_load0 (B d1 dz : Nat) (hdz : dz < 256) :
    (((B * 2 ^ 8) % 2 ^ 32 + d1) / 2 ^ (0 + 8 - 5)) % 32 =
      ((d1 * 256 + dz) / 2 ^ (11 - 0)) % 32 ∧
    ((B * 2 ^ 8) % 2 ^ 32 + d1) % 2 ^ (0 + 8 - 5) = d1 % 2 ^ (0 + 8 - 5) := by
  norm_num
  omega

/-- The arithmetic of the padding step of the encoder. -/
theorem enc_arith_pad (B d0 bl : Nat) (h5 : bl < 5) (h0 : 0 < bl)
    (hB : B % 2 ^ bl = d0 % 2 ^ bl) :
    (((B * 2 ^ (5 - bl)) % 2 ^ 32) / 2 ^ (bl + (5 - bl) - 5)) % 32 =
      ((d0 * 256 + 0) / 2 ^ (11 - (8 - bl))) % 32 := by
  interval_cases bl <;> norm_num at hB ⊢ <;> omega

/-- The arithmetic of one step of the decoder. -/
theorem dec_arith (B d0 d1 r : Nat) (hr : r < 8) (hB : B % 2 ^ r = d0 / 2 ^ (8 - r))
    (hd0 : d0 < 256) (hd1 : d1 < 256) :
    (3 ≤ r →
      (((B * 2 ^ 5) % 2 ^ 32 + ((d0 * 256 + d1) / 2 ^ (11 - r)) % 32) / 2 ^ (r + 5 - 8)) % 256 = d0 ∧
      ((B * 2 ^ 5) % 2 ^ 32 + ((d0 * 256 + d1) / 2 ^ (11 - r)) % 32) % 2 ^ (r + 5 - 8) =
        d1 / 2 ^ (8 - (r + 5 - 8))) ∧
    (r < 3 →
      ((B * 2 ^ 5) % 2 ^ 32 + ((d0 * 256 + d1) / 2 ^ (11 - r)) % 32) % 2 ^ (r + 5) =
        d0 / 2 ^ (8 - (r + 5))) := by
  interval_cases r <;> norm_num at hB ⊢ <;> omega

theorem encodeLoop_exit (data : Mem) (length bufSize fuel count buffer next bl : Nat)
    (result : Mem) (h : ¬ (count < bufSize ∧ (bl > 0 ∨ next < length))) :
    encodeLoop data length bufSize (fuel + 1) count buffer next bl result =
      some (count, result) := by
  rw [encodeLoop, if_neg h]

theorem encodeLoop_keep (data : Mem) (length bufSize fuel count buffer next bl : Nat)
    (result : Mem) (hc : count < bufSize) (h5 : 5 ≤ bl) :
    encodeLoop data length bufSize (fuel + 1) count buffer next bl result =
      encodeLoop data length bufSize fuel (count + 1) buffer next (bl - 5)
        (store result count (alphabet.getD ((buffer / 2 ^ (bl - 5)) % 32) 0)) := by
  rw [encodeLoop, if_pos ⟨hc, Or.inl (by omega)⟩]
  simp only [if_neg (show ¬ bl < 5 by omega), and_1F, Nat.shiftRight_eq_div_pow]

theorem encodeLoop_load (data : Mem) (length bufSize fuel count buffer next bl : Nat)
    (result : Mem) (hc : count < bufSize) (h5 : bl < 5) (hn : next < length) :
    encodeLoop data length bufSize (fuel + 1) count buffer next bl result =
      encodeLoop data length bufSize fuel (count + 1)
        ((buffer * 2 ^ 8) % 2 ^ 32 + (data next).val) (next + 1) (bl + 8 - 5)
        (store result count (alphabet.getD
          ((((buffer * 2 ^ 8) % 2 ^ 32 + (data next).val) / 2 ^ (bl + 8 - 5)) % 32) 0)) := by
  rw [encodeLoop, if_pos ⟨hc, Or.inr hn⟩]
  simp only [if_pos h5, if_pos hn, and_1F, Nat.shiftRight_eq_div_pow,
    and_FF _ (data next).isLt, shl_or buffer 8 _ (le_refl 8) (data next).isLt]

theorem encodeLoop_pad (data : Mem) (length bufSize fuel count buffer next bl : Nat)
    (result : Mem) (hc : count < bufSize) (h5 : bl < 5) (h0 : 0 < bl) (hn : ¬ next < length) :
    encodeLoop data length bufSize (fuel + 1) count buffer next bl result =
      encodeLoop data length bufSize fuel (count + 1)
        ((buffer * 2 ^ (5 - bl)) % 2 ^ 32) next (bl + (5 - bl) - 5)
        (store result count (alphabet.getD
          ((((buffer * 2 ^ (5 - bl)) % 2 ^ 32) / 2 ^ (bl + (5 - bl) - 5)) % 32) 0)) := by
  rw [encodeLoop, if_pos ⟨hc, Or.inl h0⟩]
  simp only [if_pos h5, if_neg hn, and_1F, Nat.shiftRight_eq_div_pow, Nat.shiftLeft_eq]

theorem digitAt_of (data : Mem) (n k q r : Nat) (h : 5 * k = 8 * q + r) (hr : r < 8) :
    digitAt data n k =
      (((data q).val * 256 + (if q + 1 < n then (data (q + 1)).val else 0)) / 2 ^ (11 - r)) % 32 := by
  have hq : 5 * k / 8 = q := by omega
  have hr2 : 5 * k % 8 = r := by omega
  unfold digitAt
  rw [hq, hr2, Nat.shiftRight_eq_div_pow]

theorem ite_byte_lt (c : Prop) [Decidable c] (b : Byte) : (if c then b.val else 0) < 256 := by
  split_ifs
  · exact b.isLt
  · decide

/-- The encoder loop, started in a state that has emitted `k` characters and holds the
low `bl` bits of `data[next - 1]`, returns `⌈8n/5⌉` and has stored the characters of
the remaining five-bit groups. -/
theorem encodeLoop_run (data : Mem) (n bufSize : Nat) (hbuf : (8 * n + 4) / 5 < bufSize) :
    ∀ (fuel k buffer next bl : Nat) (result : Mem),
      1 ≤ next → next ≤ n → bl ≤ 8 → 5 * k + bl = 8 * next →
      buffer % 2 ^ bl = (data (next - 1)).val % 2 ^ bl →
      (8 * n + 4) / 5 - k < fuel →
      ∃ r, encodeLoop data n bufSize fuel k buffer next bl result =
          some ((8 * n + 4) / 5, r) ∧
        (∀ i, k ≤ i → i < (8 * n + 4) / 5 → r i = alphabet.getD (digitAt data n i) 0) ∧
        (∀ i, i < k ∨ (8 * n + 4) / 5 ≤ i → r i = result i) := by
  intro fuel
  induction fuel with
  | zero => intro k buffer next bl result _ _ _ _ _ hf; omega
  | succ fuel ih =>
    intro k buffer next bl result h1 hn h8 hk hB hf
    by_cases hexit : bl = 0 ∧ next = n
    · rw [encodeLoop_exit _ _ _ _ _ _ _ _ _ (by omega)]
      have hc : (8 * n + 4) / 5 = k := by omega
      rw [hc]
      exact ⟨result, rfl, fun i h1 h2 => by omega, fun _ _ => rfl⟩
    · have hkc : k < (8 * n + 4) / 5 := by omega
      by_cases h5 : 5 ≤ bl
      · rw [encodeLoop_keep _ _ _ _ _ _ _ _ _ (by omega) h5]
        obtain ⟨a1, a2⟩ := enc_arith_keep buffer (data (next - 1)).val
          (if next - 1 + 1 < n then (data (next - 1 + 1)).val else 0) bl h5 h8 hB
          (data (next - 1)).isLt (ite_byte_lt _ _)
        obtain ⟨r, hr, hd, hfr⟩ := ih (k + 1) buffer next (bl - 5)
          (store result k (alphabet.getD ((buffer / 2 ^ (bl - 5)) % 32) 0))
          h1 hn (by omega) (by omega) a2 (by omega)
        refine ⟨r, hr, ?_, ?_⟩
        · intro i hi1 hi2
          by_cases hik : i = k
          · rw [hik, hfr k (Or.inl (by omega)), store_same, a1,
              digitAt_of data n k (next - 1) (8 - bl) (by omega) (by omega)]
          · exact hd i (by omega) hi2
        · intro i hi
          rw [hfr i (by omega), store_other _ _ _ _ (by omega)]
      · by_cases hnx : next < n
        · rw [encodeLoop_load _ _ _ _ _ _ _ _ _ (by omega) (by omega) hnx]
          have a2 : ((buffer * 2 ^ 8) % 2 ^ 32 + (data next).val) % 2 ^ (bl + 8 - 5) =
              (data (next + 1 - 1)).val % 2 ^ (bl + 8 - 5) := by
            rw [Nat.add_sub_cancel]
            by_cases hb0 : bl = 0
            · rw [hb0]
              exact (enc_arith_load0 buffer (data next).val 0 (by decide)).2
            · exact (enc_arith_load buffer (data (next - 1)).val (data next).val bl
                (by omega) (by omega) hB).2
          obtain ⟨r, hr, hd, hfr⟩ := ih (k + 1) _ (next + 1) (bl + 8 - 5)
            (store result k (alphabet.getD
              ((((buffer * 2 ^ 8) % 2 ^ 32 + (data next).val) / 2 ^ (bl + 8 - 5)) % 32) 0))
            (by omega) (by omega) (by omega) (by omega) a2 (by omega)
          refine ⟨r, hr, ?_, ?_⟩
          · intro i hi1 hi2
            by_cases hik : i = k
            · rw [hik, hfr k (Or.inl (by omega)), store_same]
              by_cases hb0 : bl = 0
              · rw [digitAt_of data n k next 0 (by omega) (by omega)]
                subst hb0
                exact congrArg (fun x => alphabet.getD x 0)
                  (enc_arith_load0 buffer (data next).val _ (ite_byte_lt _ _)).1
              · rw [digitAt_of data n k (next - 1) (8 - bl) (by omega) (by omega),
                  show next - 1 + 1 = next by omega, if_pos hnx]
                exact congrArg (fun x => alphabet.getD x 0)
                  (enc_arith_load buffer (data (next - 1)).val (data next).val bl
                    (by omega) (by omega) hB).1
            · exact hd i (by omega) hi2
          · intro i hi
            rw [hfr i (by omega), store_other _ _ _ _ (by omega)]
        · have hb0 : 0 < bl := by omega
          have hnn : next = n := by omega
          rw [encodeLoop_pad _ _ _ _ _ _ _ _ _ (by omega) (by omega) hb0 hnx]
          obtain ⟨f, hf2⟩ : ∃ f, fuel = f + 1 := ⟨fuel - 1, by omega⟩
          rw [hf2, encodeLoop_exit _ _ _ _ _ _ _ _ _ (by omega)]
          have hc : (8 * n + 4) / 5 = k + 1 := by omega
          rw [hc]
          refine ⟨_, rfl, ?_, ?_⟩
          · intro i hi1 hi2
            have hik : i = k := by omega
            rw [hik, store_same, digitAt_of data n k (next - 1) (8 - bl) (by omega) (by omega),
              show next - 1 + 1 = n by omega, if_neg (lt_irrefl n)]
            exact congrArg (fun x => alphabet.getD x 0)
              (enc_arith_pad buffer (data (next - 1)).val bl (by omega) hb0 hB)
          · intro i hi
            rw [store_other _ _ _ _ (by omega)]

set_option maxRecDepth 100000 in
theorem alphabet_char : ∀ d : Fin 32,
    (alphabet.getD d.val 0).val ≠ 0 ∧
    ¬ ((alphabet.getD d.val 0).val = 0x20 ∨ (alphabet.getD d.val 0).val = 0x09 ∨
       (alphabet.getD d.val 0).val = 0x0D ∨ (alphabet.getD d.val 0).val = 0x0A ∨
       (alphabet.getD d.val 0).val = 0x2D) ∧
    digitOf (alphabet.getD d.val 0).val = some d.val ∧
    ((0x61 ≤ (alphabet.getD d.val 0).val ∧ (alphabet.getD d.val 0).val ≤ 0x7A) ∨
     (0x32 ≤ (alphabet.getD d.val 0).val ∧ (alphabet.getD d.val 0).val ≤ 0x37)) := by
  decide

theorem decodeLoop_exit (encoded : Mem) (bufSize fuel ptr buffer bl count : Nat) (result : Mem)
    (h : ¬ (count < bufSize ∧ (encoded ptr).val ≠ 0)) :
    decodeLoop encoded bufSize (fuel + 1) ptr buffer bl count result =
      some (true, count, result) := by
  rw [decodeLoop, if_neg h]

theorem decodeLoop_digit (encoded : Mem) (bufSize fuel ptr buffer bl count d : Nat)
    (result : Mem) (hc : count < bufSize) (hd : d < 32)
    (hch : encoded ptr = alphabet.getD d 0) :
    decodeLoop encoded bufSize (fuel + 1) ptr buffer bl count result =
      if bl + 5 ≥ 8 then
        decodeLoop encoded bufSize fuel (ptr + 1) ((buffer * 2 ^ 5) % 2 ^ 32 + d) (bl + 5 - 8)
          (count + 1) (store result count
            ⟨(((buffer * 2 ^ 5) % 2 ^ 32 + d) / 2 ^ (bl + 5 - 8)) % 256,
              Nat.mod_lt _ (by decide)⟩)
      else
        decodeLoop encoded bufSize fuel (ptr + 1) ((buffer * 2 ^ 5) % 2 ^ 32 + d) (bl + 5)
          count result := by
  obtain ⟨h0, hw, hdig, _⟩ := alphabet_char ⟨d, hd⟩
  simp only [] at h0 hw hdig
  rw [decodeLoop, hch, if_pos ⟨hc, h0⟩]
  simp only [if_neg hw, hdig, Nat.shiftRight_eq_div_pow, shl_or buffer 5 d (by omega) hd]

/-- The decoder loop on the characters of the five-bit groups of `data[0 .. n)`,
started after `k` characters with `q` bytes stored and `r` bits pending, returns `n`
and has stored `data[0 .. n)`. -/
theorem decodeLoop_run (data enc : Mem) (n bufSize : Nat) (hn : n ≤ bufSize)
    (henc : ∀ i, i < (8 * n + 4) / 5 → enc i = alphabet.getD (digitAt data n i) 0)
    (hz : enc ((8 * n + 4) / 5) = 0) :
    ∀ (fuel k q r buffer : Nat) (result : Mem),
      k ≤ (8 * n + 4) / 5 → 5 * k = 8 * q + r → r < 8 →
      buffer % 2 ^ r = (if q < n then (data q).val else 0) / 2 ^ (8 - r) →
      (∀ i, i < q → result i = data i) →
      (8 * n + 4) / 5 - k < fuel →
      ∃ res, decodeLoop enc bufSize fuel k buffer r q result = some (true, n, res) ∧
        ∀ i, i < n → res i = data i := by
  intro fuel
  induction fuel with
  | zero => intro k q r buffer result _ _ _ _ _ hf; omega
  | succ fuel ih =>
    intro k q r buffer result hk hkq hr hB hres hf
    by_cases hend : k = (8 * n + 4) / 5
    · rw [decodeLoop_exit _ _ _ _ _ _ _ _ (by rw [hend, hz]; simp)]
      have hq : q = n := by omega
      rw [hq]
      exact ⟨result, rfl, fun i hi => hres i (by omega)⟩
    · have hkc : k < (8 * n + 4) / 5 := by omega
      have hqn : q < n := by omega
      have hd32 : digitAt data n k < 32 := by
        unfold digitAt
        exact Nat.mod_lt _ (by decide)
      rw [decodeLoop_digit enc bufSize fuel k buffer r q (digitAt data n k) result
        (by omega) hd32 (henc k hkc)]
      rw [if_pos hqn] at hB
      have hdig := digitAt_of data n k q r hkq hr
      obtain ⟨a1, a2⟩ := dec_arith buffer (data q).val
        (if q + 1 < n then (data (q + 1)).val else 0) r hr hB (data q).isLt (ite_byte_lt _ _)
      rw [← hdig] at a1 a2
      by_cases h3 : 3 ≤ r
      · rw [if_pos (by omega)]
        obtain ⟨b1, b2⟩ := a1 h3
        obtain ⟨res, hres2, hall⟩ := ih (k + 1) (q + 1) (r + 5 - 8) _
          (store result q ⟨(((buffer * 2 ^ 5) % 2 ^ 32 + digitAt data n k) / 2 ^ (r + 5 - 8)) % 256,
              Nat.mod_lt _ (by decide)⟩)
          (by omega) (by omega) (by omega) b2
          (fun i hi => by
            by_cases hiq : i = q
            · rw [hiq, store_same]
              exact Fin.ext b1
            · rw [store_other _ _ _ _ hiq]
              exact hres i (by omega))
          (by omega)
        exact ⟨res, hres2, hall⟩
      · rw [if_neg (by omega)]
        have b := a2 (by omega)
        obtain ⟨res, hres2, hall⟩ := ih (k + 1) q (r + 5) _ result
          (by omega) (by omega) (by omega) (by rw [if_pos hqn]; exact b) hres (by omega)
        exact ⟨res, hres2, hall⟩

theorem unsignedToInt_small (x : Nat) (h : x < 2 ^ 31) : unsignedToInt x = (x : Int) := by
  unfold unsignedToInt
  rw [Nat.mod_eq_of_lt (by omega), if_pos h]

/-- C29. For every byte string `data[0 .. n)` with `1 ≤ n ≤ 2^28` and every output
buffer of `bufSize > ⌈8n/5⌉` bytes (`⌈8n/5⌉ = (8n + 4) / 5`), `base32_encode` returns
`⌈8n/5⌉`; the characters it has stored at `result[0 .. ⌈8n/5⌉)` are in `'a'..'z'` or
`'2'..'7'`, `result[⌈8n/5⌉]` is zero and no other element of `result` is written.
`base32_decode` of that output with a buffer of `bufSize2 ≥ n` bytes returns `n`, its
first `n` result bytes being `data[0 .. n)`.  Both loops end within the given bounds
on their iterations. -/
theorem base32_round_trip (data result dec0 : Mem) (n bufSize bufSize2 fuel fuel2 : Nat)
    (hn1 : 1 ≤ n) (hn : n ≤ 2 ^ 28) (hbuf : (8 * n + 4) / 5 < bufSize)
    (hb2 : n ≤ bufSize2) (hfuel : (8 * n + 4) / 5 < fuel) (hfuel2 : (8 * n + 4) / 5 < fuel2) :
    ∃ enc, base32_encode data n result bufSize fuel = some ((((8 * n + 4) / 5 : Nat) : Int), enc) ∧
      (∀ i, i < (8 * n + 4) / 5 →
        (0x61 ≤ (enc i).val ∧ (enc i).val ≤ 0x7A) ∨ (0x32 ≤ (enc i).val ∧ (enc i).val ≤ 0x37)) ∧
      enc ((8 * n + 4) / 5) = 0 ∧
      (∀ i, (8 * n + 4) / 5 < i → enc i = result i) ∧
      ∃ dec, base32_decode enc dec0 bufSize2 fuel2 = some ((n : Int), dec) ∧
        ∀ i, i < n → dec i = data i := by
  obtain ⟨r, hr, hd, hfr⟩ := encodeLoop_run data n bufSize hbuf fuel 0 (data 0).val 1 8 result
    (le_refl 1) hn1 (le_refl 8) rfl rfl (by omega)
  have hd32 : ∀ i, digitAt data n i < 32 := fun i => by
    unfold digitAt
    exact Nat.mod_lt _ (by decide)
  have henc : ∀ i, i < (8 * n + 4) / 5 →
      store r ((8 * n + 4) / 5) 0 i = alphabet.getD (digitAt data n i) 0 := fun i hi => by
    rw [store_other _ _ _ _ (by omega)]
    exact hd i (Nat.zero_le i) hi
  refine ⟨store r ((8 * n + 4) / 5) 0, ?_, ?_, store_same _ _ _, ?_, ?_⟩
  · unfold base32_encode
    rw [if_neg (show ¬ n > 1 <<< 28 by
      rw [show (1 : Nat) <<< 28 = 2 ^ 28 by decide]
      omega), if_neg (by omega), hr]
    simp only [Option.map_some']
    rw [if_pos hbuf, unsignedToInt_small _ (by omega)]
  · intro i hi
    rw [henc i hi]
    exact (alphabet_char ⟨digitAt data n i, hd32 i⟩).2.2.2
  · intro i hi
    rw [store_other _ _ _ _ (by omega)]
    exact hfr i (Or.inr (by omega))
  · obtain ⟨res, hres, hall⟩ := decodeLoop_run data (store r ((8 * n + 4) / 5) 0) n bufSize2 hb2
      henc (store_same _ _ _) fuel2 0 0 0 0 dec0 (Nat.zero_le _) rfl (by decide)
      (by
        rw [if_pos (by omega)]
        exact (Nat.div_eq_of_lt (data 0).isLt).symm)
      (fun i hi => by omega) (by omega)
    unfold base32_decode
    rw [hres]
    simp only [Option.map_some', if_true]
    rw [unsignedToInt_small _ (by omega)]
    refine ⟨_, rfl, ?_⟩
    intro i hi
    by_cases hlt : n < bufSize2
    · rw [if_pos hlt, store_other _ _ _ _ (by omega)]
      exact hall i hi
    · rw [if_neg hlt]
      exact hall i hi

/-- Witness of C29: the three bytes "foo", encoded as "mzxw6". -/
theorem base32_round_trip_witness :
    ∃ enc, base32_encode fooData 3 zeroMem 6 6 = some ((((8 * 3 + 4) / 5 : Nat) : Int), enc) ∧
      (∀ i, i < (8 * 3 + 4) / 5 →
        (0x61 ≤ (enc i).val ∧ (enc i).val ≤ 0x7A) ∨ (0x32 ≤ (enc i).val ∧ (enc i).val ≤ 0x37)) ∧
      enc ((8 * 3 + 4) / 5) = 0 ∧
      (∀ i, (8 * 3 + 4) / 5 < i → enc i = zeroMem i) ∧
      ∃ dec, base32_decode enc zeroMem 3 6 = some ((3 : Int), dec) ∧
        ∀ i, i < 3 → dec i = fooData i :=
  base32_round_trip fooData zeroMem zeroMem 3 6 3 6 6 (by decide) (by decide) (by decide)
    (by decide) (by decide) (by decide)

/-! ## dns.c: name format round trip -/

theorem holds_append (m : Mem) : ∀ (a b : List Byte) (p : Nat),
    holds m p (a ++ b) ↔ holds m p a ∧ holds m (p + a.length) b := by
  intro a
  induction a with
  | nil =>
    intro b p
    simp only [List.nil_append, holds, List.length_nil, Nat.add_zero, true_and]
  | cons x a ih =>
    intro b p
    show (m p = x ∧ holds m (p + 1) (a ++ b)) ↔
      (m p = x ∧ holds m (p + 1) a) ∧ holds m (p + (a.length + 1)) b
    rw [ih b (p + 1), and_assoc, show p + 1 + a.length = p + (a.length + 1) by omega]

theorem holds_transfer (m m2 : Mem) : ∀ (l : List Byte) (p q : Nat),
    (∀ i, i < l.length → m2 (q + i) = m (p + i)) → holds m p l → holds m2 q l := by
  intro l
  induction l with
  | nil => intro p q _ _; trivial
  | cons x l ih =>
    intro p q h hh
    obtain ⟨h1, h2⟩ := hh
    refine ⟨?_, ih (p + 1) (q + 1) (fun i hi => ?_) h2⟩
    · have := h 0 (by simp)
      rw [Nat.add_zero, Nat.add_zero] at this
      rw [this, h1]
    · have := h (i + 1) (by simp only [List.length_cons]; omega)
      rw [show q + 1 + i = q + (i + 1) by omega, show p + 1 + i = p + (i + 1) by omega]
      exact this

theorem holds_frame (m m2 : Mem) (l : List Byte) (p : Nat)
    (h : ∀ x, p ≤ x → x < p + l.length → m2 x = m x) (hh : holds m p l) : holds m2 p l :=
  holds_transfer m m2 l p p (fun i hi => h (p + i) (by omega) (by omega)) hh

theorem holds_replicate (m : Mem) (c : Byte) : ∀ (n p : Nat),
    (∀ i, i < n → m (p + i) = c) → holds m p (List.replicate n c) := by
  intro n
  induction n with
  | zero => intro p _; trivial
  | succ n ih =>
    intro p h
    refine ⟨?_, ih (p + 1) (fun i hi => ?_)⟩
    · exact h 0 (by omega)
    · rw [show p + 1 + i = p + (i + 1) by omega]
      exact h (i + 1) (by omega)

theorem strchr_at_dot (m : Mem) : ∀ (l : List Byte) (p fuel : Nat),
    holds m p l → (∀ b, b ∈ l → labelByte b) → (m (p + l.length)).val = 0x2E →
    l.length < fuel → strchr m 0x2E fuel p = some (some (p + l.length)) := by
  intro l
  induction l with
  | nil =>
    intro p fuel _ _ hd hf
    obtain ⟨f, rfl⟩ : ∃ f, fuel = f + 1 := ⟨fuel - 1, by simp only [List.length_nil] at hf; omega⟩
    simp only [List.length_nil, Nat.add_zero] at hd ⊢
    rw [strchr, if_pos hd]
  | cons x l ih =>
    intro p fuel hh hb hd hf
    simp only [List.length_cons] at hf hd ⊢
    obtain ⟨f, rfl⟩ : ∃ f, fuel = f + 1 := ⟨fuel - 1, by omega⟩
    obtain ⟨h1, h2⟩ := hh
    have hx := hb x (List.mem_cons_self x l)
    rw [strchr, h1, if_neg hx.2, if_neg hx.1,
      ih (p + 1) f h2 (fun b hb2 => hb b (List.mem_cons_of_mem x hb2))
        (by rw [show p + 1 + l.length = p + (l.length + 1) by omega]; exact hd) (by omega)]
    rw [show p + 1 + l.length = p + (l.length + 1) by omega]

theorem strchr_at_end (m : Mem) : ∀ (l : List Byte) (p fuel : Nat),
    holds m p l → (∀ b, b ∈ l → labelByte b) → (m (p + l.length)).val = 0 →
    l.length < fuel → strchr m 0x2E fuel p = some none := by
  intro l
  induction l with
  | nil =>
    intro p fuel _ _ hd hf
    obtain ⟨f, rfl⟩ : ∃ f, fuel = f + 1 := ⟨fuel - 1, by simp only [List.length_nil] at hf; omega⟩
    simp only [List.length_nil, Nat.add_zero] at hd
    rw [strchr, if_neg (by rw [hd]; decide), if_pos hd]
  | cons x l ih =>
    intro p fuel hh hb hd hf
    simp only [List.length_cons] at hf hd
    obtain ⟨f, rfl⟩ : ∃ f, fuel = f + 1 := ⟨fuel - 1, by omega⟩
    obtain ⟨h1, h2⟩ := hh
    have hx := hb x (List.mem_cons_self x l)
    rw [strchr, h1, if_neg hx.2, if_neg hx.1,
      ih (p + 1) f h2 (fun b hb2 => hb b (List.mem_cons_of_mem x hb2))
        (by rw [show p + 1 + l.length = p + (l.length + 1) by omega]; exact hd) (by omega)]

theorem strlen_at_end (m : Mem) : ∀ (l : List Byte) (p fuel : Nat),
    holds m p l → (∀ b, b ∈ l → labelByte b) → (m (p + l.length)).val = 0 →
    l.length < fuel → strlen m fuel p = some l.length := by
  intro l
  induction l with
  | nil =>
    intro p fuel _ _ hd hf
    obtain ⟨f, rfl⟩ : ∃ f, fuel = f + 1 := ⟨fuel - 1, by simp only [List.length_nil] at hf; omega⟩
    simp only [List.length_nil, Nat.add_zero] at hd
    rw [strlen, if_pos hd]
    rfl
  | cons x l ih =>
    intro p fuel hh hb hd hf
    simp only [List.length_cons] at hf hd ⊢
    obtain ⟨f, rfl⟩ : ∃ f, fuel = f + 1 := ⟨fuel - 1, by omega⟩
    obtain ⟨h1, h2⟩ := hh
    have hx := hb x (List.mem_cons_self x l)
    rw [strlen, h1, if_neg hx.1,
      ih (p + 1) f h2 (fun b hb2 => hb b (List.mem_cons_of_mem x hb2))
        (by rw [show p + 1 + l.length = p + (l.length + 1) by omega]; exact hd) (by omega)]
    rfl

theorem copySegment_eq (hm : Mem) : ∀ (n host dns : Nat) (dm : Mem),
    copySegment hm n host dns dm = memcpy dm dns hm host n := by
  intro n
  induction n with
  | zero =>
    intro host dns dm
    funext x
    simp only [copySegment, memcpy]
    rw [if_neg (by omega)]
  | succ n ih =>
    intro host dns dm
    rw [copySegment, ih]
    funext x
    simp only [memcpy, store]
    by_cases h1 : x = dns
    · rw [if_neg (by omega), if_pos h1, if_pos (by omega), h1, Nat.sub_self, Nat.add_zero]
    · by_cases h2 : dns + 1 ≤ x ∧ x < dns + 1 + n
      · rw [if_pos h2, if_pos (by omega)]
        congr 1
        omega
      · rw [if_neg h2, if_neg h1, if_neg (by omega)]

/-- One iteration of the loop of `ChangetoDnsNameFormat` on the last label `l` of the
host string. -/
theorem formatLoop_last (hm dm : Mem) (sfuel fuel host dns : Nat) (l : List Byte)
    (hh : holds hm host l) (hb : ∀ b, b ∈ l → labelByte b)
    (hend : (hm (host + l.length)).val = 0) (hf : l.length < sfuel) :
    formatLoop hm sfuel (fuel + 1) host dns dm =
      if l.length % 2 ^ 32 > MAX_QNAME_SEGMENT_LEN then some (false, dm)
      else some (true, store (memcpy
        (store dm dns ⟨l.length % 2 ^ 32 % 256, Nat.mod_lt _ (by decide)⟩)
        (dns + 1) hm host l.length) (dns + 1 + l.length) 0) := by
  rw [formatLoop, strchr_at_end hm l host sfuel hh hb hend hf]
  simp only [Option.some_bind, strlen_at_end hm l host sfuel hh hb hend hf, Option.map_some',
    Nat.add_sub_cancel_left, copySegment_eq]
  by_cases hlong : l.length % 2 ^ 32 > MAX_QNAME_SEGMENT_LEN
  · rw [if_pos hlong, if_pos hlong]
  · have e1 : (if (hm (host + l.length)).val = 0x2E then host + l.length + 1
        else host + l.length) = host + l.length := if_neg (by rw [hend]; decide)
    rw [if_neg hlong, if_neg hlong, e1, if_neg (not_not.mpr hend)]

/-- One iteration of the loop of `ChangetoDnsNameFormat` on a label `l` that is
followed by a dot. -/
theorem formatLoop_dot (hm dm : Mem) (sfuel fuel host dns : Nat) (l : List Byte)
    (hh : holds hm host l) (hb : ∀ b, b ∈ l → labelByte b)
    (hend : (hm (host + l.length)).val = 0x2E) (hf : l.length < sfuel) :
    formatLoop hm sfuel (fuel + 1) host dns dm =
      if l.length % 2 ^ 32 > MAX_QNAME_SEGMENT_LEN then some (false, dm)
      else if (hm (host + l.length + 1)).val ≠ 0 then
        formatLoop hm sfuel fuel (host + l.length + 1) (dns + 1 + l.length)
          (memcpy (store dm dns ⟨l.length % 2 ^ 32 % 256, Nat.mod_lt _ (by decide)⟩)
            (dns + 1) hm host l.length)
      else some (true, store (memcpy
        (store dm dns ⟨l.length % 2 ^ 32 % 256, Nat.mod_lt _ (by decide)⟩)
        (dns + 1) hm host l.length) (dns + 1 + l.length) 0) := by
  rw [formatLoop, strchr_at_dot hm l host sfuel hh hb hend hf]
  simp only [Option.some_bind, Nat.add_sub_cancel_left, copySegment_eq]
  by_cases hlong : l.length % 2 ^ 32 > MAX_QNAME_SEGMENT_LEN
  · rw [if_pos hlong, if_pos hlong]
  · rw [if_neg hlong, if_neg hlong, if_pos hend]

theorem length_qnameOf_tail : ∀ (ls : List (List Byte)),
    (qnameOf ls).length = (dotTail ls).length := by
  intro ls
  induction ls with
  | nil => rfl
  | cons l ls ih =>
    simp only [qnameOf, dotTail, List.length_cons, List.length_append, ih]

theorem length_qnameOf (l : List Byte) (ls : List (List Byte)) :
    (qnameOf (l :: ls)).length = (dotted (l :: ls)).length + 1 := by
  simp only [qnameOf, dotted, List.length_cons, List.length_append, length_qnameOf_tail]

/-- The label written at `dns`: length byte, then the bytes of `l`. -/
theorem holds_label (hm dm : Mem) (host dns : Nat) (l : List Byte) (b : Byte)
    (hh : holds hm host l) :
    holds (memcpy (store dm dns b) (dns + 1) hm host l.length) dns (b :: l) := by
  constructor
  · unfold memcpy
    rw [if_neg (by omega), store_same]
  · refine holds_transfer hm _ l host (dns + 1) (fun i hi => ?_) hh
    unfold memcpy
    rw [if_pos (by omega)]
    congr 1
    omega

/-- The loop of `ChangetoDnsNameFormat` on a host string of labels that are not empty
and at most 191 bytes long: it returns true and has stored the DNS name format. -/
theorem formatLoop_valid (hm : Mem) (sfuel : Nat) (hs : 191 < sfuel) :
    ∀ (ls : List (List Byte)) (l : List Byte) (fuel host dns : Nat) (dm : Mem),
      (∀ x, x ∈ l :: ls → asciiLabel x ∧ x.length ≤ 191) →
      holds hm host (l ++ (dotTail ls ++ [0])) → ls.length < fuel →
      ∃ dm2, formatLoop hm sfuel fuel host dns dm = some (true, dm2) ∧
        holds dm2 dns (qnameOf (l :: ls) ++ [0]) ∧
        ∀ x, x < dns ∨ dns + (qnameOf (l :: ls)).length < x → dm2 x = dm x := by
  intro ls
  induction ls with
  | nil =>
    intro l fuel host dns dm hv hh hf
    obtain ⟨f, rfl⟩ : ∃ f, fuel = f + 1 := ⟨fuel - 1, by omega⟩
    obtain ⟨hl, hlen⟩ := hv l (List.mem_cons_self _ _)
    rw [holds_append] at hh
    obtain ⟨h1, h2⟩ := hh
    have hend : (hm (host + l.length)).val = 0 := by
      have := h2.1
      rw [this]
      rfl
    have hmod : l.length % 2 ^ 32 = l.length := Nat.mod_eq_of_lt (by omega)
    have hbyte : (⟨l.length % 2 ^ 32 % 256, Nat.mod_lt _ (by decide)⟩ : Byte) =
        ⟨l.length % 256, Nat.mod_lt _ (by decide)⟩ := Fin.ext (by simp only [hmod])
    rw [formatLoop_last hm dm sfuel f host dns l h1 (fun b hb => (hl.2 b hb).1) hend (by omega),
      if_neg (by rw [hmod]; exact Nat.not_lt.mpr hlen), hbyte]
    refine ⟨_, rfl, ?_, ?_⟩
    · show holds _ dns ((⟨l.length % 256, _⟩ :: (l ++ [])) ++ [0])
      rw [List.append_nil, holds_append]
      constructor
      · refine holds_frame _ _ _ dns (fun x hx1 hx2 => ?_)
          (holds_label hm dm host dns l ⟨l.length % 256, Nat.mod_lt _ (by decide)⟩ h1)
        simp only [List.length_cons] at hx2
        rw [store_other _ _ _ _ (by omega)]
      · simp only [List.length_cons]
        rw [show dns + (l.length + 1) = dns + 1 + l.length by omega]
        exact ⟨store_same _ _ _, trivial⟩
    · intro x hx
      simp only [qnameOf, List.length_cons, List.length_append, List.length_nil] at hx
      rw [store_other _ _ _ _ (by omega)]
      unfold memcpy
      rw [if_neg (by omega), store_other _ _ _ _ (by omega)]
  | cons l2 ls ih =>
    intro l fuel host dns dm hv hh hf
    simp only [List.length_cons] at hf
    obtain ⟨f, rfl⟩ : ∃ f, fuel = f + 1 := ⟨fuel - 1, by omega⟩
    obtain ⟨hl, hlen⟩ := hv l (List.mem_cons_self _ _)
    obtain ⟨hl2, hlen2⟩ := hv l2 (List.mem_cons_of_mem _ (List.mem_cons_self _ _))
    rw [holds_append] at hh
    obtain ⟨h1, h2⟩ := hh
    have h2b : holds hm (host + l.length) (0x2E :: (l2 ++ (dotTail ls ++ [0]))) := by
      have : dotTail (l2 :: ls) ++ [0] = 0x2E :: (l2 ++ (dotTail ls ++ [0])) := by
        simp only [dotTail, List.cons_append, List.append_assoc]
      rw [← this]
      exact h2
    obtain ⟨hdot, h3⟩ := h2b
    have hend : (hm (host + l.length)).val = 0x2E := by
      rw [hdot]
      rfl
    obtain ⟨c, l2t, hc⟩ : ∃ c t, l2 = c :: t := by
      cases l2 with
      | nil => exact absurd rfl hl2.1
      | cons c t => exact ⟨c, t, rfl⟩
    have hnext : (hm (host + l.length + 1)).val ≠ 0 := by
      rw [hc] at h3
      rw [h3.1]
      exact (hl2.2 c (by rw [hc]; exact List.mem_cons_self _ _)).1.1
    have hmod : l.length % 2 ^ 32 = l.length := Nat.mod_eq_of_lt (by omega)
    have hbyte : (⟨l.length % 2 ^ 32 % 256, Nat.mod_lt _ (by decide)⟩ : Byte) =
        ⟨l.length % 256, Nat.mod_lt _ (by decide)⟩ := Fin.ext (by simp only [hmod])
    rw [formatLoop_dot hm dm sfuel f host dns l h1 (fun b hb => (hl.2 b hb).1) hend (by omega),
      if_neg (by rw [hmod]; exact Nat.not_lt.mpr hlen), if_pos hnext, hbyte]
    obtain ⟨dm2, hr, hq, hfr⟩ := ih l2 f (host + l.length + 1) (dns + 1 + l.length)
      (memcpy (store dm dns ⟨l.length % 256, Nat.mod_lt _ (by decide)⟩)
        (dns + 1) hm host l.length)
      (fun x hx => hv x (List.mem_cons_of_mem _ hx)) h3 (by omega)
    refine ⟨dm2, hr, ?_, ?_⟩
    · show holds dm2 dns ((⟨l.length % 256, _⟩ :: (l ++ qnameOf (l2 :: ls))) ++ [0])
      rw [show (⟨l.length % 256, Nat.mod_lt _ (by decide)⟩ :: (l ++ qnameOf (l2 :: ls))) ++ [0] =
          ((⟨l.length % 256, Nat.mod_lt _ (by decide)⟩ : Byte) :: l) ++ (qnameOf (l2 :: ls) ++ [0]) by
        simp only [List.cons_append, List.append_assoc], holds_append]
      constructor
      · refine holds_frame _ _ _ dns (fun x hx1 hx2 => ?_)
          (holds_label hm dm host dns l ⟨l.length % 256, Nat.mod_lt _ (by decide)⟩ h1)
        simp only [List.length_cons] at hx2
        rw [hfr x (Or.inl (by omega))]
      · simp only [List.length_cons]
        rw [show dns + (l.length + 1) = dns + 1 + l.length by omega]
        exact hq
    · intro x hx
      have hlen3 : (qnameOf (l :: l2 :: ls)).length =
          1 + l.length + (qnameOf (l2 :: ls)).length := by
        simp only [qnameOf, List.length_cons, List.length_append]
        omega
      rw [hlen3] at hx
      rw [hfr x (by omega)]
      unfold memcpy
      rw [if_neg (by omega), store_other _ _ _ _ (by omega)]

/-- The loop of `ChangetoDnsNameFormat` on a host string one of whose labels has a
length that exceeds 191 as an `unsigned` value: it returns false. -/
theorem formatLoop_long (hm : Mem) (sfuel : Nat) :
    ∀ (ls : List (List Byte)) (l : List Byte) (fuel host dns : Nat) (dm : Mem),
      (∀ x, x ∈ l :: ls → (∀ b, b ∈ x → labelByte b) ∧ x.length < sfuel) →
      holds hm host (l ++ (dotTail ls ++ [0])) →
      (∃ x, x ∈ l :: ls ∧ x.length % 2 ^ 32 > 191) → ls.length < fuel →
      ∃ dm2, formatLoop hm sfuel fuel host dns dm = some (false, dm2) := by
  intro ls
  induction ls with
  | nil =>
    intro l fuel host dns dm hv hh hlong hf
    obtain ⟨f, rfl⟩ : ∃ f, fuel = f + 1 := ⟨fuel - 1, by omega⟩
    obtain ⟨hl, hlen⟩ := hv l (List.mem_cons_self _ _)
    rw [holds_append] at hh
    obtain ⟨h1, h2⟩ := hh
    have hend : (hm (host + l.length)).val = 0 := by
      rw [h2.1]
      rfl
    obtain ⟨x, hx, hxl⟩ := hlong
    rw [List.mem_singleton.mp hx] at hxl
    have hxl2 : l.length % 2 ^ 32 > MAX_QNAME_SEGMENT_LEN := hxl
    rw [formatLoop_last hm dm sfuel f host dns l h1 hl hend hlen, if_pos hxl2]
    exact ⟨dm, rfl⟩
  | cons l2 ls ih =>
    intro l fuel host dns dm hv hh hlong hf
    simp only [List.length_cons] at hf
    obtain ⟨f, rfl⟩ : ∃ f, fuel = f + 1 := ⟨fuel - 1, by omega⟩
    obtain ⟨hl, hlen⟩ := hv l (List.mem_cons_self _ _)
    obtain ⟨hl2, _⟩ := hv l2 (List.mem_cons_of_mem _ (List.mem_cons_self _ _))
    rw [holds_append] at hh
    obtain ⟨h1, h2⟩ := hh
    have h2b : holds hm (host + l.length) (0x2E :: (l2 ++ (dotTail ls ++ [0]))) := by
      have : dotTail (l2 :: ls) ++ [0] = 0x2E :: (l2 ++ (dotTail ls ++ [0])) := by
        simp only [dotTail, List.cons_append, List.append_assoc]
      rw [← this]
      exact h2
    obtain ⟨hdot, h3⟩ := h2b
    have hend : (hm (host + l.length)).val = 0x2E := by
      rw [hdot]
      rfl
    rw [formatLoop_dot hm dm sfuel f host dns l h1 hl hend hlen]
    by_cases hthis : l.length % 2 ^ 32 > MAX_QNAME_SEGMENT_LEN
    · rw [if_pos hthis]
      exact ⟨dm, rfl⟩
    · have hrest : ∃ x, x ∈ l2 :: ls ∧ x.length % 2 ^ 32 > 191 := by
        obtain ⟨x, hx, hxl⟩ := hlong
        rcases List.mem_cons.mp hx with h | h
        · rw [h] at hxl
          exact absurd hxl hthis
        · exact ⟨x, h, hxl⟩
      have hnext : (hm (host + l.length + 1)).val ≠ 0 := by
        cases l2 with
        | cons c t =>
          rw [h3.1]
          exact (hl2 c (List.mem_cons_self _ _)).1
        | nil =>
          cases ls with
          | nil =>
            obtain ⟨x, hx, hxl⟩ := hrest
            rw [List.mem_singleton.mp hx] at hxl
            simp at hxl
          | cons l3 rest =>
            have h4 : hm (host + l.length + 1) = 0x2E := h3.1
            rw [h4]
            decide
      rw [if_neg hthis, if_pos hnext]
      exact ih l2 f _ _ _ (fun x hx => hv x (List.mem_cons_of_mem _ hx)) h3 hrest (by omega)

/-- On the host string of `hugeLabelHost`, one label of `n = 2^32` letters `a`,
`ChangetoDnsNameFormat` returns true: the label length is `0` as an `unsigned`. -/
theorem ChangetoDnsNameFormat_huge (n : Nat) (hn : n = 2 ^ 32) :
    (ChangetoDnsNameFormat hugeLabelHost 0x10000 zeroMem 0x20000 (n + 1)).map
      (fun r => r.1) = some true := by
  have hh : holds hugeLabelHost 0x10000 (List.replicate n 0x61) :=
    holds_replicate _ _ n 0x10000 (fun i hi => by
      unfold hugeLabelHost
      rw [if_pos (by omega)])
  have hb : ∀ b, b ∈ List.replicate n (0x61 : Byte) → labelByte b := fun b hb => by
    rw [List.eq_of_mem_replicate hb]
    exact ⟨by decide, by decide⟩
  have hend : (hugeLabelHost (0x10000 + (List.replicate n (0x61 : Byte)).length)).val = 0 := by
    rw [List.length_replicate]
    unfold hugeLabelHost
    rw [if_neg (by omega)]
    rfl
  have h0 : ¬ ((0x10000 : Nat) = 0 ∨ (hugeLabelHost 0x10000).val = 0) := by
    have : hugeLabelHost 0x10000 = 0x61 := by
      unfold hugeLabelHost
      rw [if_pos (by omega)]
    rw [this]
    decide
  unfold ChangetoDnsNameFormat
  rw [if_neg h0, formatLoop_last hugeLabelHost zeroMem (n + 1) n 0x10000 0x20000
    (List.replicate n 0x61) hh hb hend (by rw [List.length_replicate]; omega)]
  rw [List.length_replicate, if_neg (by rw [hn, Nat.mod_self]; decide)]
  rfl

theorem qname_bytes : ∀ (ls : List (List Byte)),
    (∀ x, x ∈ ls → asciiLabel x ∧ x.length ≤ 191) →
    ∀ b, b ∈ qnameOf ls → b.val ≠ 0 ∧ b.val ≤ 191 := by
  intro ls
  induction ls with
  | nil => intro _ b hb; exact absurd hb (List.not_mem_nil b)
  | cons l ls ih =>
    intro hv b hb
    obtain ⟨hl, hlen⟩ := hv l (List.mem_cons_self _ _)
    rcases List.mem_cons.mp hb with h | h
    · have hpos : 0 < l.length := List.length_pos.mpr hl.1
      have hval : b.val = l.length := by
        rw [h]
        exact Nat.mod_eq_of_lt (by omega)
      rw [hval]
      omega
    · rcases List.mem_append.mp h with h2 | h2
      · obtain ⟨hb1, hb2⟩ := hl.2 b h2
        exact ⟨hb1.1, by omega⟩
      · exact ih (fun x hx => hv x (List.mem_cons_of_mem _ hx)) b h2

theorem length_le_qnameOf : ∀ (ls : List (List Byte)), ls.length ≤ (qnameOf ls).length := by
  intro ls
  induction ls with
  | nil => exact Nat.le_refl _
  | cons a t ih =>
    simp only [qnameOf, List.length_cons, List.length_append]
    omega

/-- The first loop of `ReadName` on a run of bytes that are not zero and at most 191,
followed by a zero byte, with room left in `name`: they are all copied. -/
theorem gatherLoop_copy (pm : Mem) (dns_pkt name nameSize : Nat) :
    ∀ (bs : List Byte) (q nameLen fuel : Nat) (nm : Mem),
      holds pm q bs → (∀ b, b ∈ bs → b.val ≠ 0 ∧ b.val ≤ 191) →
      (pm (q + bs.length)).val = 0 → nameLen + bs.length < nameSize → bs.length < fuel →
      ∃ nm2, gatherLoop pm dns_pkt name nameSize fuel q nameLen nm =
          some (nameLen + bs.length, nm2) ∧
        holds nm2 (name + nameLen) bs ∧ ∀ x, x < name + nameLen → nm2 x = nm x := by
  intro bs
  induction bs with
  | nil =>
    intro q nameLen fuel nm _ _ hz _ hf
    obtain ⟨f, rfl⟩ : ∃ f, fuel = f + 1 := ⟨fuel - 1, by simp only [List.length_nil] at hf; omega⟩
    simp only [List.length_nil, Nat.add_zero] at hz ⊢
    rw [gatherLoop, if_neg (not_not.mpr hz)]
    exact ⟨nm, rfl, trivial, fun _ _ => rfl⟩
  | cons b bs ih =>
    intro q nameLen fuel nm hh hv hz hroom hf
    simp only [List.length_cons] at hz hroom hf ⊢
    obtain ⟨f, rfl⟩ : ∃ f, fuel = f + 1 := ⟨fuel - 1, by omega⟩
    obtain ⟨h1, h2⟩ := hh
    obtain ⟨hb0, hb191⟩ := hv b (List.mem_cons_self _ _)
    rw [← h1] at hb0 hb191
    have hb191b : (pm q).val ≤ MAX_QNAME_SEGMENT_LEN := hb191
    rw [gatherLoop, if_pos hb0, if_neg (by omega), if_pos hb191b]
    obtain ⟨nm2, hr, hq, hfr⟩ := ih (q + 1) (nameLen + 1) f (store nm (name + nameLen) (pm q))
      h2 (fun c hc => hv c (List.mem_cons_of_mem _ hc))
      (by rw [show q + 1 + bs.length = q + (bs.length + 1) by omega]; exact hz)
      (by omega) (by omega)
    refine ⟨nm2, ?_, ⟨?_, ?_⟩, ?_⟩
    · rw [hr, show nameLen + 1 + bs.length = nameLen + (bs.length + 1) by omega]
    · rw [hfr _ (by omega), store_same, h1]
    · rw [show name + nameLen + 1 = name + (nameLen + 1) by omega]
      exact hq
    · intro x hx
      rw [hfr x (by omega), store_other _ _ _ _ (by omega)]

/-- The second loop of `ReadName` on the name format of the labels `ls` stored from
`name + segLen` on: every length byte is replaced by a dot. -/
theorem dotLoop_spec (name nameLen : Nat) (hn : nameLen < 2 ^ 32) :
    ∀ (ls : List (List Byte)) (segLen fuel : Nat) (nm : Mem),
      (∀ x, x ∈ ls → asciiLabel x ∧ x.length ≤ 191) →
      holds nm (name + segLen) (qnameOf ls ++ [0]) →
      nameLen = segLen + (qnameOf ls).length → ls.length < fuel →
      ∃ nm2, dotLoop name nameLen fuel segLen nm = some nm2 ∧
        holds nm2 (name + segLen) (dotTail ls ++ [0]) ∧
        ∀ x, x < name + segLen → nm2 x = nm x := by
  intro ls
  induction ls with
  | nil =>
    intro segLen fuel nm _ hh hlen hf
    obtain ⟨f, rfl⟩ : ∃ f, fuel = f + 1 := ⟨fuel - 1, by simp only [List.length_nil] at hf; omega⟩
    simp only [qnameOf, List.length_nil, Nat.add_zero] at hlen
    rw [dotLoop, if_neg (by omega)]
    exact ⟨nm, rfl, hh, fun _ _ => rfl⟩
  | cons l ls ih =>
    intro segLen fuel nm hv hh hlen hf
    simp only [List.length_cons] at hf
    obtain ⟨f, rfl⟩ : ∃ f, fuel = f + 1 := ⟨fuel - 1, by omega⟩
    obtain ⟨hl, hl191⟩ := hv l (List.mem_cons_self _ _)
    have hql : (qnameOf (l :: ls)).length = 1 + l.length + (qnameOf ls).length := by
      simp only [qnameOf, List.length_cons, List.length_append]
      omega
    rw [hql] at hlen
    have hh2 : holds nm (name + segLen)
        ((⟨l.length % 256, Nat.mod_lt _ (by decide)⟩ : Byte) :: (l ++ (qnameOf ls ++ [0]))) := by
      have : qnameOf (l :: ls) ++ [0] =
          (⟨l.length % 256, Nat.mod_lt _ (by decide)⟩ : Byte) :: (l ++ (qnameOf ls ++ [0])) := by
        simp only [qnameOf, List.cons_append, List.append_assoc]
      rw [← this]
      exact hh
    obtain ⟨h1, h2⟩ := hh2
    rw [holds_append] at h2
    obtain ⟨h2l, h2r⟩ := h2
    have hval : (nm (name + segLen)).val = l.length := by
      rw [h1]
      exact Nat.mod_eq_of_lt (by omega)
    rw [dotLoop, if_pos (by omega), hval, Nat.mod_eq_of_lt (by omega)]
    obtain ⟨nm2, hr, hq, hfr⟩ := ih (segLen + 1 + l.length) f (store nm (name + segLen) 0x2E)
      (fun x hx => hv x (List.mem_cons_of_mem _ hx))
      (holds_frame nm _ _ _ (fun x hx1 hx2 => store_other _ _ _ _ (by omega))
        (by rw [show name + (segLen + 1 + l.length) = name + segLen + 1 + l.length by omega]
            exact h2r))
      (by omega) (by omega)
    refine ⟨nm2, hr, ?_, ?_⟩
    · show holds nm2 (name + segLen) ((0x2E :: (l ++ dotTail ls)) ++ [0])
      rw [show ((0x2E : Byte) :: (l ++ dotTail ls)) ++ [0] = 0x2E :: (l ++ (dotTail ls ++ [0])) by
        simp only [List.cons_append, List.append_assoc]]
      refine ⟨?_, ?_⟩
      · rw [hfr _ (by omega), store_same]
      · rw [holds_append]
        refine ⟨?_, ?_⟩
        · refine holds_frame nm _ _ _ (fun x hx1 hx2 => ?_) h2l
          rw [hfr x (by omega), store_other _ _ _ _ (by omega)]
        · rw [show name + segLen + 1 + l.length = name + (segLen + 1 + l.length) by omega]
          exact hq
    · intro x hx
      rw [hfr x (by omega), store_other _ _ _ _ (by omega)]

/-- `ReadName` on the name format of valid labels with a buffer larger than its
length returns their host string. -/
theorem ReadName_spec (pm nm : Mem) (q dns_pkt name nameSize fuel : Nat)
    (l : List Byte) (ls : List (List Byte))
    (hv : ∀ x, x ∈ l :: ls → asciiLabel x ∧ x.length ≤ 191)
    (hh : holds pm q (qnameOf (l :: ls) ++ [0]))
    (hsize : (qnameOf (l :: ls)).length < nameSize) (h32 : nameSize < 2 ^ 32)
    (hf : (qnameOf (l :: ls)).length < fuel) :
    ∃ nm2, ReadName pm q dns_pkt nm name nameSize fuel = some nm2 ∧
      holds nm2 name (dotted (l :: ls) ++ [0]) := by
  rw [holds_append] at hh
  obtain ⟨hq, hz⟩ := hh
  have hz0 : (pm (q + (qnameOf (l :: ls)).length)).val = 0 := by
    rw [hz.1]
    rfl
  obtain ⟨nm1, hr, hcopy, _⟩ := gatherLoop_copy pm dns_pkt name nameSize (qnameOf (l :: ls))
    q 0 fuel (store nm name 0) hq (qname_bytes (l :: ls) hv) hz0 (by omega) hf
  rw [Nat.zero_add] at hr
  rw [Nat.add_zero] at hcopy
  have hL : (qnameOf (l :: ls)).length = 1 + l.length + (qnameOf ls).length := by
    simp only [qnameOf, List.length_cons, List.length_append]
    omega
  obtain ⟨hl, hl191⟩ := hv l (List.mem_cons_self _ _)
  generalize hLdef : (qnameOf (l :: ls)).length = L at *
  have hnm2 : holds (store nm1 (name + L) 0) name
      ((⟨l.length % 256, Nat.mod_lt _ (by decide)⟩ : Byte) :: (l ++ (qnameOf ls ++ [0]))) := by
    have : (⟨l.length % 256, Nat.mod_lt _ (by decide)⟩ : Byte) :: (l ++ (qnameOf ls ++ [0])) =
        qnameOf (l :: ls) ++ [0] := by
      simp only [qnameOf, List.cons_append, List.append_assoc]
    rw [this, holds_append]
    refine ⟨holds_frame nm1 _ _ _ (fun x hx1 hx2 => store_other _ _ _ _ (by omega)) hcopy, ?_, trivial⟩
    rw [hLdef]
    exact store_same _ _ _
  obtain ⟨hfirst, hrest⟩ := hnm2
  have hval : (store nm1 (name + L) 0 name).val = l.length := by
    rw [hfirst]
    exact Nat.mod_eq_of_lt (by omega)
  have hmoved : holds (memmove (store nm1 (name + L) 0) name (name + 1) L) name
      (l ++ (qnameOf ls ++ [0])) := by
    refine holds_transfer _ _ _ (name + 1) name (fun i hi => ?_) hrest
    simp only [List.length_append, List.length_cons, List.length_nil] at hi
    unfold memmove
    rw [if_pos (by omega)]
    congr 1
    omega
  rw [holds_append] at hmoved
  obtain ⟨hm1, hm2⟩ := hmoved
  obtain ⟨nm3, hr3, hq3, hfr3⟩ := dotLoop_spec name (L - 1) (by omega) ls l.length fuel
    (memmove (store nm1 (name + L) 0) name (name + 1) L)
    (fun x hx => hv x (List.mem_cons_of_mem _ hx)) hm2 (by omega)
    (by
      have := length_le_qnameOf ls
      omega)
  refine ⟨nm3, ?_, ?_⟩
  · unfold ReadName
    rw [hr]
    simp only [Option.some_bind]
    rw [if_neg (by omega), hval]
    exact hr3
  · show holds nm3 name ((l ++ dotTail ls) ++ [0])
    rw [List.append_assoc, holds_append]
    exact ⟨holds_frame _ _ _ _ (fun x hx1 hx2 => hfr3 x (by omega)) hm1, hq3⟩

theorem length_le_dotTail (ls : List (List Byte)) : ls.length ≤ (dotTail ls).length := by
  rw [← length_qnameOf_tail]
  exact length_le_qnameOf ls

theorem length_mem_dotTail : ∀ (ls : List (List Byte)) (x : List Byte),
    x ∈ ls → x.length ≤ (dotTail ls).length := by
  intro ls
  induction ls with
  | nil => intro x hx; exact absurd hx (List.not_mem_nil x)
  | cons l ls ih =>
    intro x hx
    simp only [dotTail, List.length_cons, List.length_append]
    rcases List.mem_cons.mp hx with h | h
    · rw [h]
      omega
    · have := ih x h
      omega

theorem hostMem_holds : holds hostMem 0x100 (dotted wwwGoogleCom ++ [0]) := by
  refine ⟨?_, ?_, ?_, ?_, ?_, ?_, ?_, ?_, ?_, ?_, ?_, ?_, ?_, ?_, ?_, trivial⟩ <;> decide

set_option maxRecDepth 100000 in
theorem wwwGoogleCom_valid : ∀ x, x ∈ wwwGoogleCom → asciiLabel x ∧ x.length ≤ 191 := by
  intro x hx
  unfold wwwGoogleCom at hx
  simp only [List.mem_cons, List.mem_singleton, List.not_mem_nil, or_false] at hx
  unfold asciiLabel labelByte
  rcases hx with h | h | h <;> rw [h] <;> decide

/-- C23, the code at the failing input. The host string at `0x10000` in
`hugeLabelHost` is one label of `2^32` letters `a` (followed by the terminator), longer
than 191 bytes; `ChangetoDnsNameFormat` returns true on it, although its length test
is there because "decoding can't handle values greater than 191": the length taken is
`(unsigned)(end - host)`, which is `0`. -/
theorem ChangetoDnsNameFormat_accepts_huge_label :
    (∀ i, i < 2 ^ 32 → hugeLabelHost (0x10000 + i) = 0x61) ∧
    hugeLabelHost (0x10000 + 2 ^ 32) = 0 ∧
    (ChangetoDnsNameFormat hugeLabelHost 0x10000 zeroMem 0x20000 (2 ^ 32 + 1)).map
      (fun r => r.1) = some true :=
  ⟨fun i hi => by
      unfold hugeLabelHost
      rw [if_pos (by omega)],
   by
      unfold hugeLabelHost
      rw [if_neg (by omega)],
   ChangetoDnsNameFormat_huge (2 ^ 32) rfl⟩

/-- The round trip of the two DNS name routines.  For every host string made of one
or more non-empty dot-separated labels of ASCII characters, each at most 191 bytes
long, `ChangetoDnsNameFormat`
returns true and has written the length-prefixed labels followed by a zero byte, and
`ReadName` applied to that output with a name buffer of `nameSize` bytes, `nameSize`
larger than the encoded length, leaves the host string and its terminator in `name`
(the loops ending within the given bounds).  `ChangetoDnsNameFormat` returns false for
a null host, for an empty host, and for every host string with a label longer than
191 and shorter than `2^32` bytes. -/
theorem dns_name_round_trip (hm dm : Mem) (host dns fuel : Nat)
    (l : List Byte) (ls : List (List Byte))
    (hv : ∀ x, x ∈ l :: ls → asciiLabel x ∧ x.length ≤ 191)
    (hhost : host ≠ 0) (hstr : holds hm host (dotted (l :: ls) ++ [0]))
    (hfuel : 191 < fuel) (hfl : ls.length < fuel) :
    (∃ dm2, ChangetoDnsNameFormat hm host dm dns fuel = some (true, dm2) ∧
      holds dm2 dns (qnameOf (l :: ls) ++ [0]) ∧
      ∀ (nm : Mem) (dns_pkt name nameSize fuel2 : Nat),
        (qnameOf (l :: ls)).length < nameSize → nameSize < 2 ^ 32 →
        (qnameOf (l :: ls)).length < fuel2 →
        ∃ nm2, ReadName dm2 dns dns_pkt nm name nameSize fuel2 = some nm2 ∧
          holds nm2 name (dotted (l :: ls) ++ [0])) ∧
    (∀ (hm2 dm2 : Mem) (dns2 fuel2 : Nat),
      ChangetoDnsNameFormat hm2 0 dm2 dns2 fuel2 = some (false, dm2)) ∧
    (∀ (hm2 dm2 : Mem) (host2 dns2 fuel2 : Nat), (hm2 host2).val = 0 →
      ChangetoDnsNameFormat hm2 host2 dm2 dns2 fuel2 = some (false, dm2)) ∧
    (∀ (hm2 dm2 : Mem) (host2 dns2 fuel2 : Nat) (labels : List (List Byte)),
      host2 ≠ 0 → (∀ x, x ∈ labels → ∀ b, b ∈ x → labelByte b) →
      holds hm2 host2 (dotted labels ++ [0]) →
      (∃ x, x ∈ labels ∧ 191 < x.length ∧ x.length < 2 ^ 32) →
      (dotted labels).length < fuel2 →
      ∃ dm3, ChangetoDnsNameFormat hm2 host2 dm2 dns2 fuel2 = some (false, dm3)) := by
  refine ⟨?_, ?_, ?_, ?_⟩
  · have hstr2 : holds hm host (l ++ (dotTail ls ++ [0])) := by
      rw [← List.append_assoc]
      exact hstr
    obtain ⟨hl, _⟩ := hv l (List.mem_cons_self _ _)
    have hfirst : ¬ (host = 0 ∨ (hm host).val = 0) := by
      cases l with
      | nil => exact absurd rfl hl.1
      | cons c t =>
        rw [hstr2.1]
        intro h
        rcases h with h | h
        · exact hhost h
        · exact (hl.2 c (List.mem_cons_self _ _)).1.1 h
    obtain ⟨dm2, hr, hq, _⟩ := formatLoop_valid hm fuel hfuel ls l fuel host dns dm hv hstr2 hfl
    refine ⟨dm2, ?_, hq, ?_⟩
    · unfold ChangetoDnsNameFormat
      rw [if_neg hfirst, hr]
    · intro nm dns_pkt name nameSize fuel2 hsize h32 hf2
      exact ReadName_spec dm2 nm dns dns_pkt name nameSize fuel2 l ls hv hq hsize h32 hf2
  · intro hm2 dm2 dns2 fuel2
    unfold ChangetoDnsNameFormat
    rw [if_pos (Or.inl rfl)]
  · intro hm2 dm2 host2 dns2 fuel2 h
    unfold ChangetoDnsNameFormat
    rw [if_pos (Or.inr h)]
  · intro hm2 dm2 host2 dns2 fuel2 labels hh0 hb hs hlong hf
    cases labels with
    | nil =>
      obtain ⟨x, hx, _⟩ := hlong
      exact absurd hx (List.not_mem_nil x)
    | cons l0 ls0 =>
      have hs2 : holds hm2 host2 (l0 ++ (dotTail ls0 ++ [0])) := by
        rw [← List.append_assoc]
        exact hs
      have hlenD : (dotted (l0 :: ls0)).length = l0.length + (dotTail ls0).length := by
        simp only [dotted, List.length_append]
      have hlong2 : ∃ x, x ∈ l0 :: ls0 ∧ x.length % 2 ^ 32 > 191 := by
        obtain ⟨x, hx, h1, h2⟩ := hlong
        exact ⟨x, hx, by rw [Nat.mod_eq_of_lt h2]; exact h1⟩
      have hfirst : ¬ (host2 = 0 ∨ (hm2 host2).val = 0) := by
        intro h
        rcases h with h | h
        · exact hh0 h
        · cases l0 with
          | cons c t =>
            rw [hs2.1] at h
            exact (hb _ (List.mem_cons_self _ _) c (List.mem_cons_self _ _)).1 h
          | nil =>
            cases ls0 with
            | nil =>
              obtain ⟨x, hx, h1, _⟩ := hlong
              rw [List.mem_singleton.mp hx] at h1
              simp at h1
            | cons l3 rest =>
              have h4 : hm2 host2 = 0x2E := hs2.1
              rw [h4] at h
              exact absurd h (by decide)
      obtain ⟨dm3, hr⟩ := formatLoop_long hm2 fuel2 ls0 l0 fuel2 host2 dns2 dm2
        (fun x hx => ⟨hb x hx, by
          rcases List.mem_cons.mp hx with h | h
          · rw [h]
            omega
          · have := length_mem_dotTail ls0 x h
            omega⟩)
        hs2 hlong2 (by
          have := length_le_dotTail ls0
          omega)
      refine ⟨dm3, ?_⟩
      unfold ChangetoDnsNameFormat
      rw [if_neg hfirst, hr]

/-- Instance of `dns_name_round_trip`: "www.google.com" at address `0x100`. -/
theorem dns_name_round_trip_witness :
    ∃ dm2, ChangetoDnsNameFormat hostMem 0x100 zeroMem 0x200 200 = some (true, dm2) ∧
      holds dm2 0x200 (qnameOf wwwGoogleCom ++ [0]) ∧
      ∀ (nm : Mem) (dns_pkt name nameSize fuel2 : Nat),
        (qnameOf wwwGoogleCom).length < nameSize → nameSize < 2 ^ 32 →
        (qnameOf wwwGoogleCom).length < fuel2 →
        ∃ nm2, ReadName dm2 0x200 dns_pkt nm name nameSize fuel2 = some nm2 ∧
          holds nm2 name (dotted wwwGoogleCom ++ [0]) :=
  (dns_name_round_trip hostMem zeroMem 0x100 0x200 200 [0x77, 0x77, 0x77]
    [[0x67, 0x6F, 0x6F, 0x67, 0x6C, 0x65], [0x63, 0x6F, 0x6D]]
    wwwGoogleCom_valid (by decide) hostMem_holds (by decide) (by decide)).1

end CovertComms
